import Mathlib

/-!
# Exact maximum inner product search (`exact_max_ip.cc`)

A shallow embedding of the member functions of the class `MaxIP`:
the two bound oracles `MaxNodeIP_`, the two base cases `ComputeBaseCase_`,
the single-tree and the dual-tree recursion `ComputeNeighborsRecursion_`,
`CheckPrune`, the three initialisers, `reset_tree_`, `ComputeNeighbors` and
`ComputeNaive`.

Conventions.
* `double` is an arbitrary linearly ordered field `α` with a square root
  (`HasSqrt`); the theorems about bounds are stated for `α = ℝ` with `Real.sqrt`.
  This is exact arithmetic: it has no rounding and no value that is not a number.
  The section `Binary64Defs` embeds the two bound oracles, the two base cases and the
  dual-tree recursion a second time, over the type `Double` of the binary64 numbers
  with rounding to nearest; it serves the inputs on which rounding decides.
* `size_t` values are natural numbers; the "no index" marker `(size_t) -1` is
  `sentinel = 2 ^ 64 - 1`.  Index arithmetic is assumed not to wrap, except for the
  size `queries_.n_cols * knns_` of the ledger vectors in the three initialisers,
  which is reduced modulo `2 ^ 64` (`ledgerSize`).
* `arma::vec` is a list of coordinates, `arma::mat` a list of columns together
  with its number of rows.  Reading a vector outside its range yields `0`.
* Member functions that mutate the object take the object as an argument and
  return the new one.  A query-tree node that is mutated through a pointer is
  returned next to the object.
* The C++ overloads on `TreeType*` and on `(CTreeType*, TreeType*)` carry the
  suffix `_dual` for the second form.
* `assert` lines of the traversal do not change the state; they appear as
  hypotheses of the theorems.  Only `Init` and `InitNaive` report them.
-/

set_option linter.unusedSectionVars false

namespace MaxIPSearch

/-- The function `std::sqrt` on the scalar type. -/
class HasSqrt (α : Type) where
  /-- The square root. -/
  sqrt : α → α

noncomputable instance instHasSqrtReal : HasSqrt ℝ := ⟨Real.sqrt⟩

/-- The marker `(size_t) -1` stored by `-1 * arma::ones<arma::Col<size_t> >`. -/
def sentinel : Nat := 2 ^ 64 - 1

section Defs

variable {α : Type} [LinearOrderedField α] [HasSqrt α]

/-- The largest finite `double`, `DBL_MAX` of `<cfloat>`. -/
def DBL_MAX : α := 2 ^ 1024 - 2 ^ 971

/-- The function `arma::dot`. -/
def dot (u v : List α) : α := (List.zipWith (fun a b => a * b) u v).sum

/-- The function `arma::norm(v, 2)`. -/
def norm2 (v : List α) : α := HasSqrt.sqrt (dot v v)

/-- An `arma::mat`: its number of rows and its columns (the points). -/
structure Mat (α : Type) where
  /-- The member `n_rows`. -/
  n_rows : Nat
  /-- The columns, in order. -/
  cols : List (List α)

/-- The member `n_cols`. -/
def Mat.n_cols (m : Mat α) : Nat := m.cols.length

/-- The accessor `col(i)`. -/
def Mat.col (m : Mat α) (i : Nat) : List α := m.cols.getD i []

/-- Modelled from the spec: the ball tree over the references (`TreeType`), declared
in a header that is not among the sources.  A node exposes `bound().center()`,
`bound().radius()` (the squared radius), `begin()`, `end()`, `is_leaf()` and,
when internal, `left()` and `right()`. -/
inductive TreeType (α : Type) where
  | leaf (center : List α) (radius : α) (begin_ end_ : Nat) : TreeType α
  | node (center : List α) (radius : α) (begin_ end_ : Nat)
      (left right : TreeType α) : TreeType α

/-- The accessor `bound().center()`. -/
def TreeType.center : TreeType α → List α
  | .leaf c _ _ _ => c
  | .node c _ _ _ _ _ => c

/-- The accessor `bound().radius()`. -/
def TreeType.radius : TreeType α → α
  | .leaf _ r _ _ => r
  | .node _ r _ _ _ _ => r

/-- The accessor `begin()`. -/
def TreeType.begin_ : TreeType α → Nat
  | .leaf _ _ b _ => b
  | .node _ _ b _ _ _ => b

/-- The accessor `end()`. -/
def TreeType.end_ : TreeType α → Nat
  | .leaf _ _ _ e => e
  | .node _ _ _ e _ _ => e

/-- The number of nodes, the measure of the recursions. -/
def TreeType.size : TreeType α → Nat
  | .leaf _ _ _ _ => 1
  | .node _ _ _ _ l r => l.size + r.size + 1

/-- Modelled from the spec: the statistic of a query node (`stat()`), declared in a
header that is not among the sources.  `bound` is the stored scalar.  `written`
is a record kept for the specification only: the values passed to `set_bound`,
oldest first.  No function reads it. -/
structure QueryStat (α : Type) where
  /-- The accessor `bound()`. -/
  bound : α
  /-- The values passed to `set_bound` so far. -/
  written : List α

/-- The mutator `set_bound`. -/
def QueryStat.set_bound (st : QueryStat α) (v : α) : QueryStat α :=
  { bound := v, written := st.written ++ [v] }

/-- Modelled from the spec: the cone tree over the queries (`CTreeType`), declared in
a header that is not among the sources.  A node exposes `bound().center()`,
`bound().radius()` (the cosine `cos_w`), `bound().radius_conjugate()` (the sine
`sin_w`), `stat()`, `begin()`, `end()`, `is_leaf()` and, when internal,
`left()` and `right()`. -/
inductive CTreeType (α : Type) where
  | leaf (center : List α) (radius radius_conjugate : α) (stat : QueryStat α)
      (begin_ end_ : Nat) : CTreeType α
  | node (center : List α) (radius radius_conjugate : α) (stat : QueryStat α)
      (begin_ end_ : Nat) (left right : CTreeType α) : CTreeType α

/-- The accessor `bound().center()`. -/
def CTreeType.center : CTreeType α → List α
  | .leaf c _ _ _ _ _ => c
  | .node c _ _ _ _ _ _ _ => c

/-- The accessor `bound().radius()`. -/
def CTreeType.radius : CTreeType α → α
  | .leaf _ r _ _ _ _ => r
  | .node _ r _ _ _ _ _ _ => r

/-- The accessor `bound().radius_conjugate()`. -/
def CTreeType.radius_conjugate : CTreeType α → α
  | .leaf _ _ rc _ _ _ => rc
  | .node _ _ rc _ _ _ _ _ => rc

/-- The accessor `stat()`. -/
def CTreeType.stat : CTreeType α → QueryStat α
  | .leaf _ _ _ st _ _ => st
  | .node _ _ _ st _ _ _ _ => st

/-- The accessor `begin()`. -/
def CTreeType.begin_ : CTreeType α → Nat
  | .leaf _ _ _ _ b _ => b
  | .node _ _ _ _ b _ _ _ => b

/-- The accessor `end()`. -/
def CTreeType.end_ : CTreeType α → Nat
  | .leaf _ _ _ _ _ e => e
  | .node _ _ _ _ _ e _ _ => e

/-- The call `stat().set_bound(v)` on a node. -/
def CTreeType.set_bound : CTreeType α → α → CTreeType α
  | .leaf c r rc st b e, v => .leaf c r rc (st.set_bound v) b e
  | .node c r rc st b e l rt, v => .node c r rc (st.set_bound v) b e l rt

/-- The number of nodes, the measure of the recursions. -/
def CTreeType.size : CTreeType α → Nat
  | .leaf _ _ _ _ _ _ => 1
  | .node _ _ _ _ _ _ l r => l.size + r.size + 1

/-- The data members of `MaxIP`, and the three flags `maxip/angle_prune`,
`maxip/check_prune` and `maxip/dual_tree` that the code reads through
`IO::HasParam`. -/
structure MaxIP (α : Type) where
  /-- The member `queries_`. -/
  queries_ : Mat α
  /-- The member `references_`. -/
  references_ : Mat α
  /-- The member `query_norms_`. -/
  query_norms_ : List α
  /-- The member `knns_`. -/
  knns_ : Nat
  /-- The member `leaf_size_`. -/
  leaf_size_ : Int
  /-- The member `max_ips_`, the scores of the ledger. -/
  max_ips_ : List α
  /-- The member `max_ip_indices_`, the indices of the ledger. -/
  max_ip_indices_ : List Nat
  /-- The member `query_`, the query the single-tree functions work on. -/
  query_ : Nat
  /-- The member `number_of_prunes_`. -/
  number_of_prunes_ : Nat
  /-- The member `distance_computations_`. -/
  distance_computations_ : Nat
  /-- The member `split_decisions_`. -/
  split_decisions_ : Nat
  /-- The member `reference_tree_`. -/
  reference_tree_ : TreeType α
  /-- The member `query_tree_`, null until a cone tree is built. -/
  query_tree_ : Option (CTreeType α)
  /-- The member `old_from_new_references_`. -/
  old_from_new_references_ : List Nat
  /-- The member `old_from_new_queries_`. -/
  old_from_new_queries_ : List Nat
  /-- The flag `IO::HasParam("maxip/angle_prune")`. -/
  angle_prune : Bool
  /-- The flag `IO::HasParam("maxip/check_prune")`. -/
  check_prune : Bool
  /-- The flag `IO::HasParam("maxip/dual_tree")`. -/
  dual_tree : Bool

/-- The read `max_ips_(i)`. -/
def MaxIP.ips_at (s : MaxIP α) (i : Nat) : α := s.max_ips_.getD i 0

/-- The read `max_ip_indices_(i)`. -/
def MaxIP.idx_at (s : MaxIP α) (i : Nat) : Nat := s.max_ip_indices_.getD i 0

/-- The read `query_norms_(i)`. -/
def MaxIP.qnorm_at (s : MaxIP α) (i : Nat) : α := s.query_norms_.getD i 0

/-- `MaxIP::MaxNodeIP_(TreeType*)`, lines 13-68: the bound for the current query
`query_` and a reference ball; the object comes back with `split_decisions_`
incremented. -/
def MaxNodeIP_ (s : MaxIP α) (reference_node : TreeType α) : α × MaxIP α :=
  let s1 : MaxIP α := { s with split_decisions_ := s.split_decisions_ + 1 }
  let q := s1.queries_.col s1.query_
  let centroid := reference_node.center
  let c_norm := norm2 centroid
  let rad := HasSqrt.sqrt reference_node.radius
  let max_cos_qr : α :=
    if s1.angle_prune then
      if rad ≤ c_norm then
        let cos_qp := dot q centroid / (s1.qnorm_at s1.query_ * c_norm)
        let sin_qp := HasSqrt.sqrt (1 - cos_qp * cos_qp)
        let max_sin_pr := rad / c_norm
        let min_cos_pr := HasSqrt.sqrt (1 - max_sin_pr * max_sin_pr)
        if min_cos_pr > cos_qp then
          let cos_qp_max_pr := (cos_qp * min_cos_pr) + (sin_qp * max_sin_pr)
          max cos_qp_max_pr 0
        else 1
      else 1
    else 1
  (s1.qnorm_at s1.query_ * (c_norm + rad) * max_cos_qr, s1)

/-- `MaxIP::MaxNodeIP_(CTreeType*, TreeType*)`, lines 70-125: the bound for a query
cone and a reference ball; the object comes back with `split_decisions_`
incremented. -/
def MaxNodeIP_dual (s : MaxIP α) (query_node : CTreeType α)
    (reference_node : TreeType α) : α × MaxIP α :=
  let s1 : MaxIP α := { s with split_decisions_ := s.split_decisions_ + 1 }
  let q := query_node.center
  let cos_w := query_node.radius
  let sin_w := query_node.radius_conjugate
  let q_norm := norm2 q
  let centroid := reference_node.center
  let c_norm := norm2 centroid
  let rad := HasSqrt.sqrt reference_node.radius
  let max_cos_qp : α :=
    if s1.angle_prune then
      if rad ≤ c_norm then
        let cos_phi := dot q centroid / (c_norm * q_norm)
        let sin_phi := HasSqrt.sqrt (1 - cos_phi * cos_phi)
        let sin_theta := rad / c_norm
        let cos_theta := HasSqrt.sqrt (1 - sin_theta * sin_theta)
        if cos_phi < cos_theta ∧ cos_phi < cos_w then
          let cos_phi_theta := cos_phi * cos_theta + sin_phi * sin_theta
          if cos_phi_theta < cos_w then
            let cos_phi_theta_w :=
              cos_phi_theta * cos_w
                + (HasSqrt.sqrt (1 - cos_phi_theta * cos_phi_theta) * sin_w)
            max cos_phi_theta_w 0
          else 1
        else 1
      else 1
    else 1
  ((c_norm + rad) * max_cos_qp, s1)

/-- The order in which `std::sort` arranges `std::pair<double, size_t>` values, the
reflexive closure of `operator<` on pairs: first the score, then the index. -/
def pairLE (a b : α × Nat) : Prop := a.1 < b.1 ∨ (a.1 = b.1 ∧ a.2 ≤ b.2)

instance pairLE_decidable : DecidableRel (pairLE : α × Nat → α × Nat → Prop) :=
  fun a b => by unfold pairLE; exact inferInstance

/-- The `candidates` vector of `ComputeBaseCase_` after the loop over the leaf
(lines 136-160): the `knns_` ledger entries of the query followed by every
reference of `[begin, end)` whose inner product exceeds the floor read from
`max_ips_`. -/
def candidates (s : MaxIP α) (reference_node : TreeType α) : List (α × Nat) :=
  let q := s.queries_.col s.query_
  let ind := s.query_ * s.knns_
  let start : List (α × Nat) :=
    (List.range s.knns_).map fun i => (s.ips_at (ind + i), s.idx_at (ind + i))
  (List.range' reference_node.begin_ (reference_node.end_ - reference_node.begin_)).foldl
    (fun cands reference_index =>
      let rpoint := s.references_.col reference_index
      let ip := dot q rpoint
      if ip > s.ips_at (ind + s.knns_ - 1) then cands ++ [(ip, reference_index)]
      else cands)
    start

/-- `MaxIP::ComputeBaseCase_(TreeType*)`, lines 128-176. -/
def ComputeBaseCase_ (s : MaxIP α) (reference_node : TreeType α) : MaxIP α :=
  let ind := s.query_ * s.knns_
  let sorted := ((candidates s reference_node).insertionSort pairLE).reverse
  let ledger : List α × List Nat :=
    (List.range s.knns_).foldl
      (fun acc i =>
        (acc.1.set (ind + i) (sorted.getD i (0, 0)).1,
         acc.2.set (ind + i) (sorted.getD i (0, 0)).2))
      (s.max_ips_, s.max_ip_indices_)
  { s with
    max_ips_ := ledger.1
    max_ip_indices_ := ledger.2
    distance_computations_ :=
      s.distance_computations_ + (reference_node.end_ - reference_node.begin_) }

/-- `MaxIP::ComputeNeighborsRecursion_(TreeType*, double)`, lines 179-209. -/
def ComputeNeighborsRecursion_ :
    TreeType α → α → MaxIP α → MaxIP α
  | .leaf c r b e, upper_bound_ip, s =>
    if upper_bound_ip < s.ips_at ((s.query_ * s.knns_) + s.knns_ - 1) then
      { s with number_of_prunes_ := s.number_of_prunes_ + 1 }
    else ComputeBaseCase_ s (.leaf c r b e)
  | .node _ _ _ _ left right, upper_bound_ip, s =>
    if upper_bound_ip < s.ips_at ((s.query_ * s.knns_) + s.knns_ - 1) then
      { s with number_of_prunes_ := s.number_of_prunes_ + 1 }
    else
      let l := MaxNodeIP_ s left
      let r := MaxNodeIP_ l.2 right
      let left_ip := l.1
      let right_ip := r.1
      if left_ip > right_ip then
        ComputeNeighborsRecursion_ right right_ip
          (ComputeNeighborsRecursion_ left left_ip r.2)
      else
        ComputeNeighborsRecursion_ left left_ip
          (ComputeNeighborsRecursion_ right right_ip r.2)

/-- The value of `query_` when the loop `for (query_ = b; query_ < e; query_++)`
exits. -/
def loopExit (b e : Nat) : Nat := if b < e then e else b

/-- `MaxIP::ComputeBaseCase_(CTreeType*, TreeType*)`, lines 212-253.  The loop
state is `(query_worst_p_cos_pq, new_bound, object)`. -/
def ComputeBaseCase_dual (s : MaxIP α) (query_node : CTreeType α)
    (reference_node : TreeType α) : CTreeType α × MaxIP α :=
  let out : α × Bool × MaxIP α :=
    (List.range' query_node.begin_ (query_node.end_ - query_node.begin_)).foldl
      (fun acc qi =>
        let s0 : MaxIP α := { acc.2.2 with query_ := qi }
        let ind := s0.query_ * s0.knns_
        let m := MaxNodeIP_ s0 reference_node
        let query_to_node_max_ip := m.1
        let s1 :=
          if query_to_node_max_ip > m.2.ips_at (ind + m.2.knns_ - 1) then
            ComputeBaseCase_ m.2 reference_node
          else m.2
        let p_cos_pq := s1.ips_at (ind + s1.knns_ - 1) / s1.qnorm_at s1.query_
        if acc.1 > p_cos_pq then (p_cos_pq, true, s1) else (acc.1, acc.2.1, s1))
      (DBL_MAX, false, { s with query_ := query_node.begin_ })
  let s2 : MaxIP α :=
    { out.2.2 with query_ := loopExit query_node.begin_ query_node.end_ }
  (if out.2.1 then query_node.set_bound out.1 else query_node, s2)

/-- `MaxIP::CheckPrune`, lines 256-300, without the text it prints.  The loop state
is `(missed_nns, min_p_cos_pq)`; `max_p_cos_pq` only feeds `printf`.  The object
changes in `query_`, and in `split_decisions_` when the report is printed, since
the arguments of `printf` call `MaxNodeIP_`. -/
def CheckPrune (s : MaxIP α) (query_node : CTreeType α) (ref_node : TreeType α) :
    MaxIP α :=
  let out : Nat × α :=
    (List.range' query_node.begin_ (query_node.end_ - query_node.begin_)).foldl
      (fun acc qi =>
        let q := s.queries_.col qi
        let ind := qi * s.knns_
        let p_cos_qp := s.ips_at (ind + s.knns_ - 1) / s.qnorm_at qi
        let min_p_cos_pq := if acc.2 > p_cos_qp then p_cos_qp else acc.2
        let missed_nns :=
          (List.range' ref_node.begin_ (ref_node.end_ - ref_node.begin_)).foldl
            (fun missed reference_index =>
              let r := s.references_.col reference_index
              let ip := dot q r
              if ip > s.ips_at (ind + s.knns_ - 1) then missed + 1 else missed)
            acc.1
        (missed_nns, min_p_cos_pq))
      (0, DBL_MAX)
  let s1 : MaxIP α :=
    { s with query_ := loopExit query_node.begin_ query_node.end_ }
  if out.1 > 0 ∨ query_node.stat.bound ≠ out.2 then
    (MaxNodeIP_dual s1 query_node ref_node).2
  else s1

/-- The order of the two recursive calls of lines 330-340, 364-378 and 385-399: the
reference child to visit first with its bound, then the other child with its bound.
The left child goes first when its bound is strictly larger. -/
def visitOrder (left right : TreeType α) (left_p_cos_pq right_p_cos_pq : α) :
    (TreeType α × α) × (TreeType α × α) :=
  if left_p_cos_pq > right_p_cos_pq then ((left, left_p_cos_pq), (right, right_p_cos_pq))
  else ((right, right_p_cos_pq), (left, left_p_cos_pq))

/-- `MaxIP::ComputeNeighborsRecursion_(CTreeType*, TreeType*, double)`, lines
302-405.  The query node, whose statistic the call may overwrite, is returned
with the object: the value is the pair `(query node, object)`.  The value
carries the fact that the node keeps its number of nodes, which is what makes
the recursion terminate; the second call on a query node receives the node
returned by the first.  The two branches of each `if (left_p_cos_pq >
right_p_cos_pq)` make the same two calls in opposite orders: the model takes the
order from `visitOrder` and then makes the two calls. -/
def ComputeNeighborsRecursion_dual (query_node : CTreeType α)
    (reference_node : TreeType α) (upper_bound_p_cos_pq : α) (s : MaxIP α) :
    { p : CTreeType α × MaxIP α // p.1.size = query_node.size } :=
  if upper_bound_p_cos_pq < query_node.stat.bound then
    let s1 : MaxIP α := { s with number_of_prunes_ := s.number_of_prunes_ + 1 }
    ⟨(query_node,
      if s1.check_prune then CheckPrune s1 query_node reference_node else s1), rfl⟩
  else
    match query_node, reference_node with
    | .leaf qc qr qrc qst qb qe, .leaf c r b e =>
      ⟨ComputeBaseCase_dual s (.leaf qc qr qrc qst qb qe) (.leaf c r b e), by
        simp only [ComputeBaseCase_dual, apply_ite CTreeType.size, CTreeType.set_bound,
          CTreeType.size, ite_self]⟩
    | .leaf qc qr qrc qst qb qe, .node _ _ _ _ left right =>
      let qn : CTreeType α := .leaf qc qr qrc qst qb qe
      let l := MaxNodeIP_dual s qn left
      let r := MaxNodeIP_dual l.2 qn right
      let left_p_cos_pq := l.1
      let right_p_cos_pq := r.1
      let o := visitOrder left right left_p_cos_pq right_p_cos_pq
      have ho1 : o.1.1.size < left.size + right.size + 1 := by
        simp only [o, visitOrder]; split_ifs <;> simp only [] <;> omega
      have ho2 : o.2.1.size < left.size + right.size + 1 := by
        simp only [o, visitOrder]; split_ifs <;> simp only [] <;> omega
      let a := ComputeNeighborsRecursion_dual qn o.1.1 o.1.2 r.2
      have ha : a.1.1.size = qn.size := a.2
      let a2 := ComputeNeighborsRecursion_dual a.1.1 o.2.1 o.2.2 a.1.2
      ⟨a2.1, a2.2.trans a.2⟩
    | .node qc qr qrc qst qb qe qleft qright, .leaf c r b e =>
      let rn : TreeType α := .leaf c r b e
      let l := MaxNodeIP_dual s qleft rn
      let rr := MaxNodeIP_dual l.2 qright rn
      let left_p_cos_pq := l.1
      let right_p_cos_pq := rr.1
      let a := ComputeNeighborsRecursion_dual qleft rn left_p_cos_pq rr.2
      have ha : a.1.1.size = qleft.size := a.2
      let b2 := ComputeNeighborsRecursion_dual qright rn right_p_cos_pq a.1.2
      ⟨((CTreeType.node qc qr qrc qst qb qe a.1.1 b2.1.1).set_bound
          (min a.1.1.stat.bound b2.1.1.stat.bound), b2.1.2), by
        simp only [CTreeType.set_bound, CTreeType.size, a.2, b2.2]⟩
    | .node qc qr qrc qst qb qe qleft qright, .node _ _ _ _ left right =>
      let l := MaxNodeIP_dual s qleft left
      let r := MaxNodeIP_dual l.2 qleft right
      let left_p_cos_pq := l.1
      let right_p_cos_pq := r.1
      let o := visitOrder left right left_p_cos_pq right_p_cos_pq
      have ho1 : o.1.1.size < left.size + right.size + 1 := by
        simp only [o, visitOrder]; split_ifs <;> simp only [] <;> omega
      have ho2 : o.2.1.size < left.size + right.size + 1 := by
        simp only [o, visitOrder]; split_ifs <;> simp only [] <;> omega
      let a1 := ComputeNeighborsRecursion_dual qleft o.1.1 o.1.2 r.2
      have ha1 : a1.1.1.size = qleft.size := a1.2
      let a := ComputeNeighborsRecursion_dual a1.1.1 o.2.1 o.2.2 a1.1.2
      let l2 := MaxNodeIP_dual a.1.2 qright left
      let r2 := MaxNodeIP_dual l2.2 qright right
      let left_p_cos_pq2 := l2.1
      let right_p_cos_pq2 := r2.1
      let o2 := visitOrder left right left_p_cos_pq2 right_p_cos_pq2
      have ho3 : o2.1.1.size < left.size + right.size + 1 := by
        simp only [o2, visitOrder]; split_ifs <;> simp only [] <;> omega
      have ho4 : o2.2.1.size < left.size + right.size + 1 := by
        simp only [o2, visitOrder]; split_ifs <;> simp only [] <;> omega
      let b1 := ComputeNeighborsRecursion_dual qright o2.1.1 o2.1.2 r2.2
      have hb1 : b1.1.1.size = qright.size := b1.2
      let b2 := ComputeNeighborsRecursion_dual b1.1.1 o2.2.1 o2.2.2 b1.1.2
      ⟨((CTreeType.node qc qr qrc qst qb qe a.1.1 b2.1.1).set_bound
          (min a.1.1.stat.bound b2.1.1.stat.bound), b2.1.2), by
        simp only [CTreeType.set_bound, CTreeType.size, a.2, a1.2, b2.2, b1.2]⟩
termination_by query_node.size + reference_node.size
decreasing_by
  all_goals simp_wf
  all_goals simp +zetaDelta only [TreeType.size, CTreeType.size] at *
  all_goals omega

/-- `MaxIP::reset_tree_`, lines 539-547. -/
def reset_tree_ : CTreeType α → CTreeType α
  | .leaf c r rc st b e => .leaf c r rc (st.set_bound 0) b e
  | .node c r rc st b e left right =>
    .node c r rc (st.set_bound 0) b e (reset_tree_ left) (reset_tree_ right)

/-- The conversion of an `int` parameter to the `size_t` member `knns_`. -/
def toSizeT (n : Int) : Nat := (n % 2 ^ 64).toNat

/-- The number of elements of the two ledger vectors, `queries_.n_cols * knns_` of lines
434, 438, 489, 493, 526 and 530: a product of two 64-bit unsigned values. -/
def ledgerSize (n_cols knns_ : Nat) : Nat := (n_cols * knns_) % 2 ^ 64

/-- How `Init` or `InitNaive` stops before its end: an `assert` of the function fails,
or the library does not construct the two ledger vectors. -/
inductive InitFailure where
  | assertion : InitFailure
  | allocation : InitFailure
  deriving DecidableEq

/-- `MaxIP::Init`, lines 408-467.  The two tree builders `MakeGenMetricTree` and
`MakeGenCosineTree` are not among the sources and are arguments: each returns the
tree, the rearranged matrix and the map from new to old indices.  `leaf_size` and
`knns` are the values of `IO::GetParam<int>`; `query_0` is the value the member
`query_`, which `Init` does not assign, happens to hold.

The member `leaf_size_` is declared in a header that is not among the sources, so the
conversion `as_leaf_size` of the `int` of line 418 to the type of the member is an
argument: the identity for a signed member, `fun n => toSizeT n` for a `size_t`.  The
vectors of lines 433-438 are constructed by the library: `grants n` tells whether it
constructs a vector of `n` elements, which it cannot do when `n` elements exceed the
memory there is; the construction then throws and `Init` stops. -/
def Init (angle_prune check_prune dual_tree : Bool) (leaf_size knns : Int)
    (as_leaf_size : Int → Int) (grants : Nat → Bool)
    (MakeGenMetricTree : Mat α → Int → TreeType α × Mat α × List Nat)
    (MakeGenCosineTree : Mat α → Int → CTreeType α × Mat α × List Nat)
    (query_0 : Nat) (queries_in references_in : Mat α) : Except InitFailure (MaxIP α) :=
  let leaf_size_ := as_leaf_size leaf_size
  if ¬ (leaf_size_ > 0) then .error .assertion
  else if ¬ (queries_in.n_rows = references_in.n_rows) then .error .assertion
  else
    let knns_ := toSizeT knns
    if ¬ (grants (ledgerSize queries_in.n_cols knns_) = true) then .error .allocation
    else
      let rt := MakeGenMetricTree references_in leaf_size_
      let qt := MakeGenCosineTree queries_in leaf_size_
      let queries_ := if dual_tree then qt.2.1 else queries_in
      .ok
        { queries_ := queries_
          references_ := rt.2.1
          query_norms_ := (List.range queries_.n_cols).map fun i => norm2 (queries_.col i)
          knns_ := knns_
          leaf_size_ := leaf_size_
          max_ips_ := List.replicate (ledgerSize queries_in.n_cols knns_) 0
          max_ip_indices_ := List.replicate (ledgerSize queries_in.n_cols knns_) sentinel
          query_ := query_0
          number_of_prunes_ := 0
          distance_computations_ := 0
          split_decisions_ := 0
          reference_tree_ := rt.1
          query_tree_ := if dual_tree then some qt.1 else none
          old_from_new_references_ := rt.2.2
          old_from_new_queries_ := if dual_tree then qt.2.2 else []
          angle_prune := angle_prune
          check_prune := check_prune
          dual_tree := dual_tree }

/-- `MaxIP::InitNaive`, lines 470-511, with the same conventions as `Init`.  It
builds no query tree and does not fill `query_norms_`. -/
def InitNaive (angle_prune check_prune dual_tree : Bool) (knns : Int)
    (grants : Nat → Bool)
    (MakeGenMetricTree : Mat α → Int → TreeType α × Mat α × List Nat)
    (query_0 : Nat) (queries_in references_in : Mat α) : Except InitFailure (MaxIP α) :=
  if ¬ (queries_in.n_rows = references_in.n_rows) then .error .assertion
  else
    let knns_ := toSizeT knns
    if ¬ (grants (ledgerSize queries_in.n_cols knns_) = true) then .error .allocation
    else
      let leaf_size : Int := (max queries_in.n_cols references_in.n_cols : Nat) + 1
      let rt := MakeGenMetricTree references_in leaf_size
      .ok
        { queries_ := queries_in
          references_ := rt.2.1
          query_norms_ := []
          knns_ := knns_
          leaf_size_ := leaf_size
          max_ips_ := List.replicate (ledgerSize queries_in.n_cols knns_) 0
          max_ip_indices_ := List.replicate (ledgerSize queries_in.n_cols knns_) sentinel
          query_ := query_0
          number_of_prunes_ := 0
          distance_computations_ := 0
          split_decisions_ := 0
          reference_tree_ := rt.1
          query_tree_ := none
          old_from_new_references_ := rt.2.2
          old_from_new_queries_ := []
          angle_prune := angle_prune
          check_prune := check_prune
          dual_tree := dual_tree }

/-- `MaxIP::WarmInit`, lines 513-537.  The two vectors have the size `Init` gave them
when `knns` is the `knns_` of `Init`; their construction is taken to succeed. -/
def WarmInit (s : MaxIP α) (knns : Nat) : MaxIP α :=
  let s1 : MaxIP α :=
    { s with
      number_of_prunes_ := 0
      distance_computations_ := 0
      split_decisions_ := 0
      knns_ := knns
      max_ip_indices_ := List.replicate (ledgerSize s.queries_.n_cols knns) sentinel
      max_ips_ := List.replicate (ledgerSize s.queries_.n_cols knns) 0 }
  if s1.dual_tree then
    match s1.query_tree_ with
    | some tree => { s1 with query_tree_ := some (reset_tree_ tree) }
    | none => s1
  else s1

/-- The loops of lines 563-569, 582-587 and 613-618 that fill the two output
vectors: slot `query * knns_ + i % knns_` receives the un-permuted index and the
score of ledger slot `i`, where `query` is `query_of (i / knns_)`.  The vectors
come from `set_size`, which leaves their contents unspecified; the model starts
them at `0`. -/
def fillResults (s : MaxIP α) (query_of : Nat → Nat) : List Nat × List α :=
  (List.range s.max_ips_.length).foldl
    (fun acc i =>
      let query := query_of (i / s.knns_)
      (acc.1.set (query * s.knns_ + i % s.knns_)
          (s.old_from_new_references_.getD (s.idx_at i) 0),
       acc.2.set (query * s.knns_ + i % s.knns_) (s.ips_at i)))
    (List.replicate s.max_ips_.length 0, List.replicate s.max_ips_.length 0)

/-- The value `(double) (distance_computations_ + split_decisions_)
/ (double) queries_.n_cols` that both searches return. -/
def averageWork (s : MaxIP α) : α :=
  ((s.distance_computations_ + s.split_decisions_ : Nat) : α) / (s.queries_.n_cols : α)

/-- The loop of lines 576-579 of `ComputeNeighbors`: for every query in turn, the
single-tree recursion from the root with the bound of the root. -/
def singleTreeLoop (s : MaxIP α) : MaxIP α :=
  (List.range s.queries_.n_cols).foldl
    (fun acc qi =>
      let s0 : MaxIP α := { acc with query_ := qi }
      let m := MaxNodeIP_ s0 s0.reference_tree_
      ComputeNeighborsRecursion_ s0.reference_tree_ m.1 m.2)
    { s with query_ := 0 }

/-- `MaxIP::ComputeNeighbors`, lines 549-601, without the text it logs.  The value
is `(resulting_neighbors, ips, returned double, object)`; it is `none` when the
dual-tree branch is taken with a null `query_tree_`. -/
def ComputeNeighbors (s : MaxIP α) : Option (List Nat × List α × α × MaxIP α) :=
  if s.dual_tree then
    match s.query_tree_ with
    | none => none
    | some query_tree =>
      let m := MaxNodeIP_dual s query_tree s.reference_tree_
      let r := ComputeNeighborsRecursion_dual query_tree s.reference_tree_ m.1 m.2
      let s1 : MaxIP α := { r.1.2 with query_tree_ := some r.1.1 }
      let out := fillResults s1 (fun q => s1.old_from_new_queries_.getD q 0)
      some (out.1, out.2, averageWork s1, s1)
  else
    let s1 : MaxIP α := singleTreeLoop s
    let s2 : MaxIP α := { s1 with query_ := loopExit 0 s.queries_.n_cols }
    let out := fillResults s2 (fun q => q)
    some (out.1, out.2, averageWork s2, s2)

/-- The loop of lines 606-608 of `ComputeNaive`: the base case on the root for every
query in turn. -/
def naiveLoop (s : MaxIP α) : MaxIP α :=
  (List.range s.queries_.n_cols).foldl
    (fun acc qi => ComputeBaseCase_ { acc with query_ := qi } acc.reference_tree_)
    { s with query_ := 0 }

/-- `MaxIP::ComputeNaive`, lines 603-631, without the text it logs.  The value is
`(resulting_neighbors, ips, returned double, object)`. -/
def ComputeNaive (s : MaxIP α) : List Nat × List α × α × MaxIP α :=
  let s1 : MaxIP α := naiveLoop s
  let s2 : MaxIP α := { s1 with query_ := loopExit 0 s.queries_.n_cols }
  let out := fillResults s2 (fun q => q)
  (out.1, out.2, averageWork s2, s2)

end Defs

section Binary64Defs

/-- A `double` of the machine, in the format binary64 of IEEE 754.  A finite value is
`k * 2 ^ (-1074)` for an integer `k`: every finite binary64 number is a multiple of the
smallest subnormal `2 ^ (-1074)`, and `k` is a binary64 number when `|k| < 2 ^ 2098` and
`|k|` has at most 53 significant bits.  The two zeros are not told apart. -/
inductive Double where
  | finite (k : Int) : Double
  | inf (negative : Bool) : Double
  | nan : Double
  deriving DecidableEq

/-- The search for `⌊log₂ n⌋` over its binary digits, highest first: `acc` is the part
found so far and `i` the number of digits still to decide. -/
def Double.log2Aux (n : Nat) : Nat → Nat → Nat
  | 0, acc => acc
  | i + 1, acc => if 2 ^ (acc + 2 ^ i) ≤ n then log2Aux n i (acc + 2 ^ i) else log2Aux n i acc

/-- The value `⌊log₂ n⌋` for `1 ≤ n < 2 ^ 8192`, a range that holds every product and
quotient of two binary64 numbers. -/
def Double.ilog2 (n : Nat) : Nat := Double.log2Aux n 13 0

/-- The iteration of Heron from `x ≥ √N`: it descends to `⌊√N⌋` and stops there. -/
def Double.isqrtAux (N : Nat) : Nat → Nat → Nat
  | 0, x => x
  | f + 1, x => if (x + N / x) / 2 < x then isqrtAux N f ((x + N / x) / 2) else x

/-- The value `⌊√N⌋`. -/
def Double.isqrt (N : Nat) : Nat :=
  if N = 0 then 0 else Double.isqrtAux N 8192 (2 ^ (Double.ilog2 N / 2 + 1))

/-- The spacing of the binary64 numbers around the multiple `n` of `2 ^ (-1074)`: `1`
up to `2 ^ 53`, where every multiple is a binary64 number, and `2 ^ (⌊log₂ n⌋ - 52)`
above, which leaves 53 significant bits. -/
def Double.quantum (n : Nat) : Nat := 2 ^ (Double.ilog2 n - 52)

/-- Rounding to nearest, ties to even: the binary64 multiple of `2 ^ (-1074)` that is
nearest to `n / d`. -/
def Double.nearest (n d : Nat) : Nat :=
  let u := d * Double.quantum (n / d)
  let q := n / u
  let r := n % u
  (if 2 * r < u then q else if 2 * r = u then (if q % 2 = 0 then q else q + 1) else q + 1)
    * Double.quantum (n / d)

/-- The binary64 value of the exact result `± (n / d) * 2 ^ (-1074)` of an operation:
the nearest binary64 number, or an infinity when that is `2 ^ 1024` or more. -/
def Double.ofRatio (negative : Bool) (n d : Nat) : Double :=
  let k := Double.nearest n d
  if 2 ^ 2098 ≤ k then .inf negative else .finite (if negative then -(k : Int) else (k : Int))

/-- The conversion of an integer to `double`. -/
def Double.ofInt (z : Int) : Double := Double.ofRatio (decide (z < 0)) (z.natAbs * 2 ^ 1074) 1

/-- The binary64 number `m * 2 ^ e`, for `m` of at most 53 bits and `-1074 ≤ e`. -/
def Double.dyadic (m e : Int) : Double := .finite (m * 2 ^ (e + 1074).toNat)

/-- The operator `+` of `double`. -/
def Double.add : Double → Double → Double
  | .finite a, .finite b => Double.ofRatio (decide (a + b < 0)) (a + b).natAbs 1
  | .finite _, .inf s => .inf s
  | .inf s, .finite _ => .inf s
  | .inf s, .inf t => if s = t then .inf s else .nan
  | _, _ => .nan

/-- The unary operator `-` of `double`. -/
def Double.neg : Double → Double
  | .finite a => .finite (-a)
  | .inf s => .inf (!s)
  | .nan => .nan

/-- The operator `-` of `double`. -/
def Double.sub (x y : Double) : Double := Double.add x (Double.neg y)

/-- The operator `*` of `double`. -/
def Double.mul : Double → Double → Double
  | .finite a, .finite b => Double.ofRatio (decide (a * b < 0)) (a * b).natAbs (2 ^ 1074)
  | .finite a, .inf s => if a = 0 then .nan else .inf (xor (decide (a < 0)) s)
  | .inf s, .finite b => if b = 0 then .nan else .inf (xor s (decide (b < 0)))
  | .inf s, .inf t => .inf (xor s t)
  | _, _ => .nan

/-- The operator `/` of `double`.  A zero divisor is taken to be `+0`, as a norm or a
product of norms is. -/
def Double.div : Double → Double → Double
  | .finite a, .finite b =>
    if b = 0 then (if a = 0 then .nan else .inf (decide (a < 0)))
    else Double.ofRatio (xor (decide (a < 0)) (decide (b < 0))) (a.natAbs * 2 ^ 1074) b.natAbs
  | .finite _, .inf _ => .finite 0
  | .inf s, .finite b => .inf (xor s (decide (b < 0)))
  | _, _ => .nan

/-- Rounding to nearest of a square root: the binary64 multiple of `2 ^ (-1074)` that
is nearest to `√N`. -/
def Double.sqrtNearest (N : Nat) : Nat :=
  let s := Double.isqrt N
  let t := Double.ilog2 s - 52
  let q := s / 2 ^ t
  let h := (2 * q + 1) * 2 ^ t
  (if 4 * N < h * h then q else if 4 * N = h * h then (if q % 2 = 0 then q else q + 1) else q + 1)
    * 2 ^ t

/-- The function `std::sqrt` on `double`: not a number for a negative argument. -/
def Double.sqrt : Double → Double
  | .finite a => if a < 0 then .nan else .finite (Double.sqrtNearest (a.natAbs * 2 ^ 1074))
  | .inf s => if s then .nan else .inf false
  | .nan => .nan

/-- The operator `<` of `double`: false when an operand is not a number. -/
def Double.lt : Double → Double → Bool
  | .finite a, .finite b => decide (a < b)
  | .finite _, .inf s => !s
  | .inf s, .finite _ => s
  | .inf s, .inf t => s && !t
  | _, _ => false

/-- The operator `<=` of `double`: false when an operand is not a number. -/
def Double.le : Double → Double → Bool
  | .finite a, .finite b => decide (a ≤ b)
  | .finite _, .inf s => !s
  | .inf s, .finite _ => s
  | .inf s, .inf t => s || !t
  | _, _ => false

/-- The operator `!=` of `double`: true when an operand is not a number. -/
def Double.ne : Double → Double → Bool
  | .finite a, .finite b => decide (a ≠ b)
  | .inf s, .inf t => decide (s ≠ t)
  | .finite _, .inf _ => true
  | .inf _, .finite _ => true
  | _, _ => true

instance Double.instAdd : Add Double := ⟨Double.add⟩
instance Double.instSub : Sub Double := ⟨Double.sub⟩
instance Double.instMul : Mul Double := ⟨Double.mul⟩
instance Double.instDiv : Div Double := ⟨Double.div⟩
instance Double.instLT : LT Double := ⟨fun a b => Double.lt a b = true⟩
instance Double.instLE : LE Double := ⟨fun a b => Double.le a b = true⟩
instance Double.instDecidableLT : DecidableRel (fun a b : Double => a < b) :=
  fun a b => inferInstanceAs (Decidable (Double.lt a b = true))
instance Double.instDecidableLE : DecidableRel (fun a b : Double => a ≤ b) :=
  fun a b => inferInstanceAs (Decidable (Double.le a b = true))
instance Double.instOfNat (n : Nat) : OfNat Double n := ⟨Double.ofInt n⟩
instance Double.instHasSqrt : HasSqrt Double := ⟨Double.sqrt⟩
/-- The function `std::max`: `(a < b) ? b : a`. -/
instance Double.instMax : Max Double := ⟨fun a b => if a < b then b else a⟩
/-- The function `std::min`: `(b < a) ? b : a`. -/
instance Double.instMin : Min Double := ⟨fun a b => if b < a then b else a⟩

namespace Binary64

/-- The largest finite `double`, `DBL_MAX` of `<cfloat>`: `(2 ^ 53 - 1) * 2 ^ 971`. -/
def DBL_MAX : Double := Double.dyadic (2 ^ 53 - 1) 971

/-- The function `arma::dot`: the products, each rounded, added from left to right. -/
def dot (u v : List Double) : Double :=
  (List.zipWith (fun a b => a * b) u v).foldl (fun acc p => acc + p) 0

/-- The function `arma::norm(v, 2)`. -/
def norm2 (v : List Double) : Double := HasSqrt.sqrt (dot v v)

/-- The read `max_ips_(i)`. -/
def ips_at (s : MaxIP Double) (i : Nat) : Double := s.max_ips_.getD i 0

/-- The read `query_norms_(i)`. -/
def qnorm_at (s : MaxIP Double) (i : Nat) : Double := s.query_norms_.getD i 0

/-- `MaxIP::MaxNodeIP_(TreeType*)`, lines 13-68, in binary64. -/
def MaxNodeIP_ (s : MaxIP Double) (reference_node : TreeType Double) : Double × MaxIP Double :=
  let s1 : MaxIP Double := { s with split_decisions_ := s.split_decisions_ + 1 }
  let q := s1.queries_.col s1.query_
  let centroid := reference_node.center
  let c_norm := norm2 centroid
  let rad := HasSqrt.sqrt reference_node.radius
  let max_cos_qr : Double :=
    if s1.angle_prune then
      if rad ≤ c_norm then
        let cos_qp := dot q centroid / (qnorm_at s1 s1.query_ * c_norm)
        let sin_qp := HasSqrt.sqrt (1 - cos_qp * cos_qp)
        let max_sin_pr := rad / c_norm
        let min_cos_pr := HasSqrt.sqrt (1 - max_sin_pr * max_sin_pr)
        if min_cos_pr > cos_qp then
          let cos_qp_max_pr := (cos_qp * min_cos_pr) + (sin_qp * max_sin_pr)
          max cos_qp_max_pr 0
        else 1
      else 1
    else 1
  (qnorm_at s1 s1.query_ * (c_norm + rad) * max_cos_qr, s1)

/-- `MaxIP::MaxNodeIP_(CTreeType*, TreeType*)`, lines 70-125, in binary64. -/
def MaxNodeIP_dual (s : MaxIP Double) (query_node : CTreeType Double)
    (reference_node : TreeType Double) : Double × MaxIP Double :=
  let s1 : MaxIP Double := { s with split_decisions_ := s.split_decisions_ + 1 }
  let q := query_node.center
  let cos_w := query_node.radius
  let sin_w := query_node.radius_conjugate
  let q_norm := norm2 q
  let centroid := reference_node.center
  let c_norm := norm2 centroid
  let rad := HasSqrt.sqrt reference_node.radius
  let max_cos_qp : Double :=
    if s1.angle_prune then
      if rad ≤ c_norm then
        let cos_phi := dot q centroid / (c_norm * q_norm)
        let sin_phi := HasSqrt.sqrt (1 - cos_phi * cos_phi)
        let sin_theta := rad / c_norm
        let cos_theta := HasSqrt.sqrt (1 - sin_theta * sin_theta)
        if cos_phi < cos_theta ∧ cos_phi < cos_w then
          let cos_phi_theta := cos_phi * cos_theta + sin_phi * sin_theta
          if cos_phi_theta < cos_w then
            let cos_phi_theta_w :=
              cos_phi_theta * cos_w
                + (HasSqrt.sqrt (1 - cos_phi_theta * cos_phi_theta) * sin_w)
            max cos_phi_theta_w 0
          else 1
        else 1
      else 1
    else 1
  ((c_norm + rad) * max_cos_qp, s1)

/-- The order in which `std::sort` arranges `std::pair<double, size_t>` values:
`a` may stand before `b` when `a.first < b.first`, or when `b.first < a.first` fails and
`a.second <= b.second`. -/
def pairLE (a b : Double × Nat) : Prop := a.1 < b.1 ∨ (¬ b.1 < a.1 ∧ a.2 ≤ b.2)

instance pairLE_decidable : DecidableRel pairLE :=
  fun a b => by unfold pairLE; exact inferInstance

/-- The `candidates` vector of `ComputeBaseCase_` after the loop over the leaf, lines
136-160, in binary64. -/
def candidates (s : MaxIP Double) (reference_node : TreeType Double) : List (Double × Nat) :=
  let q := s.queries_.col s.query_
  let ind := s.query_ * s.knns_
  let start : List (Double × Nat) :=
    (List.range s.knns_).map fun i => (ips_at s (ind + i), s.idx_at (ind + i))
  (List.range' reference_node.begin_ (reference_node.end_ - reference_node.begin_)).foldl
    (fun cands reference_index =>
      let rpoint := s.references_.col reference_index
      let ip := dot q rpoint
      if ip > ips_at s (ind + s.knns_ - 1) then cands ++ [(ip, reference_index)]
      else cands)
    start

/-- `MaxIP::ComputeBaseCase_(TreeType*)`, lines 128-176, in binary64. -/
def ComputeBaseCase_ (s : MaxIP Double) (reference_node : TreeType Double) : MaxIP Double :=
  let ind := s.query_ * s.knns_
  let sorted := ((candidates s reference_node).insertionSort pairLE).reverse
  let ledger : List Double × List Nat :=
    (List.range s.knns_).foldl
      (fun acc i =>
        (acc.1.set (ind + i) (sorted.getD i (0, 0)).1,
         acc.2.set (ind + i) (sorted.getD i (0, 0)).2))
      (s.max_ips_, s.max_ip_indices_)
  { s with
    max_ips_ := ledger.1
    max_ip_indices_ := ledger.2
    distance_computations_ :=
      s.distance_computations_ + (reference_node.end_ - reference_node.begin_) }

/-- `MaxIP::ComputeBaseCase_(CTreeType*, TreeType*)`, lines 212-253, in binary64.  The
loop state is `(query_worst_p_cos_pq, new_bound, object)`. -/
def ComputeBaseCase_dual (s : MaxIP Double) (query_node : CTreeType Double)
    (reference_node : TreeType Double) : CTreeType Double × MaxIP Double :=
  let out : Double × Bool × MaxIP Double :=
    (List.range' query_node.begin_ (query_node.end_ - query_node.begin_)).foldl
      (fun acc qi =>
        let s0 : MaxIP Double := { acc.2.2 with query_ := qi }
        let ind := s0.query_ * s0.knns_
        let m := MaxNodeIP_ s0 reference_node
        let query_to_node_max_ip := m.1
        let s1 :=
          if query_to_node_max_ip > ips_at m.2 (ind + m.2.knns_ - 1) then
            ComputeBaseCase_ m.2 reference_node
          else m.2
        let p_cos_pq := ips_at s1 (ind + s1.knns_ - 1) / qnorm_at s1 s1.query_
        if acc.1 > p_cos_pq then (p_cos_pq, true, s1) else (acc.1, acc.2.1, s1))
      (DBL_MAX, false, { s with query_ := query_node.begin_ })
  let s2 : MaxIP Double :=
    { out.2.2 with query_ := loopExit query_node.begin_ query_node.end_ }
  (if out.2.1 then query_node.set_bound out.1 else query_node, s2)

/-- `MaxIP::CheckPrune`, lines 256-300, in binary64, without the text it prints. -/
def CheckPrune (s : MaxIP Double) (query_node : CTreeType Double) (ref_node : TreeType Double) :
    MaxIP Double :=
  let out : Nat × Double :=
    (List.range' query_node.begin_ (query_node.end_ - query_node.begin_)).foldl
      (fun acc qi =>
        let q := s.queries_.col qi
        let ind := qi * s.knns_
        let p_cos_qp := ips_at s (ind + s.knns_ - 1) / qnorm_at s qi
        let min_p_cos_pq := if acc.2 > p_cos_qp then p_cos_qp else acc.2
        let missed_nns :=
          (List.range' ref_node.begin_ (ref_node.end_ - ref_node.begin_)).foldl
            (fun missed reference_index =>
              let r := s.references_.col reference_index
              let ip := dot q r
              if ip > ips_at s (ind + s.knns_ - 1) then missed + 1 else missed)
            acc.1
        (missed_nns, min_p_cos_pq))
      (0, DBL_MAX)
  let s1 : MaxIP Double :=
    { s with query_ := loopExit query_node.begin_ query_node.end_ }
  if out.1 > 0 ∨ Double.ne query_node.stat.bound out.2 = true then
    (MaxNodeIP_dual s1 query_node ref_node).2
  else s1

/-- `MaxIP::ComputeNeighborsRecursion_(CTreeType*, TreeType*, double)`, lines 302-405,
in binary64.  The first argument bounds the depth of the calls: the value is `none`
when it is used up, and `query_node.size + reference_node.size` is enough.  The query
node, whose statistic the call may overwrite, is returned with the object. -/
def ComputeNeighborsRecursion_dual :
    Nat → CTreeType Double → TreeType Double → Double → MaxIP Double →
      Option (CTreeType Double × MaxIP Double)
  | 0, _, _, _, _ => none
  | depth + 1, query_node, reference_node, upper_bound_p_cos_pq, s =>
    if upper_bound_p_cos_pq < query_node.stat.bound then
      let s1 : MaxIP Double := { s with number_of_prunes_ := s.number_of_prunes_ + 1 }
      some (query_node,
        if s1.check_prune then CheckPrune s1 query_node reference_node else s1)
    else
      match query_node, reference_node with
      | .leaf qc qr qrc qst qb qe, .leaf c r b e =>
        some (ComputeBaseCase_dual s (.leaf qc qr qrc qst qb qe) (.leaf c r b e))
      | .leaf qc qr qrc qst qb qe, .node _ _ _ _ left right =>
        let qn : CTreeType Double := .leaf qc qr qrc qst qb qe
        let l := MaxNodeIP_dual s qn left
        let r := MaxNodeIP_dual l.2 qn right
        let left_p_cos_pq := l.1
        let right_p_cos_pq := r.1
        if left_p_cos_pq > right_p_cos_pq then
          (ComputeNeighborsRecursion_dual depth qn left left_p_cos_pq r.2).bind fun a =>
            ComputeNeighborsRecursion_dual depth a.1 right right_p_cos_pq a.2
        else
          (ComputeNeighborsRecursion_dual depth qn right right_p_cos_pq r.2).bind fun a =>
            ComputeNeighborsRecursion_dual depth a.1 left left_p_cos_pq a.2
      | .node qc qr qrc qst qb qe qleft qright, .leaf c r b e =>
        let rn : TreeType Double := .leaf c r b e
        let l := MaxNodeIP_dual s qleft rn
        let rr := MaxNodeIP_dual l.2 qright rn
        let left_p_cos_pq := l.1
        let right_p_cos_pq := rr.1
        (ComputeNeighborsRecursion_dual depth qleft rn left_p_cos_pq rr.2).bind fun a =>
        (ComputeNeighborsRecursion_dual depth qright rn right_p_cos_pq a.2).bind fun b2 =>
          some ((CTreeType.node qc qr qrc qst qb qe a.1 b2.1).set_bound
            (min a.1.stat.bound b2.1.stat.bound), b2.2)
      | .node qc qr qrc qst qb qe qleft qright, .node _ _ _ _ left right =>
        let l := MaxNodeIP_dual s qleft left
        let r := MaxNodeIP_dual l.2 qleft right
        let left_p_cos_pq := l.1
        let right_p_cos_pq := r.1
        (if left_p_cos_pq > right_p_cos_pq then
          (ComputeNeighborsRecursion_dual depth qleft left left_p_cos_pq r.2).bind fun a =>
            ComputeNeighborsRecursion_dual depth a.1 right right_p_cos_pq a.2
        else
          (ComputeNeighborsRecursion_dual depth qleft right right_p_cos_pq r.2).bind fun a =>
            ComputeNeighborsRecursion_dual depth a.1 left left_p_cos_pq a.2).bind fun a =>
        let l2 := MaxNodeIP_dual a.2 qright left
        let r2 := MaxNodeIP_dual l2.2 qright right
        let left_p_cos_pq2 := l2.1
        let right_p_cos_pq2 := r2.1
        (if left_p_cos_pq2 > right_p_cos_pq2 then
          (ComputeNeighborsRecursion_dual depth qright left left_p_cos_pq2 r2.2).bind fun b1 =>
            ComputeNeighborsRecursion_dual depth b1.1 right right_p_cos_pq2 b1.2
        else
          (ComputeNeighborsRecursion_dual depth qright right right_p_cos_pq2 r2.2).bind fun b1 =>
            ComputeNeighborsRecursion_dual depth b1.1 left left_p_cos_pq2 b1.2).bind fun b2 =>
          some ((CTreeType.node qc qr qrc qst qb qe a.1 b2.1).set_bound
            (min a.1.stat.bound b2.1.stat.bound), b2.2)

/-- The loop of lines 606-608 of `ComputeNaive`, in binary64: the base case on the root
for every query in turn. -/
def naiveLoop (s : MaxIP Double) : MaxIP Double :=
  (List.range s.queries_.n_cols).foldl
    (fun acc qi => ComputeBaseCase_ { acc with query_ := qi } acc.reference_tree_)
    { s with query_ := 0 }

end Binary64

/-- The dual-tree search of `ComputeNeighbors`, lines 560-561, in binary64: the call of
the recursion on the two roots with the bound of the two roots.  The value is the
object after the call, with the query tree the call returns; it is `none` when
`query_tree_` is null. -/
def Binary64.dualTreeCall (s : MaxIP Double) : Option (MaxIP Double) :=
  match s.query_tree_ with
  | none => none
  | some query_tree =>
    let m := Binary64.MaxNodeIP_dual s query_tree s.reference_tree_
    (Binary64.ComputeNeighborsRecursion_dual (query_tree.size + s.reference_tree_.size)
        query_tree s.reference_tree_ m.1 m.2).map fun r =>
      { r.2 with query_tree_ := some r.1 }

end Binary64Defs

section ProofDefs

variable {α : Type} [LinearOrderedField α]

/-- Writing `vals 0, …, vals (k-1)` to the slots `ind, …, ind + k - 1` of a vector. -/
def writeSlots {β : Type} (l : List β) (ind : Nat) (vals : Nat → β) (k : Nat) : List β :=
  (List.range k).foldl (fun acc i => acc.set (ind + i) (vals i)) l

/-- The `knns_` ledger entries `(score, index)` of query `q`, best first. -/
def ledgerEntries (s : MaxIP α) (q : Nat) : List (α × Nat) :=
  (List.range s.knns_).map fun i => (s.ips_at (q * s.knns_ + i), s.idx_at (q * s.knns_ + i))

/-- The inner product of query `q` with reference `i`. -/
def ipQ (s : MaxIP α) (q i : Nat) : α := dot (s.queries_.col q) (s.references_.col i)

/-- The floor of query `q`: the score in its last ledger slot. -/
def floorOf (s : MaxIP α) (q : Nat) : α := s.ips_at (q * s.knns_ + s.knns_ - 1)

/-- The references of `[b, b + n)` that beat the floor of the current query. -/
def leafCands (s : MaxIP α) (b n : Nat) : List (α × Nat) :=
  ((List.range' b n).filter fun i => decide (ipQ s s.query_ i > floorOf s s.query_)).map
    fun i => (ipQ s s.query_ i, i)

/-- The list `candidates` sorted by `std::sort` and reversed. -/
def sortedDesc (l : List (α × Nat)) : List (α × Nat) := (l.insertionSort pairLE).reverse

/-- The entries `E` hold the largest scores of the list `M`: their scores are in
non-increasing order and what `M` has beyond them is no larger than any of them. -/
def Covers (E : List (α × Nat)) (M : List α) : Prop :=
  (E.map Prod.fst).Sorted (fun a b => a ≥ b) ∧
    ∃ R : List α, (E.map Prod.fst ++ R).Perm M ∧ ∀ r ∈ R, ∀ e ∈ E.map Prod.fst, r ≤ e

/-- The factor `max_cos_qr` of `MaxNodeIP_(TreeType*)` when angle pruning is on, as a
function of `dot(q, centroid)`, `query_norms_(query_)`, `c_norm` and `rad`. -/
def maxCosQr {α : Type} [LinearOrderedField α] [HasSqrt α] (A Qn C rad : α) : α :=
  if rad ≤ C then
    if HasSqrt.sqrt (1 - rad / C * (rad / C)) > A / (Qn * C) then
      max (A / (Qn * C) * HasSqrt.sqrt (1 - rad / C * (rad / C))
        + HasSqrt.sqrt (1 - A / (Qn * C) * (A / (Qn * C))) * (rad / C)) 0
    else 1
  else 1

/-- The factor `max_cos_qp` of `MaxNodeIP_(CTreeType*, TreeType*)` when angle pruning is
on, as a function of `dot(q, centroid)`, `q_norm`, `c_norm`, `rad`, `cos_w`, `sin_w`. -/
def maxCosQp {α : Type} [LinearOrderedField α] [HasSqrt α] (A Qn C rad cos_w sin_w : α) : α :=
  if rad ≤ C then
    if A / (C * Qn) < HasSqrt.sqrt (1 - rad / C * (rad / C)) ∧ A / (C * Qn) < cos_w then
      if A / (C * Qn) * HasSqrt.sqrt (1 - rad / C * (rad / C))
          + HasSqrt.sqrt (1 - A / (C * Qn) * (A / (C * Qn))) * (rad / C) < cos_w then
        max ((A / (C * Qn) * HasSqrt.sqrt (1 - rad / C * (rad / C))
              + HasSqrt.sqrt (1 - A / (C * Qn) * (A / (C * Qn))) * (rad / C)) * cos_w
            + HasSqrt.sqrt (1 - (A / (C * Qn) * HasSqrt.sqrt (1 - rad / C * (rad / C))
                + HasSqrt.sqrt (1 - A / (C * Qn) * (A / (C * Qn))) * (rad / C))
              * (A / (C * Qn) * HasSqrt.sqrt (1 - rad / C * (rad / C))
                + HasSqrt.sqrt (1 - A / (C * Qn) * (A / (C * Qn))) * (rad / C))) * sin_w) 0
      else 1
    else 1
  else 1

/-- The difference of two vectors: `r - c` of armadillo. -/
def vsub {α : Type} [LinearOrderedField α] (u v : List α) : List α :=
  List.zipWith (fun a b => a - b) u v

/-- A list of `d` coordinates as a point of Euclidean space. -/
noncomputable def toE (d : Nat) (l : List ℝ) : EuclideanSpace ℝ (Fin d) :=
  (WithLp.equiv 2 (Fin d → ℝ)).symm (fun i => l.getD i 0)

/-- One query `(1)` and the references `(2)`, `(3)`, with one ledger slot and a seeded
ledger, over the rationals. -/
def w6 : MaxIP ℚ :=
  { queries_ := ⟨1, [[1]]⟩, references_ := ⟨1, [[2], [3]]⟩, query_norms_ := [1], knns_ := 1,
    leaf_size_ := 1, max_ips_ := [0], max_ip_indices_ := [sentinel], query_ := 0,
    number_of_prunes_ := 0, distance_computations_ := 0, split_decisions_ := 0,
    reference_tree_ := .leaf [2] 1 0 2, query_tree_ := none,
    old_from_new_references_ := [0, 1], old_from_new_queries_ := [0],
    angle_prune := false, check_prune := false, dual_tree := false }

/-- The reference indices under a node: the ranges of its leaves, left to right. -/
def TreeType.indices : TreeType α → List Nat
  | .leaf _ _ b e => List.range' b (e - b)
  | .node _ _ _ _ l r => l.indices ++ r.indices

/-- A property holds at a node and at every node below it. -/
def TreeType.All (P : TreeType α → Prop) : TreeType α → Prop
  | .leaf c r b e => P (.leaf c r b e)
  | .node c r b e l rt => P (.node c r b e l rt) ∧ l.All P ∧ rt.All P

/-- A ledger entry of query `q` is the seed `(0, sentinel)` or a reference with its
positive inner product. -/
def EntryOK (s : MaxIP α) (q : Nat) (e : α × Nat) : Prop :=
  e = (0, sentinel) ∨ (0 < e.1 ∧ e.1 = ipQ s q e.2 ∧ e.2 < s.references_.n_cols)

/-- What a traversal leaves untouched: everything but the ledger contents, the
counters and `query_`. -/
structure Frame (s s' : MaxIP α) : Prop where
  queries_ : s'.queries_ = s.queries_
  references_ : s'.references_ = s.references_
  query_norms_ : s'.query_norms_ = s.query_norms_
  knns_ : s'.knns_ = s.knns_
  leaf_size_ : s'.leaf_size_ = s.leaf_size_
  reference_tree_ : s'.reference_tree_ = s.reference_tree_
  query_tree_ : s'.query_tree_ = s.query_tree_
  old_from_new_references_ : s'.old_from_new_references_ = s.old_from_new_references_
  old_from_new_queries_ : s'.old_from_new_queries_ = s.old_from_new_queries_
  angle_prune : s'.angle_prune = s.angle_prune
  check_prune : s'.check_prune = s.check_prune
  dual_tree : s'.dual_tree = s.dual_tree
  len_ips : s'.max_ips_.length = s.max_ips_.length
  len_idx : s'.max_ip_indices_.length = s.max_ip_indices_.length

/-- Two objects hold the same ledger contents. -/
def SameLedger (s s' : MaxIP α) : Prop :=
  s'.max_ips_ = s.max_ips_ ∧ s'.max_ip_indices_ = s.max_ip_indices_

/-- The invariant of the single-tree search for the query `s0.query_`: the object `s`
differs from `s0` in the ledger and the counters only, and the ledger entries of the
query hold the largest scores of `M`. -/
structure SInv (s0 s : MaxIP α) (M : List α) : Prop where
  frame : Frame s0 s
  query : s.query_ = s0.query_
  hk : 1 ≤ s0.knns_
  len1 : (s0.query_ + 1) * s0.knns_ ≤ s0.max_ips_.length
  len2 : (s0.query_ + 1) * s0.knns_ ≤ s0.max_ip_indices_.length
  cov : Covers (ledgerEntries s s0.query_) M
  ok : ∀ e ∈ ledgerEntries s s0.query_, EntryOK s0 s0.query_ e

/-- The object of the counterexample to C4: one query `(2)`, one reference `(1)`. -/
def w4 : MaxIP ℝ :=
  { queries_ := ⟨1, [[2]]⟩, references_ := ⟨1, [[1]]⟩, query_norms_ := [2], knns_ := 1,
    leaf_size_ := 1, max_ips_ := [0], max_ip_indices_ := [sentinel], query_ := 0,
    number_of_prunes_ := 0, distance_computations_ := 0, split_decisions_ := 0,
    reference_tree_ := .leaf [1] 0 0 1, query_tree_ := some (.leaf [1] 1 0 ⟨0, []⟩ 0 1),
    old_from_new_references_ := [0], old_from_new_queries_ := [0],
    angle_prune := false, check_prune := false, dual_tree := true }

/-- The `k` largest strictly positive values of `ips` in non-increasing order, padded
with `0` when fewer than `k` are positive. -/
def topScores (k : Nat) (ips : List α) : List α :=
  (((ips.filter fun x => decide (0 < x)).insertionSort fun a b => a ≥ b)
    ++ List.replicate k 0).take k

/-- The ledger holds the values `Init` and `WarmInit` store. -/
def Seeded (s : MaxIP α) : Prop :=
  s.max_ips_ = List.replicate (s.queries_.n_cols * s.knns_) 0 ∧
    s.max_ip_indices_ = List.replicate (s.queries_.n_cols * s.knns_) sentinel

/-- A ball tree over the references: every centre and every point under a node has `d`
coordinates, and the ball of the node, of radius the square root of the stored
squared radius, contains every point under the node. -/
def BallTreeValid (refs : Mat ℝ) (d : Nat) (t : TreeType ℝ) : Prop :=
  t.All fun n => n.center.length = d ∧ ∀ i ∈ n.indices,
    (refs.col i).length = d ∧ norm2 (vsub (refs.col i) n.center) ≤ HasSqrt.sqrt n.radius

/-- The query indices under a node: the ranges of its leaves, left to right. -/
def CTreeType.indices : CTreeType α → List Nat
  | .leaf _ _ _ _ b e => List.range' b (e - b)
  | .node _ _ _ _ _ _ l r => l.indices ++ r.indices

/-- A property holds at a node and at every node below it. -/
def CTreeType.All (P : CTreeType α → Prop) : CTreeType α → Prop
  | .leaf c r rc st b e => P (.leaf c r rc st b e)
  | .node c r rc st b e l rt => P (.node c r rc st b e l rt) ∧ l.All P ∧ rt.All P

/-- The list `M` extended, for the queries of `qs`, by `X`. -/
def addFor (M : Nat → List α) (qs : List Nat) (X : Nat → List α) : Nat → List α :=
  fun q => if q ∈ qs then M q ++ X q else M q

/-- The invariant of the dual-tree search: the object `s` differs from `s0` in the
ledger, the counters and `query_` only, and the ledger entries of every query `q` hold
the largest scores of `M q`. -/
structure DInv (s0 s : MaxIP α) (M : Nat → List α) : Prop where
  frame : Frame s0 s
  hk : 1 ≤ s0.knns_
  len1 : s0.max_ips_.length = s0.queries_.n_cols * s0.knns_
  len2 : s0.max_ip_indices_.length = s0.queries_.n_cols * s0.knns_
  norms : ∀ q, q < s0.queries_.n_cols → 0 < s0.qnorm_at q
  cov : ∀ q, q < s0.queries_.n_cols → Covers (ledgerEntries s q) (M q)
  ok : ∀ q, q < s0.queries_.n_cols → ∀ e ∈ ledgerEntries s q, EntryOK s0 q e

/-- The node with its statistic replaced. -/
def CTreeType.setStat : CTreeType α → QueryStat α → CTreeType α
  | .leaf c r rc _ b e, st => .leaf c r rc st b e
  | .node c r rc _ b e l rt, st => .node c r rc st b e l rt

/-- The values written to a statistic never decreased and none exceeds the stored one. -/
def StatOK (st : QueryStat α) : Prop :=
  st.written.Sorted (fun a b => a ≤ b) ∧ ∀ w ∈ st.written, w ≤ st.bound

/-- The second tree is the first with statistics whose bounds are no smaller. -/
def Evolves : CTreeType α → CTreeType α → Prop
  | .leaf c r rc st b e, .leaf c' r' rc' st' b' e' =>
    c = c' ∧ r = r' ∧ rc = rc' ∧ b = b' ∧ e = e' ∧ st.bound ≤ st'.bound
  | .node c r rc st b e l rt, .node c' r' rc' st' b' e' l' rt' =>
    c = c' ∧ r = r' ∧ rc = rc' ∧ b = b' ∧ e = e' ∧ st.bound ≤ st'.bound ∧
      Evolves l l' ∧ Evolves rt rt'
  | .leaf _ _ _ _ _ _, .node _ _ _ _ _ _ _ _ => False
  | .node _ _ _ _ _ _ _ _, .leaf _ _ _ _ _ _ => False

/-- The bound of every internal node is at most the bounds of its two children. -/
def HeapOrd : CTreeType α → Prop
  | .leaf _ _ _ _ _ _ => True
  | .node _ _ _ st _ _ l rt =>
    st.bound ≤ l.stat.bound ∧ st.bound ≤ rt.stat.bound ∧ HeapOrd l ∧ HeapOrd rt

/-- The statistic of a node is consistent with the ledger: its bound is at most the
ratio of floor to norm of every query under the node. -/
def NodeOK (s0 s : MaxIP α) (n : CTreeType α) : Prop :=
  StatOK n.stat ∧ ∀ q ∈ n.indices, n.stat.bound ≤ floorOf s q / s0.qnorm_at q

/-- The statistics of a query tree are consistent with the ledger. -/
def QOK (s0 s : MaxIP α) (t : CTreeType α) : Prop := t.All (NodeOK s0 s) ∧ HeapOrd t

/-- The two recursive calls of lines 330-340 (and 364-378, 385-399): the reference
child with the larger bound first. -/
def pairCalls [HasSqrt α] (qn : CTreeType α) (left right : TreeType α) (lub rub : α)
    (s : MaxIP α) : CTreeType α × MaxIP α :=
  (ComputeNeighborsRecursion_dual
    (ComputeNeighborsRecursion_dual qn (visitOrder left right lub rub).1.1
      (visitOrder left right lub rub).1.2 s).1.1
    (visitOrder left right lub rub).2.1 (visitOrder left right lub rub).2.2
    (ComputeNeighborsRecursion_dual qn (visitOrder left right lub rub).1.1
      (visitOrder left right lub rub).1.2 s).1.2).1

/-- The single bound of every node under `rn` dominates the inner products of the
queries `qs` with the references under the node. -/
def Sound1 [HasSqrt α] (s0 : MaxIP α) (qs : List Nat) (rn : TreeType α) : Prop :=
  rn.All fun rn' => ∀ q ∈ qs, ∀ i ∈ rn'.indices,
    ipQ s0 q i ≤ (MaxNodeIP_ { s0 with query_ := q } rn').1

/-- The dual bound of every pair of a node under `qn` and a node under `rn`, times the
norm of the query, dominates the inner products of the queries under the first with
the references under the second. -/
def Sound2 [HasSqrt α] (s0 : MaxIP α) (qn : CTreeType α) (rn : TreeType α) : Prop :=
  qn.All fun a => rn.All fun rn' => ∀ q ∈ a.indices, ∀ i ∈ rn'.indices,
    ipQ s0 q i ≤ s0.qnorm_at q * (MaxNodeIP_dual s0 a rn').1

/-- What a call of the dual recursion on `(qn, rn)` with the bound `ub` may assume. -/
structure DualPre [HasSqrt α] (s0 s : MaxIP α) (M : Nat → List α) (qn : CTreeType α)
    (rn : TreeType α) : Prop where
  inv : DInv s0 s M
  nodup : qn.indices.Nodup
  qlt : ∀ q ∈ qn.indices, q < s0.queries_.n_cols
  rlt : ∀ i ∈ rn.indices, i < s0.references_.n_cols
  s1 : Sound1 s0 qn.indices rn
  s2 : Sound2 s0 qn rn
  qok : QOK s0 s qn

/-- What a call of the dual recursion on `(qn, rn)` guarantees for its result `r`, when
the references `idx` are those under `rn`. -/
structure DualPost (s0 s : MaxIP α) (M : Nat → List α) (qn : CTreeType α)
    (idx : List Nat) (r : CTreeType α × MaxIP α) : Prop where
  inv : DInv s0 r.2 (addFor M qn.indices (fun q => idx.map (ipQ s0 q)))
  ev : Evolves qn r.1
  qok : QOK s0 r.2 r.1
  floors : ∀ q, floorOf s q ≤ floorOf r.2 q

/-- The contract of one call of the dual recursion on `(qn, rn)`. -/
def DualSpec [HasSqrt α] (s0 : MaxIP α) (qn : CTreeType α) (rn : TreeType α) : Prop :=
  ∀ (ub : α) (s : MaxIP α) (M : Nat → List α), DualPre s0 s M qn rn →
    (∀ q ∈ qn.indices, ∀ i ∈ rn.indices, ipQ s0 q i ≤ s0.qnorm_at q * ub) →
    DualPost s0 s M qn rn.indices (ComputeNeighborsRecursion_dual qn rn ub s).1

/-- Every node of the query tree holds the bound `0` and an empty record. -/
def FreshTree (t : CTreeType α) : Prop :=
  t.All fun n => n.stat.bound = 0 ∧ n.stat.written = []

/-- A cone tree over the queries: every centre and every query under a node has `d`
coordinates, the stored sine is that of the stored cosine, and the stored cosine is at
most the cosine of the angle between the centre and every query under the node. -/
def ConeTreeValid (queries : Mat ℝ) (d : Nat) (t : CTreeType ℝ) : Prop :=
  t.All fun n => n.center.length = d ∧
    n.radius_conjugate = HasSqrt.sqrt (1 - n.radius ^ 2) ∧
    ∀ q ∈ n.indices, (queries.col q).length = d ∧
      n.radius ≤ dot (queries.col q) n.center / (norm2 (queries.col q) * norm2 n.center)

/-- The tree with every statistic replaced by its image under `f`. -/
def CTreeType.mapStat (f : QueryStat α → QueryStat α) : CTreeType α → CTreeType α
  | .leaf c r rc st b e => .leaf c r rc (f st) b e
  | .node c r rc st b e l rt => .node c r rc (f st) b e (l.mapStat f) (rt.mapStat f)

/-- The tree with the records of the written values emptied. -/
def CTreeType.eraseLog (t : CTreeType α) : CTreeType α :=
  t.mapStat fun st => ⟨st.bound, []⟩

/-- The tree with every statistic replaced by the bound `0` and an empty record. -/
def CTreeType.eraseStat (t : CTreeType α) : CTreeType α :=
  t.mapStat fun _ => ⟨0, []⟩

/-- The second object is the first but for `query_` and `query_tree_`. -/
def Sim (s s' : MaxIP α) : Prop :=
  ∃ (a : Nat) (b : Option (CTreeType α)), s' = { s with query_ := a, query_tree_ := b }

/-- The body of the loop of lines 226-247 of `ComputeBaseCase_(CTreeType*, TreeType*)`. -/
def baseStep [HasSqrt α] (reference_node : TreeType α) (acc : α × Bool × MaxIP α) (qi : Nat) :
    α × Bool × MaxIP α :=
  let s0 : MaxIP α := { acc.2.2 with query_ := qi }
  let ind := s0.query_ * s0.knns_
  let m := MaxNodeIP_ s0 reference_node
  let query_to_node_max_ip := m.1
  let s1 :=
    if query_to_node_max_ip > m.2.ips_at (ind + m.2.knns_ - 1) then
      ComputeBaseCase_ m.2 reference_node
    else m.2
  let p_cos_pq := s1.ips_at (ind + s1.knns_ - 1) / s1.qnorm_at s1.query_
  if acc.1 > p_cos_pq then (p_cos_pq, true, s1) else (acc.1, acc.2.1, s1)

/-- The state of the loop of lines 226-247 when it exits. -/
def baseOut [HasSqrt α] (s : MaxIP α) (query_node : CTreeType α) (reference_node : TreeType α) :
    α × Bool × MaxIP α :=
  (List.range' query_node.begin_ (query_node.end_ - query_node.begin_)).foldl
    (baseStep reference_node) (DBL_MAX, false, { s with query_ := query_node.begin_ })

/-- The object after the body of the loop of lines 226-247 for the query `qi`. -/
def stepState [HasSqrt α] (reference_node : TreeType α) (st : MaxIP α) (qi : Nat) : MaxIP α :=
  if (MaxNodeIP_ { st with query_ := qi } reference_node).1
      > (MaxNodeIP_ { st with query_ := qi } reference_node).2.ips_at
          (qi * st.knns_ + (MaxNodeIP_ { st with query_ := qi } reference_node).2.knns_ - 1) then
    ComputeBaseCase_ (MaxNodeIP_ { st with query_ := qi } reference_node).2 reference_node
  else (MaxNodeIP_ { st with query_ := qi } reference_node).2

/-- The ratio `p_cos_pq` of the body of the loop of lines 226-247 for the query `qi`. -/
def stepRatio [HasSqrt α] (reference_node : TreeType α) (st : MaxIP α) (qi : Nat) : α :=
  (stepState reference_node st qi).ips_at
      (qi * st.knns_ + (stepState reference_node st qi).knns_ - 1)
    / (stepState reference_node st qi).qnorm_at (stepState reference_node st qi).query_

/-- Two runs of one call of the dual recursion, from objects that differ in `query_` and
`query_tree_` only and on query nodes that differ in the records of the written values
only, end in such objects and such nodes. -/
def CongrSpec [HasSqrt α] (qn : CTreeType α) (rn : TreeType α) : Prop :=
  ∀ (qn' : CTreeType α) (ub : α) (s s' : MaxIP α), qn.eraseLog = qn'.eraseLog → Sim s s' →
    (ComputeNeighborsRecursion_dual qn rn ub s).1.1.eraseLog
        = (ComputeNeighborsRecursion_dual qn' rn ub s').1.1.eraseLog ∧
      Sim (ComputeNeighborsRecursion_dual qn rn ub s).1.2
        (ComputeNeighborsRecursion_dual qn' rn ub s').1.2

/-- One call of the dual recursion changes the object in the ledger, the counters and
`query_` only, and the query node in its statistics only. -/
def StructSpec [HasSqrt α] (qn : CTreeType α) (rn : TreeType α) : Prop :=
  ∀ (ub : α) (s : MaxIP α),
    Frame s (ComputeNeighborsRecursion_dual qn rn ub s).1.2 ∧
      (ComputeNeighborsRecursion_dual qn rn ub s).1.1.eraseStat = qn.eraseStat

/-- One query `(1)` and two equal references `(1)`, `(1)`, under a tree whose left leaf has
a ball larger than needed. -/
def w5 : MaxIP ℝ :=
  { queries_ := ⟨1, [[1]]⟩, references_ := ⟨1, [[1], [1]]⟩, query_norms_ := [1], knns_ := 1,
    leaf_size_ := 1, max_ips_ := [0], max_ip_indices_ := [sentinel], query_ := 0,
    number_of_prunes_ := 0, distance_computations_ := 0, split_decisions_ := 0,
    reference_tree_ := .node [1] 0 0 2 (.leaf [1] 1 0 1) (.leaf [1] 0 1 2), query_tree_ := none,
    old_from_new_references_ := [0, 1], old_from_new_queries_ := [0],
    angle_prune := false, check_prune := false, dual_tree := false }

/-- The object `w5` with the root a single leaf holding both references. -/
def w5n : MaxIP ℝ := { w5 with reference_tree_ := .leaf [1] 0 0 2 }

/-- What a search reports for the query `q`: for each of its ledger entries, the
un-permuted reference index and the score.  The index is `none` where the ledger index
is out of the range of `old_from_new_references_`, as the marker `(size_t) -1` is: there
the lines 567, 585 and 616 read outside the vector. -/
def reported {α : Type} [LinearOrderedField α] (s : MaxIP α) (q : Nat) :
    List (Option Nat × α) :=
  (ledgerEntries s q).map fun e => (s.old_from_new_references_[e.2]?, e.1)

/-- The ledger is well formed: the object `s` differs from `s0` in the ledger, the
counters and `query_` only, and the ledger entries of every query are in non-increasing
order of score, each of them a seed or a reference with its positive inner product. -/
def WInv (s0 s : MaxIP α) : Prop := ∃ M : Nat → List α, DInv s0 s M

/-- What a call of the dual recursion on `(qn, rn)` may assume when nothing is known of
the bounds: a well-formed ledger, indices in range and query statistics consistent with
the ledger. -/
structure WeakPre (s0 s : MaxIP α) (qn : CTreeType α) (rn : TreeType α) : Prop where
  inv : WInv s0 s
  qlt : ∀ q ∈ qn.indices, q < s0.queries_.n_cols
  rlt : ∀ i ∈ rn.indices, i < s0.references_.n_cols
  qok : QOK s0 s qn

/-- What a call of the dual recursion guarantees for its result `r` when nothing is known
of the bounds. -/
structure WeakPost (s0 s : MaxIP α) (qn : CTreeType α) (r : CTreeType α × MaxIP α) : Prop where
  inv : WInv s0 r.2
  ev : Evolves qn r.1
  qok : QOK s0 r.2 r.1
  floors : ∀ q, floorOf s q ≤ floorOf r.2 q

/-- The contract of one call of the dual recursion on `(qn, rn)` when nothing is known of
the bounds. -/
def WeakSpec [HasSqrt α] (s0 : MaxIP α) (qn : CTreeType α) (rn : TreeType α) : Prop :=
  ∀ (ub : α) (s : MaxIP α), WeakPre s0 s qn rn →
    WeakPost s0 s qn (ComputeNeighborsRecursion_dual qn rn ub s).1

/-- One query `(1)` in a leaf of the query tree, and the references `(2)`, `(1)` in the
two leaves of the reference tree. -/
def w8 : MaxIP ℝ :=
  { queries_ := ⟨1, [[1]]⟩, references_ := ⟨1, [[2], [1]]⟩, query_norms_ := [1], knns_ := 1,
    leaf_size_ := 1, max_ips_ := [0], max_ip_indices_ := [sentinel], query_ := 0,
    number_of_prunes_ := 0, distance_computations_ := 0, split_decisions_ := 0,
    reference_tree_ := .node [1] 1 0 2 (.leaf [1] 1 0 1) (.leaf [1] 1 1 2),
    query_tree_ := some (.leaf [1] 1 0 ⟨0, []⟩ 0 1),
    old_from_new_references_ := [0, 1], old_from_new_queries_ := [0],
    angle_prune := false, check_prune := false, dual_tree := true }

/-- The object `w8` with the given ledger, `query_`, `distance_computations_` and
`split_decisions_`. -/
def w8at (ips : List ℝ) (idx : List Nat) (q dc sd : Nat) : MaxIP ℝ :=
  { w8 with
    max_ips_ := ips
    max_ip_indices_ := idx
    query_ := q
    distance_computations_ := dc
    split_decisions_ := sd }

/-- The stored bound of the node is at most the ratio of floor to norm of every query
under the node, that is at most the minimum of these ratios. -/
def BoundOK (s0 s : MaxIP α) (n : CTreeType α) : Prop :=
  ∀ q ∈ n.indices, n.stat.bound ≤ floorOf s q / s0.qnorm_at q

/-- The invariant of the dual-tree traversal at the query tree `t`: the ledger is well
formed, the queries under `t` exist, no node of `t` has a bound above those of its
children, and the bound of every node of `t` is at most the ratio of floor to norm of
every query under the node. -/
def TravInv (s0 s : MaxIP α) (t : CTreeType α) : Prop :=
  WInv s0 s ∧ (∀ q ∈ t.indices, q < s0.queries_.n_cols) ∧ HeapOrd t ∧ t.All (BoundOK s0 s)

/-- The object `w8` in single-tree mode. -/
def w8s : MaxIP ℝ := { w8 with dual_tree := false, query_tree_ := none }

/-- The object `w8` with the root a single leaf holding both references. -/
def w8n : MaxIP ℝ := { w8 with reference_tree_ := .leaf [1] 1 0 2 }

/-- A builder of reference trees that returns the tree and the matrix of `w8`. -/
def w9metric : Mat ℝ → Int → TreeType ℝ × Mat ℝ × List Nat :=
  fun _ _ => (w8.reference_tree_, w8.references_, [0, 1])

/-- A builder of query trees that returns the tree and the matrix of `w8`. -/
def w9cosine : Mat ℝ → Int → CTreeType ℝ × Mat ℝ × List Nat :=
  fun _ _ => (.leaf [1] 1 0 ⟨0, []⟩ 0 1, w8.queries_, [0])

/-- The example of C10: the references `(1,0)`, `(0,1)`, `(1,1)` under a single leaf, the
query `(1,1)` and one ledger slot. -/
noncomputable def w10 : MaxIP ℝ :=
  { queries_ := ⟨2, [[1, 1]]⟩, references_ := ⟨2, [[1, 0], [0, 1], [1, 1]]⟩,
    query_norms_ := [norm2 [1, 1]], knns_ := 1,
    leaf_size_ := 3, max_ips_ := [0], max_ip_indices_ := [sentinel], query_ := 0,
    number_of_prunes_ := 0, distance_computations_ := 0, split_decisions_ := 0,
    reference_tree_ := .leaf [0, 0] 2 0 3, query_tree_ := none,
    old_from_new_references_ := [0, 1, 2], old_from_new_queries_ := [0],
    angle_prune := false, check_prune := false, dual_tree := false }

/-- The divisors of the divisions that `MaxNodeIP_(TreeType*)` evaluates, lines 42-46:
`query_norms_(query_) * c_norm` and `c_norm` when angle pruning is on and
`rad <= c_norm`, none otherwise. -/
def MaxNodeIP_divisors [HasSqrt α] (s : MaxIP α) (reference_node : TreeType α) : List α :=
  let c_norm := norm2 reference_node.center
  let rad := HasSqrt.sqrt reference_node.radius
  if s.angle_prune then
    if rad ≤ c_norm then [s.qnorm_at s.query_ * c_norm, c_norm] else []
  else []

/-- The divisors of the divisions that `MaxNodeIP_(CTreeType*, TreeType*)` evaluates,
lines 98-102: `c_norm * q_norm` and `c_norm` when angle pruning is on and
`rad <= c_norm`, none otherwise. -/
def MaxNodeIP_dual_divisors [HasSqrt α] (s : MaxIP α) (query_node : CTreeType α)
    (reference_node : TreeType α) : List α :=
  let q_norm := norm2 query_node.center
  let c_norm := norm2 reference_node.center
  let rad := HasSqrt.sqrt reference_node.radius
  if s.angle_prune then
    if rad ≤ c_norm then [c_norm * q_norm, c_norm] else []
  else []

/-- The object `w4` with angle pruning on. -/
def w12 : MaxIP ℝ := { w4 with angle_prune := true }

/-- The factor `max_cos_qr` of `MaxNodeIP_(TreeType*)`, lines 31-60. -/
def max_cos_qr [HasSqrt α] (s : MaxIP α) (reference_node : TreeType α) : α :=
  let q := s.queries_.col s.query_
  let centroid := reference_node.center
  let c_norm := norm2 centroid
  let rad := HasSqrt.sqrt reference_node.radius
  if s.angle_prune then
    if rad ≤ c_norm then
      let cos_qp := dot q centroid / (s.qnorm_at s.query_ * c_norm)
      let sin_qp := HasSqrt.sqrt (1 - cos_qp * cos_qp)
      let max_sin_pr := rad / c_norm
      let min_cos_pr := HasSqrt.sqrt (1 - max_sin_pr * max_sin_pr)
      if min_cos_pr > cos_qp then
        let cos_qp_max_pr := (cos_qp * min_cos_pr) + (sin_qp * max_sin_pr)
        max cos_qp_max_pr 0
      else 1
    else 1
  else 1

/-- The factor `max_cos_qp` of `MaxNodeIP_(CTreeType*, TreeType*)`, lines 90-122. -/
def max_cos_qp [HasSqrt α] (s : MaxIP α) (query_node : CTreeType α)
    (reference_node : TreeType α) : α :=
  let q := query_node.center
  let cos_w := query_node.radius
  let sin_w := query_node.radius_conjugate
  let q_norm := norm2 q
  let centroid := reference_node.center
  let c_norm := norm2 centroid
  let rad := HasSqrt.sqrt reference_node.radius
  if s.angle_prune then
    if rad ≤ c_norm then
      let cos_phi := dot q centroid / (c_norm * q_norm)
      let sin_phi := HasSqrt.sqrt (1 - cos_phi * cos_phi)
      let sin_theta := rad / c_norm
      let cos_theta := HasSqrt.sqrt (1 - sin_theta * sin_theta)
      if cos_phi < cos_theta ∧ cos_phi < cos_w then
        let cos_phi_theta := cos_phi * cos_theta + sin_phi * sin_theta
        if cos_phi_theta < cos_w then
          let cos_phi_theta_w :=
            cos_phi_theta * cos_w
              + (HasSqrt.sqrt (1 - cos_phi_theta * cos_phi_theta) * sin_w)
          max cos_phi_theta_w 0
        else 1
      else 1
    else 1
  else 1

/-- The ledger of `s` is consistent with the object `s0` it started from: `s` differs
from `s0` in the ledger contents, the counters and `query_` only, and the entries of
every query are in non-increasing order of score, each of them the seed or a reference
with its positive inner product. -/
structure LInv (s0 s : MaxIP α) : Prop where
  frame : Frame s0 s
  hk : 1 ≤ s0.knns_
  len1 : s0.max_ips_.length = s0.queries_.n_cols * s0.knns_
  len2 : s0.max_ip_indices_.length = s0.queries_.n_cols * s0.knns_
  sorted : ∀ q, q < s0.queries_.n_cols →
    ((ledgerEntries s q).map Prod.fst).Sorted (fun a b => a ≥ b)
  ok : ∀ q, q < s0.queries_.n_cols → ∀ e ∈ ledgerEntries s q, EntryOK s0 q e

/-- The objects that base-case calls reach from `s0`: calls of `ComputeBaseCase_` for an
existing query, as the single-tree search and `ComputeNaive` make them, and calls of
`ComputeBaseCase_(query_node, reference_node)`, as the dual-tree search makes them, on
leaves whose ranges lie within the queries and the references. -/
inductive BaseCaseRun [HasSqrt α] (s0 : MaxIP α) : MaxIP α → Prop
  | start : BaseCaseRun s0 s0
  | single (s : MaxIP α) (q : Nat) (reference_node : TreeType α) :
      BaseCaseRun s0 s → q < s0.queries_.n_cols →
      (∀ i ∈ List.range' reference_node.begin_ (reference_node.end_ - reference_node.begin_),
        i < s0.references_.n_cols) →
      BaseCaseRun s0 (ComputeBaseCase_ { s with query_ := q } reference_node)
  | dual (s : MaxIP α) (query_node : CTreeType α) (reference_node : TreeType α) :
      BaseCaseRun s0 s →
      (∀ q ∈ List.range' query_node.begin_ (query_node.end_ - query_node.begin_),
        q < s0.queries_.n_cols) →
      (∀ i ∈ List.range' reference_node.begin_ (reference_node.end_ - reference_node.begin_),
        i < s0.references_.n_cols) →
      BaseCaseRun s0 (ComputeBaseCase_dual s query_node reference_node).2

/-- The arguments of `old_from_new_references_` in the loops of lines 563-569, 582-587
and 613-618: `max_ip_indices_(i)` for every slot `i` of the ledger, in order. -/
def fillLookups (s : MaxIP α) : List Nat := (List.range s.max_ips_.length).map s.idx_at

/-- One query `(1)` and one reference `(-1)`, whose inner product is negative, with one
ledger slot and the reference tree a single leaf. -/
def w19 : MaxIP ℝ :=
  { queries_ := ⟨1, [[1]]⟩, references_ := ⟨1, [[-1]]⟩, query_norms_ := [1], knns_ := 1,
    leaf_size_ := 1, max_ips_ := [0], max_ip_indices_ := [sentinel], query_ := 0,
    number_of_prunes_ := 0, distance_computations_ := 0, split_decisions_ := 0,
    reference_tree_ := .leaf [-1] 0 0 1, query_tree_ := none,
    old_from_new_references_ := [0], old_from_new_queries_ := [0],
    angle_prune := false, check_prune := false, dual_tree := false }

/-- Two queries `(1)`, `(2)` in the two leaves of the query tree and two references `(2)`,
`(1)` in the two leaves of the reference tree, with one ledger slot for each query. -/
def w17 : MaxIP ℝ :=
  { queries_ := ⟨1, [[1], [2]]⟩, references_ := ⟨1, [[2], [1]]⟩, query_norms_ := [1, 2],
    knns_ := 1, leaf_size_ := 1, max_ips_ := [0, 0],
    max_ip_indices_ := [sentinel, sentinel], query_ := 0,
    number_of_prunes_ := 0, distance_computations_ := 0, split_decisions_ := 0,
    reference_tree_ := .node [1] 1 0 2 (.leaf [1] 1 0 1) (.leaf [1] 1 1 2),
    query_tree_ := some (.node [1] 1 0 ⟨0, []⟩ 0 2 (.leaf [1] 1 0 ⟨0, []⟩ 0 1)
      (.leaf [1] 1 0 ⟨0, []⟩ 1 2)),
    old_from_new_references_ := [0, 1], old_from_new_queries_ := [0, 1],
    angle_prune := false, check_prune := false, dual_tree := true }

/-- The reference indices in the ledger slots of query `q`, best first, the slots that
hold the marker `(size_t) -1` left out. -/
def heldIndices (s : MaxIP α) (q : Nat) : List Nat :=
  ((ledgerEntries s q).map Prod.snd).filter fun i => decide (i ≠ sentinel)

/-- The invariant behind the distinctness of the indices a query holds: the object `s`
differs from `s0` in the ledger contents, the counters and `query_` only, the indices
every query holds are pairwise distinct, and every one of them is a reference that
the relation `V` records as offered to the query. -/
structure NInv (s0 s : MaxIP α) (V : Nat → Nat → Prop) : Prop where
  frame : Frame s0 s
  len1 : s0.max_ips_.length = s0.queries_.n_cols * s0.knns_
  len2 : s0.max_ip_indices_.length = s0.queries_.n_cols * s0.knns_
  nd : ∀ q, q < s0.queries_.n_cols → (heldIndices s q).Nodup
  sub : ∀ q, q < s0.queries_.n_cols → ∀ i ∈ heldIndices s q, V q i

/-- The contract of one call of the dual recursion on `(qn, rn)` for the distinctness of
the indices: when the queries under `qn` and the references under `rn` are pairwise
distinct and no reference under `rn` was offered to a query under `qn`, the call keeps
the indices of every query pairwise distinct and offers no other references. -/
def DistinctSpec [HasSqrt α] (s0 : MaxIP α) (qn : CTreeType α) (rn : TreeType α) : Prop :=
  ∀ (ub : α) (s : MaxIP α) (V : Nat → Nat → Prop), NInv s0 s V →
    qn.indices.Nodup → rn.indices.Nodup → (∀ q ∈ qn.indices, q < s0.queries_.n_cols) →
    (∀ q ∈ qn.indices, ∀ i ∈ rn.indices, ¬ V q i) →
    NInv s0 (ComputeNeighborsRecursion_dual qn rn ub s).1.2
      (fun q i => V q i ∨ (q ∈ qn.indices ∧ i ∈ rn.indices))

/-- The object `w8` with two ledger slots for its query. -/
def w21 : MaxIP ℝ :=
  { w8 with
    knns_ := 2
    max_ips_ := [0, 0]
    max_ip_indices_ := [sentinel, sentinel] }

end ProofDefs

section Ledger

variable {α : Type} [LinearOrderedField α]

theorem writeSlots_succ {β : Type} (l : List β) (ind : Nat) (vals : Nat → β) (k : Nat) :
    writeSlots l ind vals (k + 1) = (writeSlots l ind vals k).set (ind + k) (vals k) := by
  simp [writeSlots, List.range_succ, List.foldl_append]

theorem length_writeSlots {β : Type} (l : List β) (ind : Nat) (vals : Nat → β) (k : Nat) :
    (writeSlots l ind vals k).length = l.length := by
  induction k with
  | zero => simp [writeSlots]
  | succ k ih => rw [writeSlots_succ, List.length_set, ih]

theorem getD_writeSlots {β : Type} (l : List β) (ind : Nat) (vals : Nat → β) (k : Nat)
    (j : Nat) (d : β) :
    (writeSlots l ind vals k).getD j d =
      if ind ≤ j ∧ j < ind + k ∧ j < l.length then vals (j - ind) else l.getD j d := by
  induction k with
  | zero =>
    have : ¬ (ind ≤ j ∧ j < ind + 0 ∧ j < l.length) := by omega
    rw [if_neg this]; rfl
  | succ k ih =>
    rw [writeSlots_succ]
    rw [List.getD_eq_getElem?_getD, List.getElem?_set, length_writeSlots]
    by_cases h : ind + k = j
    · subst h
      by_cases hl : ind + k < l.length
      · simp [hl]
      · simp [hl]
        rw [← List.getD_eq_getElem?_getD]
        rw [List.getD_eq_default _ _ (by omega)]
    · rw [if_neg h, ← List.getD_eq_getElem?_getD, ih]
      by_cases h1 : ind ≤ j ∧ j < ind + k ∧ j < l.length
      · rw [if_pos h1, if_pos ⟨h1.1, by omega, h1.2.2⟩]
      · rw [if_neg h1, if_neg (by omega)]

theorem foldl_pair_set {β γ : Type} (l1 : List β) (l2 : List γ) (ind : Nat)
    (v1 : Nat → β) (v2 : Nat → γ) (k : Nat) :
    (List.range k).foldl
        (fun (acc : List β × List γ) i => (acc.1.set (ind + i) (v1 i), acc.2.set (ind + i) (v2 i)))
        (l1, l2) = (writeSlots l1 ind v1 k, writeSlots l2 ind v2 k) := by
  induction k with
  | zero => simp [writeSlots]
  | succ k ih =>
    rw [List.range_succ, List.foldl_append, ih, writeSlots_succ, writeSlots_succ]
    rfl

theorem foldl_push_eq {β γ : Type} (p : γ → Prop) [DecidablePred p] (f : γ → β) (l : List γ)
    (start : List β) :
    l.foldl (fun c x => if p x then c ++ [f x] else c) start
      = start ++ (l.filter fun x => decide (p x)).map f := by
  induction l generalizing start with
  | nil => simp
  | cons x l ih =>
    rw [List.foldl_cons, ih]
    by_cases h : p x
    · simp [h, List.filter_cons]
    · simp [h, List.filter_cons]

theorem candidates_eq (s : MaxIP α) (t : TreeType α) :
    candidates s t = ledgerEntries s s.query_ ++ leafCands s t.begin_ (t.end_ - t.begin_) := by
  unfold candidates leafCands ledgerEntries ipQ floorOf
  exact foldl_push_eq
    (fun i => dot (s.queries_.col s.query_) (s.references_.col i)
      > s.ips_at (s.query_ * s.knns_ + s.knns_ - 1))
    (fun i => (dot (s.queries_.col s.query_) (s.references_.col i), i)) _ _

theorem length_ledgerEntries (s : MaxIP α) (q : Nat) : (ledgerEntries s q).length = s.knns_ := by
  simp [ledgerEntries]

theorem length_sortedDesc (l : List (α × Nat)) : (sortedDesc l).length = l.length := by
  simp [sortedDesc, List.length_insertionSort]

theorem ComputeBaseCase_max_ips (s : MaxIP α) (t : TreeType α) :
    (ComputeBaseCase_ s t).max_ips_ = writeSlots s.max_ips_ (s.query_ * s.knns_)
      (fun i => ((sortedDesc (candidates s t)).getD i (0, 0)).1) s.knns_ := by
  unfold ComputeBaseCase_
  simp only [foldl_pair_set, sortedDesc]

theorem ComputeBaseCase_max_ip_indices (s : MaxIP α) (t : TreeType α) :
    (ComputeBaseCase_ s t).max_ip_indices_ = writeSlots s.max_ip_indices_ (s.query_ * s.knns_)
      (fun i => ((sortedDesc (candidates s t)).getD i (0, 0)).2) s.knns_ := by
  unfold ComputeBaseCase_
  simp only [foldl_pair_set, sortedDesc]

theorem ComputeBaseCase_knns (s : MaxIP α) (t : TreeType α) :
    (ComputeBaseCase_ s t).knns_ = s.knns_ := rfl

theorem ComputeBaseCase_query (s : MaxIP α) (t : TreeType α) :
    (ComputeBaseCase_ s t).query_ = s.query_ := rfl

theorem ComputeBaseCase_entries_self (s : MaxIP α) (t : TreeType α)
    (h1 : (s.query_ + 1) * s.knns_ ≤ s.max_ips_.length)
    (h2 : (s.query_ + 1) * s.knns_ ≤ s.max_ip_indices_.length) :
    ledgerEntries (ComputeBaseCase_ s t) s.query_ = (sortedDesc (candidates s t)).take s.knns_ := by
  have hlen : s.knns_ ≤ (sortedDesc (candidates s t)).length := by
    rw [length_sortedDesc, candidates_eq, List.length_append, length_ledgerEntries]; omega
  apply List.ext_getElem
  · rw [length_ledgerEntries, ComputeBaseCase_knns, List.length_take]; omega
  · intro i hi1 hi2
    rw [length_ledgerEntries, ComputeBaseCase_knns] at hi1
    have hq : s.query_ * s.knns_ + s.knns_ = (s.query_ + 1) * s.knns_ := by ring
    simp only [ledgerEntries, List.getElem_map, List.getElem_range, MaxIP.ips_at, MaxIP.idx_at,
      ComputeBaseCase_knns, ComputeBaseCase_max_ips, ComputeBaseCase_max_ip_indices,
      getD_writeSlots, List.getElem_take]
    rw [if_pos ⟨by omega, by omega, by omega⟩, if_pos ⟨by omega, by omega, by omega⟩]
    have : s.query_ * s.knns_ + i - s.query_ * s.knns_ = i := by omega
    rw [this, List.getD_eq_getElem _ _ (by omega)]

theorem ComputeBaseCase_entries_other (s : MaxIP α) (t : TreeType α) (q : Nat)
    (hq : q ≠ s.query_) :
    ledgerEntries (ComputeBaseCase_ s t) q = ledgerEntries s q := by
  unfold ledgerEntries
  apply List.map_congr_left
  intro i hi
  rw [List.mem_range, ComputeBaseCase_knns] at hi
  simp only [MaxIP.ips_at, MaxIP.idx_at, ComputeBaseCase_knns, ComputeBaseCase_max_ips,
    ComputeBaseCase_max_ip_indices, getD_writeSlots]
  have hno : ¬ (s.query_ * s.knns_ ≤ q * s.knns_ + i ∧ q * s.knns_ + i < s.query_ * s.knns_ + s.knns_) := by
    intro ⟨ha, hb⟩
    rcases Nat.lt_or_gt_of_ne hq with hlt | hgt
    · have : (q + 1) * s.knns_ ≤ s.query_ * s.knns_ := Nat.mul_le_mul_right _ hlt
      rw [Nat.add_mul] at this; omega
    · have : (s.query_ + 1) * s.knns_ ≤ q * s.knns_ := Nat.mul_le_mul_right _ hgt
      rw [Nat.add_mul] at this; omega
  rw [if_neg (fun h => hno ⟨h.1, h.2.1⟩), if_neg (fun h => hno ⟨h.1, h.2.1⟩)]

instance pairLE_total : IsTotal (α × Nat) pairLE :=
  ⟨fun a b => by
    unfold pairLE
    rcases lt_trichotomy a.1 b.1 with h | h | h
    · exact Or.inl (Or.inl h)
    · rcases Nat.le_total a.2 b.2 with h2 | h2
      · exact Or.inl (Or.inr ⟨h, h2⟩)
      · exact Or.inr (Or.inr ⟨h.symm, h2⟩)
    · exact Or.inr (Or.inl h)⟩

instance pairLE_trans : IsTrans (α × Nat) pairLE :=
  ⟨fun a b c hab hbc => by
    unfold pairLE at *
    rcases hab with h | ⟨h, h'⟩ <;> rcases hbc with g | ⟨g, g'⟩
    · exact Or.inl (lt_trans h g)
    · exact Or.inl (g ▸ h)
    · exact Or.inl (h ▸ g)
    · exact Or.inr ⟨h.trans g, le_trans h' g'⟩⟩

theorem pairLE_fst {a b : α × Nat} (h : pairLE a b) : a.1 ≤ b.1 := by
  rcases h with h | ⟨h, _⟩
  · exact le_of_lt h
  · exact le_of_eq h

theorem sortedDesc_perm (l : List (α × Nat)) : (sortedDesc l).Perm l :=
  (List.reverse_perm _).trans (List.perm_insertionSort _ _)

theorem sortedDesc_scores (l : List (α × Nat)) :
    ((sortedDesc l).map Prod.fst).Sorted (fun a b => a ≥ b) := by
  unfold sortedDesc
  have h := List.sorted_insertionSort (pairLE : α × Nat → α × Nat → Prop) l
  have h2 : (List.insertionSort pairLE l).reverse.Pairwise (fun a b => pairLE b a) :=
    List.pairwise_reverse.mpr h
  exact List.Pairwise.map Prod.fst (fun a b hab => pairLE_fst hab) h2

theorem Covers.perm {E : List (α × Nat)} {M M' : List α} (h : Covers E M) (hp : M.Perm M') :
    Covers E M' := by
  obtain ⟨hs, R, hR, hle⟩ := h
  exact ⟨hs, R, hR.trans hp, hle⟩

theorem Covers.prune {E : List (α × Nat)} {M N : List α} (h : Covers E M)
    (hN : ∀ x ∈ N, ∀ e ∈ E.map Prod.fst, x ≤ e) : Covers E (M ++ N) := by
  obtain ⟨hs, R, hR, hle⟩ := h
  refine ⟨hs, R ++ N, ?_, ?_⟩
  · rw [← List.append_assoc]; exact hR.append_right N
  · intro r hr e he
    rcases List.mem_append.mp hr with h | h
    · exact hle r h e he
    · exact hN r h e he

theorem Covers.unique {E : List (α × Nat)} {M : List α} (h : Covers E M) :
    E.map Prod.fst = (M.insertionSort (fun a b => a ≥ b)).take E.length := by
  obtain ⟨hs, R, hR, hle⟩ := h
  have hsorted : (E.map Prod.fst ++ R.insertionSort (fun a b => a ≥ b)).Sorted (fun a b => a ≥ b) := by
    unfold List.Sorted
    rw [List.pairwise_append]
    refine ⟨hs, List.sorted_insertionSort _ _, ?_⟩
    intro a ha b hb
    exact hle b ((List.mem_insertionSort _).mp hb) a ha
  have hperm : (E.map Prod.fst ++ R.insertionSort (fun a b => a ≥ b)).Perm
      (M.insertionSort (fun a b => a ≥ b)) :=
    ((List.perm_insertionSort _ R).append_left _).trans (hR.trans (List.perm_insertionSort _ M).symm)
  have heq := List.eq_of_perm_of_sorted hperm hsorted (List.sorted_insertionSort _ _)
  rw [← heq, List.take_left' (by simp)]

theorem Covers.basecase {E C : List (α × Nat)} {M N : List α} {fl : α}
    (h : Covers E M) (hmem : fl ∈ E.map Prod.fst) (hmin : ∀ e ∈ E.map Prod.fst, fl ≤ e)
    (hC : ∀ c ∈ C, fl < c.1) (hN : ∀ x ∈ N, x ≤ fl) :
    Covers ((sortedDesc (E ++ C)).take E.length) (M ++ (C.map Prod.fst ++ N)) := by
  obtain ⟨_, R, hR, hle⟩ := h
  have hsd := sortedDesc_scores (E ++ C)
  have htd : (sortedDesc (E ++ C)).map Prod.fst
      = ((sortedDesc (E ++ C)).take E.length).map Prod.fst
        ++ ((sortedDesc (E ++ C)).drop E.length).map Prod.fst := by
    rw [← List.map_append, List.take_append_drop]
  have hall : ∀ e ∈ ((sortedDesc (E ++ C)).take E.length).map Prod.fst, fl ≤ e := by
    intro e he
    obtain ⟨p, hp, rfl⟩ := List.mem_map.mp he
    have hp' : p ∈ E ++ C := (sortedDesc_perm _).subset (List.mem_of_mem_take hp)
    rcases List.mem_append.mp hp' with h1 | h1
    · exact hmin _ (List.mem_map_of_mem _ h1)
    · exact le_of_lt (hC p h1)
  refine ⟨?_, ((sortedDesc (E ++ C)).drop E.length).map Prod.fst ++ (R ++ N), ?_, ?_⟩
  · rw [htd] at hsd
    exact (List.pairwise_append.mp hsd).1
  · rw [← List.append_assoc, ← htd]
    have h1 : ((sortedDesc (E ++ C)).map Prod.fst).Perm (E.map Prod.fst ++ C.map Prod.fst) := by
      rw [← List.map_append]; exact (sortedDesc_perm _).map _
    refine (h1.append_right _).trans ?_
    have h2 : (E.map Prod.fst ++ C.map Prod.fst ++ (R ++ N)).Perm
        ((E.map Prod.fst ++ R) ++ (C.map Prod.fst ++ N)) := by
      simp only [List.append_assoc]
      refine List.Perm.append_left _ ?_
      rw [← List.append_assoc, ← List.append_assoc]
      exact List.Perm.append_right _ List.perm_append_comm
    exact h2.trans (hR.append_right _)
  · intro r hr e he
    rcases List.mem_append.mp hr with h1 | h1
    · rw [htd] at hsd
      exact (List.pairwise_append.mp hsd).2.2 e he r h1
    · have : r ≤ fl := by
        rcases List.mem_append.mp h1 with h2 | h2
        · exact hle r h2 fl hmem
        · exact hN r h2
      exact le_trans this (hall e he)

theorem foldl_invariant {σ γ : Type} (P : σ → Prop) (f : σ → γ → σ) (l : List γ) (s0 : σ)
    (h0 : P s0) (hstep : ∀ s c, c ∈ l → P s → P (f s c)) : P (l.foldl f s0) := by
  induction l generalizing s0 with
  | nil => exact h0
  | cons c l ih =>
    rw [List.foldl_cons]
    exact ih _ (hstep s0 c (List.mem_cons_self _ _) h0)
      (fun s c' hc' hs => hstep s c' (List.mem_cons_of_mem _ hc') hs)

theorem scores_ledgerEntries (s : MaxIP α) (q : Nat) :
    (ledgerEntries s q).map Prod.fst
      = (List.range s.knns_).map fun i => s.ips_at (q * s.knns_ + i) := by
  simp [ledgerEntries, List.map_map, Function.comp_def]

theorem sorted_slots_iff (f : Nat → α) (k : Nat) :
    ((List.range k).map f).Sorted (fun a b => a ≥ b) ↔ ∀ i j, i ≤ j → j < k → f j ≤ f i := by
  unfold List.Sorted
  rw [List.pairwise_iff_getElem]
  constructor
  · intro h i j hij hj
    rcases Nat.eq_or_lt_of_le hij with h1 | h1
    · subst h1; exact le_refl _
    · have := h i j (by simp; omega) (by simp; omega) h1
      simpa using this
  · intro h i j hi hj hij
    simp only [List.length_map, List.length_range] at hi hj
    simpa using h i j (le_of_lt hij) hj

theorem ComputeBaseCase_sorted (s : MaxIP α) (t : TreeType α) (q : Nat)
    (h1 : (s.query_ + 1) * s.knns_ ≤ s.max_ips_.length)
    (h2 : (s.query_ + 1) * s.knns_ ≤ s.max_ip_indices_.length)
    (hs : ((ledgerEntries s q).map Prod.fst).Sorted (fun a b => a ≥ b)) :
    ((ledgerEntries (ComputeBaseCase_ s t) q).map Prod.fst).Sorted (fun a b => a ≥ b) := by
  by_cases hq : q = s.query_
  · subst hq
    rw [ComputeBaseCase_entries_self s t h1 h2]
    have := sortedDesc_scores (candidates s t)
    exact List.Pairwise.sublist ((List.take_sublist _ _).map _) this
  · rw [ComputeBaseCase_entries_other s t q hq]; exact hs

theorem ComputeBaseCase_length_ips (s : MaxIP α) (t : TreeType α) :
    (ComputeBaseCase_ s t).max_ips_.length = s.max_ips_.length := by
  rw [ComputeBaseCase_max_ips, length_writeSlots]

theorem ComputeBaseCase_length_indices (s : MaxIP α) (t : TreeType α) :
    (ComputeBaseCase_ s t).max_ip_indices_.length = s.max_ip_indices_.length := by
  rw [ComputeBaseCase_max_ip_indices, length_writeSlots]

end Ledger

section Geometry

open Real InnerProductGeometry

variable {E : Type} [NormedAddCommGroup E] [InnerProductSpace ℝ E]

/-- The cosines of the three angles between three non-zero vectors -/
theorem cos_angle_gram (x y z : E) (hx : x ≠ 0) (hy : y ≠ 0) (hz : z ≠ 0) :
    (cos (angle x z) - cos (angle x y) * cos (angle y z)) ^ 2
      ≤ (1 - cos (angle x y) ^ 2) * (1 - cos (angle y z) ^ 2) := by
  have nx : ‖x‖ ≠ 0 := norm_ne_zero_iff.mpr hx
  have ny : ‖y‖ ≠ 0 := norm_ne_zero_iff.mpr hy
  have nz : ‖z‖ ≠ 0 := norm_ne_zero_iff.mpr hz
  set a := cos (angle x y) with ha
  set b := cos (angle y z) with hb
  set m := cos (angle x z) with hm
  set X : E := (‖x‖)⁻¹ • x with hX
  set Y : E := (‖y‖)⁻¹ • y with hY
  set Z : E := (‖z‖)⁻¹ • z with hZ
  have hXY : (inner X Y : ℝ) = a := by
    rw [ha, cos_angle, hX, hY, real_inner_smul_left, real_inner_smul_right]
    field_simp
  have hYZ : (inner Y Z : ℝ) = b := by
    rw [hb, cos_angle, hY, hZ, real_inner_smul_left, real_inner_smul_right]
    field_simp
  have hXZ : (inner X Z : ℝ) = m := by
    rw [hm, cos_angle, hX, hZ, real_inner_smul_left, real_inner_smul_right]
    field_simp
  have hYX : (inner Y X : ℝ) = a := by rw [real_inner_comm]; exact hXY
  have hZY : (inner Z Y : ℝ) = b := by rw [real_inner_comm]; exact hYZ
  have hXX : (inner X X : ℝ) = 1 := by
    rw [real_inner_self_eq_norm_sq, hX, norm_smul, norm_inv, norm_norm]
    field_simp
  have hYY : (inner Y Y : ℝ) = 1 := by
    rw [real_inner_self_eq_norm_sq, hY, norm_smul, norm_inv, norm_norm]
    field_simp
  have hZZ : (inner Z Z : ℝ) = 1 := by
    rw [real_inner_self_eq_norm_sq, hZ, norm_smul, norm_inv, norm_norm]
    field_simp
  have cs := real_inner_mul_inner_self_le (X - a • Y) (Z - b • Y)
  simp only [inner_sub_left, inner_sub_right, real_inner_smul_left, real_inner_smul_right,
    hXY, hYZ, hXZ, hYX, hZY, hXX, hYY, hZZ] at cs
  nlinarith [cs]

theorem angle_triangle (x y z : E) (hx : x ≠ 0) (hy : y ≠ 0) (hz : z ≠ 0) :
    angle x z ≤ angle x y + angle y z := by
  by_contra hcon
  push_neg at hcon
  have h1 := angle_nonneg x y
  have h2 := angle_nonneg y z
  have h3 := angle_le_pi x z
  have hlt : cos (angle x z) < cos (angle x y + angle y z) :=
    cos_lt_cos_of_nonneg_of_le_pi (by linarith) h3 hcon
  have hg := cos_angle_gram x y z hx hy hz
  have s1 : 0 ≤ sin (angle x y) := sin_nonneg_of_nonneg_of_le_pi h1 (angle_le_pi x y)
  have s2 : 0 ≤ sin (angle y z) := sin_nonneg_of_nonneg_of_le_pi h2 (angle_le_pi y z)
  have e1 := sin_sq_add_cos_sq (angle x y)
  have e2 := sin_sq_add_cos_sq (angle y z)
  rw [cos_add] at hlt
  have hsq : (cos (angle x z) - cos (angle x y) * cos (angle y z)) ^ 2
      ≤ (sin (angle x y) * sin (angle y z)) ^ 2 := by
    have : (1 - cos (angle x y) ^ 2) * (1 - cos (angle y z) ^ 2)
        = (sin (angle x y) * sin (angle y z)) ^ 2 := by
      rw [mul_pow]; congr 1 <;> linarith
    rw [← this]; exact hg
  have habs := abs_le_of_sq_le_sq' hsq (mul_nonneg s1 s2)
  linarith [habs.1]

theorem le_of_cos_le {x y : ℝ} (hx0 : 0 ≤ y) (hxpi : x ≤ π) (h : cos y ≤ cos x) : x ≤ y := by
  by_contra hcon
  push_neg at hcon
  have := cos_lt_cos_of_nonneg_of_le_pi hx0 hxpi hcon
  linarith

/-- A point of a ball that does not contain the origin in its interior is seen from the
origin within the half-angle of the ball. -/
theorem cos_angle_ball (c r : E) (R : ℝ) (hc : c ≠ 0) (hr : r ≠ 0) (hR : 0 ≤ R)
    (hRc : R ≤ ‖c‖) (hball : ‖r - c‖ ≤ R) :
    √(1 - R / ‖c‖ * (R / ‖c‖)) ≤ cos (angle c r) := by
  have nc : 0 < ‖c‖ := norm_pos_iff.mpr hc
  have nr : 0 < ‖r‖ := norm_pos_iff.mpr hr
  have hq : R / ‖c‖ ≤ 1 := (div_le_one nc).mpr hRc
  have hq0 : 0 ≤ R / ‖c‖ := div_nonneg hR nc.le
  have harg : 0 ≤ 1 - R / ‖c‖ * (R / ‖c‖) := by nlinarith
  set t := √(1 - R / ‖c‖ * (R / ‖c‖)) with ht
  have ht0 : 0 ≤ t := Real.sqrt_nonneg _
  have htsq : t ^ 2 = 1 - R / ‖c‖ * (R / ‖c‖) := Real.sq_sqrt harg
  have hsq : ‖r - c‖ ^ 2 ≤ R ^ 2 := pow_le_pow_left₀ (norm_nonneg _) hball 2
  have hexp : ‖r - c‖ ^ 2 = ‖r‖ ^ 2 - 2 * inner r c + ‖c‖ ^ 2 := by
    rw [@norm_sub_sq_real]
  have hcomm : (inner r c : ℝ) = inner c r := real_inner_comm _ _
  have htc : (t * ‖c‖) ^ 2 = ‖c‖ ^ 2 - R ^ 2 := by
    rw [mul_pow, htsq]; field_simp; ring
  have hX : t * ‖c‖ * ‖r‖ ≤ inner c r := by
    nlinarith [sq_nonneg (‖r‖ - t * ‖c‖)]
  rw [cos_angle, le_div_iff₀ (mul_pos nc nr)]
  linarith

theorem sqrt_real (x : ℝ) : (HasSqrt.sqrt x : ℝ) = √x := rfl

theorem inner_le_baseline (q c r : E) (R : ℝ) (hball : ‖r - c‖ ≤ R) :
    inner q r ≤ ‖q‖ * (‖c‖ + R) := by
  have h1 : (inner q r : ℝ) = inner q c + inner q (r - c) := by
    rw [inner_sub_right]; ring
  have h2 := real_inner_le_norm q c
  have h3 := real_inner_le_norm q (r - c)
  have h4 : ‖q‖ * ‖r - c‖ ≤ ‖q‖ * R := mul_le_mul_of_nonneg_left hball (norm_nonneg _)
  rw [h1]; nlinarith

theorem norm_le_of_ball (c r : E) (R : ℝ) (hball : ‖r - c‖ ≤ R) : ‖r‖ ≤ ‖c‖ + R := by
  have : r = c + (r - c) := by abel
  calc ‖r‖ = ‖c + (r - c)‖ := by rw [← this]
    _ ≤ ‖c‖ + ‖r - c‖ := norm_add_le _ _
    _ ≤ ‖c‖ + R := by linarith

theorem single_bound_E (q c r : E) (R : ℝ) (hq : q ≠ 0) (hc : c ≠ 0) (hR : 0 ≤ R)
    (hball : ‖r - c‖ ≤ R) :
    inner q r ≤ ‖q‖ * (‖c‖ + R) * maxCosQr (inner q c) ‖q‖ ‖c‖ R := by
  have nq : 0 < ‖q‖ := norm_pos_iff.mpr hq
  have nc : 0 < ‖c‖ := norm_pos_iff.mpr hc
  have hbase := inner_le_baseline q c r R hball
  have hpos : 0 ≤ ‖q‖ * (‖c‖ + R) := by positivity
  unfold maxCosQr
  simp only [sqrt_real]
  split_ifs with h1 h2
  · -- the angle between q and the centroid exceeds the half-angle of the ball
    set a := (inner q c : ℝ) / (‖q‖ * ‖c‖) with ha
    set t := √(1 - R / ‖c‖ * (R / ‖c‖)) with ht
    set V := a * t + √(1 - a * a) * (R / ‖c‖) with hV
    by_cases hip : (inner q r : ℝ) ≤ 0
    · exact le_trans hip (mul_nonneg hpos (le_max_right _ _))
    push_neg at hip
    have hr : r ≠ 0 := by
      rintro rfl
      simp at hip
    have nr : 0 < ‖r‖ := norm_pos_iff.mpr hr
    have hcos_a : cos (angle q c) = a := by rw [cos_angle]
    have hq1 : R / ‖c‖ ≤ 1 := (div_le_one nc).mpr h1
    have hq0 : 0 ≤ R / ‖c‖ := div_nonneg hR nc.le
    have harg : 0 ≤ 1 - R / ‖c‖ * (R / ‖c‖) := by nlinarith
    have ht0 : 0 ≤ t := Real.sqrt_nonneg _
    have ht1 : t ≤ 1 := by
      rw [ht]; apply Real.sqrt_le_one.mpr; nlinarith [mul_nonneg hq0 hq0]
    have htsq : t ^ 2 = 1 - R / ‖c‖ * (R / ‖c‖) := Real.sq_sqrt harg
    have hsin_t : √(1 - t ^ 2) = R / ‖c‖ := by
      rw [htsq]
      have : 1 - (1 - R / ‖c‖ * (R / ‖c‖)) = (R / ‖c‖) ^ 2 := by ring
      rw [this, Real.sqrt_sq hq0]
    have hball_angle : angle c r ≤ arccos t := by
      apply le_of_cos_le (arccos_nonneg _) (angle_le_pi _ _)
      rw [cos_arccos (by linarith) ht1]
      exact cos_angle_ball c r R hc hr hR h1 hball
    have htri := angle_triangle q r c hq hr hc
    rw [angle_comm r c] at htri
    have hphi : arccos t ≤ angle q c := by
      apply le_of_cos_le (angle_nonneg _ _) (arccos_le_pi _)
      rw [cos_arccos (by linarith) ht1, hcos_a]
      exact le_of_lt h2
    have hcosle : cos (angle q r) ≤ cos (angle q c - arccos t) :=
      cos_le_cos_of_nonneg_of_le_pi (by linarith) (angle_le_pi _ _) (by linarith)
    have hVeq : cos (angle q c - arccos t) = V := by
      rw [cos_sub, cos_arccos (by linarith) ht1, sin_arccos, hcos_a, hsin_t,
        sin_eq_sqrt_one_sub_cos_sq (angle_nonneg _ _) (angle_le_pi _ _), hcos_a, hV, pow_two]
    rw [hVeq] at hcosle
    have hinner : (inner q r : ℝ) = cos (angle q r) * (‖q‖ * ‖r‖) :=
      (cos_angle_mul_norm_mul_norm q r).symm
    have hcpos : 0 < cos (angle q r) := by
      by_contra hneg
      push_neg at hneg
      have : cos (angle q r) * (‖q‖ * ‖r‖) ≤ 0 :=
        mul_nonpos_of_nonpos_of_nonneg hneg (by positivity)
      linarith
    have hVpos : 0 < V := lt_of_lt_of_le hcpos hcosle
    have hnr := norm_le_of_ball c r R hball
    calc (inner q r : ℝ) = cos (angle q r) * (‖q‖ * ‖r‖) := hinner
      _ ≤ V * (‖q‖ * ‖r‖) := mul_le_mul_of_nonneg_right hcosle (by positivity)
      _ ≤ V * (‖q‖ * (‖c‖ + R)) :=
          mul_le_mul_of_nonneg_left (mul_le_mul_of_nonneg_left hnr nq.le) hVpos.le
      _ = ‖q‖ * (‖c‖ + R) * V := by ring
      _ ≤ ‖q‖ * (‖c‖ + R) * max V 0 := mul_le_mul_of_nonneg_left (le_max_left _ _) hpos
  · rw [mul_one]; exact hbase
  · rw [mul_one]; exact hbase

theorem dual_bound_E (q u c r : E) (R cos_w sin_w : ℝ) (hq : q ≠ 0) (hu : u ≠ 0)
    (hc : c ≠ 0) (hR : 0 ≤ R) (hball : ‖r - c‖ ≤ R)
    (hcone : cos_w ≤ inner q u / (‖q‖ * ‖u‖)) (hsin : sin_w = √(1 - cos_w ^ 2)) :
    inner q r ≤ ‖q‖ * ((‖c‖ + R) * maxCosQp (inner u c) ‖u‖ ‖c‖ R cos_w sin_w) := by
  have nq : 0 < ‖q‖ := norm_pos_iff.mpr hq
  have nu : 0 < ‖u‖ := norm_pos_iff.mpr hu
  have nc : 0 < ‖c‖ := norm_pos_iff.mpr hc
  have hbase := inner_le_baseline q c r R hball
  have hpos : 0 ≤ ‖q‖ * (‖c‖ + R) := by positivity
  unfold maxCosQp
  simp only [sqrt_real]
  split_ifs with h1 h2 h3
  · set a := (inner u c : ℝ) / (‖c‖ * ‖u‖) with ha
    set t := √(1 - R / ‖c‖ * (R / ‖c‖)) with ht
    set V := a * t + √(1 - a * a) * (R / ‖c‖) with hV
    set W := V * cos_w + √(1 - V * V) * sin_w with hW
    rw [← mul_assoc]
    by_cases hip : (inner q r : ℝ) ≤ 0
    · exact le_trans hip (mul_nonneg hpos (le_max_right _ _))
    push_neg at hip
    have hr : r ≠ 0 := by
      rintro rfl
      simp at hip
    have nr : 0 < ‖r‖ := norm_pos_iff.mpr hr
    have hcos_a : cos (angle u c) = a := by rw [cos_angle, ha, mul_comm ‖u‖ ‖c‖]
    have hq1 : R / ‖c‖ ≤ 1 := (div_le_one nc).mpr h1
    have hq0 : 0 ≤ R / ‖c‖ := div_nonneg hR nc.le
    have harg : 0 ≤ 1 - R / ‖c‖ * (R / ‖c‖) := by nlinarith
    have ht0 : 0 ≤ t := Real.sqrt_nonneg _
    have ht1 : t ≤ 1 := by
      rw [ht]; apply Real.sqrt_le_one.mpr; nlinarith [mul_nonneg hq0 hq0]
    have htsq : t ^ 2 = 1 - R / ‖c‖ * (R / ‖c‖) := Real.sq_sqrt harg
    have hsin_t : √(1 - t ^ 2) = R / ‖c‖ := by
      rw [htsq]
      have : 1 - (1 - R / ‖c‖ * (R / ‖c‖)) = (R / ‖c‖) ^ 2 := by ring
      rw [this, Real.sqrt_sq hq0]
    -- the ball is seen within `arccos t`
    have hball_angle : angle c r ≤ arccos t := by
      apply le_of_cos_le (arccos_nonneg _) (angle_le_pi _ _)
      rw [cos_arccos (by linarith) ht1]
      exact cos_angle_ball c r R hc hr hR h1 hball
    have hphi : arccos t ≤ angle u c := by
      apply le_of_cos_le (angle_nonneg _ _) (arccos_le_pi _)
      rw [cos_arccos (by linarith) ht1, hcos_a]
      exact le_of_lt h2.1
    have hVeq : cos (angle u c - arccos t) = V := by
      rw [cos_sub, cos_arccos (by linarith) ht1, sin_arccos, hcos_a, hsin_t,
        sin_eq_sqrt_one_sub_cos_sq (angle_nonneg _ _) (angle_le_pi _ _), hcos_a, hV, pow_two]
    -- the cone is seen within `arccos cos_w`
    have hcw1 : cos_w ≤ 1 := by
      have := abs_real_inner_div_norm_mul_norm_le_one q u
      exact le_trans hcone (le_trans (le_abs_self _) this)
    have hVm1 : -1 ≤ V := by rw [← hVeq]; exact neg_one_le_cos _
    have hcwm1 : -1 ≤ cos_w := by linarith
    have hcone_angle : angle q u ≤ arccos cos_w := by
      apply le_of_cos_le (arccos_nonneg _) (angle_le_pi _ _)
      rw [cos_arccos hcwm1 hcw1, cos_angle]
      exact hcone
    have hgap : arccos cos_w ≤ angle u c - arccos t := by
      apply le_of_cos_le (by linarith) (arccos_le_pi _)
      rw [cos_arccos hcwm1 hcw1, hVeq]
      exact le_of_lt h3
    have htri1 := angle_triangle u r c hu hr hc
    rw [angle_comm r c] at htri1
    have htri2 := angle_triangle u q r hu hq hr
    rw [angle_comm u q] at htri2
    have hcosle : cos (angle q r) ≤ cos (angle u c - arccos t - arccos cos_w) :=
      cos_le_cos_of_nonneg_of_le_pi (by linarith) (angle_le_pi _ _) (by linarith)
    have hrange : angle u c - arccos t ≤ π := by
      have := angle_le_pi u c
      have := arccos_nonneg t
      linarith
    have hWeq : cos (angle u c - arccos t - arccos cos_w) = W := by
      rw [cos_sub, hVeq, cos_arccos hcwm1 hcw1, sin_arccos, ← hsin,
        sin_eq_sqrt_one_sub_cos_sq (by linarith) hrange, hVeq, hW, pow_two]
    rw [hWeq] at hcosle
    have hinner : (inner q r : ℝ) = cos (angle q r) * (‖q‖ * ‖r‖) :=
      (cos_angle_mul_norm_mul_norm q r).symm
    have hcpos : 0 < cos (angle q r) := by
      by_contra hneg
      push_neg at hneg
      have : cos (angle q r) * (‖q‖ * ‖r‖) ≤ 0 :=
        mul_nonpos_of_nonpos_of_nonneg hneg (by positivity)
      linarith
    have hWpos : 0 < W := lt_of_lt_of_le hcpos hcosle
    have hnr := norm_le_of_ball c r R hball
    calc (inner q r : ℝ) = cos (angle q r) * (‖q‖ * ‖r‖) := hinner
      _ ≤ W * (‖q‖ * ‖r‖) := mul_le_mul_of_nonneg_right hcosle (by positivity)
      _ ≤ W * (‖q‖ * (‖c‖ + R)) :=
          mul_le_mul_of_nonneg_left (mul_le_mul_of_nonneg_left hnr nq.le) hWpos.le
      _ = ‖q‖ * (‖c‖ + R) * W := by ring
      _ ≤ ‖q‖ * (‖c‖ + R) * max W 0 := mul_le_mul_of_nonneg_left (le_max_left _ _) hpos
  · rw [mul_one]; exact hbase
  · rw [mul_one]; exact hbase
  · rw [mul_one]; exact hbase

theorem toE_apply (d : Nat) (l : List ℝ) (i : Fin d) : toE d l i = l.getD i 0 := rfl

theorem dot_eq_sum (d : Nat) (u v : List ℝ) (hu : u.length = d) (hv : v.length = d) :
    dot u v = ∑ i : Fin d, u.getD i 0 * v.getD i 0 := by
  induction d generalizing u v with
  | zero =>
    have : u = [] := List.length_eq_zero.mp hu
    subst this
    simp [dot]
  | succ d ih =>
    match u, v, hu, hv with
    | a :: u', b :: v', hu, hv =>
      have hu' : u'.length = d := by simpa using hu
      have hv' : v'.length = d := by simpa using hv
      have := ih u' v' hu' hv'
      rw [Fin.sum_univ_succ]
      simp only [dot, List.zipWith_cons_cons, List.sum_cons] at this ⊢
      rw [this]
      simp

theorem dot_eq_inner (d : Nat) (u v : List ℝ) (hu : u.length = d) (hv : v.length = d) :
    dot u v = inner (toE d u) (toE d v) := by
  rw [dot_eq_sum d u v hu hv, PiLp.inner_apply]
  apply Finset.sum_congr rfl
  intro i _
  simp [toE_apply, mul_comm]

theorem norm2_eq_norm (d : Nat) (u : List ℝ) (hu : u.length = d) :
    norm2 u = ‖toE d u‖ := by
  unfold norm2
  rw [dot_eq_inner d u u hu hu, norm_eq_sqrt_real_inner]
  rfl

theorem toE_vsub (d : Nat) (u v : List ℝ) (hu : u.length = d) (hv : v.length = d) :
    toE d (vsub u v) = toE d u - toE d v := by
  ext i
  have hi : (i : Nat) < d := i.2
  simp only [PiLp.sub_apply, toE_apply, vsub]
  rw [List.getD_eq_getElem _ _ (by simp [hu, hv]), List.getD_eq_getElem _ _ (by omega),
    List.getD_eq_getElem _ _ (by omega)]
  simp

theorem toE_ne_zero (d : Nat) (u : List ℝ) (hu : u.length = d) (h : norm2 u ≠ 0) :
    toE d u ≠ 0 := by
  intro h0
  apply h
  rw [norm2_eq_norm d u hu, h0, norm_zero]

end Geometry

section Single

variable {α : Type} [LinearOrderedField α]

theorem Frame.refl (s : MaxIP α) : Frame s s :=
  ⟨rfl, rfl, rfl, rfl, rfl, rfl, rfl, rfl, rfl, rfl, rfl, rfl, rfl, rfl⟩

theorem Frame.trans {s s' s'' : MaxIP α} (h : Frame s s') (h' : Frame s' s'') : Frame s s'' :=
  ⟨h'.1.trans h.1, h'.2.trans h.2, h'.3.trans h.3, h'.4.trans h.4, h'.5.trans h.5,
    h'.6.trans h.6, h'.7.trans h.7, h'.8.trans h.8, h'.9.trans h.9, h'.10.trans h.10,
    h'.11.trans h.11, h'.12.trans h.12, h'.13.trans h.13, h'.14.trans h.14⟩

theorem Frame.symm {s s' : MaxIP α} (h : Frame s s') : Frame s' s :=
  ⟨h.1.symm, h.2.symm, h.3.symm, h.4.symm, h.5.symm, h.6.symm, h.7.symm, h.8.symm, h.9.symm,
    h.10.symm, h.11.symm, h.12.symm, h.13.symm, h.14.symm⟩

theorem Frame.ipQ {s s' : MaxIP α} (h : Frame s s') (q i : Nat) : ipQ s' q i = ipQ s q i := by
  unfold MaxIPSearch.ipQ; rw [h.queries_, h.references_]

theorem SameLedger.entries {s s' : MaxIP α} (h : SameLedger s s') (hk : s'.knns_ = s.knns_)
    (q : Nat) : ledgerEntries s' q = ledgerEntries s q := by
  unfold ledgerEntries MaxIP.ips_at MaxIP.idx_at
  rw [h.1, h.2, hk]

theorem SameLedger.floorOf {s s' : MaxIP α} (h : SameLedger s s') (hk : s'.knns_ = s.knns_)
    (q : Nat) : floorOf s' q = floorOf s q := by
  unfold MaxIPSearch.floorOf MaxIP.ips_at
  rw [h.1, hk]

theorem Frame.entryOK {s s' : MaxIP α} (h : Frame s s') (q : Nat) (e : α × Nat) :
    EntryOK s' q e ↔ EntryOK s q e := by
  unfold EntryOK
  rw [h.ipQ, h.references_]

theorem ComputeBaseCase_frame (s : MaxIP α) (t : TreeType α) : Frame s (ComputeBaseCase_ s t) :=
  ⟨rfl, rfl, rfl, rfl, rfl, rfl, rfl, rfl, rfl, rfl, rfl, rfl,
    ComputeBaseCase_length_ips s t, ComputeBaseCase_length_indices s t⟩

theorem floorOf_mem (s : MaxIP α) (q : Nat) (hk : 1 ≤ s.knns_) :
    floorOf s q ∈ (ledgerEntries s q).map Prod.fst := by
  rw [scores_ledgerEntries, List.mem_map]
  refine ⟨s.knns_ - 1, List.mem_range.mpr (by omega), ?_⟩
  unfold floorOf
  congr 1
  omega

theorem floorOf_le (s : MaxIP α) (q : Nat) (hk : 1 ≤ s.knns_)
    (hs : ((ledgerEntries s q).map Prod.fst).Sorted (fun a b => a ≥ b)) :
    ∀ e ∈ (ledgerEntries s q).map Prod.fst, floorOf s q ≤ e := by
  intro e he
  rw [scores_ledgerEntries, List.mem_map] at he
  obtain ⟨i, hi, rfl⟩ := he
  rw [scores_ledgerEntries, sorted_slots_iff] at hs
  have := hs i (s.knns_ - 1) (by have := List.mem_range.mp hi; omega) (by omega)
  unfold floorOf
  have e2 : q * s.knns_ + s.knns_ - 1 = q * s.knns_ + (s.knns_ - 1) := by omega
  rw [e2]; exact this

theorem leafCands_fst (s : MaxIP α) (b n : Nat) :
    (leafCands s b n).map Prod.fst
      = ((List.range' b n).filter fun i => decide (ipQ s s.query_ i > floorOf s s.query_)).map
          (ipQ s s.query_) := by
  simp [leafCands, List.map_map, Function.comp_def]

/-- The state after `ComputeBaseCase_`, for the current query. -/
theorem basecase_inv (s : MaxIP α) (t : TreeType α) (M : List α) (hk : 1 ≤ s.knns_)
    (h1 : (s.query_ + 1) * s.knns_ ≤ s.max_ips_.length)
    (h2 : (s.query_ + 1) * s.knns_ ≤ s.max_ip_indices_.length)
    (hrange : ∀ i ∈ List.range' t.begin_ (t.end_ - t.begin_), i < s.references_.n_cols)
    (hcov : Covers (ledgerEntries s s.query_) M)
    (hok : ∀ e ∈ ledgerEntries s s.query_, EntryOK s s.query_ e) :
    Covers (ledgerEntries (ComputeBaseCase_ s t) s.query_)
        (M ++ (List.range' t.begin_ (t.end_ - t.begin_)).map (ipQ s s.query_)) ∧
      (∀ e ∈ ledgerEntries (ComputeBaseCase_ s t) s.query_, EntryOK s s.query_ e) ∧
      floorOf s s.query_ ≤ floorOf (ComputeBaseCase_ s t) s.query_ := by
  have hfm := floorOf_mem s s.query_ hk
  have hfl := floorOf_le s s.query_ hk hcov.1
  have hent := ComputeBaseCase_entries_self s t h1 h2
  rw [candidates_eq] at hent
  have hlen := length_ledgerEntries s s.query_
  set C := leafCands s t.begin_ (t.end_ - t.begin_) with hC
  set N := ((List.range' t.begin_ (t.end_ - t.begin_)).filter
      fun i => !decide (ipQ s s.query_ i > floorOf s s.query_)).map (ipQ s s.query_) with hN
  have hCgt : ∀ c ∈ C, floorOf s s.query_ < c.1 := by
    intro c hc
    rw [hC, leafCands, List.mem_map] at hc
    obtain ⟨i, hi, rfl⟩ := hc
    have := (List.mem_filter.mp hi).2
    simpa using this
  have hNle : ∀ x ∈ N, x ≤ floorOf s s.query_ := by
    intro x hx
    rw [hN, List.mem_map] at hx
    obtain ⟨i, hi, rfl⟩ := hx
    have := (List.mem_filter.mp hi).2
    simpa using this
  have hb := Covers.basecase (C := C) (N := N) hcov hfm hfl hCgt hNle
  rw [hlen, ← hent] at hb
  have hperm : (C.map Prod.fst ++ N).Perm
      ((List.range' t.begin_ (t.end_ - t.begin_)).map (ipQ s s.query_)) := by
    rw [hC, leafCands_fst, hN, ← List.map_append]
    exact (List.filter_append_perm _ _).map _
  refine ⟨hb.perm (hperm.append_left M), ?_, ?_⟩
  · intro e he
    rw [hent] at he
    have he' : e ∈ ledgerEntries s s.query_ ++ C :=
      (sortedDesc_perm _).subset (List.mem_of_mem_take he)
    rcases List.mem_append.mp he' with h | h
    · exact hok e h
    · right
      have hgt := hCgt e h
      rw [hC, leafCands, List.mem_map] at h
      obtain ⟨i, hi, rfl⟩ := h
      have hf0 : 0 ≤ floorOf s s.query_ := by
        obtain ⟨p, hp, hpe⟩ := List.mem_map.mp hfm
        rcases hok p hp with h0 | h0
        · rw [← hpe, h0]
        · rw [← hpe]; exact le_of_lt h0.1
      exact ⟨lt_of_le_of_lt hf0 hgt, rfl, hrange i (List.mem_filter.mp hi).1⟩
  · have hk' : (ComputeBaseCase_ s t).knns_ = s.knns_ := rfl
    have hm := floorOf_mem (ComputeBaseCase_ s t) s.query_ (by rw [hk']; exact hk)
    rw [hent] at hm
    obtain ⟨p, hp, hpe⟩ := List.mem_map.mp hm
    have hp' : p ∈ ledgerEntries s s.query_ ++ C :=
      (sortedDesc_perm _).subset (List.mem_of_mem_take hp)
    rw [← hpe]
    rcases List.mem_append.mp hp' with h | h
    · exact hfl _ (List.mem_map_of_mem _ h)
    · exact le_of_lt (hCgt p h)

theorem TreeType.All.root {P : TreeType α → Prop} {t : TreeType α} (h : t.All P) : P t := by
  cases t with
  | leaf c r b e => exact h
  | node c r b e l rt => exact h.1

theorem MaxNodeIP_frame [HasSqrt α] (s : MaxIP α) (t : TreeType α) :
    Frame s (MaxNodeIP_ s t).2 :=
  ⟨rfl, rfl, rfl, rfl, rfl, rfl, rfl, rfl, rfl, rfl, rfl, rfl, rfl, rfl⟩

theorem MaxNodeIP_sameLedger [HasSqrt α] (s : MaxIP α) (t : TreeType α) :
    SameLedger s (MaxNodeIP_ s t).2 := ⟨rfl, rfl⟩

theorem MaxNodeIP_query [HasSqrt α] (s : MaxIP α) (t : TreeType α) :
    (MaxNodeIP_ s t).2.query_ = s.query_ := rfl

theorem MaxNodeIP_fst_congr [HasSqrt α] {s s' : MaxIP α} (h : Frame s s')
    (hq : s'.query_ = s.query_) (t : TreeType α) : (MaxNodeIP_ s' t).1 = (MaxNodeIP_ s t).1 := by
  unfold MaxNodeIP_ MaxIP.qnorm_at
  simp only [h.queries_, h.query_norms_, h.angle_prune, hq]

theorem SInv.transport {s0 s s' : MaxIP α} {M : List α} (h : SInv s0 s M) (hf : Frame s s')
    (hq : s'.query_ = s.query_) (hl : SameLedger s s') : SInv s0 s' M :=
  ⟨h.frame.trans hf, hq.trans h.query, h.hk, h.len1, h.len2,
    by rw [hl.entries hf.knns_]; exact h.cov, by rw [hl.entries hf.knns_]; exact h.ok⟩

theorem SInv.floor_le {s0 s : MaxIP α} {M : List α} (h : SInv s0 s M) :
    ∀ e ∈ (ledgerEntries s s0.query_).map Prod.fst, floorOf s s0.query_ ≤ e :=
  floorOf_le s s0.query_ (by rw [h.frame.knns_]; exact h.hk) h.cov.1

theorem SInv.pruneS {s0 s : MaxIP α} {M N : List α} (h : SInv s0 s M)
    (hN : ∀ x ∈ N, x ≤ floorOf s s0.query_) : SInv s0 s (M ++ N) :=
  ⟨h.frame, h.query, h.hk, h.len1, h.len2,
    h.cov.prune (fun x hx e he => le_trans (hN x hx) (h.floor_le e he)), h.ok⟩

theorem SInv.atLeaf {s0 s : MaxIP α} {M : List α} (h : SInv s0 s M) (t : TreeType α)
    (hrange : ∀ i ∈ List.range' t.begin_ (t.end_ - t.begin_), i < s0.references_.n_cols) :
    SInv s0 (ComputeBaseCase_ s t)
        (M ++ (List.range' t.begin_ (t.end_ - t.begin_)).map (ipQ s0 s0.query_)) ∧
      (∀ q, q ≠ s0.query_ → ledgerEntries (ComputeBaseCase_ s t) q = ledgerEntries s q) ∧
      floorOf s s0.query_ ≤ floorOf (ComputeBaseCase_ s t) s0.query_ := by
  have hfun : ipQ s s0.query_ = ipQ s0 s0.query_ := by
    funext i; rw [h.frame.ipQ]
  have hb := basecase_inv s t M (by rw [h.frame.knns_]; exact h.hk)
    (by rw [h.query, h.frame.knns_, h.frame.len_ips]; exact h.len1)
    (by rw [h.query, h.frame.knns_, h.frame.len_idx]; exact h.len2)
    (by rw [h.frame.references_]; exact hrange)
    (by rw [h.query]; exact h.cov)
    (by rw [h.query]; intro e he; exact (h.frame.entryOK _ _).mpr (h.ok e he))
  rw [h.query, hfun] at hb
  refine ⟨⟨h.frame.trans (ComputeBaseCase_frame s t), h.query, h.hk, h.len1, h.len2, hb.1, ?_⟩,
    ?_, hb.2.2⟩
  · intro e he; exact (h.frame.entryOK _ _).mp (hb.2.1 e he)
  · intro q hq
    exact ComputeBaseCase_entries_other s t q (by rw [h.query]; exact hq)

theorem single_rec [HasSqrt α] (s0 : MaxIP α) (t : TreeType α) :
    ∀ (ub : α) (s : MaxIP α) (M : List α), SInv s0 s M →
      (∀ i ∈ t.indices, i < s0.references_.n_cols) →
      (∀ i ∈ t.indices, ipQ s0 s0.query_ i ≤ ub) →
      t.All (fun n => ∀ i ∈ n.indices, ipQ s0 s0.query_ i ≤ (MaxNodeIP_ s0 n).1) →
      SInv s0 (ComputeNeighborsRecursion_ t ub s) (M ++ t.indices.map (ipQ s0 s0.query_)) ∧
        (∀ q, q ≠ s0.query_ →
          ledgerEntries (ComputeNeighborsRecursion_ t ub s) q = ledgerEntries s q) ∧
        floorOf s s0.query_ ≤ floorOf (ComputeNeighborsRecursion_ t ub s) s0.query_ := by
  induction t with
  | leaf c r b e =>
    intro ub s M h hrange hub _
    rw [ComputeNeighborsRecursion_]
    have hfl : s.ips_at (s.query_ * s.knns_ + s.knns_ - 1) = floorOf s s0.query_ := by
      rw [h.query]; rfl
    rw [hfl]
    split_ifs with hp
    · refine ⟨(h.pruneS ?_).transport (Frame.refl _ |>.trans ⟨rfl, rfl, rfl, rfl, rfl, rfl, rfl,
        rfl, rfl, rfl, rfl, rfl, rfl, rfl⟩) rfl ⟨rfl, rfl⟩, fun q _ => rfl, le_refl _⟩
      intro x hx
      obtain ⟨i, hi, rfl⟩ := List.mem_map.mp hx
      exact le_of_lt (lt_of_le_of_lt (hub i hi) hp)
    · exact h.atLeaf (.leaf c r b e) hrange
  | node c r b e left right ihl ihr =>
    intro ub s M h hrange hub hall
    rw [ComputeNeighborsRecursion_]
    have hfl : s.ips_at (s.query_ * s.knns_ + s.knns_ - 1) = floorOf s s0.query_ := by
      rw [h.query]; rfl
    rw [hfl]
    have hrl : ∀ i ∈ left.indices, i < s0.references_.n_cols :=
      fun i hi => hrange i (List.mem_append_left _ hi)
    have hrr : ∀ i ∈ right.indices, i < s0.references_.n_cols :=
      fun i hi => hrange i (List.mem_append_right _ hi)
    by_cases hp : ub < floorOf s s0.query_
    · rw [if_pos hp]
      refine ⟨(h.pruneS ?_).transport (Frame.refl _ |>.trans ⟨rfl, rfl, rfl, rfl, rfl, rfl, rfl,
        rfl, rfl, rfl, rfl, rfl, rfl, rfl⟩) rfl ⟨rfl, rfl⟩, fun q _ => rfl, le_refl _⟩
      intro x hx
      obtain ⟨i, hi, rfl⟩ := List.mem_map.mp hx
      exact le_of_lt (lt_of_le_of_lt (hub i hi) hp)
    rw [if_neg hp]
    dsimp only
    have hs1 : SInv s0 (MaxNodeIP_ s left).2 M :=
      h.transport (MaxNodeIP_frame _ _) rfl (MaxNodeIP_sameLedger _ _)
    have hs2 : SInv s0 (MaxNodeIP_ (MaxNodeIP_ s left).2 right).2 M :=
      hs1.transport (MaxNodeIP_frame _ _) rfl (MaxNodeIP_sameLedger _ _)
    have hbl : (MaxNodeIP_ s left).1 = (MaxNodeIP_ s0 left).1 :=
      MaxNodeIP_fst_congr h.frame h.query left
    have hbr : (MaxNodeIP_ (MaxNodeIP_ s left).2 right).1 = (MaxNodeIP_ s0 right).1 :=
      MaxNodeIP_fst_congr hs1.frame hs1.query right
    have hubl : ∀ i ∈ left.indices, ipQ s0 s0.query_ i ≤ (MaxNodeIP_ s left).1 := by
      rw [hbl]; exact hall.2.1.root
    have hubr : ∀ i ∈ right.indices,
        ipQ s0 s0.query_ i ≤ (MaxNodeIP_ (MaxNodeIP_ s left).2 right).1 := by
      rw [hbr]; exact hall.2.2.root
    have hsame2 : SameLedger s (MaxNodeIP_ (MaxNodeIP_ s left).2 right).2 := ⟨rfl, rfl⟩
    have hk2 : (MaxNodeIP_ (MaxNodeIP_ s left).2 right).2.knns_ = s.knns_ := rfl
    by_cases hlr : (MaxNodeIP_ s left).1 > (MaxNodeIP_ (MaxNodeIP_ s left).2 right).1
    · rw [if_pos hlr]
      obtain ⟨ha, hao, haf⟩ := ihl _ _ M hs2 hrl hubl hall.2.1
      obtain ⟨hb, hbo, hbf⟩ := ihr _ _ _ ha hrr hubr hall.2.2
      refine ⟨?_, ?_, ?_⟩
      · simp only [TreeType.indices, List.map_append, ← List.append_assoc]
        exact hb
      · intro q hq
        rw [hbo q hq, hao q hq, hsame2.entries hk2]
      · rw [hsame2.floorOf hk2] at haf
        exact le_trans haf hbf
    · rw [if_neg hlr]
      obtain ⟨ha, hao, haf⟩ := ihr _ _ M hs2 hrr hubr hall.2.2
      obtain ⟨hb, hbo, hbf⟩ := ihl _ _ _ ha hrl hubl hall.2.1
      refine ⟨?_, ?_, ?_⟩
      · refine ⟨hb.frame, hb.query, hb.hk, hb.len1, hb.len2, ?_, hb.ok⟩
        refine hb.cov.perm ?_
        simp only [TreeType.indices, List.map_append, List.append_assoc]
        exact List.Perm.append_left _ List.perm_append_comm
      · intro q hq
        rw [hbo q hq, hao q hq, hsame2.entries hk2]
      · rw [hsame2.floorOf hk2] at haf
        exact le_trans haf hbf

end Single

section Bounds



theorem MaxNodeIP_fst (s : MaxIP ℝ) (t : TreeType ℝ) :
    (MaxNodeIP_ s t).1 = s.qnorm_at s.query_ * (norm2 t.center + HasSqrt.sqrt t.radius)
      * (if s.angle_prune = true then
          maxCosQr (dot (s.queries_.col s.query_) t.center) (s.qnorm_at s.query_)
            (norm2 t.center) (HasSqrt.sqrt t.radius)
        else 1) := rfl

theorem MaxNodeIP_dual_fst (s : MaxIP ℝ) (qn : CTreeType ℝ) (t : TreeType ℝ) :
    (MaxNodeIP_dual s qn t).1 = (norm2 t.center + HasSqrt.sqrt t.radius)
      * (if s.angle_prune = true then
          maxCosQp (dot qn.center t.center) (norm2 qn.center) (norm2 t.center)
            (HasSqrt.sqrt t.radius) qn.radius qn.radius_conjugate
        else 1) := rfl

/-- The single bound dominates the inner product with every point of the ball. -/
theorem single_sound (d : Nat) (q c r : List ℝ) (radius qn : ℝ) (ap : Bool)
    (hq : q.length = d) (hc : c.length = d) (hr : r.length = d)
    (hqn : qn = norm2 q)
    (hball : norm2 (vsub r c) ≤ HasSqrt.sqrt radius)
    (hnz : ap = true → norm2 q ≠ 0 ∧ norm2 c ≠ 0) :
    dot q r ≤ qn * (norm2 c + HasSqrt.sqrt radius)
      * (if ap = true then maxCosQr (dot q c) qn (norm2 c) (HasSqrt.sqrt radius) else 1) := by
  subst hqn
  have hb : ‖toE d r - toE d c‖ ≤ √radius := by
    rw [← toE_vsub d r c hr hc, ← norm2_eq_norm d _ (by simp [vsub, hr, hc])]
    exact hball
  rw [dot_eq_inner d q r hq hr, dot_eq_inner d q c hq hc, norm2_eq_norm d q hq,
    norm2_eq_norm d c hc, sqrt_real]
  split_ifs with h
  · obtain ⟨h1, h2⟩ := hnz h
    exact single_bound_E _ _ _ _ (toE_ne_zero d q hq h1) (toE_ne_zero d c hc h2)
      (Real.sqrt_nonneg _) hb
  · rw [mul_one]
    exact inner_le_baseline _ _ _ _ hb

/-- The dual bound, multiplied by the norm of the query, dominates the inner product
of every query of the cone with every point of the ball. -/
theorem dual_sound (d : Nat) (q u c r : List ℝ) (radius cos_w sin_w : ℝ) (ap : Bool)
    (hq : q.length = d) (hu : u.length = d) (hc : c.length = d) (hr : r.length = d)
    (hball : norm2 (vsub r c) ≤ HasSqrt.sqrt radius)
    (hnz : ap = true → norm2 q ≠ 0 ∧ norm2 u ≠ 0 ∧ norm2 c ≠ 0
      ∧ cos_w ≤ dot q u / (norm2 q * norm2 u) ∧ sin_w = HasSqrt.sqrt (1 - cos_w ^ 2)) :
    dot q r ≤ norm2 q * ((norm2 c + HasSqrt.sqrt radius)
      * (if ap = true then
          maxCosQp (dot u c) (norm2 u) (norm2 c) (HasSqrt.sqrt radius) cos_w sin_w
        else 1)) := by
  have hb : ‖toE d r - toE d c‖ ≤ √radius := by
    rw [← toE_vsub d r c hr hc, ← norm2_eq_norm d _ (by simp [vsub, hr, hc])]
    exact hball
  split_ifs with h
  · obtain ⟨h1, h2, h3, h4, h5⟩ := hnz h
    rw [dot_eq_inner d q u hq hu, norm2_eq_norm d q hq, norm2_eq_norm d u hu] at h4
    rw [dot_eq_inner d q r hq hr, dot_eq_inner d u c hu hc, norm2_eq_norm d q hq,
      norm2_eq_norm d c hc, norm2_eq_norm d u hu, sqrt_real]
    exact dual_bound_E _ _ _ _ _ _ _ (toE_ne_zero d q hq h1) (toE_ne_zero d u hu h2)
      (toE_ne_zero d c hc h3) (Real.sqrt_nonneg _) hb h4 h5
  · rw [mul_one, dot_eq_inner d q r hq hr, norm2_eq_norm d q hq, norm2_eq_norm d c hc, sqrt_real]
    exact inner_le_baseline _ _ _ _ hb

end Bounds

section SingleLoop

variable {α : Type} [LinearOrderedField α]

theorem Seeded.seedEntries {s : MaxIP α} (h : Seeded s) (q : Nat) (hq : q < s.queries_.n_cols) :
    ledgerEntries s q = List.replicate s.knns_ (0, sentinel) := by
  apply List.ext_getElem
  · simp [ledgerEntries]
  · intro i h1 h2
    have hi : i < s.knns_ := by simpa [ledgerEntries] using h1
    have hb : q * s.knns_ + i < s.queries_.n_cols * s.knns_ := by
      have : (q + 1) * s.knns_ ≤ s.queries_.n_cols * s.knns_ := Nat.mul_le_mul_right _ hq
      rw [Nat.add_mul] at this; omega
    simp only [ledgerEntries, List.getElem_map, List.getElem_range, MaxIP.ips_at, MaxIP.idx_at,
      h.1, h.2, List.getElem_replicate]
    rw [List.getD_eq_getElem _ _ (by simpa using hb), List.getD_eq_getElem _ _ (by simpa using hb)]
    simp

theorem covers_replicate (k : Nat) :
    Covers (List.replicate k ((0 : α), sentinel)) (List.replicate k 0) := by
  refine ⟨?_, [], by simp, by simp⟩
  simp only [List.map_replicate]
  unfold List.Sorted
  rw [List.pairwise_replicate]
  right; exact le_refl _

theorem covers_topScores {E : List (α × Nat)} {ips : List α}
    (h : Covers E (List.replicate E.length 0 ++ ips)) :
    E.map Prod.fst = topScores E.length ips := by
  rw [h.unique]
  unfold topScores
  set pos := (ips.filter fun x => decide (0 < x)).insertionSort (fun a b => a ≥ b) with hpos
  set neg := (ips.filter fun x => !decide (0 < x)).insertionSort (fun a b => a ≥ b) with hneg
  have hsorted : (pos ++ List.replicate E.length 0 ++ neg).Sorted (fun a b => a ≥ b) := by
    unfold List.Sorted
    rw [List.pairwise_append, List.pairwise_append]
    refine ⟨⟨List.sorted_insertionSort _ _, ?_, ?_⟩, List.sorted_insertionSort _ _, ?_⟩
    · rw [List.pairwise_replicate]; right; exact le_refl _
    · intro a ha b hb
      rw [hpos, List.mem_insertionSort] at ha
      have := (List.mem_filter.mp ha).2
      rw [List.eq_of_mem_replicate hb]
      exact le_of_lt (by simpa using this)
    · intro a ha b hb
      rw [hneg, List.mem_insertionSort] at hb
      have hb' := (List.mem_filter.mp hb).2
      have hb0 : b ≤ 0 := by simpa using hb'
      rcases List.mem_append.mp ha with h1 | h1
      · rw [hpos, List.mem_insertionSort] at h1
        have := (List.mem_filter.mp h1).2
        exact le_trans hb0 (le_of_lt (by simpa using this))
      · rw [List.eq_of_mem_replicate h1]; exact hb0
  have hperm : (pos ++ List.replicate E.length 0 ++ neg).Perm
      ((List.replicate E.length 0 ++ ips).insertionSort (fun a b => a ≥ b)) := by
    refine List.Perm.trans ?_ (List.perm_insertionSort _ _).symm
    have h1 : (pos ++ neg).Perm ips :=
      ((List.perm_insertionSort _ _).append (List.perm_insertionSort _ _)).trans
        (List.filter_append_perm _ _)
    have h2 : (pos ++ List.replicate E.length 0 ++ neg).Perm
        (List.replicate E.length 0 ++ (pos ++ neg)) := by
      rw [← List.append_assoc]
      exact List.Perm.append_right _ List.perm_append_comm
    exact h2.trans (h1.append_left _)
  rw [← List.eq_of_perm_of_sorted hperm hsorted (List.sorted_insertionSort _ _)]
  rw [List.take_append_of_le_length (by simp)]

theorem foldl_range_invariant {σ : Type} (P : Nat → σ → Prop) (f : σ → Nat → σ) (n : Nat)
    (init : σ) (h0 : P 0 init) (hstep : ∀ j acc, j < n → P j acc → P (j + 1) (f acc j)) :
    P n ((List.range n).foldl f init) := by
  induction n with
  | zero => simpa using h0
  | succ n ih =>
    rw [List.range_succ, List.foldl_append]
    simp only [List.foldl_cons, List.foldl_nil]
    exact hstep n _ (Nat.lt_succ_self n)
      (ih (fun j acc hj hp => hstep j acc (Nat.lt_succ_of_lt hj) hp))

/-- One iteration of the loop of lines 576-579: the entries of the query `s.query_` start
as seeds and end holding the largest scores among the seeds and all references of the tree. -/
theorem single_query [HasSqrt α] (s : MaxIP α) (t : TreeType α) (hk : 1 ≤ s.knns_)
    (h1 : (s.query_ + 1) * s.knns_ ≤ s.max_ips_.length)
    (h2 : (s.query_ + 1) * s.knns_ ≤ s.max_ip_indices_.length)
    (hseed : ledgerEntries s s.query_ = List.replicate s.knns_ (0, sentinel))
    (hrange : ∀ i ∈ t.indices, i < s.references_.n_cols)
    (hsound : t.All (fun n => ∀ i ∈ n.indices, ipQ s s.query_ i ≤ (MaxNodeIP_ s n).1)) :
    SInv s (ComputeNeighborsRecursion_ t (MaxNodeIP_ s t).1 (MaxNodeIP_ s t).2)
        (List.replicate s.knns_ 0 ++ t.indices.map (ipQ s s.query_)) ∧
      (∀ q, q ≠ s.query_ →
        ledgerEntries (ComputeNeighborsRecursion_ t (MaxNodeIP_ s t).1 (MaxNodeIP_ s t).2) q
          = ledgerEntries s q) := by
  have h0 : SInv s s (List.replicate s.knns_ 0) :=
    ⟨Frame.refl s, rfl, hk, h1, h2, by rw [hseed]; exact covers_replicate _, by
      rw [hseed]; intro e he; exact Or.inl (List.eq_of_mem_replicate he)⟩
  have h0' : SInv s (MaxNodeIP_ s t).2 (List.replicate s.knns_ 0) :=
    h0.transport (MaxNodeIP_frame _ _) rfl (MaxNodeIP_sameLedger _ _)
  obtain ⟨ha, hb, _⟩ := single_rec s t _ _ _ h0' hrange hsound.root hsound
  refine ⟨ha, ?_⟩
  intro q hq
  rw [hb q hq]
  exact (MaxNodeIP_sameLedger s t).entries rfl q

theorem TreeType.All.imp {P Q : TreeType α → Prop} (h : ∀ n, P n → Q n) {t : TreeType α}
    (ht : t.All P) : t.All Q := by
  induction t with
  | leaf c r b e => exact h _ ht
  | node c r b e l rt ihl ihr => exact ⟨h _ ht.1, ihl ht.2.1, ihr ht.2.2⟩

theorem Frame.setQuery (s : MaxIP α) (q : Nat) : Frame s { s with query_ := q } :=
  ⟨rfl, rfl, rfl, rfl, rfl, rfl, rfl, rfl, rfl, rfl, rfl, rfl, rfl, rfl⟩

theorem SameLedger.ofSetQuery (s : MaxIP α) (q : Nat) : SameLedger s { s with query_ := q } :=
  ⟨rfl, rfl⟩

/-- The loop of lines 576-579 over all queries. -/
theorem single_loop [HasSqrt α] (s : MaxIP α) (hk : 1 ≤ s.knns_) (hseed : Seeded s)
    (hrange : ∀ i ∈ s.reference_tree_.indices, i < s.references_.n_cols)
    (hsound : ∀ q, q < s.queries_.n_cols → s.reference_tree_.All (fun n =>
      ∀ i ∈ n.indices, ipQ s q i ≤ (MaxNodeIP_ { s with query_ := q } n).1)) :
    Frame s (singleTreeLoop s) ∧
      ∀ q, q < s.queries_.n_cols →
        Covers (ledgerEntries (singleTreeLoop s) q)
            (List.replicate s.knns_ 0 ++ s.reference_tree_.indices.map (ipQ s q)) ∧
          ∀ e ∈ ledgerEntries (singleTreeLoop s) q, EntryOK s q e := by
  have key := foldl_range_invariant
    (fun j (acc : MaxIP α) => Frame s acc ∧
      (∀ q, q < j → Covers (ledgerEntries acc q)
          (List.replicate s.knns_ 0 ++ s.reference_tree_.indices.map (ipQ s q)) ∧
        ∀ e ∈ ledgerEntries acc q, EntryOK s q e) ∧
      (∀ q, j ≤ q → q < s.queries_.n_cols →
        ledgerEntries acc q = List.replicate s.knns_ (0, sentinel)))
    (fun acc qi =>
      ComputeNeighborsRecursion_ ({ acc with query_ := qi } : MaxIP α).reference_tree_
        (MaxNodeIP_ { acc with query_ := qi }
          ({ acc with query_ := qi } : MaxIP α).reference_tree_).1
        (MaxNodeIP_ { acc with query_ := qi }
          ({ acc with query_ := qi } : MaxIP α).reference_tree_).2)
    s.queries_.n_cols { s with query_ := 0 } ?_ ?_
  · exact ⟨key.1, fun q hq => key.2.1 q hq⟩
  · refine ⟨Frame.setQuery s 0, fun q hq => absurd hq (Nat.not_lt_zero _), ?_⟩
    intro q _ hq
    rw [(SameLedger.ofSetQuery s 0).entries rfl]
    exact hseed.seedEntries q hq
  · intro j acc hj ⟨hF, hdone, htodo⟩
    beta_reduce
    have hF0' : Frame s ({ acc with query_ := j } : MaxIP α) := hF.trans (Frame.setQuery acc j)
    have hFq' : Frame ({ s with query_ := j } : MaxIP α) ({ acc with query_ := j } : MaxIP α) :=
      ⟨hF.1, hF.2, hF.3, hF.4, hF.5, hF.6, hF.7, hF.8, hF.9, hF.10, hF.11, hF.12, hF.13, hF.14⟩
    have hq0' : ({ acc with query_ := j } : MaxIP α).query_ = j := rfl
    have hSL' : SameLedger acc ({ acc with query_ := j } : MaxIP α) := SameLedger.ofSetQuery acc j
    generalize ({ acc with query_ := j } : MaxIP α) = s0 at hF0' hFq' hq0' hSL' ⊢
    have hlen : (j + 1) * s.knns_ ≤ s.queries_.n_cols * s.knns_ := Nat.mul_le_mul_right _ hj
    rw [hF0'.reference_tree_]
    have hsq := single_query s0 s.reference_tree_
      (by rw [hF0'.knns_]; exact hk)
      (by rw [hq0', hF0'.knns_, hF0'.len_ips, hseed.1, List.length_replicate]; exact hlen)
      (by rw [hq0', hF0'.knns_, hF0'.len_idx, hseed.2, List.length_replicate]; exact hlen)
      (by
        rw [hq0', hSL'.entries (hF0'.knns_.trans hF.knns_.symm), hF0'.knns_]
        exact htodo j (le_refl _) hj)
      (by rw [hF0'.references_]; exact hrange)
      (by
        rw [hq0']
        refine (hsound j hj).imp ?_
        intro n hn i hi
        rw [hF0'.ipQ, MaxNodeIP_fst_congr hFq' hq0' n]
        exact hn i hi)
    rw [hq0'] at hsq
    obtain ⟨hinv, hother⟩ := hsq
    refine ⟨hF0'.trans hinv.frame, ?_, ?_⟩
    · intro q hq
      by_cases hqj : q = j
      · subst hqj
        refine ⟨?_, ?_⟩
        · have := hinv.cov
          rw [hq0', hF0'.knns_] at this
          have hfun : ipQ s0 q = ipQ s q := by
            funext i; exact hF0'.ipQ q i
          rw [← hfun]
          exact this
        · intro e he
          have := hinv.ok e (by rw [hq0']; exact he)
          rw [hq0'] at this
          exact (hF0'.entryOK q e).mp this
      · have hlt : q < j := by omega
        rw [hother q hqj, hSL'.entries (hF0'.knns_.trans hF.knns_.symm)]
        exact hdone q hlt
    · intro q hjq hq
      rw [hother q (by omega), hSL'.entries (hF0'.knns_.trans hF.knns_.symm)]
      exact htodo q (by omega) hq

end SingleLoop

section SingleReal



theorem TreeType.All.and {α : Type} [LinearOrderedField α] {P Q : TreeType α → Prop} {t : TreeType α} (hp : t.All P)
    (hq : t.All Q) : t.All (fun n => P n ∧ Q n) := by
  induction t with
  | leaf c r b e => exact ⟨hp, hq⟩
  | node c r b e l rt ihl ihr =>
    exact ⟨⟨hp.1, hq.1⟩, ihl hp.2.1 hq.2.1, ihr hp.2.2 hq.2.2⟩

theorem TreeType.All.of_forall {α : Type} [LinearOrderedField α] {P : TreeType α → Prop} (h : ∀ n, P n)
    (t : TreeType α) : t.All P := by
  induction t with
  | leaf c r b e => exact h _
  | node c r b e l rt ihl ihr => exact ⟨h _, ihl, ihr⟩

theorem TreeType.All.of_imp {α : Type} [LinearOrderedField α] {P : TreeType α → Prop} {c : Prop} {t : TreeType α}
    (h : c → t.All P) : t.All (fun n => c → P n) := by
  by_cases hc : c
  · exact (h hc).imp (fun n hn _ => hn)
  · exact TreeType.All.of_forall (fun n hc' => absurd hc' hc) t

theorem covers_topScores' {α : Type} [LinearOrderedField α] {E : List (α × Nat)} {k : Nat}
    {ips : List α} (hlen : E.length = k) (h : Covers E (List.replicate k 0 ++ ips)) :
    E.map Prod.fst = topScores k ips := by
  subst hlen; exact covers_topScores h

/-- The single bound of every node of a valid ball tree dominates the inner products of
the query with the references under the node. -/
theorem single_sound_tree (s : MaxIP ℝ) (d : Nat) (t : TreeType ℝ) (q : Nat)
    (hq : (s.queries_.col q).length = d) (hnorm : s.qnorm_at q = norm2 (s.queries_.col q))
    (hvalid : BallTreeValid s.references_ d t)
    (hnz : s.angle_prune = true →
      norm2 (s.queries_.col q) ≠ 0 ∧ t.All (fun n => norm2 n.center ≠ 0)) :
    t.All (fun n => ∀ i ∈ n.indices, ipQ s q i ≤ (MaxNodeIP_ { s with query_ := q } n).1) := by
  have hz : t.All (fun n => s.angle_prune = true → norm2 n.center ≠ 0) :=
    TreeType.All.of_imp (fun h => (hnz h).2)
  refine (TreeType.All.and hvalid hz).imp ?_
  intro n ⟨⟨hc, hpts⟩, hcz⟩ i hi
  rw [MaxNodeIP_fst]
  exact single_sound d _ _ _ _ _ _ hq hc (hpts i hi).1 hnorm (hpts i hi).2
    (fun h => ⟨(hnz h).1, hcz h⟩)

end SingleReal

section Dual

variable {α : Type} [LinearOrderedField α]

theorem DInv.move {s0 s s' : MaxIP α} {M : Nat → List α} (h : DInv s0 s M)
    (hf : Frame s s') (hl : SameLedger s s') : DInv s0 s' M :=
  ⟨h.frame.trans hf, h.hk, h.len1, h.len2, h.norms,
    fun q hq => by rw [hl.entries hf.knns_]; exact h.cov q hq,
    fun q hq => by rw [hl.entries hf.knns_]; exact h.ok q hq⟩

theorem DInv.permM {s0 s : MaxIP α} {M M' : Nat → List α} (h : DInv s0 s M)
    (hp : ∀ q, (M q).Perm (M' q)) : DInv s0 s M' :=
  ⟨h.frame, h.hk, h.len1, h.len2, h.norms, fun q hq => (h.cov q hq).perm (hp q), h.ok⟩

theorem DInv.knns {s0 s : MaxIP α} {M : Nat → List α} (h : DInv s0 s M) : 1 ≤ s.knns_ := by
  rw [h.frame.knns_]; exact h.hk

theorem DInv.fits1 {s0 s : MaxIP α} {M : Nat → List α} (h : DInv s0 s M) {q : Nat}
    (hq : q < s0.queries_.n_cols) : (q + 1) * s.knns_ ≤ s.max_ips_.length := by
  rw [h.frame.knns_, h.frame.len_ips, h.len1]; exact Nat.mul_le_mul_right _ hq

theorem DInv.fits2 {s0 s : MaxIP α} {M : Nat → List α} (h : DInv s0 s M) {q : Nat}
    (hq : q < s0.queries_.n_cols) : (q + 1) * s.knns_ ≤ s.max_ip_indices_.length := by
  rw [h.frame.knns_, h.frame.len_idx, h.len2]; exact Nat.mul_le_mul_right _ hq

theorem DInv.floorLe {s0 s : MaxIP α} {M : Nat → List α} (h : DInv s0 s M) {q : Nat}
    (hq : q < s0.queries_.n_cols) :
    ∀ e ∈ (ledgerEntries s q).map Prod.fst, floorOf s q ≤ e :=
  floorOf_le s q h.knns (h.cov q hq).1

theorem floorOf_congr {s s' : MaxIP α} (hk : s'.knns_ = s.knns_) (q : Nat)
    (h : ledgerEntries s' q = ledgerEntries s q) (hk1 : 1 ≤ s.knns_) :
    floorOf s' q = floorOf s q := by
  have h1 : (ledgerEntries s' q).map Prod.fst = (ledgerEntries s q).map Prod.fst := by rw [h]
  rw [scores_ledgerEntries, scores_ledgerEntries, hk] at h1
  have h2 := congrArg (fun l => l.getD (s.knns_ - 1) 0) h1
  simp only [List.getD_eq_getElem?_getD, List.getElem?_map] at h2
  rw [List.getElem?_range (by omega)] at h2
  simp only [Option.map_some', Option.getD_some] at h2
  unfold floorOf
  rw [hk]
  have e2 : q * s.knns_ + s.knns_ - 1 = q * s.knns_ + (s.knns_ - 1) := by omega
  rw [e2]; exact h2

/-- One iteration of the loop of lines 226-247, for the query `x`: the ledger part. -/
theorem dual_step_ledger [HasSqrt α] {s0 s : MaxIP α} {M : Nat → List α} (h : DInv s0 s M)
    (rn : TreeType α) (x : Nat) (hx : x < s0.queries_.n_cols)
    (hr : ∀ i ∈ List.range' rn.begin_ (rn.end_ - rn.begin_), i < s0.references_.n_cols)
    (hs1 : ∀ i ∈ List.range' rn.begin_ (rn.end_ - rn.begin_),
      ipQ s0 x i ≤ (MaxNodeIP_ { s0 with query_ := x } rn).1)
    (s' : MaxIP α)
    (hs' : s' = if (MaxNodeIP_ { s with query_ := x } rn).1
          > (MaxNodeIP_ { s with query_ := x } rn).2.ips_at
              (x * s.knns_ + (MaxNodeIP_ { s with query_ := x } rn).2.knns_ - 1)
        then ComputeBaseCase_ (MaxNodeIP_ { s with query_ := x } rn).2 rn
        else (MaxNodeIP_ { s with query_ := x } rn).2) :
    DInv s0 s' (addFor M [x]
        (fun q => (List.range' rn.begin_ (rn.end_ - rn.begin_)).map (ipQ s0 q))) ∧
      s'.query_ = x ∧
      (∀ q, q ≠ x → ledgerEntries s' q = ledgerEntries s q) ∧
      (∀ q, floorOf s q ≤ floorOf s' q) := by
  have hFq : Frame s ({ s with query_ := x } : MaxIP α) := Frame.setQuery s x
  have hSq : SameLedger s ({ s with query_ := x } : MaxIP α) := SameLedger.ofSetQuery s x
  have hqq : ({ s with query_ := x } : MaxIP α).query_ = x := rfl
  have hFb : Frame ({ s0 with query_ := x } : MaxIP α) ({ s with query_ := x } : MaxIP α) :=
    ⟨h.frame.1, h.frame.2, h.frame.3, h.frame.4, h.frame.5, h.frame.6, h.frame.7, h.frame.8,
      h.frame.9, h.frame.10, h.frame.11, h.frame.12, h.frame.13, h.frame.14⟩
  have hbound : (MaxNodeIP_ ({ s with query_ := x } : MaxIP α) rn).1
      = (MaxNodeIP_ ({ s0 with query_ := x } : MaxIP α) rn).1 := MaxNodeIP_fst_congr hFb rfl rn
  generalize ({ s with query_ := x } : MaxIP α) = sx at hFq hSq hqq hbound hs'
  have hFm : Frame sx (MaxNodeIP_ sx rn).2 := MaxNodeIP_frame sx rn
  have hSm : SameLedger sx (MaxNodeIP_ sx rn).2 := MaxNodeIP_sameLedger sx rn
  have hqm : (MaxNodeIP_ sx rn).2.query_ = x := hqq
  generalize (MaxNodeIP_ sx rn).2 = sm at hFm hSm hqm hs'
  have hD : DInv s0 sm M := (h.move hFq hSq).move hFm hSm
  have hsame : SameLedger s sm := ⟨hSm.1.trans hSq.1, hSm.2.trans hSq.2⟩
  have hkk : sm.knns_ = s.knns_ := hFm.knns_.trans hFq.knns_
  have hfloor : sm.ips_at (x * s.knns_ + sm.knns_ - 1) = floorOf sm x := by
    unfold floorOf; rw [hkk]
  rw [hfloor] at hs'
  have hfun : ipQ sm x = ipQ s0 x := by funext i; exact hD.frame.ipQ x i
  split_ifs at hs' with hgt
  · -- the reference leaf is scored
    have hb := basecase_inv sm rn (M x) hD.knns (by rw [hqm]; exact hD.fits1 hx)
      (by rw [hqm]; exact hD.fits2 hx) (by rw [hD.frame.references_]; exact hr)
      (by rw [hqm]; exact hD.cov x hx)
      (by rw [hqm]; intro e he; exact (hD.frame.entryOK _ _).mpr (hD.ok x hx e he))
    rw [hqm, hfun] at hb
    have hother : ∀ q, q ≠ x → ledgerEntries s' q = ledgerEntries s q := by
      intro q hq
      rw [hs', ComputeBaseCase_entries_other sm rn q (by rw [hqm]; exact hq)]
      exact hsame.entries hkk q
    refine ⟨⟨?_, hD.hk, hD.len1, hD.len2, hD.norms, ?_, ?_⟩, ?_, hother, ?_⟩
    · rw [hs']; exact hD.frame.trans (ComputeBaseCase_frame sm rn)
    · intro q hq
      by_cases hqx : q = x
      · subst hqx
        simp only [addFor, List.mem_singleton, if_true]
        rw [hs']; exact hb.1
      · simp only [addFor, List.mem_singleton, hqx, if_false]
        rw [hother q hqx]; exact h.cov q hq
    · intro q hq e he
      by_cases hqx : q = x
      · subst hqx
        rw [hs'] at he
        exact (hD.frame.entryOK _ _).mp (hb.2.1 e he)
      · rw [hother q hqx] at he; exact h.ok q hq e he
    · rw [hs']; exact hqm
    · intro q
      by_cases hqx : q = x
      · subst hqx
        rw [hs', ← hsame.floorOf hkk]; exact hb.2.2
      · exact le_of_eq (floorOf_congr (by rw [hs']; exact hkk) q (hother q hqx) h.knns).symm
  · -- the reference leaf cannot improve the ledger of `x`
    push_neg at hgt
    refine ⟨⟨?_, hD.hk, hD.len1, hD.len2, hD.norms, ?_, ?_⟩, ?_, ?_, ?_⟩
    · rw [hs']; exact hD.frame
    · intro q hq
      by_cases hqx : q = x
      · subst hqx
        simp only [addFor, List.mem_singleton, if_true]
        rw [hs']
        refine (hD.cov q hq).prune ?_
        intro v hv e he
        obtain ⟨i, hi, rfl⟩ := List.mem_map.mp hv
        have := hs1 i hi
        rw [← hbound] at this
        exact le_trans (le_trans this hgt) (hD.floorLe hq e he)
      · simp only [addFor, List.mem_singleton, hqx, if_false]
        rw [hs']; exact hD.cov q hq
    · intro q hq e he
      rw [hs'] at he; exact hD.ok q hq e he
    · rw [hs']; exact hqm
    · intro q _; rw [hs']; exact hsame.entries hkk q
    · intro q; rw [hs', hsame.floorOf hkk]

theorem CTreeType.set_bound_eq (t : CTreeType α) (v : α) :
    t.set_bound v = t.setStat (t.stat.set_bound v) := by
  cases t <;> rfl

theorem CTreeType.setStat_stat (t : CTreeType α) : t.setStat t.stat = t := by
  cases t <;> rfl

theorem StatOK.set_bound {st : QueryStat α} (h : StatOK st) {v : α} (hv : st.bound ≤ v) :
    StatOK (st.set_bound v) := by
  unfold StatOK QueryStat.set_bound
  refine ⟨?_, ?_⟩
  · show List.Pairwise _ _
    rw [List.pairwise_append]
    refine ⟨h.1, List.pairwise_singleton _ _, ?_⟩
    intro a ha b hb
    rw [List.mem_singleton] at hb
    rw [hb]; exact le_trans (h.2 a ha) hv
  · intro w hw
    rcases List.mem_append.mp hw with h1 | h1
    · exact le_trans (h.2 w h1) hv
    · rw [List.mem_singleton] at h1; rw [h1]

theorem foldl_prefix_invariant {σ γ : Type} (P : List γ → σ → Prop) (f : σ → γ → σ)
    (l : List γ) (init : σ) (h0 : P [] init)
    (hstep : ∀ pre x acc, (∃ post, pre ++ x :: post = l) → P pre acc → P (pre ++ [x]) (f acc x)) :
    P l (l.foldl f init) := by
  have gen : ∀ (rest pre : List γ) (acc : σ), pre ++ rest = l → P pre acc →
      P l (rest.foldl f acc) := by
    intro rest
    induction rest with
    | nil => intro pre acc h hp; rw [List.append_nil] at h; rw [← h]; exact hp
    | cons x rest ih =>
      intro pre acc h hp
      rw [List.foldl_cons]
      exact ih (pre ++ [x]) (f acc x) (by rw [List.append_assoc]; exact h)
        (hstep pre x acc ⟨rest, h⟩ hp)
  exact gen l [] init rfl h0

theorem addFor_nil (M : Nat → List α) (X : Nat → List α) : addFor M [] X = M := by
  funext q; simp [addFor]

theorem addFor_snoc (M : Nat → List α) (pre : List Nat) (x : Nat) (X : Nat → List α)
    (hx : x ∉ pre) : addFor (addFor M pre X) [x] X = addFor M (pre ++ [x]) X := by
  funext q
  by_cases hq : q = x
  · subst hq; simp [addFor, hx]
  · by_cases hp : q ∈ pre <;> simp [addFor, hq, hp]

/-- `ComputeBaseCase_(CTreeType*, TreeType*)`: the ledger of every query of the range
absorbs the references of the range, and the bound written to the node, if any, is the
smallest ratio of floor to norm over the queries of the range. -/
theorem dual_basecase [HasSqrt α] {s0 s : MaxIP α} {M : Nat → List α} (h : DInv s0 s M)
    (qn : CTreeType α) (rn : TreeType α)
    (hq : ∀ q ∈ List.range' qn.begin_ (qn.end_ - qn.begin_), q < s0.queries_.n_cols)
    (hr : ∀ i ∈ List.range' rn.begin_ (rn.end_ - rn.begin_), i < s0.references_.n_cols)
    (hs1 : ∀ q ∈ List.range' qn.begin_ (qn.end_ - qn.begin_),
      ∀ i ∈ List.range' rn.begin_ (rn.end_ - rn.begin_),
        ipQ s0 q i ≤ (MaxNodeIP_ { s0 with query_ := q } rn).1)
    (hb : ∀ q ∈ List.range' qn.begin_ (qn.end_ - qn.begin_),
      qn.stat.bound ≤ floorOf s q / s0.qnorm_at q)
    (hw : StatOK qn.stat) :
    DInv s0 (ComputeBaseCase_dual s qn rn).2
        (addFor M (List.range' qn.begin_ (qn.end_ - qn.begin_))
          (fun q => (List.range' rn.begin_ (rn.end_ - rn.begin_)).map (ipQ s0 q))) ∧
      (∀ q, floorOf s q ≤ floorOf (ComputeBaseCase_dual s qn rn).2 q) ∧
      ∃ st' : QueryStat α, (ComputeBaseCase_dual s qn rn).1 = qn.setStat st' ∧
        qn.stat.bound ≤ st'.bound ∧ StatOK st' ∧
        ∀ q ∈ List.range' qn.begin_ (qn.end_ - qn.begin_),
          st'.bound ≤ floorOf (ComputeBaseCase_dual s qn rn).2 q / s0.qnorm_at q := by
  have hnd : (List.range' qn.begin_ (qn.end_ - qn.begin_)).Nodup := List.nodup_range' _ _
  have key := foldl_prefix_invariant
    (fun (pre : List Nat) (acc : α × Bool × MaxIP α) =>
      DInv s0 acc.2.2 (addFor M pre
          (fun q => (List.range' rn.begin_ (rn.end_ - rn.begin_)).map (ipQ s0 q))) ∧
        (∀ q, floorOf s q ≤ floorOf acc.2.2 q) ∧
        (∀ q ∈ pre, acc.1 ≤ floorOf acc.2.2 q / s0.qnorm_at q) ∧
        (acc.2.1 = true → ∃ q ∈ pre, acc.1 = floorOf acc.2.2 q / s0.qnorm_at q))
    (fun acc qi =>
      let s0 : MaxIP α := { acc.2.2 with query_ := qi }
      let ind := s0.query_ * s0.knns_
      let m := MaxNodeIP_ s0 rn
      let query_to_node_max_ip := m.1
      let s1 :=
        if query_to_node_max_ip > m.2.ips_at (ind + m.2.knns_ - 1) then
          ComputeBaseCase_ m.2 rn
        else m.2
      let p_cos_pq := s1.ips_at (ind + s1.knns_ - 1) / s1.qnorm_at s1.query_
      if acc.1 > p_cos_pq then (p_cos_pq, true, s1) else (acc.1, acc.2.1, s1))
    (List.range' qn.begin_ (qn.end_ - qn.begin_))
    (DBL_MAX, false, { s with query_ := qn.begin_ }) ?_ ?_
  · obtain ⟨hD, hfl, hle, hex⟩ := key
    have hSL := SameLedger.ofSetQuery
      ((List.range' qn.begin_ (qn.end_ - qn.begin_)).foldl
        (fun acc qi =>
          let s0 : MaxIP α := { acc.2.2 with query_ := qi }
          let ind := s0.query_ * s0.knns_
          let m := MaxNodeIP_ s0 rn
          let query_to_node_max_ip := m.1
          let s1 :=
            if query_to_node_max_ip > m.2.ips_at (ind + m.2.knns_ - 1) then
              ComputeBaseCase_ m.2 rn
            else m.2
          let p_cos_pq := s1.ips_at (ind + s1.knns_ - 1) / s1.qnorm_at s1.query_
          if acc.1 > p_cos_pq then (p_cos_pq, true, s1) else (acc.1, acc.2.1, s1))
        (DBL_MAX, false, { s with query_ := qn.begin_ })).2.2
      (loopExit qn.begin_ qn.end_)
    have hF := Frame.setQuery
      ((List.range' qn.begin_ (qn.end_ - qn.begin_)).foldl
        (fun acc qi =>
          let s0 : MaxIP α := { acc.2.2 with query_ := qi }
          let ind := s0.query_ * s0.knns_
          let m := MaxNodeIP_ s0 rn
          let query_to_node_max_ip := m.1
          let s1 :=
            if query_to_node_max_ip > m.2.ips_at (ind + m.2.knns_ - 1) then
              ComputeBaseCase_ m.2 rn
            else m.2
          let p_cos_pq := s1.ips_at (ind + s1.knns_ - 1) / s1.qnorm_at s1.query_
          if acc.1 > p_cos_pq then (p_cos_pq, true, s1) else (acc.1, acc.2.1, s1))
        (DBL_MAX, false, { s with query_ := qn.begin_ })).2.2
      (loopExit qn.begin_ qn.end_)
    unfold ComputeBaseCase_dual
    generalize ((List.range' qn.begin_ (qn.end_ - qn.begin_)).foldl
        (fun acc qi =>
          let s0 : MaxIP α := { acc.2.2 with query_ := qi }
          let ind := s0.query_ * s0.knns_
          let m := MaxNodeIP_ s0 rn
          let query_to_node_max_ip := m.1
          let s1 :=
            if query_to_node_max_ip > m.2.ips_at (ind + m.2.knns_ - 1) then
              ComputeBaseCase_ m.2 rn
            else m.2
          let p_cos_pq := s1.ips_at (ind + s1.knns_ - 1) / s1.qnorm_at s1.query_
          if acc.1 > p_cos_pq then (p_cos_pq, true, s1) else (acc.1, acc.2.1, s1))
        (DBL_MAX, false, { s with query_ := qn.begin_ })) = out at hD hfl hle hex hSL hF ⊢
    dsimp only
    generalize ({ out.2.2 with query_ := loopExit qn.begin_ qn.end_ } : MaxIP α) = sf at hSL hF ⊢
    have hfeq : ∀ q, floorOf sf q = floorOf out.2.2 q := fun q => hSL.floorOf hF.knns_ q
    refine ⟨hD.move hF hSL, fun q => by rw [hfeq]; exact hfl q, ?_⟩
    by_cases hnb : out.2.1 = true
    · rw [if_pos hnb]
      obtain ⟨qs, hqs, hval⟩ := hex hnb
      have hmono : qn.stat.bound ≤ out.1 := by
        rw [hval]
        refine le_trans (hb qs hqs) ?_
        exact div_le_div_of_nonneg_right (hfl qs) (le_of_lt (h.norms qs (hq qs hqs)))
      refine ⟨qn.stat.set_bound out.1, CTreeType.set_bound_eq qn out.1, hmono,
        hw.set_bound hmono, ?_⟩
      intro q hq'
      rw [hfeq]; exact hle q hq'
    · rw [if_neg hnb]
      refine ⟨qn.stat, (CTreeType.setStat_stat qn).symm, le_refl _, hw, ?_⟩
      intro q hq'
      rw [hfeq]
      exact le_trans (hb q hq')
        (div_le_div_of_nonneg_right (hfl q) (le_of_lt (h.norms q (hq q hq'))))
  · refine ⟨?_, fun q => ?_, fun q hq => absurd hq (List.not_mem_nil q), fun h => by cases h⟩
    · rw [addFor_nil]
      exact h.move (Frame.setQuery s _) (SameLedger.ofSetQuery s _)
    · exact le_of_eq ((SameLedger.ofSetQuery s qn.begin_).floorOf rfl q).symm
  · intro pre x acc ⟨post, hpost⟩ ⟨hD, hfl, hle, hex⟩
    have hxmem : x ∈ List.range' qn.begin_ (qn.end_ - qn.begin_) := by
      rw [← hpost]; simp
    have hxpre : x ∉ pre := by
      rw [← hpost] at hnd
      have := (List.nodup_append.mp hnd).2.2
      intro hx
      exact this hx (List.mem_cons_self _ _) 
    obtain ⟨hD', hq', hother, hfl'⟩ := dual_step_ledger hD rn x (hq x hxmem) hr (hs1 x hxmem) _ rfl
    rw [addFor_snoc _ _ _ _ hxpre] at hD'
    beta_reduce
    dsimp only
    generalize (if (MaxNodeIP_ ({ acc.2.2 with query_ := x } : MaxIP α) rn).1
          > (MaxNodeIP_ ({ acc.2.2 with query_ := x } : MaxIP α) rn).2.ips_at
              (x * acc.2.2.knns_ + (MaxNodeIP_ ({ acc.2.2 with query_ := x } : MaxIP α) rn).2.knns_ - 1)
        then ComputeBaseCase_ (MaxNodeIP_ ({ acc.2.2 with query_ := x } : MaxIP α) rn).2 rn
        else (MaxNodeIP_ ({ acc.2.2 with query_ := x } : MaxIP α) rn).2) = s1 at hD' hq' hother hfl' ⊢
    have hk1 : s1.knns_ = acc.2.2.knns_ := hD'.frame.knns_.trans hD.frame.knns_.symm
    have hratio : s1.ips_at (x * acc.2.2.knns_ + s1.knns_ - 1) / s1.qnorm_at s1.query_
        = floorOf s1 x / s0.qnorm_at x := by
      unfold floorOf MaxIP.qnorm_at
      rw [hq', hD'.frame.query_norms_, hk1]
    rw [hratio]
    have hkeep : ∀ q ∈ pre, floorOf s1 q = floorOf acc.2.2 q := by
      intro q hqp
      exact floorOf_congr hk1 q (hother q (by rintro rfl; exact hxpre hqp)) hD.knns
    split_ifs with hgt
    · refine ⟨hD', fun q => le_trans (hfl q) (hfl' q), ?_, ?_⟩
      · intro q hqm
        rcases List.mem_append.mp hqm with h1 | h1
        · rw [hkeep q h1]; exact le_trans (le_of_lt hgt) (hle q h1)
        · rw [List.mem_singleton] at h1; rw [h1]
      · intro _; exact ⟨x, by simp, rfl⟩
    · push_neg at hgt
      refine ⟨hD', fun q => le_trans (hfl q) (hfl' q), ?_, ?_⟩
      · intro q hqm
        rcases List.mem_append.mp hqm with h1 | h1
        · rw [hkeep q h1]; exact hle q h1
        · rw [List.mem_singleton] at h1; rw [h1]; exact hgt
      · intro hnb
        obtain ⟨q, hqp, hval⟩ := hex hnb
        exact ⟨q, List.mem_append_left _ hqp, by rw [hkeep q hqp]; exact hval⟩

end Dual

section Dual2

variable {α : Type} [LinearOrderedField α]

theorem CTreeType.All.rootC {P : CTreeType α → Prop} {t : CTreeType α} (h : t.All P) : P t := by
  cases t with
  | leaf c r rc st b e => exact h
  | node c r rc st b e l rt => exact h.1

theorem CTreeType.All.impC {P Q : CTreeType α → Prop} (h : ∀ n, P n → Q n) {t : CTreeType α}
    (ht : t.All P) : t.All Q := by
  induction t with
  | leaf c r rc st b e => exact h _ ht
  | node c r rc st b e l rt ihl ihr => exact ⟨h _ ht.1, ihl ht.2.1, ihr ht.2.2⟩

theorem Evolves.same (t : CTreeType α) : Evolves t t := by
  induction t with
  | leaf c r rc st b e => exact ⟨rfl, rfl, rfl, rfl, rfl, le_refl _⟩
  | node c r rc st b e l rt ihl ihr => exact ⟨rfl, rfl, rfl, rfl, rfl, le_refl _, ihl, ihr⟩

theorem Evolves.comp {t t' t'' : CTreeType α} (h : Evolves t t') (h' : Evolves t' t'') :
    Evolves t t'' := by
  induction t generalizing t' t'' with
  | leaf c r rc st b e =>
    cases t' with
    | leaf c' r' rc' st' b' e' =>
      cases t'' with
      | leaf c2 r2 rc2 st2 b2 e2 =>
        obtain ⟨h1, h2, h3, h4, h5, h6⟩ := h
        obtain ⟨g1, g2, g3, g4, g5, g6⟩ := h'
        exact ⟨h1.trans g1, h2.trans g2, h3.trans g3, h4.trans g4, h5.trans g5, le_trans h6 g6⟩
      | node _ _ _ _ _ _ _ _ => exact h'.elim
    | node _ _ _ _ _ _ _ _ => exact h.elim
  | node c r rc st b e l rt ihl ihr =>
    cases t' with
    | leaf _ _ _ _ _ _ => exact h.elim
    | node c' r' rc' st' b' e' l' rt' =>
      cases t'' with
      | leaf _ _ _ _ _ _ => exact h'.elim
      | node c2 r2 rc2 st2 b2 e2 l2 rt2 =>
        obtain ⟨h1, h2, h3, h4, h5, h6, h7, h8⟩ := h
        obtain ⟨g1, g2, g3, g4, g5, g6, g7, g8⟩ := h'
        exact ⟨h1.trans g1, h2.trans g2, h3.trans g3, h4.trans g4, h5.trans g5, le_trans h6 g6,
          ihl h7 g7, ihr h8 g8⟩

theorem Evolves.indices {t t' : CTreeType α} (h : Evolves t t') : t'.indices = t.indices := by
  induction t generalizing t' with
  | leaf c r rc st b e =>
    cases t' with
    | leaf c' r' rc' st' b' e' =>
      obtain ⟨_, _, _, h4, h5, _⟩ := h
      simp [CTreeType.indices, h4, h5]
    | node _ _ _ _ _ _ _ _ => exact h.elim
  | node c r rc st b e l rt ihl ihr =>
    cases t' with
    | leaf _ _ _ _ _ _ => exact h.elim
    | node c' r' rc' st' b' e' l' rt' =>
      obtain ⟨_, _, _, _, _, _, h7, h8⟩ := h
      simp [CTreeType.indices, ihl h7, ihr h8]

theorem Evolves.center {t t' : CTreeType α} (h : Evolves t t') : t'.center = t.center := by
  cases t <;> cases t' <;> first | exact h.elim | exact h.1.symm

theorem Evolves.radius {t t' : CTreeType α} (h : Evolves t t') : t'.radius = t.radius := by
  cases t <;> cases t' <;> first | exact h.elim | exact h.2.1.symm

theorem Evolves.radius_conjugate {t t' : CTreeType α} (h : Evolves t t') :
    t'.radius_conjugate = t.radius_conjugate := by
  cases t <;> cases t' <;> first | exact h.elim | exact h.2.2.1.symm

theorem Evolves.bound_le {t t' : CTreeType α} (h : Evolves t t') :
    t.stat.bound ≤ t'.stat.bound := by
  cases t <;> cases t' <;> first | exact h.elim | exact h.2.2.2.2.2.1 | exact h.2.2.2.2.2

theorem Evolves.setStat (t : CTreeType α) (st' : QueryStat α) (h : t.stat.bound ≤ st'.bound) :
    Evolves t (t.setStat st') := by
  cases t with
  | leaf c r rc st b e => exact ⟨rfl, rfl, rfl, rfl, rfl, h⟩
  | node c r rc st b e l rt =>
    exact ⟨rfl, rfl, rfl, rfl, rfl, h, Evolves.same _, Evolves.same _⟩

theorem CTreeType.All.evolves {P : CTreeType α → Prop}
    (hP : ∀ a a', Evolves a a' → P a → P a') {t t' : CTreeType α} (h : Evolves t t')
    (ht : t.All P) : t'.All P := by
  induction t generalizing t' with
  | leaf c r rc st b e =>
    cases t' with
    | leaf c' r' rc' st' b' e' => exact hP _ _ h ht
    | node _ _ _ _ _ _ _ _ => exact h.elim
  | node c r rc st b e l rt ihl ihr =>
    cases t' with
    | leaf _ _ _ _ _ _ => exact h.elim
    | node c' r' rc' st' b' e' l' rt' =>
      exact ⟨hP _ _ h ht.1, ihl h.2.2.2.2.2.2.1 ht.2.1, ihr h.2.2.2.2.2.2.2 ht.2.2⟩

theorem MaxNodeIP_dual_frame [HasSqrt α] (s : MaxIP α) (qn : CTreeType α) (t : TreeType α) :
    Frame s (MaxNodeIP_dual s qn t).2 :=
  ⟨rfl, rfl, rfl, rfl, rfl, rfl, rfl, rfl, rfl, rfl, rfl, rfl, rfl, rfl⟩

theorem MaxNodeIP_dual_sameLedger [HasSqrt α] (s : MaxIP α) (qn : CTreeType α)
    (t : TreeType α) : SameLedger s (MaxNodeIP_dual s qn t).2 := ⟨rfl, rfl⟩

theorem MaxNodeIP_dual_fst_congr [HasSqrt α] {s s' : MaxIP α} (h : Frame s s')
    {qn qn' : CTreeType α} (he : Evolves qn qn') (t : TreeType α) :
    (MaxNodeIP_dual s' qn' t).1 = (MaxNodeIP_dual s qn t).1 := by
  unfold MaxNodeIP_dual
  simp only [h.angle_prune, he.center, he.radius, he.radius_conjugate]

theorem CheckPrune_frame [HasSqrt α] (s : MaxIP α) (qn : CTreeType α) (t : TreeType α) :
    Frame s (CheckPrune s qn t) ∧ SameLedger s (CheckPrune s qn t) := by
  unfold CheckPrune
  dsimp only
  split_ifs
  · exact ⟨⟨rfl, rfl, rfl, rfl, rfl, rfl, rfl, rfl, rfl, rfl, rfl, rfl, rfl, rfl⟩, ⟨rfl, rfl⟩⟩
  · exact ⟨⟨rfl, rfl, rfl, rfl, rfl, rfl, rfl, rfl, rfl, rfl, rfl, rfl, rfl, rfl⟩, ⟨rfl, rfl⟩⟩

theorem rec_dual_prune [HasSqrt α] (qn : CTreeType α) (rn : TreeType α) (ub : α) (s : MaxIP α)
    (h : ub < qn.stat.bound) :
    (ComputeNeighborsRecursion_dual qn rn ub s).1
      = (qn, if s.check_prune = true then
          CheckPrune { s with number_of_prunes_ := s.number_of_prunes_ + 1 } qn rn
        else { s with number_of_prunes_ := s.number_of_prunes_ + 1 }) := by
  cases qn <;> cases rn <;> (rw [ComputeNeighborsRecursion_dual]; rw [if_pos h])

theorem rec_dual_leaf_leaf [HasSqrt α] (qc : List α) (qr qrc : α) (qst : QueryStat α)
    (qb qe : Nat) (c : List α) (r : α) (b e : Nat) (ub : α) (s : MaxIP α)
    (h : ¬ ub < qst.bound) :
    (ComputeNeighborsRecursion_dual (.leaf qc qr qrc qst qb qe) (.leaf c r b e) ub s).1
      = ComputeBaseCase_dual s (.leaf qc qr qrc qst qb qe) (.leaf c r b e) := by
  rw [ComputeNeighborsRecursion_dual]
  rw [if_neg (show ¬ ub < (CTreeType.leaf qc qr qrc qst qb qe).stat.bound from h)]

theorem rec_dual_leaf_node [HasSqrt α] (qc : List α) (qr qrc : α) (qst : QueryStat α)
    (qb qe : Nat) (c : List α) (r : α) (b e : Nat) (left right : TreeType α) (ub : α)
    (s : MaxIP α) (h : ¬ ub < qst.bound) :
    (ComputeNeighborsRecursion_dual (.leaf qc qr qrc qst qb qe) (.node c r b e left right) ub s).1
      = pairCalls (.leaf qc qr qrc qst qb qe) left right
          (MaxNodeIP_dual s (.leaf qc qr qrc qst qb qe) left).1
          (MaxNodeIP_dual (MaxNodeIP_dual s (.leaf qc qr qrc qst qb qe) left).2
            (.leaf qc qr qrc qst qb qe) right).1
          (MaxNodeIP_dual (MaxNodeIP_dual s (.leaf qc qr qrc qst qb qe) left).2
            (.leaf qc qr qrc qst qb qe) right).2 := by
  rw [ComputeNeighborsRecursion_dual]
  rw [if_neg (show ¬ ub < (CTreeType.leaf qc qr qrc qst qb qe).stat.bound from h)]
  rfl

theorem rec_dual_node_leaf [HasSqrt α] (qc : List α) (qr qrc : α) (qst : QueryStat α)
    (qb qe : Nat) (ql qrt : CTreeType α) (c : List α) (r : α) (b e : Nat) (ub : α)
    (s : MaxIP α) (h : ¬ ub < qst.bound) :
    (ComputeNeighborsRecursion_dual (.node qc qr qrc qst qb qe ql qrt) (.leaf c r b e) ub s).1
      = ((CTreeType.node qc qr qrc qst qb qe
            (ComputeNeighborsRecursion_dual ql (.leaf c r b e)
              (MaxNodeIP_dual s ql (.leaf c r b e)).1
              (MaxNodeIP_dual (MaxNodeIP_dual s ql (.leaf c r b e)).2 qrt (.leaf c r b e)).2).1.1
            (ComputeNeighborsRecursion_dual qrt (.leaf c r b e)
              (MaxNodeIP_dual (MaxNodeIP_dual s ql (.leaf c r b e)).2 qrt (.leaf c r b e)).1
              (ComputeNeighborsRecursion_dual ql (.leaf c r b e)
                (MaxNodeIP_dual s ql (.leaf c r b e)).1
                (MaxNodeIP_dual (MaxNodeIP_dual s ql (.leaf c r b e)).2 qrt
                  (.leaf c r b e)).2).1.2).1.1).set_bound
          (min
            (ComputeNeighborsRecursion_dual ql (.leaf c r b e)
              (MaxNodeIP_dual s ql (.leaf c r b e)).1
              (MaxNodeIP_dual (MaxNodeIP_dual s ql (.leaf c r b e)).2 qrt
                (.leaf c r b e)).2).1.1.stat.bound
            (ComputeNeighborsRecursion_dual qrt (.leaf c r b e)
              (MaxNodeIP_dual (MaxNodeIP_dual s ql (.leaf c r b e)).2 qrt (.leaf c r b e)).1
              (ComputeNeighborsRecursion_dual ql (.leaf c r b e)
                (MaxNodeIP_dual s ql (.leaf c r b e)).1
                (MaxNodeIP_dual (MaxNodeIP_dual s ql (.leaf c r b e)).2 qrt
                  (.leaf c r b e)).2).1.2).1.1.stat.bound),
        (ComputeNeighborsRecursion_dual qrt (.leaf c r b e)
          (MaxNodeIP_dual (MaxNodeIP_dual s ql (.leaf c r b e)).2 qrt (.leaf c r b e)).1
          (ComputeNeighborsRecursion_dual ql (.leaf c r b e)
            (MaxNodeIP_dual s ql (.leaf c r b e)).1
            (MaxNodeIP_dual (MaxNodeIP_dual s ql (.leaf c r b e)).2 qrt
              (.leaf c r b e)).2).1.2).1.2) := by
  rw [ComputeNeighborsRecursion_dual]
  rw [if_neg (show ¬ ub < (CTreeType.node qc qr qrc qst qb qe ql qrt).stat.bound from h)]

theorem rec_dual_node_node [HasSqrt α] (qc : List α) (qr qrc : α) (qst : QueryStat α)
    (qb qe : Nat) (ql qrt : CTreeType α) (c : List α) (r : α) (b e : Nat)
    (left right : TreeType α) (ub : α) (s : MaxIP α) (h : ¬ ub < qst.bound) :
    (ComputeNeighborsRecursion_dual (.node qc qr qrc qst qb qe ql qrt)
        (.node c r b e left right) ub s).1
      = ((CTreeType.node qc qr qrc qst qb qe
            (pairCalls ql left right (MaxNodeIP_dual s ql left).1
              (MaxNodeIP_dual (MaxNodeIP_dual s ql left).2 ql right).1
              (MaxNodeIP_dual (MaxNodeIP_dual s ql left).2 ql right).2).1
            (pairCalls qrt left right
              (MaxNodeIP_dual (pairCalls ql left right (MaxNodeIP_dual s ql left).1
                (MaxNodeIP_dual (MaxNodeIP_dual s ql left).2 ql right).1
                (MaxNodeIP_dual (MaxNodeIP_dual s ql left).2 ql right).2).2 qrt left).1
              (MaxNodeIP_dual (MaxNodeIP_dual (pairCalls ql left right (MaxNodeIP_dual s ql left).1
                (MaxNodeIP_dual (MaxNodeIP_dual s ql left).2 ql right).1
                (MaxNodeIP_dual (MaxNodeIP_dual s ql left).2 ql right).2).2 qrt left).2
                  qrt right).1
              (MaxNodeIP_dual (MaxNodeIP_dual (pairCalls ql left right (MaxNodeIP_dual s ql left).1
                (MaxNodeIP_dual (MaxNodeIP_dual s ql left).2 ql right).1
                (MaxNodeIP_dual (MaxNodeIP_dual s ql left).2 ql right).2).2 qrt left).2
                  qrt right).2).1).set_bound
          (min
            (pairCalls ql left right (MaxNodeIP_dual s ql left).1
              (MaxNodeIP_dual (MaxNodeIP_dual s ql left).2 ql right).1
              (MaxNodeIP_dual (MaxNodeIP_dual s ql left).2 ql right).2).1.stat.bound
            (pairCalls qrt left right
              (MaxNodeIP_dual (pairCalls ql left right (MaxNodeIP_dual s ql left).1
                (MaxNodeIP_dual (MaxNodeIP_dual s ql left).2 ql right).1
                (MaxNodeIP_dual (MaxNodeIP_dual s ql left).2 ql right).2).2 qrt left).1
              (MaxNodeIP_dual (MaxNodeIP_dual (pairCalls ql left right (MaxNodeIP_dual s ql left).1
                (MaxNodeIP_dual (MaxNodeIP_dual s ql left).2 ql right).1
                (MaxNodeIP_dual (MaxNodeIP_dual s ql left).2 ql right).2).2 qrt left).2
                  qrt right).1
              (MaxNodeIP_dual (MaxNodeIP_dual (pairCalls ql left right (MaxNodeIP_dual s ql left).1
                (MaxNodeIP_dual (MaxNodeIP_dual s ql left).2 ql right).1
                (MaxNodeIP_dual (MaxNodeIP_dual s ql left).2 ql right).2).2 qrt left).2
                  qrt right).2).1.stat.bound),
        (pairCalls qrt left right
          (MaxNodeIP_dual (pairCalls ql left right (MaxNodeIP_dual s ql left).1
            (MaxNodeIP_dual (MaxNodeIP_dual s ql left).2 ql right).1
            (MaxNodeIP_dual (MaxNodeIP_dual s ql left).2 ql right).2).2 qrt left).1
          (MaxNodeIP_dual (MaxNodeIP_dual (pairCalls ql left right (MaxNodeIP_dual s ql left).1
            (MaxNodeIP_dual (MaxNodeIP_dual s ql left).2 ql right).1
            (MaxNodeIP_dual (MaxNodeIP_dual s ql left).2 ql right).2).2 qrt left).2
              qrt right).1
          (MaxNodeIP_dual (MaxNodeIP_dual (pairCalls ql left right (MaxNodeIP_dual s ql left).1
            (MaxNodeIP_dual (MaxNodeIP_dual s ql left).2 ql right).1
            (MaxNodeIP_dual (MaxNodeIP_dual s ql left).2 ql right).2).2 qrt left).2
              qrt right).2).2) := by
  rw [ComputeNeighborsRecursion_dual]
  rw [if_neg (show ¬ ub < (CTreeType.node qc qr qrc qst qb qe ql qrt).stat.bound from h)]
  rfl

end Dual2

section Dual3

variable {α : Type} [LinearOrderedField α]

theorem NodeOK.mono {s0 s s' : MaxIP α} {n : CTreeType α} (h : NodeOK s0 s n)
    (hfl : ∀ q, floorOf s q ≤ floorOf s' q) (hpos : ∀ q ∈ n.indices, 0 < s0.qnorm_at q) :
    NodeOK s0 s' n :=
  ⟨h.1, fun q hq => le_trans (h.2 q hq)
    (div_le_div_of_nonneg_right (hfl q) (le_of_lt (hpos q hq)))⟩

theorem QOK.monoQ {s0 s s' : MaxIP α} {t : CTreeType α} (h : QOK s0 s t)
    (hfl : ∀ q, floorOf s q ≤ floorOf s' q) (hpos : ∀ q ∈ t.indices, 0 < s0.qnorm_at q) :
    QOK s0 s' t := by
  refine ⟨?_, h.2⟩
  have h1 := h.1
  clear h
  induction t with
  | leaf c r rc st b e => exact NodeOK.mono h1 hfl hpos
  | node c r rc st b e l rt ihl ihr =>
    exact ⟨NodeOK.mono h1.1 hfl hpos,
      ihl (fun q hq => hpos q (List.mem_append_left _ hq)) h1.2.1,
      ihr (fun q hq => hpos q (List.mem_append_right _ hq)) h1.2.2⟩

theorem DInv.pos {s0 s : MaxIP α} {M : Nat → List α} (h : DInv s0 s M) {qs : List Nat}
    (hq : ∀ q ∈ qs, q < s0.queries_.n_cols) : ∀ q ∈ qs, 0 < s0.qnorm_at q :=
  fun q hqm => h.norms q (hq q hqm)

theorem DInv.pruneFor {s0 s : MaxIP α} {M : Nat → List α} (h : DInv s0 s M) (qs : List Nat)
    (X : Nat → List α)
    (hX : ∀ q ∈ qs, q < s0.queries_.n_cols → ∀ x ∈ X q, x ≤ floorOf s q) :
    DInv s0 s (addFor M qs X) := by
  refine ⟨h.frame, h.hk, h.len1, h.len2, h.norms, ?_, h.ok⟩
  intro q hq
  unfold addFor
  split_ifs with hm
  · exact (h.cov q hq).prune (fun x hx e he => le_trans (hX q hm hq x hx) (h.floorLe hq e he))
  · exact h.cov q hq

theorem addFor_same (M : Nat → List α) (qs : List Nat) (X Y : Nat → List α) :
    addFor (addFor M qs X) qs Y = addFor M qs (fun q => X q ++ Y q) := by
  funext q
  by_cases hq : q ∈ qs <;> simp [addFor, hq]

theorem addFor_append (M : Nat → List α) (A B : List Nat) (X : Nat → List α)
    (hdis : ∀ q ∈ A, q ∉ B) : addFor (addFor M A X) B X = addFor M (A ++ B) X := by
  funext q
  by_cases ha : q ∈ A
  · have hb : q ∉ B := hdis q ha
    simp [addFor, ha, hb]
  · by_cases hb : q ∈ B <;> simp [addFor, ha, hb]

theorem QOK.left {s0 s : MaxIP α} {c : List α} {r rc : α} {st : QueryStat α} {b e : Nat}
    {l rt : CTreeType α} (h : QOK s0 s (.node c r rc st b e l rt)) : QOK s0 s l :=
  ⟨h.1.2.1, h.2.2.2.1⟩

theorem QOK.right {s0 s : MaxIP α} {c : List α} {r rc : α} {st : QueryStat α} {b e : Nat}
    {l rt : CTreeType α} (h : QOK s0 s (.node c r rc st b e l rt)) : QOK s0 s rt :=
  ⟨h.1.2.2, h.2.2.2.2⟩

/-- The node rebuilt from its two updated children, with the smaller of their bounds. -/
theorem combine_spec {s0 s sb : MaxIP α} {c : List α} {r rc : α} {st : QueryStat α}
    {b e : Nat} {l rt l' rt' : CTreeType α} (h : QOK s0 s (.node c r rc st b e l rt))
    (hl : Evolves l l') (hr : Evolves rt rt') (hql : QOK s0 sb l') (hqr : QOK s0 sb rt') :
    Evolves (.node c r rc st b e l rt)
        ((CTreeType.node c r rc st b e l' rt').set_bound (min l'.stat.bound rt'.stat.bound)) ∧
      QOK s0 sb
        ((CTreeType.node c r rc st b e l' rt').set_bound (min l'.stat.bound rt'.stat.bound)) := by
  have hbl : st.bound ≤ l'.stat.bound := le_trans h.2.1 hl.bound_le
  have hbr : st.bound ≤ rt'.stat.bound := le_trans h.2.2.1 hr.bound_le
  have hmin : st.bound ≤ min l'.stat.bound rt'.stat.bound := le_min hbl hbr
  refine ⟨⟨rfl, rfl, rfl, rfl, rfl, hmin, hl, hr⟩, ⟨⟨⟨?_, ?_⟩, hql.1, hqr.1⟩, ?_⟩⟩
  · exact StatOK.set_bound h.1.1.1 hmin
  · intro q hq
    show min l'.stat.bound rt'.stat.bound ≤ _
    rcases List.mem_append.mp hq with h1 | h1
    · exact le_trans (min_le_left _ _) (hql.1.rootC.2 q h1)
    · exact le_trans (min_le_right _ _) (hqr.1.rootC.2 q h1)
  · exact ⟨min_le_left _ _, min_le_right _ _, hql.2, hqr.2⟩

theorem Sound2.ofEvolves [HasSqrt α] {s0 : MaxIP α} {qn qn' : CTreeType α} {rn : TreeType α}
    (h : Sound2 s0 qn rn) (he : Evolves qn qn') : Sound2 s0 qn' rn := by
  refine CTreeType.All.evolves ?_ he h
  intro a a' hea ha
  refine ha.imp ?_
  intro rn' hrn q hq i hi
  rw [MaxNodeIP_dual_fst_congr (Frame.refl s0) hea rn']
  rw [hea.indices] at hq
  exact hrn q hq i hi

theorem Sound2.ub [HasSqrt α] {s0 : MaxIP α} {qn : CTreeType α} {rn : TreeType α}
    (h : Sound2 s0 qn rn) :
    ∀ q ∈ qn.indices, ∀ i ∈ rn.indices,
      ipQ s0 q i ≤ s0.qnorm_at q * (MaxNodeIP_dual s0 qn rn).1 :=
  h.rootC.root

end Dual3

section Dual4

variable {α : Type} [LinearOrderedField α] [HasSqrt α]

theorem TreeType.size_pos (t : TreeType α) : 0 < t.size := by
  cases t <;> simp [TreeType.size]

theorem CTreeType.sizePos (t : CTreeType α) : 0 < t.size := by
  cases t <;> simp [CTreeType.size]

theorem DualPre.refLeft {s0 s : MaxIP α} {M : Nat → List α} {qn : CTreeType α} {c : List α}
    {r : α} {b e : Nat} {left right : TreeType α}
    (h : DualPre s0 s M qn (.node c r b e left right)) : DualPre s0 s M qn left :=
  ⟨h.inv, h.nodup, h.qlt, fun i hi => h.rlt i (List.mem_append_left _ hi), h.s1.2.1,
    CTreeType.All.impC (fun _ ha => ha.2.1) h.s2, h.qok⟩

theorem DualPre.refRight {s0 s : MaxIP α} {M : Nat → List α} {qn : CTreeType α} {c : List α}
    {r : α} {b e : Nat} {left right : TreeType α}
    (h : DualPre s0 s M qn (.node c r b e left right)) : DualPre s0 s M qn right :=
  ⟨h.inv, h.nodup, h.qlt, fun i hi => h.rlt i (List.mem_append_right _ hi), h.s1.2.2,
    CTreeType.All.impC (fun _ ha => ha.2.2) h.s2, h.qok⟩

theorem Sound1.subset {s0 : MaxIP α} {qs qs' : List Nat} {rn : TreeType α}
    (h : Sound1 s0 qs rn) (hsub : ∀ q ∈ qs', q ∈ qs) : Sound1 s0 qs' rn :=
  TreeType.All.imp (fun _ hn q hq i hi => hn q (hsub q hq) i hi) h

theorem DualPre.qLeft {s0 s : MaxIP α} {M : Nat → List α} {c : List α} {r rc : α}
    {st : QueryStat α} {b e : Nat} {l rt : CTreeType α} {rn : TreeType α}
    (h : DualPre s0 s M (.node c r rc st b e l rt) rn) : DualPre s0 s M l rn :=
  ⟨h.inv, (List.nodup_append.mp h.nodup).1, fun q hq => h.qlt q (List.mem_append_left _ hq),
    h.rlt, h.s1.subset (fun q hq => List.mem_append_left _ hq), h.s2.2.1, h.qok.left⟩

/-- The hypotheses `DualPre` survive a change of the object that only raises floors, and
a change of the query node to one that evolved from it. -/
theorem DualPre.step {s0 s s' : MaxIP α} {M M' : Nat → List α} {qn qn' : CTreeType α}
    {rn : TreeType α} (h : DualPre s0 s M qn rn) (hinv : DInv s0 s' M') (he : Evolves qn qn')
    (hq : QOK s0 s' qn') : DualPre s0 s' M' qn' rn :=
  ⟨hinv, by rw [he.indices]; exact h.nodup, by rw [he.indices]; exact h.qlt, h.rlt,
    by rw [he.indices]; exact h.s1, h.s2.ofEvolves he, hq⟩

theorem pairCalls_pos (qn : CTreeType α) (left right : TreeType α) (lub rub : α) (s : MaxIP α)
    (h : lub > rub) :
    pairCalls qn left right lub rub s
      = (ComputeNeighborsRecursion_dual (ComputeNeighborsRecursion_dual qn left lub s).1.1 right
          rub (ComputeNeighborsRecursion_dual qn left lub s).1.2).1 := by
  have hv : visitOrder left right lub rub = ((left, lub), (right, rub)) := by
    simp [visitOrder, h]
  unfold pairCalls
  rw [hv]

theorem pairCalls_neg (qn : CTreeType α) (left right : TreeType α) (lub rub : α) (s : MaxIP α)
    (h : ¬ lub > rub) :
    pairCalls qn left right lub rub s
      = (ComputeNeighborsRecursion_dual (ComputeNeighborsRecursion_dual qn right rub s).1.1 left
          lub (ComputeNeighborsRecursion_dual qn right rub s).1.2).1 := by
  have hv : visitOrder left right lub rub = ((right, rub), (left, lub)) := by
    simp [visitOrder, h]
  unfold pairCalls
  rw [hv]

theorem pair_spec (s0 : MaxIP α) (qx : CTreeType α) (left right : TreeType α)
    (hIHl : ∀ qx' : CTreeType α, qx'.size = qx.size → DualSpec s0 qx' left)
    (hIHr : ∀ qx' : CTreeType α, qx'.size = qx.size → DualSpec s0 qx' right)
    (s : MaxIP α) (M : Nat → List α) (hpl : DualPre s0 s M qx left)
    (hpr : DualPre s0 s M qx right) (lub rub : α)
    (hl : lub = (MaxNodeIP_dual s0 qx left).1) (hr : rub = (MaxNodeIP_dual s0 qx right).1) :
    DualPost s0 s M qx (left.indices ++ right.indices) (pairCalls qx left right lub rub s) := by
  by_cases hgt : lub > rub
  · rw [pairCalls_pos _ _ _ _ _ _ hgt]
    have p1 := hIHl qx rfl lub s M hpl (by rw [hl]; exact hpl.s2.ub)
    have hpre2 := hpr.step p1.inv p1.ev p1.qok
    have p2 := hIHr _ (ComputeNeighborsRecursion_dual qx left lub s).2 rub _ _ hpre2
      (by rw [hr, ← MaxNodeIP_dual_fst_congr (Frame.refl s0) p1.ev right]; exact hpre2.s2.ub)
    refine ⟨?_, p1.ev.comp p2.ev, p2.qok, fun q => le_trans (p1.floors q) (p2.floors q)⟩
    have := p2.inv
    rw [p1.ev.indices, addFor_same] at this
    simpa only [List.map_append] using this
  · rw [pairCalls_neg _ _ _ _ _ _ hgt]
    have p1 := hIHr qx rfl rub s M hpr (by rw [hr]; exact hpr.s2.ub)
    have hpre2 := hpl.step p1.inv p1.ev p1.qok
    have p2 := hIHl _ (ComputeNeighborsRecursion_dual qx right rub s).2 lub _ _ hpre2
      (by rw [hl, ← MaxNodeIP_dual_fst_congr (Frame.refl s0) p1.ev left]; exact hpre2.s2.ub)
    refine ⟨?_, p1.ev.comp p2.ev, p2.qok, fun q => le_trans (p1.floors q) (p2.floors q)⟩
    have := p2.inv
    rw [p1.ev.indices, addFor_same] at this
    refine this.permM ?_
    intro q
    unfold addFor
    split_ifs
    · simp only [List.map_append]
      exact List.Perm.append_left _ List.perm_append_comm
    · exact List.Perm.refl _

theorem DualPre.qRightAfter {s0 s s' : MaxIP α} {M M' : Nat → List α} {c : List α} {r rc : α}
    {st : QueryStat α} {b e : Nat} {l rt : CTreeType α} {rn : TreeType α}
    (h : DualPre s0 s M (.node c r rc st b e l rt) rn) (hinv : DInv s0 s' M')
    (hfl : ∀ q, floorOf s q ≤ floorOf s' q) : DualPre s0 s' M' rt rn :=
  ⟨hinv, (List.nodup_append.mp h.nodup).2.1, fun q hq => h.qlt q (List.mem_append_right _ hq),
    h.rlt, h.s1.subset (fun q hq => List.mem_append_right _ hq), h.s2.2.2,
    h.qok.right.monoQ hfl (h.inv.pos (fun q hq => h.qlt q (List.mem_append_right _ hq)))⟩

theorem prune_spec (s0 : MaxIP α) (qn : CTreeType α) (rn : TreeType α) (ub : α) (s : MaxIP α)
    (M : Nat → List α) (hpre : DualPre s0 s M qn rn)
    (hub : ∀ q ∈ qn.indices, ∀ i ∈ rn.indices, ipQ s0 q i ≤ s0.qnorm_at q * ub)
    (hp : ub < qn.stat.bound) :
    DualPost s0 s M qn rn.indices (ComputeNeighborsRecursion_dual qn rn ub s).1 := by
  rw [rec_dual_prune _ _ _ _ hp]
  have hfs : Frame s (if s.check_prune = true then
        CheckPrune { s with number_of_prunes_ := s.number_of_prunes_ + 1 } qn rn
      else { s with number_of_prunes_ := s.number_of_prunes_ + 1 }) ∧
      SameLedger s (if s.check_prune = true then
        CheckPrune { s with number_of_prunes_ := s.number_of_prunes_ + 1 } qn rn
      else { s with number_of_prunes_ := s.number_of_prunes_ + 1 }) := by
    split_ifs
    · have := CheckPrune_frame ({ s with number_of_prunes_ := s.number_of_prunes_ + 1 }) qn rn
      have hF1 : Frame s ({ s with number_of_prunes_ := s.number_of_prunes_ + 1 } : MaxIP α) :=
        ⟨rfl, rfl, rfl, rfl, rfl, rfl, rfl, rfl, rfl, rfl, rfl, rfl, rfl, rfl⟩
      exact ⟨hF1.trans this.1, ⟨this.2.1, this.2.2⟩⟩
    · exact ⟨⟨rfl, rfl, rfl, rfl, rfl, rfl, rfl, rfl, rfl, rfl, rfl, rfl, rfl, rfl⟩, ⟨rfl, rfl⟩⟩
  generalize (if s.check_prune = true then
        CheckPrune { s with number_of_prunes_ := s.number_of_prunes_ + 1 } qn rn
      else { s with number_of_prunes_ := s.number_of_prunes_ + 1 }) = s' at hfs ⊢
  obtain ⟨hF, hS⟩ := hfs
  have hfeq : ∀ q, floorOf s' q = floorOf s q := fun q => hS.floorOf hF.knns_ q
  refine ⟨?_, Evolves.same qn,
    hpre.qok.monoQ (fun q => le_of_eq (hfeq q).symm) (hpre.inv.pos hpre.qlt),
    fun q => le_of_eq (hfeq q).symm⟩
  refine (hpre.inv.move hF hS).pruneFor _ _ ?_
  intro q hq hqn x hx
  obtain ⟨i, hi, rfl⟩ := List.mem_map.mp hx
  have hpos := hpre.inv.norms q hqn
  have h1 := hub q hq i hi
  have h2 := hpre.qok.1.rootC.2 q hq
  rw [le_div_iff₀ hpos] at h2
  rw [hfeq]
  have h3 : s0.qnorm_at q * ub ≤ qn.stat.bound * s0.qnorm_at q := by
    rw [mul_comm]; exact mul_le_mul_of_nonneg_right (le_of_lt hp) (le_of_lt hpos)
  exact le_trans h1 (le_trans h3 h2)

theorem dual_rec (s0 : MaxIP α) :
    ∀ (n : Nat) (qn : CTreeType α) (rn : TreeType α), qn.size + rn.size ≤ n →
      DualSpec s0 qn rn := by
  intro n
  induction n with
  | zero =>
    intro qn rn h
    have := qn.sizePos
    omega
  | succ n ih =>
    intro qn rn hsz ub s M hpre hub
    by_cases hp : ub < qn.stat.bound
    · exact prune_spec s0 qn rn ub s M hpre hub hp
    cases qn with
    | leaf qc qr qrc qst qb qe =>
      have hp : ¬ ub < qst.bound := hp
      cases rn with
      | leaf c r b e =>
        rw [rec_dual_leaf_leaf _ _ _ _ _ _ _ _ _ _ _ _ hp]
        obtain ⟨hinv, hfl, st', heq, hmono, hst, hle⟩ :=
          dual_basecase hpre.inv (.leaf qc qr qrc qst qb qe) (.leaf c r b e) hpre.qlt hpre.rlt
            (fun q hq i hi => hpre.s1 q hq i hi) hpre.qok.1.2 hpre.qok.1.1
        refine ⟨hinv, ?_, ⟨?_, ?_⟩, hfl⟩
        · rw [heq]; exact Evolves.setStat _ st' hmono
        · rw [heq]; exact ⟨hst, hle⟩
        · rw [heq]; trivial
      | node c r b e left right =>
        rw [rec_dual_leaf_node _ _ _ _ _ _ _ _ _ _ _ _ _ _ hp]
        have hsl : (CTreeType.leaf qc qr qrc qst qb qe).size + left.size ≤ n := by
          simp only [CTreeType.size, TreeType.size] at hsz ⊢; omega
        have hsr : (CTreeType.leaf qc qr qrc qst qb qe).size + right.size ≤ n := by
          simp only [CTreeType.size, TreeType.size] at hsz ⊢; omega
        have hF1 : Frame s0 (MaxNodeIP_dual s (.leaf qc qr qrc qst qb qe) left).2 :=
          hpre.inv.frame.trans (MaxNodeIP_dual_frame _ _ _)
        have hD : DInv s0 (MaxNodeIP_dual (MaxNodeIP_dual s (.leaf qc qr qrc qst qb qe) left).2
            (.leaf qc qr qrc qst qb qe) right).2 M :=
          (hpre.inv.move (MaxNodeIP_dual_frame _ _ _)
            (MaxNodeIP_dual_sameLedger _ _ _)).move (MaxNodeIP_dual_frame _ _ _)
            (MaxNodeIP_dual_sameLedger _ _ _)
        have hfleq : ∀ q, floorOf (MaxNodeIP_dual (MaxNodeIP_dual s
            (.leaf qc qr qrc qst qb qe) left).2 (.leaf qc qr qrc qst qb qe) right).2 q
            = floorOf s q := fun q => rfl
        have hq2 : QOK s0 (MaxNodeIP_dual (MaxNodeIP_dual s (.leaf qc qr qrc qst qb qe) left).2
            (.leaf qc qr qrc qst qb qe) right).2 (.leaf qc qr qrc qst qb qe) :=
          hpre.qok.monoQ (fun q => le_of_eq (hfleq q).symm) (hpre.inv.pos hpre.qlt)
        have hpre' := hpre.step hD (Evolves.same _) hq2
        have post := pair_spec s0 (.leaf qc qr qrc qst qb qe) left right
          (fun qx' hx => ih qx' left (by rw [hx]; exact hsl))
          (fun qx' hx => ih qx' right (by rw [hx]; exact hsr))
          _ M hpre'.refLeft hpre'.refRight _ _
          (MaxNodeIP_dual_fst_congr hpre.inv.frame (Evolves.same _) left)
          (MaxNodeIP_dual_fst_congr hF1 (Evolves.same _) right)
        exact ⟨post.inv, post.ev, post.qok, fun q => by rw [← hfleq q]; exact post.floors q⟩
    | node qc qr qrc qst qb qe ql qrt =>
      have hp : ¬ ub < qst.bound := hp
      have hdis : ∀ q ∈ ql.indices, q ∉ qrt.indices := by
        intro q hq hq'
        exact (List.nodup_append.mp hpre.nodup).2.2 hq hq'
      cases rn with
      | leaf c r b e =>
        rw [rec_dual_node_leaf _ _ _ _ _ _ _ _ _ _ _ _ _ _ hp]
        have hsl : ql.size + (TreeType.leaf c r b e).size ≤ n := by
          simp only [CTreeType.size, TreeType.size] at hsz ⊢; omega
        have hsr : qrt.size + (TreeType.leaf c r b e).size ≤ n := by
          simp only [CTreeType.size, TreeType.size] at hsz ⊢; omega
        have hF1 : Frame s0 (MaxNodeIP_dual s ql (.leaf c r b e)).2 :=
          hpre.inv.frame.trans (MaxNodeIP_dual_frame _ _ _)
        have hD : DInv s0 (MaxNodeIP_dual (MaxNodeIP_dual s ql (.leaf c r b e)).2 qrt
            (.leaf c r b e)).2 M :=
          (hpre.inv.move (MaxNodeIP_dual_frame _ _ _)
            (MaxNodeIP_dual_sameLedger _ _ _)).move (MaxNodeIP_dual_frame _ _ _)
            (MaxNodeIP_dual_sameLedger _ _ _)
        have hfleq : ∀ q, floorOf (MaxNodeIP_dual (MaxNodeIP_dual s ql (.leaf c r b e)).2 qrt
            (.leaf c r b e)).2 q = floorOf s q := fun q => rfl
        have hq2 : QOK s0 (MaxNodeIP_dual (MaxNodeIP_dual s ql (.leaf c r b e)).2 qrt
            (.leaf c r b e)).2 (.node qc qr qrc qst qb qe ql qrt) :=
          hpre.qok.monoQ (fun q => le_of_eq (hfleq q).symm) (hpre.inv.pos hpre.qlt)
        have hpre' := hpre.step hD (Evolves.same _) hq2
        have p1 := ih ql (.leaf c r b e) hsl (MaxNodeIP_dual s ql (.leaf c r b e)).1 _ M hpre'.qLeft
          (by rw [MaxNodeIP_dual_fst_congr hpre.inv.frame (Evolves.same _)]; exact Sound2.ub hpre.s2.2.1)
        have hpreR := hpre'.qRightAfter p1.inv p1.floors
        have p2 := ih qrt (.leaf c r b e) hsr
          (MaxNodeIP_dual (MaxNodeIP_dual s ql (.leaf c r b e)).2 qrt (.leaf c r b e)).1 _ _ hpreR
          (by rw [MaxNodeIP_dual_fst_congr hF1 (Evolves.same _)]; exact Sound2.ub hpre.s2.2.2)
        have hc := combine_spec hq2 p1.ev p2.ev
          (p1.qok.monoQ p2.floors (by
            rw [p1.ev.indices]; exact hpre.inv.pos (fun q hq => hpre.qlt q (List.mem_append_left _ hq))))
          p2.qok
        refine ⟨?_, hc.1, hc.2, fun q => ?_⟩
        · have := p2.inv
          rw [addFor_append _ _ _ _ hdis] at this
          exact this
        · rw [← hfleq q]; exact le_trans (p1.floors q) (p2.floors q)
      | node c r b e left right =>
        rw [rec_dual_node_node _ _ _ _ _ _ _ _ _ _ _ _ _ _ _ _ hp]
        have hs1 : ∀ qx' : CTreeType α, qx'.size = ql.size → qx'.size + left.size ≤ n := by
          intro qx' hx; simp only [CTreeType.size, TreeType.size] at hsz; omega
        have hs2 : ∀ qx' : CTreeType α, qx'.size = ql.size → qx'.size + right.size ≤ n := by
          intro qx' hx; simp only [CTreeType.size, TreeType.size] at hsz; omega
        have hs3 : ∀ qx' : CTreeType α, qx'.size = qrt.size → qx'.size + left.size ≤ n := by
          intro qx' hx; simp only [CTreeType.size, TreeType.size] at hsz; omega
        have hs4 : ∀ qx' : CTreeType α, qx'.size = qrt.size → qx'.size + right.size ≤ n := by
          intro qx' hx; simp only [CTreeType.size, TreeType.size] at hsz; omega
        have hF1 : Frame s0 (MaxNodeIP_dual s ql left).2 :=
          hpre.inv.frame.trans (MaxNodeIP_dual_frame _ _ _)
        have hD : DInv s0 (MaxNodeIP_dual (MaxNodeIP_dual s ql left).2 ql right).2 M :=
          (hpre.inv.move (MaxNodeIP_dual_frame _ _ _)
            (MaxNodeIP_dual_sameLedger _ _ _)).move (MaxNodeIP_dual_frame _ _ _)
            (MaxNodeIP_dual_sameLedger _ _ _)
        have hfleq : ∀ q, floorOf (MaxNodeIP_dual (MaxNodeIP_dual s ql left).2 ql right).2 q
            = floorOf s q := fun q => rfl
        have hq2 : QOK s0 (MaxNodeIP_dual (MaxNodeIP_dual s ql left).2 ql right).2
            (.node qc qr qrc qst qb qe ql qrt) :=
          hpre.qok.monoQ (fun q => le_of_eq (hfleq q).symm) (hpre.inv.pos hpre.qlt)
        have hpre' := hpre.step hD (Evolves.same _) hq2
        have p1 := pair_spec s0 ql left right
          (fun qx' hx => ih qx' left (hs1 qx' hx)) (fun qx' hx => ih qx' right (hs2 qx' hx))
          _ M hpre'.qLeft.refLeft hpre'.qLeft.refRight _ _
          (MaxNodeIP_dual_fst_congr hpre.inv.frame (Evolves.same _) left)
          (MaxNodeIP_dual_fst_congr hF1 (Evolves.same _) right)
        generalize pairCalls ql left right (MaxNodeIP_dual s ql left).1
          (MaxNodeIP_dual (MaxNodeIP_dual s ql left).2 ql right).1
          (MaxNodeIP_dual (MaxNodeIP_dual s ql left).2 ql right).2 = a at p1 ⊢
        have hFa : Frame s0 (MaxNodeIP_dual a.2 qrt left).2 :=
          p1.inv.frame.trans (MaxNodeIP_dual_frame _ _ _)
        have hDa : DInv s0 (MaxNodeIP_dual (MaxNodeIP_dual a.2 qrt left).2 qrt right).2 _ :=
          (p1.inv.move (MaxNodeIP_dual_frame _ _ _)
            (MaxNodeIP_dual_sameLedger _ _ _)).move (MaxNodeIP_dual_frame _ _ _)
            (MaxNodeIP_dual_sameLedger _ _ _)
        have hfleq2 : ∀ q, floorOf (MaxNodeIP_dual (MaxNodeIP_dual a.2 qrt left).2 qrt right).2 q
            = floorOf a.2 q := fun q => rfl
        have hpreR := hpre'.qRightAfter hDa (fun q => by rw [hfleq2 q]; exact p1.floors q)
        have p2 := pair_spec s0 qrt left right
          (fun qx' hx => ih qx' left (hs3 qx' hx)) (fun qx' hx => ih qx' right (hs4 qx' hx))
          _ _ hpreR.refLeft hpreR.refRight _ _
          (MaxNodeIP_dual_fst_congr p1.inv.frame (Evolves.same _) left)
          (MaxNodeIP_dual_fst_congr hFa (Evolves.same _) right)
        generalize pairCalls qrt left right (MaxNodeIP_dual a.2 qrt left).1
          (MaxNodeIP_dual (MaxNodeIP_dual a.2 qrt left).2 qrt right).1
          (MaxNodeIP_dual (MaxNodeIP_dual a.2 qrt left).2 qrt right).2 = b2 at p2 ⊢
        have hc := combine_spec hq2 p1.ev p2.ev
          (p1.qok.monoQ (fun q => by rw [← hfleq2 q]; exact p2.floors q) (by
            rw [p1.ev.indices]; exact hpre.inv.pos (fun q hq => hpre.qlt q (List.mem_append_left _ hq))))
          p2.qok
        refine ⟨?_, hc.1, hc.2, fun q => ?_⟩
        · have := p2.inv
          rw [addFor_append _ _ _ _ hdis] at this
          exact this
        · rw [← hfleq q]
          exact le_trans (p1.floors q) (by rw [← hfleq2 q]; exact p2.floors q)

end Dual4

section Dual5

variable {α : Type} [LinearOrderedField α]

/-- The loop of lines 606-608 over all queries, on a root that is a leaf. -/
theorem naive_loop (s : MaxIP α) (hk : 1 ≤ s.knns_) (hseed : Seeded s)
    (hrange : ∀ i ∈ List.range' s.reference_tree_.begin_
      (s.reference_tree_.end_ - s.reference_tree_.begin_), i < s.references_.n_cols) :
    Frame s (naiveLoop s) ∧
      ∀ q, q < s.queries_.n_cols →
        Covers (ledgerEntries (naiveLoop s) q)
            (List.replicate s.knns_ 0 ++ (List.range' s.reference_tree_.begin_
              (s.reference_tree_.end_ - s.reference_tree_.begin_)).map (ipQ s q)) ∧
          ∀ e ∈ ledgerEntries (naiveLoop s) q, EntryOK s q e := by
  have key := foldl_range_invariant
    (fun j (acc : MaxIP α) => Frame s acc ∧
      (∀ q, q < j → Covers (ledgerEntries acc q)
          (List.replicate s.knns_ 0 ++ (List.range' s.reference_tree_.begin_
              (s.reference_tree_.end_ - s.reference_tree_.begin_)).map (ipQ s q)) ∧
        ∀ e ∈ ledgerEntries acc q, EntryOK s q e) ∧
      (∀ q, j ≤ q → q < s.queries_.n_cols →
        ledgerEntries acc q = List.replicate s.knns_ (0, sentinel)))
    (fun acc qi => ComputeBaseCase_ { acc with query_ := qi } acc.reference_tree_)
    s.queries_.n_cols { s with query_ := 0 } ?_ ?_
  · exact ⟨key.1, fun q hq => key.2.1 q hq⟩
  · refine ⟨Frame.setQuery s 0, fun q hq => absurd hq (Nat.not_lt_zero _), ?_⟩
    intro q _ hq
    rw [(SameLedger.ofSetQuery s 0).entries rfl]
    exact hseed.seedEntries q hq
  · intro j acc hj ⟨hF, hdone, htodo⟩
    beta_reduce
    have hF0' : Frame s ({ acc with query_ := j } : MaxIP α) := hF.trans (Frame.setQuery acc j)
    have hq0' : ({ acc with query_ := j } : MaxIP α).query_ = j := rfl
    have hSL' : SameLedger acc ({ acc with query_ := j } : MaxIP α) := SameLedger.ofSetQuery acc j
    generalize ({ acc with query_ := j } : MaxIP α) = s0 at hF0' hq0' hSL' ⊢
    have hlen : (j + 1) * s.knns_ ≤ s.queries_.n_cols * s.knns_ := Nat.mul_le_mul_right _ hj
    rw [hF.reference_tree_]
    have hseedj : ledgerEntries s0 j = List.replicate s0.knns_ (0, sentinel) := by
      rw [hSL'.entries (hF0'.knns_.trans hF.knns_.symm), hF0'.knns_]
      exact htodo j (le_refl _) hj
    have h0 : SInv s0 s0 (List.replicate s0.knns_ 0) :=
      ⟨Frame.refl s0, rfl, by rw [hF0'.knns_]; exact hk,
        by rw [hq0', hF0'.knns_, hF0'.len_ips, hseed.1, List.length_replicate]; exact hlen,
        by rw [hq0', hF0'.knns_, hF0'.len_idx, hseed.2, List.length_replicate]; exact hlen,
        by rw [hq0', hseedj]; exact covers_replicate _, by
          rw [hq0', hseedj]; intro e he; exact Or.inl (List.eq_of_mem_replicate he)⟩
    obtain ⟨hinv, hother, _⟩ := h0.atLeaf s.reference_tree_
      (by rw [hF0'.references_]; exact hrange)
    rw [hq0'] at hinv hother
    refine ⟨hF0'.trans hinv.frame, ?_, ?_⟩
    · intro q hq
      by_cases hqj : q = j
      · subst hqj
        refine ⟨?_, ?_⟩
        · have := hinv.cov
          rw [hq0', hF0'.knns_] at this
          have hfun : ipQ s0 q = ipQ s q := by
            funext i; exact hF0'.ipQ q i
          rw [← hfun]
          exact this
        · intro e he
          have := hinv.ok e (by rw [hq0']; exact he)
          rw [hq0'] at this
          exact (hF0'.entryOK q e).mp this
      · have hlt : q < j := by omega
        rw [hother q hqj, hSL'.entries (hF0'.knns_.trans hF.knns_.symm)]
        exact hdone q hlt
    · intro q hjq hq
      rw [hother q (by omega), hSL'.entries (hF0'.knns_.trans hF.knns_.symm)]
      exact htodo q (by omega) hq

theorem Seeded.floorZero {s : MaxIP α} (h : Seeded s) (hk : 1 ≤ s.knns_) (q : Nat)
    (hq : q < s.queries_.n_cols) : floorOf s q = 0 := by
  have hb : q * s.knns_ + s.knns_ - 1 < s.queries_.n_cols * s.knns_ := by
    have : (q + 1) * s.knns_ ≤ s.queries_.n_cols * s.knns_ := Nat.mul_le_mul_right _ hq
    rw [Nat.add_mul] at this; omega
  unfold MaxIPSearch.floorOf MaxIP.ips_at
  rw [h.1, List.getD_eq_getElem _ _ (by simpa using hb)]
  simp

theorem FreshTree.heapOrd {t : CTreeType α} (h : FreshTree t) : HeapOrd t := by
  induction t with
  | leaf c r rc st b e => trivial
  | node c r rc st b e l rt ihl ihr =>
    have hl : FreshTree l := h.2.1
    have hr : FreshTree rt := h.2.2
    refine ⟨?_, ?_, ihl hl, ihr hr⟩
    · have h1 : st.bound = 0 := h.1.1
      have h2 := (CTreeType.All.rootC hl).1
      rw [h1, h2]
    · have h1 : st.bound = 0 := h.1.1
      have h2 := (CTreeType.All.rootC hr).1
      rw [h1, h2]

theorem CTreeType.All.mem_indices {t : CTreeType α}
    {Q : Nat → Prop} (hq : ∀ q ∈ t.indices, Q q) :
    t.All (fun n => ∀ q ∈ n.indices, Q q) := by
  induction t with
  | leaf c r rc st b e => exact hq
  | node c r rc st b e l rt ihl ihr =>
    exact ⟨hq, ihl (fun q h => hq q (List.mem_append_left _ h)),
      ihr (fun q h => hq q (List.mem_append_right _ h))⟩

theorem CTreeType.All.andC {P Q : CTreeType α → Prop} {t : CTreeType α} (hp : t.All P)
    (hq : t.All Q) : t.All (fun n => P n ∧ Q n) := by
  induction t with
  | leaf c r rc st b e => exact ⟨hp, hq⟩
  | node c r rc st b e l rt ihl ihr =>
    exact ⟨⟨hp.1, hq.1⟩, ihl hp.2.1 hq.2.1, ihr hp.2.2 hq.2.2⟩

theorem FreshTree.qok {s : MaxIP α} {t : CTreeType α} (h : FreshTree t) (hseed : Seeded s)
    (hk : 1 ≤ s.knns_) (hq : ∀ q ∈ t.indices, q < s.queries_.n_cols) : QOK s s t := by
  refine ⟨?_, h.heapOrd⟩
  have hidx : t.All (fun n => ∀ q ∈ n.indices, q < s.queries_.n_cols) :=
    CTreeType.All.mem_indices hq
  refine (CTreeType.All.andC h hidx).impC ?_
  intro n ⟨⟨hb, hw⟩, hi⟩
  refine ⟨⟨by rw [hw]; exact List.sorted_nil, by rw [hw]; simp⟩, ?_⟩
  intro q hqn
  rw [hb, hseed.floorZero hk q (hi q hqn)]
  simp

theorem Seeded.dinv {s : MaxIP α} (hseed : Seeded s) (hk : 1 ≤ s.knns_)
    (hnorms : ∀ q, q < s.queries_.n_cols → 0 < s.qnorm_at q) :
    DInv s s (fun _ => List.replicate s.knns_ 0) :=
  ⟨Frame.refl s, hk, by rw [hseed.1, List.length_replicate],
    by rw [hseed.2, List.length_replicate], hnorms,
    fun q hq => by rw [hseed.seedEntries q hq]; exact covers_replicate _,
    fun q hq e he => by
      rw [hseed.seedEntries q hq] at he; exact Or.inl (List.eq_of_mem_replicate he)⟩

/-- The top-level call of the dual recursion from a fresh state. -/
theorem dual_top [HasSqrt α] (s : MaxIP α) (qt : CTreeType α) (hk : 1 ≤ s.knns_)
    (hseed : Seeded s) (hnorms : ∀ q, q < s.queries_.n_cols → 0 < s.qnorm_at q)
    (hnd : qt.indices.Nodup) (hq : ∀ q ∈ qt.indices, q < s.queries_.n_cols)
    (hr : ∀ i ∈ s.reference_tree_.indices, i < s.references_.n_cols)
    (h1 : Sound1 s qt.indices s.reference_tree_) (h2 : Sound2 s qt s.reference_tree_)
    (hfresh : FreshTree qt) :
    DualPost s s (fun _ => List.replicate s.knns_ 0) qt s.reference_tree_.indices
      (ComputeNeighborsRecursion_dual qt s.reference_tree_
        (MaxNodeIP_dual s qt s.reference_tree_).1 (MaxNodeIP_dual s qt s.reference_tree_).2).1 := by
  have hD : DInv s (MaxNodeIP_dual s qt s.reference_tree_).2 (fun _ => List.replicate s.knns_ 0) :=
    (hseed.dinv hk hnorms).move (MaxNodeIP_dual_frame _ _ _)
      (MaxNodeIP_dual_sameLedger _ _ _)
  have hfl : ∀ q, floorOf (MaxNodeIP_dual s qt s.reference_tree_).2 q = floorOf s q :=
    fun q => rfl
  have hQ : QOK s (MaxNodeIP_dual s qt s.reference_tree_).2 qt :=
    (hfresh.qok hseed hk hq).monoQ (fun q => le_of_eq (hfl q).symm)
      ((hseed.dinv hk hnorms).pos hq)
  have post := dual_rec s _ qt s.reference_tree_ (le_refl _)
    (MaxNodeIP_dual s qt s.reference_tree_).1 _ _
    ⟨hD, hnd, hq, hr, h1, h2, hQ⟩ (Sound2.ub h2)
  exact ⟨post.inv, post.ev, post.qok, fun q => by rw [← hfl q]; exact post.floors q⟩

theorem TreeType.All.forall_mem {α : Type} [LinearOrderedField α] {ι : Type}
    {P : ι → TreeType α → Prop} {c : ι → Prop}
    {t : TreeType α} (h : ∀ q, c q → t.All (P q)) : t.All (fun n => ∀ q, c q → P q n) := by
  induction t with
  | leaf ce r b e => exact fun q hq => h q hq
  | node ce r b e l rt ihl ihr =>
    exact ⟨fun q hq => (h q hq).1, ihl (fun q hq => (h q hq).2.1),
      ihr (fun q hq => (h q hq).2.2)⟩

theorem sound1_tree (s : MaxIP ℝ) (d : Nat) (t : TreeType ℝ) (qs : List Nat)
    (hq : ∀ q ∈ qs, (s.queries_.col q).length = d)
    (hnorm : ∀ q ∈ qs, s.qnorm_at q = norm2 (s.queries_.col q))
    (hvalid : BallTreeValid s.references_ d t)
    (hnz : s.angle_prune = true →
      (∀ q ∈ qs, norm2 (s.queries_.col q) ≠ 0) ∧ t.All (fun n => norm2 n.center ≠ 0)) :
    Sound1 s qs t := by
  unfold Sound1
  exact TreeType.All.forall_mem (P := fun q n => ∀ i ∈ n.indices,
      ipQ s q i ≤ (MaxNodeIP_ { s with query_ := q } n).1) (c := fun q => q ∈ qs)
    (fun q hqs => single_sound_tree s d t q (hq q hqs) (hnorm q hqs) hvalid
      (fun h => ⟨(hnz h).1 q hqs, (hnz h).2⟩))

theorem sound2_tree (s : MaxIP ℝ) (d : Nat) (qt : CTreeType ℝ) (t : TreeType ℝ)
    (hnorm : ∀ q ∈ qt.indices, s.qnorm_at q = norm2 (s.queries_.col q))
    (hvalid : BallTreeValid s.references_ d t)
    (hcone : ConeTreeValid s.queries_ d qt)
    (hnz : s.angle_prune = true →
      (∀ q ∈ qt.indices, norm2 (s.queries_.col q) ≠ 0) ∧
        qt.All (fun n => norm2 n.center ≠ 0) ∧ t.All (fun n => norm2 n.center ≠ 0)) :
    Sound2 s qt t := by
  unfold Sound2
  have hidx : qt.All (fun n => ∀ q ∈ n.indices, q ∈ qt.indices) :=
    CTreeType.All.mem_indices (fun q h => h)
  have hz : qt.All (fun n => s.angle_prune = true → norm2 n.center ≠ 0) := by
    by_cases h : s.angle_prune = true
    · exact (hnz h).2.1.impC (fun n hn _ => hn)
    · exact hidx.impC (fun n _ h' => absurd h' h)
  refine (CTreeType.All.andC (CTreeType.All.andC hcone hidx) hz).impC ?_
  intro a ⟨⟨⟨hca, hsin, hqa⟩, hsub⟩, hza⟩
  have hzt : t.All (fun n => s.angle_prune = true → norm2 n.center ≠ 0) :=
    TreeType.All.of_imp (fun h => (hnz h).2.2)
  refine (TreeType.All.and hvalid hzt).imp ?_
  intro n ⟨⟨hc, hpts⟩, hcz⟩ q hq i hi
  rw [MaxNodeIP_dual_fst, hnorm q (hsub q hq)]
  exact dual_sound d _ _ _ _ _ _ _ _ (hqa q hq).1 hca hc (hpts i hi).1 (hpts i hi).2
    (fun h => ⟨(hnz h).1 q (hsub q hq), hza h, hcz h, (hqa q hq).2, hsin⟩)

end Dual5

section Congr

variable {α : Type} [LinearOrderedField α] [HasSqrt α]

theorem Sim.self (s : MaxIP α) : Sim s s := ⟨s.query_, s.query_tree_, rfl⟩

theorem Sim.chain {s s' s'' : MaxIP α} (h : Sim s s') (h' : Sim s' s'') : Sim s s'' := by
  obtain ⟨a, b, rfl⟩ := h
  obtain ⟨a', b', rfl⟩ := h'
  exact ⟨a', b', rfl⟩

theorem Sim.flip {s s' : MaxIP α} (h : Sim s s') : Sim s' s := by
  obtain ⟨a, b, rfl⟩ := h
  exact ⟨s.query_, s.query_tree_, rfl⟩

theorem Sim.sameLedger {s s' : MaxIP α} (h : Sim s s') : SameLedger s s' := by
  obtain ⟨a, b, rfl⟩ := h
  exact ⟨rfl, rfl⟩

theorem eraseLog_fields {qn qn' : CTreeType α} (h : qn.eraseLog = qn'.eraseLog) :
    qn'.center = qn.center ∧ qn'.radius = qn.radius ∧
      qn'.radius_conjugate = qn.radius_conjugate ∧ qn'.begin_ = qn.begin_ ∧
      qn'.end_ = qn.end_ ∧ qn'.stat.bound = qn.stat.bound ∧ qn'.size = qn.size := by
  induction qn generalizing qn' with
  | leaf c r rc st b e =>
    cases qn' with
    | leaf c' r' rc' st' b' e' =>
      simp only [CTreeType.eraseLog, CTreeType.mapStat, CTreeType.leaf.injEq,
        QueryStat.mk.injEq, and_true] at h
      obtain ⟨h1, h2, h3, h4, h5, h6⟩ := h
      exact ⟨h1.symm, h2.symm, h3.symm, h5.symm, h6.symm, h4.symm, rfl⟩
    | node c' r' rc' st' b' e' l' rt' =>
      simp [CTreeType.eraseLog, CTreeType.mapStat] at h
  | node c r rc st b e l rt ihl ihr =>
    cases qn' with
    | leaf c' r' rc' st' b' e' =>
      simp [CTreeType.eraseLog, CTreeType.mapStat] at h
    | node c' r' rc' st' b' e' l' rt' =>
      simp only [CTreeType.eraseLog, CTreeType.mapStat, CTreeType.node.injEq,
        QueryStat.mk.injEq, and_true] at h
      obtain ⟨h1, h2, h3, h4, h5, h6, h7, h8⟩ := h
      refine ⟨h1.symm, h2.symm, h3.symm, h5.symm, h6.symm, h4.symm, ?_⟩
      simp only [CTreeType.size]
      rw [(ihl h7).2.2.2.2.2.2, (ihr h8).2.2.2.2.2.2]

theorem eraseLog_set_bound {qn qn' : CTreeType α} (h : qn.eraseLog = qn'.eraseLog) (v : α) :
    (qn.set_bound v).eraseLog = (qn'.set_bound v).eraseLog := by
  cases qn <;> cases qn' <;>
    simp_all [CTreeType.eraseLog, CTreeType.mapStat, CTreeType.set_bound, QueryStat.set_bound]

theorem foldl_rel {σ γ : Type} (R : σ → σ → Prop) (f : σ → γ → σ) (l : List γ) (a a' : σ)
    (h0 : R a a') (hstep : ∀ x y c, R x y → R (f x c) (f y c)) :
    R (l.foldl f a) (l.foldl f a') := by
  induction l generalizing a a' with
  | nil => exact h0
  | cons c l ih => exact ih _ _ (hstep _ _ c h0)

theorem MaxNodeIP_dual_congr {s s' : MaxIP α} (hS : Sim s s') {qn qn' : CTreeType α}
    (hq : qn.eraseLog = qn'.eraseLog) (t : TreeType α) :
    (MaxNodeIP_dual s' qn' t).1 = (MaxNodeIP_dual s qn t).1 ∧
      Sim (MaxNodeIP_dual s qn t).2 (MaxNodeIP_dual s' qn' t).2 := by
  obtain ⟨a, b, rfl⟩ := hS
  obtain ⟨h1, h2, h3, -⟩ := eraseLog_fields hq
  refine ⟨?_, a, b, rfl⟩
  unfold MaxNodeIP_dual
  simp only [h1, h2, h3]

theorem CheckPrune_set (s : MaxIP α) (a : Nat) (b : Option (CTreeType α)) (qn : CTreeType α)
    (t : TreeType α) :
    CheckPrune { s with query_ := a, query_tree_ := b } qn t
      = { CheckPrune s qn t with query_tree_ := b } := by
  unfold CheckPrune
  simp only [MaxIP.ips_at, MaxIP.qnorm_at]
  split_ifs <;> rfl

theorem CheckPrune_congr {s s' : MaxIP α} (hS : Sim s s') {qn qn' : CTreeType α}
    (hq : qn.eraseLog = qn'.eraseLog) (t : TreeType α) :
    Sim (CheckPrune s qn t) (CheckPrune s' qn' t) := by
  obtain ⟨a, b, rfl⟩ := hS
  obtain ⟨h1, h2, h3, h4, h5, h6, -⟩ := eraseLog_fields hq
  have e : CheckPrune s qn' t = CheckPrune s qn t := by
    unfold CheckPrune MaxNodeIP_dual
    simp only [h1, h2, h3, h4, h5, h6]
  rw [CheckPrune_set s a b qn' t, e]
  exact ⟨_, b, rfl⟩

theorem ComputeBaseCase_dual_eq (s : MaxIP α) (qn : CTreeType α) (rn : TreeType α) :
    ComputeBaseCase_dual s qn rn
      = (if (baseOut s qn rn).2.1 then qn.set_bound (baseOut s qn rn).1 else qn,
          { (baseOut s qn rn).2.2 with query_ := loopExit qn.begin_ qn.end_ }) := rfl

theorem baseStep_eq (rn : TreeType α) (acc : α × Bool × MaxIP α) (qi : Nat) :
    baseStep rn acc qi
      = if acc.1 > stepRatio rn acc.2.2 qi then (stepRatio rn acc.2.2 qi, true, stepState rn acc.2.2 qi)
        else (acc.1, acc.2.1, stepState rn acc.2.2 qi) := rfl

theorem stepState_set (rn : TreeType α) (st : MaxIP α) (b : Option (CTreeType α)) (qi : Nat) :
    stepState rn { st with query_tree_ := b } qi
      = { stepState rn st qi with query_tree_ := b } := by
  by_cases h : (MaxNodeIP_ { st with query_ := qi } rn).1
      > (MaxNodeIP_ { st with query_ := qi } rn).2.ips_at
          (qi * st.knns_ + (MaxNodeIP_ { st with query_ := qi } rn).2.knns_ - 1)
  · have e1 : stepState rn st qi
        = ComputeBaseCase_ (MaxNodeIP_ { st with query_ := qi } rn).2 rn := if_pos h
    have e2 : stepState rn { st with query_tree_ := b } qi
        = ComputeBaseCase_ (MaxNodeIP_ { ({ st with query_tree_ := b } : MaxIP α) with
            query_ := qi } rn).2 rn := if_pos h
    rw [e1, e2]; rfl
  · have e1 : stepState rn st qi = (MaxNodeIP_ { st with query_ := qi } rn).2 := if_neg h
    have e2 : stepState rn { st with query_tree_ := b } qi
        = (MaxNodeIP_ { ({ st with query_tree_ := b } : MaxIP α) with query_ := qi } rn).2 :=
      if_neg h
    rw [e1, e2]; rfl

theorem stepRatio_set (rn : TreeType α) (st : MaxIP α) (b : Option (CTreeType α)) (qi : Nat) :
    stepRatio rn { st with query_tree_ := b } qi = stepRatio rn st qi := by
  unfold stepRatio
  rw [stepState_set]
  rfl

theorem baseStep_set (rn : TreeType α) (x : α × Bool × MaxIP α) (b : Option (CTreeType α))
    (c : Nat) :
    baseStep rn (x.1, x.2.1, { x.2.2 with query_tree_ := b }) c
      = ((baseStep rn x c).1, (baseStep rn x c).2.1,
          { (baseStep rn x c).2.2 with query_tree_ := b }) := by
  rw [baseStep_eq, baseStep_eq]
  dsimp only
  rw [stepRatio_set, stepState_set]
  split_ifs <;> rfl

theorem baseOut_set (s : MaxIP α) (a : Nat) (b : Option (CTreeType α)) (qn : CTreeType α)
    (rn : TreeType α) :
    baseOut { s with query_ := a, query_tree_ := b } qn rn
      = ((baseOut s qn rn).1, (baseOut s qn rn).2.1,
          { (baseOut s qn rn).2.2 with query_tree_ := b }) :=
  foldl_rel (fun x y => y = (x.1, x.2.1, { x.2.2 with query_tree_ := b })) (baseStep rn)
    (List.range' qn.begin_ (qn.end_ - qn.begin_))
    (DBL_MAX, false, { s with query_ := qn.begin_ })
    (DBL_MAX, false, { ({ s with query_ := a, query_tree_ := b } : MaxIP α) with
      query_ := qn.begin_ }) rfl
    (fun x y c h => by rw [h]; exact baseStep_set rn x b c)

theorem ComputeBaseCase_dual_congr {s s' : MaxIP α} (hS : Sim s s') {qn qn' : CTreeType α}
    (hq : qn.eraseLog = qn'.eraseLog) (t : TreeType α) :
    (ComputeBaseCase_dual s qn t).1.eraseLog = (ComputeBaseCase_dual s' qn' t).1.eraseLog ∧
      Sim (ComputeBaseCase_dual s qn t).2 (ComputeBaseCase_dual s' qn' t).2 := by
  obtain ⟨a, b, rfl⟩ := hS
  obtain ⟨h1, h2, h3, h4, h5, h6, -⟩ := eraseLog_fields hq
  have e : baseOut s qn' t = baseOut s qn t := by
    unfold baseOut
    rw [h4, h5]
  rw [ComputeBaseCase_dual_eq, ComputeBaseCase_dual_eq, baseOut_set s a b qn' t, e, h4, h5]
  refine ⟨?_, _, b, rfl⟩
  dsimp only
  split_ifs
  · exact eraseLog_set_bound hq _
  · exact hq

theorem eraseLog_leaf_inv {c : List α} {r rc : α} {st : QueryStat α} {b e : Nat}
    {qn' : CTreeType α} (h : (CTreeType.leaf c r rc st b e).eraseLog = qn'.eraseLog) :
    ∃ st' : QueryStat α, qn' = .leaf c r rc st' b e ∧ st'.bound = st.bound := by
  cases qn' with
  | leaf c' r' rc' st' b' e' =>
    simp only [CTreeType.eraseLog, CTreeType.mapStat, CTreeType.leaf.injEq,
      QueryStat.mk.injEq, and_true] at h
    obtain ⟨h1, h2, h3, h4, h5, h6⟩ := h
    subst h1 h2 h3 h5 h6
    exact ⟨st', rfl, h4.symm⟩
  | node c' r' rc' st' b' e' l' rt' =>
    simp [CTreeType.eraseLog, CTreeType.mapStat] at h

theorem eraseLog_node_inv {c : List α} {r rc : α} {st : QueryStat α} {b e : Nat}
    {l rt qn' : CTreeType α} (h : (CTreeType.node c r rc st b e l rt).eraseLog = qn'.eraseLog) :
    ∃ (st' : QueryStat α) (l' rt' : CTreeType α), qn' = .node c r rc st' b e l' rt' ∧
      st'.bound = st.bound ∧ l.eraseLog = l'.eraseLog ∧ rt.eraseLog = rt'.eraseLog := by
  cases qn' with
  | leaf c' r' rc' st' b' e' =>
    simp [CTreeType.eraseLog, CTreeType.mapStat] at h
  | node c' r' rc' st' b' e' l' rt' =>
    simp only [CTreeType.eraseLog, CTreeType.mapStat, CTreeType.node.injEq,
      QueryStat.mk.injEq, and_true] at h
    obtain ⟨h1, h2, h3, h4, h5, h6, h7, h8⟩ := h
    subst h1 h2 h3 h5 h6
    exact ⟨st', l', rt', rfl, h4.symm, h7, h8⟩

theorem eraseLog_assemble (c : List α) (r rc : α) (st st' : QueryStat α) (b e : Nat)
    {A A' B B' : CTreeType α} (hA : A.eraseLog = A'.eraseLog) (hB : B.eraseLog = B'.eraseLog) :
    ((CTreeType.node c r rc st b e A B).set_bound (min A.stat.bound B.stat.bound)).eraseLog
      = ((CTreeType.node c r rc st' b e A' B').set_bound
          (min A'.stat.bound B'.stat.bound)).eraseLog := by
  have h1 := (eraseLog_fields hA).2.2.2.2.2.1
  have h2 := (eraseLog_fields hB).2.2.2.2.2.1
  have hA' : CTreeType.mapStat (fun st => ⟨st.bound, []⟩) A
      = CTreeType.mapStat (fun st => ⟨st.bound, []⟩) A' := hA
  have hB' : CTreeType.mapStat (fun st => ⟨st.bound, []⟩) B
      = CTreeType.mapStat (fun st => ⟨st.bound, []⟩) B' := hB
  simp only [CTreeType.eraseLog, CTreeType.mapStat, CTreeType.set_bound, QueryStat.set_bound,
    h1, h2, hA', hB']

theorem pair_congr (qx : CTreeType α) (left right : TreeType α)
    (hIHl : ∀ qx1 : CTreeType α, qx1.size = qx.size → CongrSpec qx1 left)
    (hIHr : ∀ qx1 : CTreeType α, qx1.size = qx.size → CongrSpec qx1 right)
    (qx' : CTreeType α) (lub rub : α) (s s' : MaxIP α) (hq : qx.eraseLog = qx'.eraseLog)
    (hS : Sim s s') :
    (pairCalls qx left right lub rub s).1.eraseLog
        = (pairCalls qx' left right lub rub s').1.eraseLog ∧
      Sim (pairCalls qx left right lub rub s).2 (pairCalls qx' left right lub rub s').2 := by
  by_cases hgt : lub > rub
  · rw [pairCalls_pos _ _ _ _ _ _ hgt, pairCalls_pos _ _ _ _ _ _ hgt]
    have c1 := hIHl qx rfl qx' lub s s' hq hS
    exact hIHr _ (ComputeNeighborsRecursion_dual qx left lub s).2 _ rub _ _ c1.1 c1.2
  · rw [pairCalls_neg _ _ _ _ _ _ hgt, pairCalls_neg _ _ _ _ _ _ hgt]
    have c1 := hIHr qx rfl qx' rub s s' hq hS
    exact hIHl _ (ComputeNeighborsRecursion_dual qx right rub s).2 _ lub _ _ c1.1 c1.2

theorem rec_dual_congr :
    ∀ (n : Nat) (qn : CTreeType α) (rn : TreeType α), qn.size + rn.size ≤ n →
      CongrSpec qn rn := by
  intro n
  induction n with
  | zero =>
    intro qn rn h
    have := qn.sizePos
    omega
  | succ n ih =>
    intro qn rn hsz qn' ub s s' hq hS
    have hb : qn'.stat.bound = qn.stat.bound := (eraseLog_fields hq).2.2.2.2.2.1
    by_cases hp : ub < qn.stat.bound
    · have hp' : ub < qn'.stat.bound := by rw [hb]; exact hp
      rw [rec_dual_prune qn rn ub s hp, rec_dual_prune qn' rn ub s' hp']
      refine ⟨hq, ?_⟩
      obtain ⟨a, b, rfl⟩ := hS
      dsimp only
      by_cases hc : s.check_prune = true
      · rw [if_pos hc, if_pos hc]; exact CheckPrune_congr ⟨a, b, rfl⟩ hq rn
      · rw [if_neg hc, if_neg hc]; exact ⟨a, b, rfl⟩
    cases qn with
    | leaf qc qr qrc qst qb qe =>
      obtain ⟨qst', rfl, hb'⟩ := eraseLog_leaf_inv hq
      have hp1 : ¬ ub < qst.bound := hp
      have hp2 : ¬ ub < qst'.bound := by rw [hb']; exact hp
      cases rn with
      | leaf c r b e =>
        rw [rec_dual_leaf_leaf qc qr qrc qst qb qe c r b e ub s hp1,
          rec_dual_leaf_leaf qc qr qrc qst' qb qe c r b e ub s' hp2]
        exact ComputeBaseCase_dual_congr hS hq _
      | node c r b e left right =>
        rw [rec_dual_leaf_node qc qr qrc qst qb qe c r b e left right ub s hp1,
          rec_dual_leaf_node qc qr qrc qst' qb qe c r b e left right ub s' hp2]
        have hsl : ∀ qx1 : CTreeType α, qx1.size = (CTreeType.leaf qc qr qrc qst qb qe).size →
            qx1.size + left.size ≤ n := by
          intro qx1 hx; simp only [CTreeType.size, TreeType.size] at hsz hx ⊢; omega
        have hsr : ∀ qx1 : CTreeType α, qx1.size = (CTreeType.leaf qc qr qrc qst qb qe).size →
            qx1.size + right.size ≤ n := by
          intro qx1 hx; simp only [CTreeType.size, TreeType.size] at hsz hx ⊢; omega
        obtain ⟨e1, hS1⟩ := MaxNodeIP_dual_congr hS hq left
        obtain ⟨e2, hS2⟩ := MaxNodeIP_dual_congr hS1 hq right
        rw [e1, e2]
        exact pair_congr _ left right (fun qx1 h1 => ih qx1 left (hsl qx1 h1))
          (fun qx1 h1 => ih qx1 right (hsr qx1 h1)) _ _ _ _ _ hq hS2
    | node qc qr qrc qst qb qe ql qrt =>
      obtain ⟨qst', ql', qrt', rfl, hb', hql, hqr⟩ := eraseLog_node_inv hq
      have hp1 : ¬ ub < qst.bound := hp
      have hp2 : ¬ ub < qst'.bound := by rw [hb']; exact hp
      cases rn with
      | leaf c r b e =>
        rw [rec_dual_node_leaf qc qr qrc qst qb qe ql qrt c r b e ub s hp1,
          rec_dual_node_leaf qc qr qrc qst' qb qe ql' qrt' c r b e ub s' hp2]
        have hsl : ql.size + (TreeType.leaf c r b e).size ≤ n := by
          simp only [CTreeType.size, TreeType.size] at hsz ⊢; omega
        have hsr : qrt.size + (TreeType.leaf c r b e).size ≤ n := by
          simp only [CTreeType.size, TreeType.size] at hsz ⊢; omega
        obtain ⟨e1, hS1⟩ := MaxNodeIP_dual_congr hS hql (.leaf c r b e)
        obtain ⟨e2, hS2⟩ := MaxNodeIP_dual_congr hS1 hqr (.leaf c r b e)
        rw [e1, e2]
        have c1 := ih ql (.leaf c r b e) hsl ql' (MaxNodeIP_dual s ql (.leaf c r b e)).1 _ _
          hql hS2
        have c2 := ih qrt (.leaf c r b e) hsr qrt'
          (MaxNodeIP_dual (MaxNodeIP_dual s ql (.leaf c r b e)).2 qrt (.leaf c r b e)).1 _ _
          hqr c1.2
        exact ⟨eraseLog_assemble qc qr qrc qst qst' qb qe c1.1 c2.1, c2.2⟩
      | node c r b e left right =>
        rw [rec_dual_node_node qc qr qrc qst qb qe ql qrt c r b e left right ub s hp1,
          rec_dual_node_node qc qr qrc qst' qb qe ql' qrt' c r b e left right ub s' hp2]
        have hs1 : ∀ qx1 : CTreeType α, qx1.size = ql.size → qx1.size + left.size ≤ n := by
          intro qx1 hx; simp only [CTreeType.size, TreeType.size] at hsz; omega
        have hs2 : ∀ qx1 : CTreeType α, qx1.size = ql.size → qx1.size + right.size ≤ n := by
          intro qx1 hx; simp only [CTreeType.size, TreeType.size] at hsz; omega
        have hs3 : ∀ qx1 : CTreeType α, qx1.size = qrt.size → qx1.size + left.size ≤ n := by
          intro qx1 hx; simp only [CTreeType.size, TreeType.size] at hsz; omega
        have hs4 : ∀ qx1 : CTreeType α, qx1.size = qrt.size → qx1.size + right.size ≤ n := by
          intro qx1 hx; simp only [CTreeType.size, TreeType.size] at hsz; omega
        obtain ⟨e1, hS1⟩ := MaxNodeIP_dual_congr hS hql left
        obtain ⟨e2, hS2⟩ := MaxNodeIP_dual_congr hS1 hql right
        rw [e1, e2]
        have cA := pair_congr ql left right (fun qx1 h1 => ih qx1 left (hs1 qx1 h1))
          (fun qx1 h1 => ih qx1 right (hs2 qx1 h1)) ql' (MaxNodeIP_dual s ql left).1
          (MaxNodeIP_dual (MaxNodeIP_dual s ql left).2 ql right).1 _ _ hql hS2
        obtain ⟨e3, hS3⟩ := MaxNodeIP_dual_congr cA.2 hqr left
        obtain ⟨e4, hS4⟩ := MaxNodeIP_dual_congr hS3 hqr right
        rw [e3, e4]
        have cB := fun lub rub => pair_congr qrt left right
          (fun qx1 h1 => ih qx1 left (hs3 qx1 h1))
          (fun qx1 h1 => ih qx1 right (hs4 qx1 h1)) qrt' lub rub _ _ hqr hS4
        exact ⟨eraseLog_assemble qc qr qrc qst qst' qb qe cA.1 (cB _ _).1, (cB _ _).2⟩

theorem stepState_frame (rn : TreeType α) (st : MaxIP α) (qi : Nat) :
    Frame st (stepState rn st qi) := by
  unfold stepState
  split_ifs
  · exact ((Frame.setQuery st qi).trans (MaxNodeIP_frame _ _)).trans (ComputeBaseCase_frame _ _)
  · exact (Frame.setQuery st qi).trans (MaxNodeIP_frame _ _)

theorem baseStep_frame (rn : TreeType α) (acc : α × Bool × MaxIP α) (qi : Nat) :
    Frame acc.2.2 (baseStep rn acc qi).2.2 := by
  rw [baseStep_eq]
  split_ifs
  · exact stepState_frame rn acc.2.2 qi
  · exact stepState_frame rn acc.2.2 qi

theorem baseOut_frame (s : MaxIP α) (qn : CTreeType α) (rn : TreeType α) :
    Frame s (baseOut s qn rn).2.2 := by
  unfold baseOut
  refine foldl_invariant (fun acc : α × Bool × MaxIP α => Frame s acc.2.2) _ _ _ ?_ ?_
  · exact Frame.setQuery s _
  · intro acc c _ h
    exact h.trans (baseStep_frame rn acc c)

theorem eraseStat_set_bound (qn : CTreeType α) (v : α) :
    (qn.set_bound v).eraseStat = qn.eraseStat := by
  cases qn <;> rfl

theorem ComputeBaseCase_dual_struct (s : MaxIP α) (qn : CTreeType α) (rn : TreeType α) :
    Frame s (ComputeBaseCase_dual s qn rn).2 ∧
      (ComputeBaseCase_dual s qn rn).1.eraseStat = qn.eraseStat := by
  rw [ComputeBaseCase_dual_eq]
  refine ⟨(baseOut_frame s qn rn).trans (Frame.setQuery _ _), ?_⟩
  dsimp only
  split_ifs
  · exact eraseStat_set_bound _ _
  · rfl

theorem eraseStat_assemble (c : List α) (r rc : α) (st : QueryStat α) (b e : Nat)
    {A B l rt : CTreeType α} (v : α) (hA : A.eraseStat = l.eraseStat)
    (hB : B.eraseStat = rt.eraseStat) :
    ((CTreeType.node c r rc st b e A B).set_bound v).eraseStat
      = (CTreeType.node c r rc st b e l rt).eraseStat := by
  have hA' : CTreeType.mapStat (fun _ => (⟨0, []⟩ : QueryStat α)) A
      = CTreeType.mapStat (fun _ => ⟨0, []⟩) l := hA
  have hB' : CTreeType.mapStat (fun _ => (⟨0, []⟩ : QueryStat α)) B
      = CTreeType.mapStat (fun _ => ⟨0, []⟩) rt := hB
  simp only [CTreeType.eraseStat, CTreeType.mapStat, CTreeType.set_bound, hA', hB']

theorem pair_struct (qx : CTreeType α) (left right : TreeType α)
    (hIHl : ∀ qx1 : CTreeType α, qx1.size = qx.size → StructSpec qx1 left)
    (hIHr : ∀ qx1 : CTreeType α, qx1.size = qx.size → StructSpec qx1 right)
    (lub rub : α) (s : MaxIP α) :
    Frame s (pairCalls qx left right lub rub s).2 ∧
      (pairCalls qx left right lub rub s).1.eraseStat = qx.eraseStat := by
  by_cases hgt : lub > rub
  · rw [pairCalls_pos _ _ _ _ _ _ hgt]
    have c1 := hIHl qx rfl lub s
    have c2 := hIHr _ (ComputeNeighborsRecursion_dual qx left lub s).2 rub
      (ComputeNeighborsRecursion_dual qx left lub s).1.2
    exact ⟨c1.1.trans c2.1, c2.2.trans c1.2⟩
  · rw [pairCalls_neg _ _ _ _ _ _ hgt]
    have c1 := hIHr qx rfl rub s
    have c2 := hIHl _ (ComputeNeighborsRecursion_dual qx right rub s).2 lub
      (ComputeNeighborsRecursion_dual qx right rub s).1.2
    exact ⟨c1.1.trans c2.1, c2.2.trans c1.2⟩

theorem rec_dual_struct :
    ∀ (n : Nat) (qn : CTreeType α) (rn : TreeType α), qn.size + rn.size ≤ n →
      StructSpec qn rn := by
  intro n
  induction n with
  | zero =>
    intro qn rn h
    have := qn.sizePos
    omega
  | succ n ih =>
    intro qn rn hsz ub s
    by_cases hp : ub < qn.stat.bound
    · rw [rec_dual_prune qn rn ub s hp]
      refine ⟨?_, rfl⟩
      have hF1 : Frame s ({ s with number_of_prunes_ := s.number_of_prunes_ + 1 } : MaxIP α) :=
        ⟨rfl, rfl, rfl, rfl, rfl, rfl, rfl, rfl, rfl, rfl, rfl, rfl, rfl, rfl⟩
      dsimp only
      split_ifs
      · exact hF1.trans (CheckPrune_frame _ qn rn).1
      · exact hF1
    cases qn with
    | leaf qc qr qrc qst qb qe =>
      have hp1 : ¬ ub < qst.bound := hp
      cases rn with
      | leaf c r b e =>
        rw [rec_dual_leaf_leaf qc qr qrc qst qb qe c r b e ub s hp1]
        exact ComputeBaseCase_dual_struct s _ _
      | node c r b e left right =>
        rw [rec_dual_leaf_node qc qr qrc qst qb qe c r b e left right ub s hp1]
        have hsl : ∀ qx1 : CTreeType α, qx1.size = (CTreeType.leaf qc qr qrc qst qb qe).size →
            qx1.size + left.size ≤ n := by
          intro qx1 hx; simp only [CTreeType.size, TreeType.size] at hsz hx ⊢; omega
        have hsr : ∀ qx1 : CTreeType α, qx1.size = (CTreeType.leaf qc qr qrc qst qb qe).size →
            qx1.size + right.size ≤ n := by
          intro qx1 hx; simp only [CTreeType.size, TreeType.size] at hsz hx ⊢; omega
        have c := pair_struct (.leaf qc qr qrc qst qb qe) left right
          (fun qx1 h1 => ih qx1 left (hsl qx1 h1))
          (fun qx1 h1 => ih qx1 right (hsr qx1 h1))
          (MaxNodeIP_dual s (.leaf qc qr qrc qst qb qe) left).1
          (MaxNodeIP_dual (MaxNodeIP_dual s (.leaf qc qr qrc qst qb qe) left).2
            (.leaf qc qr qrc qst qb qe) right).1
          (MaxNodeIP_dual (MaxNodeIP_dual s (.leaf qc qr qrc qst qb qe) left).2
            (.leaf qc qr qrc qst qb qe) right).2
        exact ⟨((MaxNodeIP_dual_frame _ _ _).trans (MaxNodeIP_dual_frame _ _ _)).trans c.1, c.2⟩
    | node qc qr qrc qst qb qe ql qrt =>
      have hp1 : ¬ ub < qst.bound := hp
      cases rn with
      | leaf c r b e =>
        rw [rec_dual_node_leaf qc qr qrc qst qb qe ql qrt c r b e ub s hp1]
        have hsl : ql.size + (TreeType.leaf c r b e).size ≤ n := by
          simp only [CTreeType.size, TreeType.size] at hsz ⊢; omega
        have hsr : qrt.size + (TreeType.leaf c r b e).size ≤ n := by
          simp only [CTreeType.size, TreeType.size] at hsz ⊢; omega
        have c1 := ih ql (.leaf c r b e) hsl (MaxNodeIP_dual s ql (.leaf c r b e)).1
          (MaxNodeIP_dual (MaxNodeIP_dual s ql (.leaf c r b e)).2 qrt (.leaf c r b e)).2
        have c2 := ih qrt (.leaf c r b e) hsr
          (MaxNodeIP_dual (MaxNodeIP_dual s ql (.leaf c r b e)).2 qrt (.leaf c r b e)).1
          (ComputeNeighborsRecursion_dual ql (.leaf c r b e)
            (MaxNodeIP_dual s ql (.leaf c r b e)).1
            (MaxNodeIP_dual (MaxNodeIP_dual s ql (.leaf c r b e)).2 qrt (.leaf c r b e)).2).1.2
        exact ⟨(((MaxNodeIP_dual_frame _ _ _).trans (MaxNodeIP_dual_frame _ _ _)).trans
          c1.1).trans c2.1, eraseStat_assemble qc qr qrc qst qb qe _ c1.2 c2.2⟩
      | node c r b e left right =>
        rw [rec_dual_node_node qc qr qrc qst qb qe ql qrt c r b e left right ub s hp1]
        have hs1 : ∀ qx1 : CTreeType α, qx1.size = ql.size → qx1.size + left.size ≤ n := by
          intro qx1 hx; simp only [CTreeType.size, TreeType.size] at hsz; omega
        have hs2 : ∀ qx1 : CTreeType α, qx1.size = ql.size → qx1.size + right.size ≤ n := by
          intro qx1 hx; simp only [CTreeType.size, TreeType.size] at hsz; omega
        have hs3 : ∀ qx1 : CTreeType α, qx1.size = qrt.size → qx1.size + left.size ≤ n := by
          intro qx1 hx; simp only [CTreeType.size, TreeType.size] at hsz; omega
        have hs4 : ∀ qx1 : CTreeType α, qx1.size = qrt.size → qx1.size + right.size ≤ n := by
          intro qx1 hx; simp only [CTreeType.size, TreeType.size] at hsz; omega
        have cA := fun lub rub st => pair_struct ql left right
          (fun qx1 h1 => ih qx1 left (hs1 qx1 h1))
          (fun qx1 h1 => ih qx1 right (hs2 qx1 h1)) lub rub st
        have cB := fun lub rub st => pair_struct qrt left right
          (fun qx1 h1 => ih qx1 left (hs3 qx1 h1))
          (fun qx1 h1 => ih qx1 right (hs4 qx1 h1)) lub rub st
        exact ⟨(((((MaxNodeIP_dual_frame _ _ _).trans (MaxNodeIP_dual_frame _ _ _)).trans
          (cA _ _ _).1).trans (MaxNodeIP_dual_frame _ _ _)).trans
            (MaxNodeIP_dual_frame _ _ _)).trans (cB _ _ _).1,
          eraseStat_assemble qc qr qrc qst qb qe _ (cA _ _ _).2 (cB _ _ _).2⟩

end Congr

section DualTop

variable {α : Type} [LinearOrderedField α] [HasSqrt α]

theorem Evolves.eraseLog (t : CTreeType α) : Evolves t t.eraseLog := by
  induction t with
  | leaf c r rc st b e => exact ⟨rfl, rfl, rfl, rfl, rfl, le_refl _⟩
  | node c r rc st b e l rt ihl ihr => exact ⟨rfl, rfl, rfl, rfl, rfl, le_refl _, ihl, ihr⟩

theorem eraseLog_eraseLog (t : CTreeType α) : t.eraseLog.eraseLog = t.eraseLog := by
  induction t with
  | leaf c r rc st b e => rfl
  | node c r rc st b e l rt ihl ihr =>
    have hl : CTreeType.mapStat (fun st => ⟨st.bound, []⟩)
        (CTreeType.mapStat (fun st => (⟨st.bound, []⟩ : QueryStat α)) l)
        = CTreeType.mapStat (fun st => ⟨st.bound, []⟩) l := ihl
    have hr : CTreeType.mapStat (fun st => ⟨st.bound, []⟩)
        (CTreeType.mapStat (fun st => (⟨st.bound, []⟩ : QueryStat α)) rt)
        = CTreeType.mapStat (fun st => ⟨st.bound, []⟩) rt := ihr
    simp only [CTreeType.eraseLog, CTreeType.mapStat, hl, hr]

theorem FreshTree.ofZero {t : CTreeType α} (h : t.All (fun n => n.stat.bound = 0)) :
    FreshTree t.eraseLog := by
  induction t with
  | leaf c r rc st b e => exact ⟨h, rfl⟩
  | node c r rc st b e l rt ihl ihr => exact ⟨⟨h.1, rfl⟩, ihl h.2.1, ihr h.2.2⟩

theorem Sound1.evolves_indices {s0 : MaxIP α} {qn qn' : CTreeType α} {rn : TreeType α}
    (h : Sound1 s0 qn.indices rn) (he : Evolves qn qn') : Sound1 s0 qn'.indices rn := by
  rw [he.indices]; exact h

/-- The dual-tree branch of `ComputeNeighbors` from a seeded ledger and a query tree whose
bounds are all `0`: the entries of every query under the tree hold the largest scores
among the seeds and all references under the reference tree. -/
theorem dual_run (s : MaxIP α) (qt : CTreeType α) (hmode : s.dual_tree = true)
    (htree : s.query_tree_ = some qt) (hk : 1 ≤ s.knns_)
    (hseed : Seeded s) (hnorms : ∀ q, q < s.queries_.n_cols → 0 < s.qnorm_at q)
    (hnd : qt.indices.Nodup) (hq : ∀ q ∈ qt.indices, q < s.queries_.n_cols)
    (hr : ∀ i ∈ s.reference_tree_.indices, i < s.references_.n_cols)
    (h1 : Sound1 s qt.indices s.reference_tree_) (h2 : Sound2 s qt s.reference_tree_)
    (hfresh : qt.All (fun n => n.stat.bound = 0)) :
    ∃ out, ComputeNeighbors s = some out ∧ out.2.2.2.knns_ = s.knns_ ∧
      ∀ q ∈ qt.indices,
        Covers (ledgerEntries out.2.2.2 q)
            (List.replicate s.knns_ 0 ++ s.reference_tree_.indices.map (ipQ s q)) ∧
          ∀ e ∈ ledgerEntries out.2.2.2 q, EntryOK s q e := by
  have hev := Evolves.eraseLog qt
  have post := dual_top s qt.eraseLog hk hseed hnorms (by rw [hev.indices]; exact hnd)
    (by rw [hev.indices]; exact hq) hr (h1.evolves_indices hev) (h2.ofEvolves hev)
    (FreshTree.ofZero hfresh)
  have hub : (MaxNodeIP_dual s qt.eraseLog s.reference_tree_).1
      = (MaxNodeIP_dual s qt s.reference_tree_).1 :=
    MaxNodeIP_dual_fst_congr (Frame.refl s) hev _
  rw [hub] at post
  have hc := rec_dual_congr _ qt.eraseLog s.reference_tree_ (le_refl _) qt
    (MaxNodeIP_dual s qt s.reference_tree_).1 (MaxNodeIP_dual s qt s.reference_tree_).2
    (MaxNodeIP_dual s qt s.reference_tree_).2 (eraseLog_eraseLog qt) (Sim.self _)
  have hst := rec_dual_struct _ qt s.reference_tree_ (le_refl _)
    (MaxNodeIP_dual s qt s.reference_tree_).1 (MaxNodeIP_dual s qt s.reference_tree_).2
  have hF : Frame s (ComputeNeighborsRecursion_dual qt s.reference_tree_
      (MaxNodeIP_dual s qt s.reference_tree_).1 (MaxNodeIP_dual s qt s.reference_tree_).2).1.2 :=
    (MaxNodeIP_dual_frame _ _ _).trans hst.1
  have hSL := hc.2.sameLedger
  unfold ComputeNeighbors
  rw [hmode, htree]
  simp only [if_true]
  refine ⟨_, rfl, ?_, ?_⟩
  · exact hF.knns_
  · intro q hqi
    have hqlt := hq q hqi
    have hE : ledgerEntries ({ (ComputeNeighborsRecursion_dual qt s.reference_tree_
          (MaxNodeIP_dual s qt s.reference_tree_).1
          (MaxNodeIP_dual s qt s.reference_tree_).2).1.2 with
        query_tree_ := some (ComputeNeighborsRecursion_dual qt s.reference_tree_
          (MaxNodeIP_dual s qt s.reference_tree_).1
          (MaxNodeIP_dual s qt s.reference_tree_).2).1.1 } : MaxIP α) q
        = ledgerEntries (ComputeNeighborsRecursion_dual qt.eraseLog s.reference_tree_
          (MaxNodeIP_dual s qt s.reference_tree_).1
          (MaxNodeIP_dual s qt s.reference_tree_).2).1.2 q := by
      have := hSL.entries (hF.knns_.trans post.inv.frame.knns_.symm) q
      rw [← this]; rfl
    rw [hE]
    have hcov := post.inv.cov q hqlt
    have hmem : q ∈ qt.eraseLog.indices := by rw [hev.indices]; exact hqi
    simp only [addFor, hmem, if_true] at hcov
    exact ⟨hcov, post.inv.ok q hqlt⟩

/-- The search `ComputeNaive` from a seeded ledger, on a root that is one leaf holding the
references `[0, Nr)`: the entries of every query hold the largest scores among the seeds
and all references. -/
theorem naive_run (s : MaxIP α) (c : List α) (r : α) (hk : 1 ≤ s.knns_) (hseed : Seeded s)
    (ht : s.reference_tree_ = .leaf c r 0 s.references_.n_cols) :
    (ComputeNaive s).2.2.2.knns_ = s.knns_ ∧
      (ComputeNaive s).2.2.2.old_from_new_references_ = s.old_from_new_references_ ∧
      ∀ q, q < s.queries_.n_cols →
        Covers (ledgerEntries (ComputeNaive s).2.2.2 q)
            (List.replicate s.knns_ 0 ++ (List.range s.references_.n_cols).map (ipQ s q)) ∧
          ∀ e ∈ ledgerEntries (ComputeNaive s).2.2.2 q, EntryOK s q e := by
  have hrange : ∀ i ∈ List.range' s.reference_tree_.begin_
      (s.reference_tree_.end_ - s.reference_tree_.begin_), i < s.references_.n_cols := by
    rw [ht]
    intro i hi
    simp only [TreeType.begin_, TreeType.end_, Nat.sub_zero, List.mem_range'_1] at hi
    omega
  obtain ⟨hF, hall⟩ := naive_loop s hk hseed hrange
  have hE : ∀ q, ledgerEntries (ComputeNaive s).2.2.2 q = ledgerEntries (naiveLoop s) q :=
    fun q => (SameLedger.ofSetQuery _ _).entries rfl q
  refine ⟨hF.knns_, hF.old_from_new_references_, ?_⟩
  intro q hq
  rw [hE q]
  have := hall q hq
  rw [ht] at this
  simp only [TreeType.begin_, TreeType.end_, Nat.sub_zero, ← List.range_eq_range'] at this
  exact this

end DualTop

section Runs

variable {α : Type} [LinearOrderedField α] [HasSqrt α]

/-- The single-tree branch of `ComputeNeighbors` from a seeded ledger: the entries of every
query hold the largest scores among the seeds and all references under the tree. -/
theorem single_run (s : MaxIP α) (hmode : s.dual_tree = false) (hk : 1 ≤ s.knns_)
    (hseed : Seeded s)
    (hrange : ∀ i ∈ s.reference_tree_.indices, i < s.references_.n_cols)
    (hsound : ∀ q, q < s.queries_.n_cols → s.reference_tree_.All (fun n =>
      ∀ i ∈ n.indices, ipQ s q i ≤ (MaxNodeIP_ { s with query_ := q } n).1)) :
    ∃ out, ComputeNeighbors s = some out ∧ out.2.2.2.knns_ = s.knns_ ∧
      out.2.2.2.old_from_new_references_ = s.old_from_new_references_ ∧
      ∀ q, q < s.queries_.n_cols →
        Covers (ledgerEntries out.2.2.2 q)
            (List.replicate s.knns_ 0 ++ s.reference_tree_.indices.map (ipQ s q)) ∧
          ∀ e ∈ ledgerEntries out.2.2.2 q, EntryOK s q e := by
  obtain ⟨hF, hall⟩ := single_loop s hk hseed hrange hsound
  unfold ComputeNeighbors
  rw [hmode]
  simp only [Bool.false_eq_true, if_false]
  refine ⟨_, rfl, hF.knns_, hF.old_from_new_references_, ?_⟩
  intro q hq
  have hE : ledgerEntries ({ singleTreeLoop s with
      query_ := loopExit 0 s.queries_.n_cols } : MaxIP α) q
      = ledgerEntries (singleTreeLoop s) q := (SameLedger.ofSetQuery _ _).entries rfl q
  rw [hE]
  exact hall q hq

theorem topScores_perm {k : Nat} {l l' : List α} (h : l.Perm l') :
    topScores k l = topScores k l' := by
  unfold topScores
  have hp : ((l.filter fun x => decide (0 < x)).insertionSort fun a b => a ≥ b).Perm
      ((l'.filter fun x => decide (0 < x)).insertionSort fun a b => a ≥ b) :=
    ((List.perm_insertionSort _ _).trans (h.filter _)).trans (List.perm_insertionSort _ _).symm
  rw [List.eq_of_perm_of_sorted hp (List.sorted_insertionSort _ _)
    (List.sorted_insertionSort _ _)]

theorem map_relabel_eq {β γ : Type} (f g : Nat → γ) :
    ∀ (E E' : List (β × Nat)), E.map Prod.fst = E'.map Prod.fst →
      (∀ e ∈ E, ∀ e' ∈ E', e.1 = e'.1 → f e.2 = g e'.2) →
      E.map (fun e => (f e.2, e.1)) = E'.map (fun e => (g e.2, e.1)) := by
  intro E
  induction E with
  | nil =>
    intro E' hs _
    cases E' with
    | nil => rfl
    | cons a l => simp at hs
  | cons a l ih =>
    intro E' hs h
    cases E' with
    | nil => simp at hs
    | cons a' l' =>
      simp only [List.map_cons, List.cons.injEq] at hs ⊢
      refine ⟨?_, ih l' hs.2 (fun e he e' he' =>
        h e (List.mem_cons_of_mem _ he) e' (List.mem_cons_of_mem _ he'))⟩
      rw [h a (List.mem_cons_self _ _) a' (List.mem_cons_self _ _) hs.1, hs.1]

theorem map_getD_range (l : List Nat) : (List.range l.length).map (fun i => l.getD i 0) = l := by
  apply List.ext_getElem
  · simp
  · intro i h1 h2
    simp only [List.getElem_map, List.getElem_range]
    exact List.getD_eq_getElem _ _ h2

/-- The scores of the references in the order of the rearranged matrix are a permutation
of the scores in the original order. -/
theorem ips_perm (s : MaxIP α) (R : Mat α) (q : Nat)
    (hR : ∀ i, i < s.references_.n_cols →
      s.references_.col i = R.col (s.old_from_new_references_.getD i 0))
    (hp : s.old_from_new_references_.Perm (List.range s.references_.n_cols)) :
    ((List.range s.references_.n_cols).map (ipQ s q)).Perm
      ((List.range s.references_.n_cols).map fun j => dot (s.queries_.col q) (R.col j)) := by
  have hlen : s.old_from_new_references_.length = s.references_.n_cols := by
    rw [hp.length_eq, List.length_range]
  have h1 : (List.range s.references_.n_cols).map (ipQ s q)
      = (s.old_from_new_references_).map fun j => dot (s.queries_.col q) (R.col j) := by
    conv_rhs => rw [← map_getD_range s.old_from_new_references_, hlen]
    rw [List.map_map]
    apply List.map_congr_left
    intro i hi
    simp only [Function.comp, ipQ]
    rw [hR i (List.mem_range.mp hi)]
  rw [h1]
  exact hp.map _

/-- The single-tree search over a valid ball tree, over the reals. -/
theorem single_run_valid (s : MaxIP ℝ) (d : Nat) (hmode : s.dual_tree = false)
    (hk : 1 ≤ s.knns_) (hseed : Seeded s)
    (hnorms : ∀ q, q < s.queries_.n_cols → s.qnorm_at q = norm2 (s.queries_.col q))
    (hdim : ∀ q, q < s.queries_.n_cols → (s.queries_.col q).length = d)
    (hpart : s.reference_tree_.indices.Perm (List.range s.references_.n_cols))
    (hvalid : BallTreeValid s.references_ d s.reference_tree_)
    (hnz : s.angle_prune = true →
      (∀ q, q < s.queries_.n_cols → norm2 (s.queries_.col q) ≠ 0) ∧
        s.reference_tree_.All (fun n => norm2 n.center ≠ 0)) :
    ∃ out, ComputeNeighbors s = some out ∧ out.2.2.2.knns_ = s.knns_ ∧
      ∀ q, q < s.queries_.n_cols →
        Covers (ledgerEntries out.2.2.2 q)
            (List.replicate s.knns_ 0 ++ (List.range s.references_.n_cols).map (ipQ s q)) ∧
          ∀ e ∈ ledgerEntries out.2.2.2 q, EntryOK s q e := by
  have hrange : ∀ i ∈ s.reference_tree_.indices, i < s.references_.n_cols :=
    fun i hi => List.mem_range.mp (hpart.subset hi)
  have hsound : ∀ q, q < s.queries_.n_cols → s.reference_tree_.All (fun n =>
      ∀ i ∈ n.indices, ipQ s q i ≤ (MaxNodeIP_ { s with query_ := q } n).1) :=
    fun q hq => single_sound_tree s d _ q (hdim q hq) (hnorms q hq) hvalid
      (fun h => ⟨(hnz h).1 q hq, (hnz h).2⟩)
  obtain ⟨out, hout, hkn, -, hall⟩ := single_run s hmode hk hseed hrange hsound
  refine ⟨out, hout, hkn, fun q hq => ⟨?_, (hall q hq).2⟩⟩
  exact (hall q hq).1.perm ((hpart.map (ipQ s q)).append_left (List.replicate s.knns_ 0))

/-- The dual-tree search over a valid ball tree and a valid cone tree, over the reals. -/
theorem dual_run_valid (s : MaxIP ℝ) (d : Nat) (query_tree : CTreeType ℝ)
    (hmode : s.dual_tree = true) (htree : s.query_tree_ = some query_tree)
    (hk : 1 ≤ s.knns_) (hseed : Seeded s)
    (hnorms : ∀ q, q < s.queries_.n_cols → s.qnorm_at q = norm2 (s.queries_.col q))
    (hqnz : ∀ q, q < s.queries_.n_cols → norm2 (s.queries_.col q) ≠ 0)
    (hqpart : query_tree.indices.Perm (List.range s.queries_.n_cols))
    (hrpart : s.reference_tree_.indices.Perm (List.range s.references_.n_cols))
    (hvalid : BallTreeValid s.references_ d s.reference_tree_)
    (hcone : ConeTreeValid s.queries_ d query_tree)
    (hfresh : query_tree.All (fun n => n.stat.bound = 0))
    (hnz : s.angle_prune = true →
      query_tree.All (fun n => norm2 n.center ≠ 0) ∧
        s.reference_tree_.All (fun n => norm2 n.center ≠ 0)) :
    ∃ out, ComputeNeighbors s = some out ∧ out.2.2.2.knns_ = s.knns_ ∧
      ∀ q, q < s.queries_.n_cols →
        Covers (ledgerEntries out.2.2.2 q)
            (List.replicate s.knns_ 0 ++ (List.range s.references_.n_cols).map (ipQ s q)) ∧
          ∀ e ∈ ledgerEntries out.2.2.2 q, EntryOK s q e := by
  have hqmem : ∀ q, q ∈ query_tree.indices ↔ q < s.queries_.n_cols :=
    fun q => (hqpart.mem_iff).trans List.mem_range
  have hpos : ∀ q, q < s.queries_.n_cols → 0 < s.qnorm_at q := by
    intro q hq
    rw [hnorms q hq]
    exact lt_of_le_of_ne (Real.sqrt_nonneg _) (Ne.symm (hqnz q hq))
  have hdim : ∀ q ∈ query_tree.indices, (s.queries_.col q).length = d :=
    fun q hq => ((CTreeType.All.rootC hcone).2.2 q hq).1
  obtain ⟨out, hout, hkn, hall⟩ := dual_run s query_tree hmode htree hk hseed hpos
    (hqpart.nodup_iff.mpr (List.nodup_range _)) (fun q hq => (hqmem q).mp hq)
    (fun i hi => List.mem_range.mp (hrpart.subset hi))
    (sound1_tree s d _ _ hdim (fun q hq => hnorms q ((hqmem q).mp hq)) hvalid
      (fun h => ⟨fun q hq => hqnz q ((hqmem q).mp hq), (hnz h).2⟩))
    (sound2_tree s d _ _ (fun q hq => hnorms q ((hqmem q).mp hq)) hvalid hcone
      (fun h => ⟨fun q hq => hqnz q ((hqmem q).mp hq), (hnz h).1, (hnz h).2⟩))
    hfresh
  refine ⟨out, hout, hkn, fun q hq => ⟨?_, (hall q ((hqmem q).mpr hq)).2⟩⟩
  exact (hall q ((hqmem q).mpr hq)).1.perm
    ((hrpart.map (ipQ s q)).append_left (List.replicate s.knns_ 0))

theorem map_col_range {β : Type} (m : Mat β) :
    (List.range m.n_cols).map m.col = m.cols := by
  apply List.ext_getElem
  · simp [Mat.n_cols]
  · intro i h1 h2
    simp only [List.getElem_map, List.getElem_range, Mat.col]
    exact List.getD_eq_getElem _ _ h2

/-- The end state of the example: with the references `(1,0)`, `(0,1)`, `(1,1)` in some
order, the query `(1,1)` and one ledger slot, entries that hold the largest scores
consist of the score `2` and the index of `(1,1)`. -/
theorem example_entries (s : MaxIP ℝ) (E : List (ℝ × Nat))
    (hq : s.queries_.col 0 = [1, 1])
    (hr : s.references_.cols.Perm [[1, 0], [0, 1], [1, 1]])
    (hk : s.knns_ = 1) (hlen : E.length = s.knns_)
    (hcov : Covers E
      (List.replicate s.knns_ 0 ++ (List.range s.references_.n_cols).map (ipQ s 0)))
    (hok : ∀ e ∈ E, EntryOK s 0 e) :
    ∃ i, E = [(2, i)] ∧ s.references_.col i = [1, 1] := by
  rw [hk] at hlen hcov
  have hips : ((List.range s.references_.n_cols).map (ipQ s 0)).Perm [1, 1, 2] := by
    have h1 : (List.range s.references_.n_cols).map (ipQ s 0)
        = s.references_.cols.map (dot [1, 1]) := by
      conv_rhs => rw [← map_col_range s.references_]
      rw [List.map_map]
      apply List.map_congr_left
      intro i _
      simp only [Function.comp, ipQ, hq]
    rw [h1]
    have h2 := hr.map (dot ([1, 1] : List ℝ))
    have h3 : List.map (dot ([1, 1] : List ℝ)) [[1, 0], [0, 1], [1, 1]] = [1, 1, 2] := by
      norm_num [dot]
    rw [h3] at h2
    exact h2
  have hs := covers_topScores' hlen hcov
  rw [topScores_perm hips] at hs
  have ht : topScores 1 ([1, 1, 2] : List ℝ) = [2] := by
    norm_num [topScores, List.insertionSort, List.orderedInsert, List.filter]
  rw [ht] at hs
  match E, hlen, hs, hok with
  | [e], _, hs, hok =>
    have he1 : e.1 = 2 := by simpa using hs
    rcases hok e (List.mem_singleton_self e) with h | ⟨_, hip, hlt⟩
    · rw [h] at he1; norm_num at he1
    · refine ⟨e.2, ?_, ?_⟩
      · rw [← he1]
      · have hmem : s.references_.col e.2 ∈ s.references_.cols := by
          unfold Mat.col
          rw [List.getD_eq_getElem _ _ hlt]
          exact List.getElem_mem _
        have hmem' := hr.subset hmem
        rw [he1] at hip
        unfold ipQ at hip
        rw [hq] at hip
        simp only [List.mem_cons, List.mem_singleton, List.not_mem_nil, or_false] at hmem'
        rcases hmem' with h | h | h
        · rw [h] at hip; norm_num [dot] at hip
        · rw [h] at hip; norm_num [dot] at hip
        · exact h

end Runs

section Weak

variable {α : Type} [LinearOrderedField α] [HasSqrt α]

theorem WInv.moveW {s0 s s' : MaxIP α} (h : WInv s0 s) (hf : Frame s s')
    (hl : SameLedger s s') : WInv s0 s' := by
  obtain ⟨M, h⟩ := h
  exact ⟨M, h.move hf hl⟩

theorem WInv.posW {s0 s : MaxIP α} (h : WInv s0 s) {qs : List Nat}
    (hq : ∀ q ∈ qs, q < s0.queries_.n_cols) : ∀ q ∈ qs, 0 < s0.qnorm_at q := by
  obtain ⟨M, h⟩ := h
  exact h.pos hq

theorem WInv.knns_eq {s0 s : MaxIP α} (h : WInv s0 s) : s.knns_ = s0.knns_ := by
  obtain ⟨M, h⟩ := h
  exact h.frame.knns_

theorem WInv.frame {s0 s : MaxIP α} (h : WInv s0 s) : Frame s0 s := by
  obtain ⟨M, h⟩ := h
  exact h.frame

theorem WInv.hk {s0 s : MaxIP α} (h : WInv s0 s) : 1 ≤ s.knns_ := by
  obtain ⟨M, h⟩ := h
  exact h.knns

/-- One iteration of the loop of lines 226-247, for the query `x`, without any assumption
on the bounds: the ledger stays well formed, the entries of the other queries do not
change and no floor decreases. -/
theorem weak_step {s0 s : MaxIP α} (h : WInv s0 s)
    (rn : TreeType α) (x : Nat) (hx : x < s0.queries_.n_cols)
    (hr : ∀ i ∈ List.range' rn.begin_ (rn.end_ - rn.begin_), i < s0.references_.n_cols) :
    WInv s0 (stepState rn s x) ∧
      (stepState rn s x).query_ = x ∧
      (∀ q, q ≠ x → ledgerEntries (stepState rn s x) q = ledgerEntries s q) ∧
      (∀ q, floorOf s q ≤ floorOf (stepState rn s x) q) := by
  obtain ⟨M, h⟩ := h
  have hs' : stepState rn s x = if (MaxNodeIP_ { s with query_ := x } rn).1
          > (MaxNodeIP_ { s with query_ := x } rn).2.ips_at
              (x * s.knns_ + (MaxNodeIP_ { s with query_ := x } rn).2.knns_ - 1)
        then ComputeBaseCase_ (MaxNodeIP_ { s with query_ := x } rn).2 rn
        else (MaxNodeIP_ { s with query_ := x } rn).2 := rfl
  generalize stepState rn s x = s' at hs' ⊢
  have hFq : Frame s ({ s with query_ := x } : MaxIP α) := Frame.setQuery s x
  have hSq : SameLedger s ({ s with query_ := x } : MaxIP α) := SameLedger.ofSetQuery s x
  have hqq : ({ s with query_ := x } : MaxIP α).query_ = x := rfl
  generalize ({ s with query_ := x } : MaxIP α) = sx at hFq hSq hqq hs'
  have hFm : Frame sx (MaxNodeIP_ sx rn).2 := MaxNodeIP_frame sx rn
  have hSm : SameLedger sx (MaxNodeIP_ sx rn).2 := MaxNodeIP_sameLedger sx rn
  have hqm : (MaxNodeIP_ sx rn).2.query_ = x := hqq
  generalize (MaxNodeIP_ sx rn).2 = sm at hFm hSm hqm hs'
  have hD : DInv s0 sm M := (h.move hFq hSq).move hFm hSm
  have hsame : SameLedger s sm := ⟨hSm.1.trans hSq.1, hSm.2.trans hSq.2⟩
  have hkk : sm.knns_ = s.knns_ := hFm.knns_.trans hFq.knns_
  have hfloor : sm.ips_at (x * s.knns_ + sm.knns_ - 1) = floorOf sm x := by
    unfold floorOf; rw [hkk]
  rw [hfloor] at hs'
  have hfun : ipQ sm x = ipQ s0 x := by funext i; exact hD.frame.ipQ x i
  split_ifs at hs' with hgt
  · -- the reference leaf is scored
    have hb := basecase_inv sm rn (M x) hD.knns (by rw [hqm]; exact hD.fits1 hx)
      (by rw [hqm]; exact hD.fits2 hx) (by rw [hD.frame.references_]; exact hr)
      (by rw [hqm]; exact hD.cov x hx)
      (by rw [hqm]; intro e he; exact (hD.frame.entryOK _ _).mpr (hD.ok x hx e he))
    rw [hqm, hfun] at hb
    have hother : ∀ q, q ≠ x → ledgerEntries s' q = ledgerEntries s q := by
      intro q hq
      rw [hs', ComputeBaseCase_entries_other sm rn q (by rw [hqm]; exact hq)]
      exact hsame.entries hkk q
    refine ⟨⟨addFor M [x]
        (fun q => (List.range' rn.begin_ (rn.end_ - rn.begin_)).map (ipQ s0 q)),
      ?_, hD.hk, hD.len1, hD.len2, hD.norms, ?_, ?_⟩, ?_, hother, ?_⟩
    · rw [hs']; exact hD.frame.trans (ComputeBaseCase_frame sm rn)
    · intro q hq
      by_cases hqx : q = x
      · subst hqx
        simp only [addFor, List.mem_singleton, if_true]
        rw [hs']; exact hb.1
      · simp only [addFor, List.mem_singleton, hqx, if_false]
        rw [hother q hqx]; exact h.cov q hq
    · intro q hq e he
      by_cases hqx : q = x
      · subst hqx
        rw [hs'] at he
        exact (hD.frame.entryOK _ _).mp (hb.2.1 e he)
      · rw [hother q hqx] at he; exact h.ok q hq e he
    · rw [hs']; exact hqm
    · intro q
      by_cases hqx : q = x
      · subst hqx
        rw [hs', ← hsame.floorOf hkk]; exact hb.2.2
      · exact le_of_eq (floorOf_congr (by rw [hs']; exact hkk) q (hother q hqx) h.knns).symm
  · -- the ledger is left as it is
    refine ⟨⟨M, ?_⟩, ?_, ?_, ?_⟩
    · rw [hs']; exact hD
    · rw [hs']; exact hqm
    · intro q _; rw [hs']; exact hsame.entries hkk q
    · intro q; rw [hs', hsame.floorOf hkk]

/-- The loop of lines 226-247 and the update of lines 249-251, without any assumption on
the bounds of the reference node. -/
theorem weak_basecase {s0 s : MaxIP α} (h : WInv s0 s)
    (qn : CTreeType α) (rn : TreeType α)
    (hq : ∀ q ∈ List.range' qn.begin_ (qn.end_ - qn.begin_), q < s0.queries_.n_cols)
    (hr : ∀ i ∈ List.range' rn.begin_ (rn.end_ - rn.begin_), i < s0.references_.n_cols)
    (hb : ∀ q ∈ List.range' qn.begin_ (qn.end_ - qn.begin_),
      qn.stat.bound ≤ floorOf s q / s0.qnorm_at q)
    (hw : StatOK qn.stat) :
    WInv s0 (ComputeBaseCase_dual s qn rn).2 ∧
      (∀ q, floorOf s q ≤ floorOf (ComputeBaseCase_dual s qn rn).2 q) ∧
      ∃ st' : QueryStat α, (ComputeBaseCase_dual s qn rn).1 = qn.setStat st' ∧
        qn.stat.bound ≤ st'.bound ∧ StatOK st' ∧
        ∀ q ∈ List.range' qn.begin_ (qn.end_ - qn.begin_),
          st'.bound ≤ floorOf (ComputeBaseCase_dual s qn rn).2 q / s0.qnorm_at q := by
  have hnd : (List.range' qn.begin_ (qn.end_ - qn.begin_)).Nodup := List.nodup_range' _ _
  have hnorms := h.posW hq
  have key : (fun (pre : List Nat) (acc : α × Bool × MaxIP α) =>
      WInv s0 acc.2.2 ∧
        (∀ q, floorOf s q ≤ floorOf acc.2.2 q) ∧
        (∀ q ∈ pre, acc.1 ≤ floorOf acc.2.2 q / s0.qnorm_at q) ∧
        (acc.2.1 = true → ∃ q ∈ pre, acc.1 = floorOf acc.2.2 q / s0.qnorm_at q))
      (List.range' qn.begin_ (qn.end_ - qn.begin_)) (baseOut s qn rn) := by
    refine foldl_prefix_invariant
      (fun (pre : List Nat) (acc : α × Bool × MaxIP α) =>
        WInv s0 acc.2.2 ∧
          (∀ q, floorOf s q ≤ floorOf acc.2.2 q) ∧
          (∀ q ∈ pre, acc.1 ≤ floorOf acc.2.2 q / s0.qnorm_at q) ∧
          (acc.2.1 = true → ∃ q ∈ pre, acc.1 = floorOf acc.2.2 q / s0.qnorm_at q))
      (baseStep rn) (List.range' qn.begin_ (qn.end_ - qn.begin_))
      (DBL_MAX, false, { s with query_ := qn.begin_ }) ?_ ?_
    · refine ⟨?_, fun q => ?_, fun q hq => absurd hq (List.not_mem_nil q), fun h => by cases h⟩
      · exact h.moveW (Frame.setQuery s _) (SameLedger.ofSetQuery s _)
      · exact le_of_eq ((SameLedger.ofSetQuery s qn.begin_).floorOf rfl q).symm
    · intro pre x acc ⟨post, hpost⟩ ⟨hD, hfl, hle, hex⟩
      have hxmem : x ∈ List.range' qn.begin_ (qn.end_ - qn.begin_) := by
        rw [← hpost]; simp
      have hxpre : x ∉ pre := by
        rw [← hpost] at hnd
        have := (List.nodup_append.mp hnd).2.2
        intro hx
        exact this hx (List.mem_cons_self _ _)
      obtain ⟨hD', hq', hother, hfl'⟩ := weak_step hD rn x (hq x hxmem) hr
      rw [baseStep_eq]
      have hk1 : (stepState rn acc.2.2 x).knns_ = acc.2.2.knns_ :=
        hD'.knns_eq.trans hD.knns_eq.symm
      have hratio : stepRatio rn acc.2.2 x = floorOf (stepState rn acc.2.2 x) x / s0.qnorm_at x := by
        unfold stepRatio floorOf MaxIP.qnorm_at
        rw [hq', hD'.frame.query_norms_, hk1]
      rw [hratio]
      generalize stepState rn acc.2.2 x = s1 at hD' hq' hother hfl' hk1 ⊢
      have hkeep : ∀ q ∈ pre, floorOf s1 q = floorOf acc.2.2 q := by
        intro q hqp
        exact floorOf_congr hk1 q (hother q (by rintro rfl; exact hxpre hqp)) hD.hk
      split_ifs with hgt
      · refine ⟨hD', fun q => le_trans (hfl q) (hfl' q), ?_, ?_⟩
        · intro q hqm
          rcases List.mem_append.mp hqm with h1 | h1
          · rw [hkeep q h1]; exact le_trans (le_of_lt hgt) (hle q h1)
          · rw [List.mem_singleton] at h1; rw [h1]
        · intro _; exact ⟨x, by simp, rfl⟩
      · push_neg at hgt
        refine ⟨hD', fun q => le_trans (hfl q) (hfl' q), ?_, ?_⟩
        · intro q hqm
          rcases List.mem_append.mp hqm with h1 | h1
          · rw [hkeep q h1]; exact hle q h1
          · rw [List.mem_singleton] at h1; rw [h1]; exact hgt
        · intro hnb
          obtain ⟨q, hqp, hval⟩ := hex hnb
          exact ⟨q, List.mem_append_left _ hqp, by rw [hkeep q hqp]; exact hval⟩
  obtain ⟨hD, hfl, hle, hex⟩ := key
  rw [ComputeBaseCase_dual_eq]
  have hSL := SameLedger.ofSetQuery (baseOut s qn rn).2.2 (loopExit qn.begin_ qn.end_)
  have hF := Frame.setQuery (baseOut s qn rn).2.2 (loopExit qn.begin_ qn.end_)
  generalize baseOut s qn rn = out at hD hfl hle hex hSL hF ⊢
  dsimp only
  generalize ({ out.2.2 with query_ := loopExit qn.begin_ qn.end_ } : MaxIP α) = sf at hSL hF ⊢
  have hfeq : ∀ q, floorOf sf q = floorOf out.2.2 q := fun q => hSL.floorOf hF.knns_ q
  refine ⟨hD.moveW hF hSL, fun q => by rw [hfeq]; exact hfl q, ?_⟩
  by_cases hnb : out.2.1 = true
  · rw [if_pos hnb]
    obtain ⟨qs, hqs, hval⟩ := hex hnb
    have hmono : qn.stat.bound ≤ out.1 := by
      rw [hval]
      refine le_trans (hb qs hqs) ?_
      exact div_le_div_of_nonneg_right (hfl qs) (le_of_lt (hnorms qs hqs))
    refine ⟨qn.stat.set_bound out.1, CTreeType.set_bound_eq qn out.1, hmono,
      hw.set_bound hmono, ?_⟩
    intro q hq'
    rw [hfeq]; exact hle q hq'
  · rw [if_neg hnb]
    refine ⟨qn.stat, (CTreeType.setStat_stat qn).symm, le_refl _, hw, ?_⟩
    intro q hq'
    rw [hfeq]
    exact le_trans (hb q hq')
      (div_le_div_of_nonneg_right (hfl q) (le_of_lt (hnorms q hq')))

theorem WeakPre.wRefLeft {s0 s : MaxIP α} {qn : CTreeType α} {c : List α}
    {r : α} {b e : Nat} {left right : TreeType α}
    (h : WeakPre s0 s qn (.node c r b e left right)) : WeakPre s0 s qn left :=
  ⟨h.inv, h.qlt, fun i hi => h.rlt i (List.mem_append_left _ hi), h.qok⟩

theorem WeakPre.wRefRight {s0 s : MaxIP α} {qn : CTreeType α} {c : List α}
    {r : α} {b e : Nat} {left right : TreeType α}
    (h : WeakPre s0 s qn (.node c r b e left right)) : WeakPre s0 s qn right :=
  ⟨h.inv, h.qlt, fun i hi => h.rlt i (List.mem_append_right _ hi), h.qok⟩

theorem WeakPre.wLeft {s0 s : MaxIP α} {c : List α} {r rc : α}
    {st : QueryStat α} {b e : Nat} {l rt : CTreeType α} {rn : TreeType α}
    (h : WeakPre s0 s (.node c r rc st b e l rt) rn) : WeakPre s0 s l rn :=
  ⟨h.inv, fun q hq => h.qlt q (List.mem_append_left _ hq), h.rlt, h.qok.left⟩

theorem WeakPre.wStep {s0 s s' : MaxIP α} {qn qn' : CTreeType α}
    {rn : TreeType α} (h : WeakPre s0 s qn rn) (hinv : WInv s0 s') (he : Evolves qn qn')
    (hq : QOK s0 s' qn') : WeakPre s0 s' qn' rn :=
  ⟨hinv, by rw [he.indices]; exact h.qlt, h.rlt, hq⟩

theorem WeakPre.wRightAfter {s0 s s' : MaxIP α} {c : List α} {r rc : α}
    {st : QueryStat α} {b e : Nat} {l rt : CTreeType α} {rn : TreeType α}
    (h : WeakPre s0 s (.node c r rc st b e l rt) rn) (hinv : WInv s0 s')
    (hfl : ∀ q, floorOf s q ≤ floorOf s' q) : WeakPre s0 s' rt rn :=
  ⟨hinv, fun q hq => h.qlt q (List.mem_append_right _ hq), h.rlt,
    h.qok.right.monoQ hfl (h.inv.posW (fun q hq => h.qlt q (List.mem_append_right _ hq)))⟩

theorem weak_pair (s0 : MaxIP α) (qx : CTreeType α) (left right : TreeType α)
    (hIHl : ∀ qx' : CTreeType α, qx'.size = qx.size → WeakSpec s0 qx' left)
    (hIHr : ∀ qx' : CTreeType α, qx'.size = qx.size → WeakSpec s0 qx' right)
    (s : MaxIP α) (hpl : WeakPre s0 s qx left) (hpr : WeakPre s0 s qx right) (lub rub : α) :
    WeakPost s0 s qx (pairCalls qx left right lub rub s) := by
  by_cases hgt : lub > rub
  · rw [pairCalls_pos _ _ _ _ _ _ hgt]
    have p1 := hIHl qx rfl lub s hpl
    have hpre2 := hpr.wStep p1.inv p1.ev p1.qok
    have p2 := hIHr _ (ComputeNeighborsRecursion_dual qx left lub s).2 rub _ hpre2
    exact ⟨p2.inv, p1.ev.comp p2.ev, p2.qok, fun q => le_trans (p1.floors q) (p2.floors q)⟩
  · rw [pairCalls_neg _ _ _ _ _ _ hgt]
    have p1 := hIHr qx rfl rub s hpr
    have hpre2 := hpl.wStep p1.inv p1.ev p1.qok
    have p2 := hIHl _ (ComputeNeighborsRecursion_dual qx right rub s).2 lub _ hpre2
    exact ⟨p2.inv, p1.ev.comp p2.ev, p2.qok, fun q => le_trans (p1.floors q) (p2.floors q)⟩

theorem weak_prune (s0 : MaxIP α) (qn : CTreeType α) (rn : TreeType α) (ub : α) (s : MaxIP α)
    (hpre : WeakPre s0 s qn rn) (hp : ub < qn.stat.bound) :
    WeakPost s0 s qn (ComputeNeighborsRecursion_dual qn rn ub s).1 := by
  rw [rec_dual_prune _ _ _ _ hp]
  have hfs : Frame s (if s.check_prune = true then
        CheckPrune { s with number_of_prunes_ := s.number_of_prunes_ + 1 } qn rn
      else { s with number_of_prunes_ := s.number_of_prunes_ + 1 }) ∧
      SameLedger s (if s.check_prune = true then
        CheckPrune { s with number_of_prunes_ := s.number_of_prunes_ + 1 } qn rn
      else { s with number_of_prunes_ := s.number_of_prunes_ + 1 }) := by
    split_ifs
    · have := CheckPrune_frame ({ s with number_of_prunes_ := s.number_of_prunes_ + 1 }) qn rn
      have hF1 : Frame s ({ s with number_of_prunes_ := s.number_of_prunes_ + 1 } : MaxIP α) :=
        ⟨rfl, rfl, rfl, rfl, rfl, rfl, rfl, rfl, rfl, rfl, rfl, rfl, rfl, rfl⟩
      exact ⟨hF1.trans this.1, ⟨this.2.1, this.2.2⟩⟩
    · exact ⟨⟨rfl, rfl, rfl, rfl, rfl, rfl, rfl, rfl, rfl, rfl, rfl, rfl, rfl, rfl⟩, ⟨rfl, rfl⟩⟩
  generalize (if s.check_prune = true then
        CheckPrune { s with number_of_prunes_ := s.number_of_prunes_ + 1 } qn rn
      else { s with number_of_prunes_ := s.number_of_prunes_ + 1 }) = s' at hfs ⊢
  obtain ⟨hF, hS⟩ := hfs
  have hfeq : ∀ q, floorOf s' q = floorOf s q := fun q => hS.floorOf hF.knns_ q
  exact ⟨hpre.inv.moveW hF hS, Evolves.same qn,
    hpre.qok.monoQ (fun q => le_of_eq (hfeq q).symm) (hpre.inv.posW hpre.qlt),
    fun q => le_of_eq (hfeq q).symm⟩

theorem weak_rec (s0 : MaxIP α) :
    ∀ (n : Nat) (qn : CTreeType α) (rn : TreeType α), qn.size + rn.size ≤ n →
      WeakSpec s0 qn rn := by
  intro n
  induction n with
  | zero =>
    intro qn rn h
    have := qn.sizePos
    omega
  | succ n ih =>
    intro qn rn hsz ub s hpre
    by_cases hp : ub < qn.stat.bound
    · exact weak_prune s0 qn rn ub s hpre hp
    cases qn with
    | leaf qc qr qrc qst qb qe =>
      have hp : ¬ ub < qst.bound := hp
      cases rn with
      | leaf c r b e =>
        rw [rec_dual_leaf_leaf qc qr qrc qst qb qe c r b e ub s hp]
        obtain ⟨hinv, hfl, st', heq, hmono, hst, hle⟩ :=
          weak_basecase hpre.inv (.leaf qc qr qrc qst qb qe) (.leaf c r b e) hpre.qlt hpre.rlt
            hpre.qok.1.2 hpre.qok.1.1
        refine ⟨hinv, ?_, ⟨?_, ?_⟩, hfl⟩
        · rw [heq]; exact Evolves.setStat _ st' hmono
        · rw [heq]; exact ⟨hst, hle⟩
        · rw [heq]; trivial
      | node c r b e left right =>
        rw [rec_dual_leaf_node qc qr qrc qst qb qe c r b e left right ub s hp]
        have hsl : (CTreeType.leaf qc qr qrc qst qb qe).size + left.size ≤ n := by
          simp only [CTreeType.size, TreeType.size] at hsz ⊢; omega
        have hsr : (CTreeType.leaf qc qr qrc qst qb qe).size + right.size ≤ n := by
          simp only [CTreeType.size, TreeType.size] at hsz ⊢; omega
        have hD : WInv s0 (MaxNodeIP_dual (MaxNodeIP_dual s (.leaf qc qr qrc qst qb qe) left).2
            (.leaf qc qr qrc qst qb qe) right).2 :=
          (hpre.inv.moveW (MaxNodeIP_dual_frame _ _ _)
            (MaxNodeIP_dual_sameLedger _ _ _)).moveW (MaxNodeIP_dual_frame _ _ _)
            (MaxNodeIP_dual_sameLedger _ _ _)
        have hfleq : ∀ q, floorOf (MaxNodeIP_dual (MaxNodeIP_dual s
            (.leaf qc qr qrc qst qb qe) left).2 (.leaf qc qr qrc qst qb qe) right).2 q
            = floorOf s q := fun q => rfl
        have hq2 : QOK s0 (MaxNodeIP_dual (MaxNodeIP_dual s (.leaf qc qr qrc qst qb qe) left).2
            (.leaf qc qr qrc qst qb qe) right).2 (.leaf qc qr qrc qst qb qe) :=
          hpre.qok.monoQ (fun q => le_of_eq (hfleq q).symm) (hpre.inv.posW hpre.qlt)
        have hpre' := hpre.wStep hD (Evolves.same _) hq2
        have post := weak_pair s0 (.leaf qc qr qrc qst qb qe) left right
          (fun qx' hx => ih qx' left (by rw [hx]; exact hsl))
          (fun qx' hx => ih qx' right (by rw [hx]; exact hsr))
          _ hpre'.wRefLeft hpre'.wRefRight
          (MaxNodeIP_dual s (.leaf qc qr qrc qst qb qe) left).1
          (MaxNodeIP_dual (MaxNodeIP_dual s (.leaf qc qr qrc qst qb qe) left).2
            (.leaf qc qr qrc qst qb qe) right).1
        exact ⟨post.inv, post.ev, post.qok, fun q => by rw [← hfleq q]; exact post.floors q⟩
    | node qc qr qrc qst qb qe ql qrt =>
      have hp : ¬ ub < qst.bound := hp
      cases rn with
      | leaf c r b e =>
        rw [rec_dual_node_leaf qc qr qrc qst qb qe ql qrt c r b e ub s hp]
        have hsl : ql.size + (TreeType.leaf c r b e).size ≤ n := by
          simp only [CTreeType.size, TreeType.size] at hsz ⊢; omega
        have hsr : qrt.size + (TreeType.leaf c r b e).size ≤ n := by
          simp only [CTreeType.size, TreeType.size] at hsz ⊢; omega
        have hD : WInv s0 (MaxNodeIP_dual (MaxNodeIP_dual s ql (.leaf c r b e)).2 qrt
            (.leaf c r b e)).2 :=
          (hpre.inv.moveW (MaxNodeIP_dual_frame _ _ _)
            (MaxNodeIP_dual_sameLedger _ _ _)).moveW (MaxNodeIP_dual_frame _ _ _)
            (MaxNodeIP_dual_sameLedger _ _ _)
        have hfleq : ∀ q, floorOf (MaxNodeIP_dual (MaxNodeIP_dual s ql (.leaf c r b e)).2 qrt
            (.leaf c r b e)).2 q = floorOf s q := fun q => rfl
        have hq2 : QOK s0 (MaxNodeIP_dual (MaxNodeIP_dual s ql (.leaf c r b e)).2 qrt
            (.leaf c r b e)).2 (.node qc qr qrc qst qb qe ql qrt) :=
          hpre.qok.monoQ (fun q => le_of_eq (hfleq q).symm) (hpre.inv.posW hpre.qlt)
        have hpre' := hpre.wStep hD (Evolves.same _) hq2
        have p1 := ih ql (.leaf c r b e) hsl (MaxNodeIP_dual s ql (.leaf c r b e)).1 _
          hpre'.wLeft
        have hpreR := hpre'.wRightAfter p1.inv p1.floors
        have p2 := ih qrt (.leaf c r b e) hsr
          (MaxNodeIP_dual (MaxNodeIP_dual s ql (.leaf c r b e)).2 qrt (.leaf c r b e)).1 _ hpreR
        have hc := combine_spec hq2 p1.ev p2.ev
          (p1.qok.monoQ p2.floors (by
            rw [p1.ev.indices]
            exact hpre.inv.posW (fun q hq => hpre.qlt q (List.mem_append_left _ hq))))
          p2.qok
        exact ⟨p2.inv, hc.1, hc.2, fun q => by
          rw [← hfleq q]; exact le_trans (p1.floors q) (p2.floors q)⟩
      | node c r b e left right =>
        rw [rec_dual_node_node qc qr qrc qst qb qe ql qrt c r b e left right ub s hp]
        have hs1 : ∀ qx' : CTreeType α, qx'.size = ql.size → qx'.size + left.size ≤ n := by
          intro qx' hx; simp only [CTreeType.size, TreeType.size] at hsz; omega
        have hs2 : ∀ qx' : CTreeType α, qx'.size = ql.size → qx'.size + right.size ≤ n := by
          intro qx' hx; simp only [CTreeType.size, TreeType.size] at hsz; omega
        have hs3 : ∀ qx' : CTreeType α, qx'.size = qrt.size → qx'.size + left.size ≤ n := by
          intro qx' hx; simp only [CTreeType.size, TreeType.size] at hsz; omega
        have hs4 : ∀ qx' : CTreeType α, qx'.size = qrt.size → qx'.size + right.size ≤ n := by
          intro qx' hx; simp only [CTreeType.size, TreeType.size] at hsz; omega
        have hD : WInv s0 (MaxNodeIP_dual (MaxNodeIP_dual s ql left).2 ql right).2 :=
          (hpre.inv.moveW (MaxNodeIP_dual_frame _ _ _)
            (MaxNodeIP_dual_sameLedger _ _ _)).moveW (MaxNodeIP_dual_frame _ _ _)
            (MaxNodeIP_dual_sameLedger _ _ _)
        have hfleq : ∀ q, floorOf (MaxNodeIP_dual (MaxNodeIP_dual s ql left).2 ql right).2 q
            = floorOf s q := fun q => rfl
        have hq2 : QOK s0 (MaxNodeIP_dual (MaxNodeIP_dual s ql left).2 ql right).2
            (.node qc qr qrc qst qb qe ql qrt) :=
          hpre.qok.monoQ (fun q => le_of_eq (hfleq q).symm) (hpre.inv.posW hpre.qlt)
        have hpre' := hpre.wStep hD (Evolves.same _) hq2
        have p1 := weak_pair s0 ql left right
          (fun qx' hx => ih qx' left (hs1 qx' hx)) (fun qx' hx => ih qx' right (hs2 qx' hx))
          _ hpre'.wLeft.wRefLeft hpre'.wLeft.wRefRight (MaxNodeIP_dual s ql left).1
          (MaxNodeIP_dual (MaxNodeIP_dual s ql left).2 ql right).1
        generalize pairCalls ql left right (MaxNodeIP_dual s ql left).1
          (MaxNodeIP_dual (MaxNodeIP_dual s ql left).2 ql right).1
          (MaxNodeIP_dual (MaxNodeIP_dual s ql left).2 ql right).2 = a at p1 ⊢
        have hDa : WInv s0 (MaxNodeIP_dual (MaxNodeIP_dual a.2 qrt left).2 qrt right).2 :=
          (p1.inv.moveW (MaxNodeIP_dual_frame _ _ _)
            (MaxNodeIP_dual_sameLedger _ _ _)).moveW (MaxNodeIP_dual_frame _ _ _)
            (MaxNodeIP_dual_sameLedger _ _ _)
        have hfleq2 : ∀ q, floorOf (MaxNodeIP_dual (MaxNodeIP_dual a.2 qrt left).2 qrt right).2 q
            = floorOf a.2 q := fun q => rfl
        have hpreR := hpre'.wRightAfter hDa (fun q => by rw [hfleq2 q]; exact p1.floors q)
        have p2 := weak_pair s0 qrt left right
          (fun qx' hx => ih qx' left (hs3 qx' hx)) (fun qx' hx => ih qx' right (hs4 qx' hx))
          _ hpreR.wRefLeft hpreR.wRefRight (MaxNodeIP_dual a.2 qrt left).1
          (MaxNodeIP_dual (MaxNodeIP_dual a.2 qrt left).2 qrt right).1
        generalize pairCalls qrt left right (MaxNodeIP_dual a.2 qrt left).1
          (MaxNodeIP_dual (MaxNodeIP_dual a.2 qrt left).2 qrt right).1
          (MaxNodeIP_dual (MaxNodeIP_dual a.2 qrt left).2 qrt right).2 = b2 at p2 ⊢
        have hc := combine_spec hq2 p1.ev p2.ev
          (p1.qok.monoQ (fun q => by rw [← hfleq2 q]; exact p2.floors q) (by
            rw [p1.ev.indices]
            exact hpre.inv.posW (fun q hq => hpre.qlt q (List.mem_append_left _ hq))))
          p2.qok
        exact ⟨p2.inv, hc.1, hc.2, fun q => by
          rw [← hfleq q]
          exact le_trans (p1.floors q) (by rw [← hfleq2 q]; exact p2.floors q)⟩

end Weak

section CE8

variable {α : Type} [LinearOrderedField α] [HasSqrt α]

theorem pairCalls_neg_of (qn : CTreeType α) (left right : TreeType α) (lub rub : α)
    (s : MaxIP α) (t1 : CTreeType α) (s1 : MaxIP α) (h : ¬ lub > rub)
    (h1 : (ComputeNeighborsRecursion_dual qn right rub s).1 = (t1, s1)) :
    pairCalls qn left right lub rub s = (ComputeNeighborsRecursion_dual t1 left lub s1).1 := by
  rw [pairCalls_neg _ _ _ _ _ _ h]
  generalize (ComputeNeighborsRecursion_dual qn right rub s).1 = p at h1 ⊢
  subst h1
  rfl

theorem dbl_max_gt (x : ℝ) (h : x ≤ 2) : (DBL_MAX : ℝ) > x := by
  unfold DBL_MAX
  have h2 : (2 : ℝ) ^ 1024 = 2 ^ 971 * 2 ^ 53 := by rw [← pow_add]
  have h1 : (2 : ℝ) ^ 971 ≥ 2 ^ 1 := pow_le_pow_right₀ (by norm_num) (by norm_num)
  have h3 : (2 : ℝ) ^ 53 ≥ 2 ^ 2 := pow_le_pow_right₀ (by norm_num) (by norm_num)
  nlinarith

theorem w8_first :
    ComputeBaseCase_dual (w8at [0] [sentinel] 0 0 3) (.leaf [1] 1 0 ⟨0, []⟩ 0 1)
        (.leaf [1] 1 1 2)
      = (.leaf [1] 1 0 ⟨1, [1]⟩ 0 1, w8at [1] [1] 1 1 4) := by
  have hd1 : (DBL_MAX : ℝ) > 1 := dbl_max_gt 1 (by norm_num)
  norm_num [w8at, w8, ComputeBaseCase_dual, MaxNodeIP_, ComputeBaseCase_, candidates, MaxIP.ips_at,
    MaxIP.qnorm_at, norm2, sqrt_real, MaxIP.idx_at, Mat.n_cols, Mat.col, dot, TreeType.begin_,
    TreeType.end_, List.range_succ, TreeType.center, TreeType.radius, CTreeType.begin_,
    CTreeType.end_, List.range'_succ, List.insertionSort, List.orderedInsert, pairLE, sentinel,
    loopExit, hd1, CTreeType.set_bound, QueryStat.set_bound]

theorem w8_second :
    ComputeBaseCase_dual (w8at [1] [1] 1 1 4) (.leaf [1] 1 0 ⟨1, [1]⟩ 0 1)
        (.leaf [1] 1 0 1)
      = (.leaf [1] 1 0 ⟨2, [1, 2]⟩ 0 1, w8at [2] [0] 1 2 5) := by
  have hd2 : (DBL_MAX : ℝ) > 2 := dbl_max_gt 2 (by norm_num)
  norm_num [w8at, w8, ComputeBaseCase_dual, MaxNodeIP_, ComputeBaseCase_, candidates, MaxIP.ips_at,
    MaxIP.qnorm_at, norm2, sqrt_real, MaxIP.idx_at, Mat.n_cols, Mat.col, dot, TreeType.begin_,
    TreeType.end_, List.range_succ, TreeType.center, TreeType.radius, CTreeType.begin_,
    CTreeType.end_, List.range'_succ, List.insertionSort, List.orderedInsert, pairLE, sentinel,
    loopExit, hd2, CTreeType.set_bound, QueryStat.set_bound]

theorem w8_rec :
    (ComputeNeighborsRecursion_dual (.leaf [1] 1 0 ⟨0, []⟩ 0 1)
        (.node [1] 1 0 2 (.leaf [1] 1 0 1) (.leaf [1] 1 1 2)) 2 (w8at [0] [sentinel] 0 0 1)).1
      = (.leaf [1] 1 0 ⟨2, [1, 2]⟩ 0 1, w8at [2] [0] 1 2 5) := by
  have hp : ¬ ((2 : ℝ) < (⟨0, []⟩ : QueryStat ℝ).bound) := by norm_num
  have hp1 : ¬ ((2 : ℝ) < (⟨1, [1]⟩ : QueryStat ℝ).bound) := by norm_num
  rw [rec_dual_leaf_node _ _ _ _ _ _ _ _ _ _ _ _ _ _ hp]
  have hl : (MaxNodeIP_dual (w8at [0] [sentinel] 0 0 1) (.leaf [1] 1 0 ⟨0, []⟩ 0 1)
      (.leaf [1] 1 0 1)) = (2, w8at [0] [sentinel] 0 0 2) := by
    norm_num [w8at, w8, MaxNodeIP_dual, norm2, dot, sqrt_real, TreeType.center, TreeType.radius]
  rw [hl]
  have hr : (MaxNodeIP_dual (w8at [0] [sentinel] 0 0 2) (.leaf [1] 1 0 ⟨0, []⟩ 0 1)
      (.leaf [1] 1 1 2)) = (2, w8at [0] [sentinel] 0 0 3) := by
    norm_num [w8at, w8, MaxNodeIP_dual, norm2, dot, sqrt_real, TreeType.center, TreeType.radius]
  rw [hr]
  rw [pairCalls_neg_of _ _ _ _ _ _ (.leaf [1] 1 0 ⟨1, [1]⟩ 0 1) (w8at [1] [1] 1 1 4)
    (by norm_num) (by rw [rec_dual_leaf_leaf _ _ _ _ _ _ _ _ _ _ _ _ hp]; exact w8_first)]
  rw [rec_dual_leaf_leaf _ _ _ _ _ _ _ _ _ _ _ _ hp1]
  exact w8_second

/-- The object `ComputeNeighbors` ends with in dual-tree mode: that of the top-level call
of the recursion, with the query tree the call returns. -/
theorem ComputeNeighbors_dual_state (s : MaxIP α) (qt : CTreeType α)
    (hmode : s.dual_tree = true) (htree : s.query_tree_ = some qt) :
    (ComputeNeighbors s).map (fun o => o.2.2.2)
      = some { (ComputeNeighborsRecursion_dual qt s.reference_tree_
            (MaxNodeIP_dual s qt s.reference_tree_).1
            (MaxNodeIP_dual s qt s.reference_tree_).2).1.2 with
          query_tree_ := some (ComputeNeighborsRecursion_dual qt s.reference_tree_
            (MaxNodeIP_dual s qt s.reference_tree_).1
            (MaxNodeIP_dual s qt s.reference_tree_).2).1.1 } := by
  unfold ComputeNeighbors
  rw [hmode, htree]
  rfl

end CE8

section Inv

variable {α : Type} [LinearOrderedField α] [HasSqrt α]

theorem eraseLog_stat_bound (t : CTreeType α) : t.eraseLog.stat.bound = t.stat.bound := by
  cases t <;> rfl

theorem eraseLog_indices (t : CTreeType α) : t.eraseLog.indices = t.indices :=
  (Evolves.eraseLog t).indices

theorem HeapOrd_eraseLog (t : CTreeType α) : HeapOrd t.eraseLog ↔ HeapOrd t := by
  induction t with
  | leaf c r rc st b e => exact Iff.rfl
  | node c r rc st b e l rt ihl ihr =>
    have h1 := eraseLog_stat_bound l
    have h2 := eraseLog_stat_bound rt
    show (st.bound ≤ l.eraseLog.stat.bound ∧ st.bound ≤ rt.eraseLog.stat.bound ∧
      HeapOrd l.eraseLog ∧ HeapOrd rt.eraseLog) ↔ _
    rw [h1, h2, ihl, ihr]
    exact Iff.rfl

theorem BoundAll_eraseLog (s0 s : MaxIP α) (t : CTreeType α) :
    t.eraseLog.All (BoundOK s0 s) ↔ t.All (BoundOK s0 s) := by
  induction t with
  | leaf c r rc st b e => exact Iff.rfl
  | node c r rc st b e l rt ihl ihr =>
    show (BoundOK s0 s (CTreeType.node c r rc st b e l rt).eraseLog ∧
      l.eraseLog.All (BoundOK s0 s) ∧ rt.eraseLog.All (BoundOK s0 s)) ↔ _
    rw [ihl, ihr]
    have : BoundOK s0 s (CTreeType.node c r rc st b e l rt).eraseLog
        ↔ BoundOK s0 s (CTreeType.node c r rc st b e l rt) := by
      unfold BoundOK
      rw [eraseLog_indices, eraseLog_stat_bound]
    rw [this]
    exact Iff.rfl

theorem BoundAll_of_eraseLog_eq (s0 s : MaxIP α) {t t' : CTreeType α}
    (h : t.eraseLog = t'.eraseLog) (ht : t.All (BoundOK s0 s)) : t'.All (BoundOK s0 s) := by
  rw [← BoundAll_eraseLog, ← h, BoundAll_eraseLog]; exact ht

theorem HeapOrd_of_eraseLog_eq {t t' : CTreeType α}
    (h : t.eraseLog = t'.eraseLog) (ht : HeapOrd t) : HeapOrd t' := by
  rw [← HeapOrd_eraseLog, ← h, HeapOrd_eraseLog]; exact ht

theorem BoundAll.monoB {s0 s s' : MaxIP α} {t : CTreeType α} (h : t.All (BoundOK s0 s))
    (hfl : ∀ q, floorOf s q ≤ floorOf s' q) (hpos : ∀ q ∈ t.indices, 0 < s0.qnorm_at q) :
    t.All (BoundOK s0 s') := by
  induction t with
  | leaf c r rc st b e =>
    exact fun q hq => le_trans (h q hq)
      (div_le_div_of_nonneg_right (hfl q) (le_of_lt (hpos q hq)))
  | node c r rc st b e l rt ihl ihr =>
    exact ⟨fun q hq => le_trans (h.1 q hq)
        (div_le_div_of_nonneg_right (hfl q) (le_of_lt (hpos q hq))),
      ihl h.2.1 (fun q hq => hpos q (List.mem_append_left _ hq)),
      ihr h.2.2 (fun q hq => hpos q (List.mem_append_right _ hq))⟩

theorem QOK_of_erased {s0 s : MaxIP α} {t : CTreeType α} (hh : HeapOrd t)
    (hb : t.All (BoundOK s0 s)) : QOK s0 s t.eraseLog := by
  refine ⟨?_, (HeapOrd_eraseLog t).mpr hh⟩
  have h1 := (BoundAll_eraseLog s0 s t).mpr hb
  clear hb hh
  generalize hte : t.eraseLog = te at h1
  have hw : te.All (fun n => n.stat.written = []) := by
    rw [← hte]
    clear hte h1
    induction t with
    | leaf c r rc st b e => rfl
    | node c r rc st b e l rt ihl ihr => exact ⟨rfl, ihl, ihr⟩
  refine (CTreeType.All.andC h1 hw).impC ?_
  intro n ⟨hb, hw⟩
  exact ⟨⟨by rw [hw]; exact List.sorted_nil, by rw [hw]; simp⟩, hb⟩

theorem QOK.boundAll {s0 s : MaxIP α} {t : CTreeType α} (h : QOK s0 s t) :
    t.All (BoundOK s0 s) :=
  h.1.impC (fun _ hn => hn.2)

/-- One call of the dual recursion preserves the invariant of the traversal, whatever the
records of the written values hold, and raises no floor. -/
theorem weak_call (s0 s : MaxIP α) (qn : CTreeType α) (rn : TreeType α) (ub : α)
    (h : TravInv s0 s qn) (hr : ∀ i ∈ rn.indices, i < s0.references_.n_cols) :
    TravInv s0 (ComputeNeighborsRecursion_dual qn rn ub s).1.2
        (ComputeNeighborsRecursion_dual qn rn ub s).1.1 ∧
      ∀ q, floorOf s q ≤ floorOf (ComputeNeighborsRecursion_dual qn rn ub s).1.2 q := by
  obtain ⟨hinv, hq, hh, hb⟩ := h
  have post := weak_rec s0 _ qn.eraseLog rn (le_refl _) ub s
    ⟨hinv, by rw [eraseLog_indices]; exact hq, hr, QOK_of_erased hh hb⟩
  have hc := rec_dual_congr _ qn.eraseLog rn (le_refl _) qn ub s s (eraseLog_eraseLog qn)
    (Sim.self s)
  have hst := rec_dual_struct _ qn rn (le_refl _) ub s
  have hSL := hc.2.sameLedger
  have hk : (ComputeNeighborsRecursion_dual qn rn ub s).1.2.knns_
      = (ComputeNeighborsRecursion_dual qn.eraseLog rn ub s).1.2.knns_ :=
    (hinv.frame.trans hst.1).knns_.trans post.inv.knns_eq.symm
  have hfeq : ∀ q, floorOf (ComputeNeighborsRecursion_dual qn rn ub s).1.2 q
      = floorOf (ComputeNeighborsRecursion_dual qn.eraseLog rn ub s).1.2 q :=
    fun q => hSL.floorOf hk q
  have hidx : (ComputeNeighborsRecursion_dual qn rn ub s).1.1.indices = qn.indices := by
    rw [← eraseLog_indices, ← hc.1, eraseLog_indices, post.ev.indices, eraseLog_indices]
  refine ⟨⟨?_, ?_, ?_, ?_⟩, fun q => by rw [hfeq]; exact post.floors q⟩
  · obtain ⟨M, hD⟩ := post.inv
    exact ⟨M, hinv.frame.trans hst.1, hD.hk, hD.len1, hD.len2, hD.norms,
      fun q hq' => by rw [hSL.entries hk]; exact hD.cov q hq',
      fun q hq' => by rw [hSL.entries hk]; exact hD.ok q hq'⟩
  · rw [hidx]; exact hq
  · exact HeapOrd_of_eraseLog_eq hc.1 post.qok.2
  · have h1 := BoundAll_of_eraseLog_eq s0 _ hc.1 post.qok.boundAll
    refine BoundAll.monoB h1 (fun q => le_of_eq (hfeq q).symm) ?_
    rw [hidx]
    exact hinv.posW hq

theorem FreshBounds.travInv {s : MaxIP α} {t : CTreeType α}
    (h : t.All (fun n => n.stat.bound = 0)) (hk : 1 ≤ s.knns_) (hseed : Seeded s)
    (hnorms : ∀ q, q < s.queries_.n_cols → 0 < s.qnorm_at q)
    (hq : ∀ q ∈ t.indices, q < s.queries_.n_cols) : TravInv s s t := by
  have hf := FreshTree.ofZero h
  have hQ := hf.qok hseed hk (by rw [eraseLog_indices]; exact hq)
  refine ⟨⟨_, hseed.dinv hk hnorms⟩, hq, (HeapOrd_eraseLog t).mp hQ.2,
    (BoundAll_eraseLog s s t).mp hQ.boundAll⟩

theorem TravInv.other {s0 s s' : MaxIP α} {t : CTreeType α} (h : TravInv s0 s t)
    (hfl : ∀ q, floorOf s q ≤ floorOf s' q) : t.All (BoundOK s0 s') :=
  BoundAll.monoB h.2.2.2 hfl (h.1.posW h.2.1)

end Inv

section Warm

variable {α : Type} [LinearOrderedField α] [HasSqrt α]

theorem reset_tree_bounds (t : CTreeType α) :
    (reset_tree_ t).All (fun n => n.stat.bound = 0) := by
  induction t with
  | leaf c r rc st b e => rfl
  | node c r rc st b e l rt ihl ihr => exact ⟨rfl, ihl, ihr⟩

theorem eraseLog_reset_tree (t : CTreeType α) : (reset_tree_ t).eraseLog = t.eraseStat := by
  induction t with
  | leaf c r rc st b e => rfl
  | node c r rc st b e l rt ihl ihr =>
    have hl : CTreeType.mapStat (fun st => (⟨st.bound, []⟩ : QueryStat α)) (reset_tree_ l)
        = CTreeType.mapStat (fun _ => ⟨0, []⟩) l := ihl
    have hr : CTreeType.mapStat (fun st => (⟨st.bound, []⟩ : QueryStat α)) (reset_tree_ rt)
        = CTreeType.mapStat (fun _ => ⟨0, []⟩) rt := ihr
    simp only [reset_tree_, CTreeType.eraseLog, CTreeType.eraseStat, CTreeType.mapStat, hl, hr,
      QueryStat.set_bound]

theorem eraseLog_of_zero {t : CTreeType α} (h : t.All (fun n => n.stat.bound = 0)) :
    t.eraseLog = t.eraseStat := by
  induction t with
  | leaf c r rc st b e =>
    have h0 : st.bound = 0 := h
    simp only [CTreeType.eraseLog, CTreeType.eraseStat, CTreeType.mapStat, h0]
  | node c r rc st b e l rt ihl ihr =>
    have h0 : st.bound = 0 := h.1
    have hl : CTreeType.mapStat (fun st => (⟨st.bound, []⟩ : QueryStat α)) l
        = CTreeType.mapStat (fun _ => ⟨0, []⟩) l := ihl h.2.1
    have hr : CTreeType.mapStat (fun st => (⟨st.bound, []⟩ : QueryStat α)) rt
        = CTreeType.mapStat (fun _ => ⟨0, []⟩) rt := ihr h.2.2
    simp only [CTreeType.eraseLog, CTreeType.eraseStat, CTreeType.mapStat, h0, hl, hr]

theorem fillResults_sim {s s' : MaxIP α} (h : Sim s s') (f : Nat → Nat) :
    fillResults s' f = fillResults s f := by
  obtain ⟨a, b, rfl⟩ := h
  rfl

theorem averageWork_sim {s s' : MaxIP α} (h : Sim s s') : averageWork s' = averageWork s := by
  obtain ⟨a, b, rfl⟩ := h
  rfl

theorem Sim.setTree {s s' : MaxIP α} (h : Sim s s') (b b' : Option (CTreeType α)) :
    Sim { s with query_tree_ := b } { s' with query_tree_ := b' } := by
  obtain ⟨a, c, rfl⟩ := h
  exact ⟨a, b', rfl⟩

/-- The object `WarmInit` returns in dual-tree mode when the query tree is `t`. -/
theorem WarmInit_dual (s : MaxIP α) (t : CTreeType α) (knns : Nat)
    (hmode : s.dual_tree = true) (htree : s.query_tree_ = some t) :
    WarmInit s knns =
      { s with
        number_of_prunes_ := 0
        distance_computations_ := 0
        split_decisions_ := 0
        knns_ := knns
        max_ip_indices_ := List.replicate (ledgerSize s.queries_.n_cols knns) sentinel
        max_ips_ := List.replicate (ledgerSize s.queries_.n_cols knns) 0
        query_tree_ := some (reset_tree_ t) } := by
  unfold WarmInit
  simp only [hmode, htree, if_true]

/-- An object seeded as by `Init`, with its counters at `0`, after a traversal that changed its ledger,
counters, `query_` and query tree, is brought back by `WarmInit` but for `query_` and the
query tree. -/
theorem WarmInit_sim (s s1 : MaxIP α) (t : CTreeType α)
    (hF : Frame s s1) (hmode : s.dual_tree = true)
    (hseed : s.max_ips_ = List.replicate (ledgerSize s.queries_.n_cols s.knns_) 0 ∧
      s.max_ip_indices_ = List.replicate (ledgerSize s.queries_.n_cols s.knns_) sentinel)
    (hp : s.number_of_prunes_ = 0) (hd : s.distance_computations_ = 0)
    (hs : s.split_decisions_ = 0) :
    WarmInit { s1 with query_tree_ := some t } s.knns_
      = { s with query_ := s1.query_, query_tree_ := some (reset_tree_ t) } := by
  rw [WarmInit_dual _ t _ (by show s1.dual_tree = true; rw [hF.dual_tree]; exact hmode) rfl]
  obtain ⟨h1, h2, h3, h4, h5, h6, h7, h8, h9, h10, h11, h12, h13, h14⟩ := hF
  obtain ⟨hs1, hs2⟩ := hseed
  cases s
  cases s1
  simp only at h1 h2 h3 h4 h5 h6 h7 h8 h9 h10 h11 h12 hs1 hs2 hp hd hs
  subst h1 h2 h3 h4 h5 h6 h8 h9 h10 h11 h12 hs1 hs2 hp hd hs
  rfl

/-- The whole value of `ComputeNeighbors` in dual-tree mode. -/
theorem ComputeNeighbors_dual_eq (s : MaxIP α) (qt : CTreeType α)
    (hmode : s.dual_tree = true) (htree : s.query_tree_ = some qt) :
    ComputeNeighbors s
      = some ((fillResults { (ComputeNeighborsRecursion_dual qt s.reference_tree_
              (MaxNodeIP_dual s qt s.reference_tree_).1
              (MaxNodeIP_dual s qt s.reference_tree_).2).1.2 with
            query_tree_ := some (ComputeNeighborsRecursion_dual qt s.reference_tree_
              (MaxNodeIP_dual s qt s.reference_tree_).1
              (MaxNodeIP_dual s qt s.reference_tree_).2).1.1 }
          (fun q => (ComputeNeighborsRecursion_dual qt s.reference_tree_
              (MaxNodeIP_dual s qt s.reference_tree_).1
              (MaxNodeIP_dual s qt s.reference_tree_).2).1.2.old_from_new_queries_.getD q 0)).1,
        (fillResults { (ComputeNeighborsRecursion_dual qt s.reference_tree_
              (MaxNodeIP_dual s qt s.reference_tree_).1
              (MaxNodeIP_dual s qt s.reference_tree_).2).1.2 with
            query_tree_ := some (ComputeNeighborsRecursion_dual qt s.reference_tree_
              (MaxNodeIP_dual s qt s.reference_tree_).1
              (MaxNodeIP_dual s qt s.reference_tree_).2).1.1 }
          (fun q => (ComputeNeighborsRecursion_dual qt s.reference_tree_
              (MaxNodeIP_dual s qt s.reference_tree_).1
              (MaxNodeIP_dual s qt s.reference_tree_).2).1.2.old_from_new_queries_.getD q 0)).2,
        averageWork { (ComputeNeighborsRecursion_dual qt s.reference_tree_
              (MaxNodeIP_dual s qt s.reference_tree_).1
              (MaxNodeIP_dual s qt s.reference_tree_).2).1.2 with
            query_tree_ := some (ComputeNeighborsRecursion_dual qt s.reference_tree_
              (MaxNodeIP_dual s qt s.reference_tree_).1
              (MaxNodeIP_dual s qt s.reference_tree_).2).1.1 },
        { (ComputeNeighborsRecursion_dual qt s.reference_tree_
              (MaxNodeIP_dual s qt s.reference_tree_).1
              (MaxNodeIP_dual s qt s.reference_tree_).2).1.2 with
            query_tree_ := some (ComputeNeighborsRecursion_dual qt s.reference_tree_
              (MaxNodeIP_dual s qt s.reference_tree_).1
              (MaxNodeIP_dual s qt s.reference_tree_).2).1.1 }) := by
  unfold ComputeNeighbors
  rw [hmode, htree]
  rfl

/-- A dual-tree search from an object seeded as by `Init` whose counters and query-node bounds are `0`,
then `WarmInit` with the same `knns_`, then a second search: the second search returns
what the first returned, and `WarmInit` restores the ledger, the counters and the bounds. -/
theorem warm_rerun (s : MaxIP α) (qt : CTreeType α)
    (hmode : s.dual_tree = true) (htree : s.query_tree_ = some qt)
    (hzero : qt.All (fun n => n.stat.bound = 0))
    (hseed : s.max_ips_ = List.replicate (ledgerSize s.queries_.n_cols s.knns_) 0 ∧
      s.max_ip_indices_ = List.replicate (ledgerSize s.queries_.n_cols s.knns_) sentinel)
    (hp : s.number_of_prunes_ = 0) (hd : s.distance_computations_ = 0)
    (hs : s.split_decisions_ = 0) :
    ∃ out1 out2, ComputeNeighbors s = some out1 ∧
      ComputeNeighbors (WarmInit out1.2.2.2 s.knns_) = some out2 ∧
      out2.1 = out1.1 ∧ out2.2.1 = out1.2.1 ∧ out2.2.2.1 = out1.2.2.1 ∧
      (WarmInit out1.2.2.2 s.knns_).max_ips_ = s.max_ips_ ∧
      (WarmInit out1.2.2.2 s.knns_).max_ip_indices_ = s.max_ip_indices_ ∧
      (WarmInit out1.2.2.2 s.knns_).number_of_prunes_ = 0 ∧
      (WarmInit out1.2.2.2 s.knns_).distance_computations_ = 0 ∧
      (WarmInit out1.2.2.2 s.knns_).split_decisions_ = 0 ∧
      ∃ t, (WarmInit out1.2.2.2 s.knns_).query_tree_ = some t ∧
        t.All (fun n => n.stat.bound = 0) := by
  have hst := rec_dual_struct _ qt s.reference_tree_ (le_refl _)
    (MaxNodeIP_dual s qt s.reference_tree_).1 (MaxNodeIP_dual s qt s.reference_tree_).2
  have hF : Frame s (ComputeNeighborsRecursion_dual qt s.reference_tree_
      (MaxNodeIP_dual s qt s.reference_tree_).1 (MaxNodeIP_dual s qt s.reference_tree_).2).1.2 :=
    (MaxNodeIP_dual_frame _ _ _).trans hst.1
  have e1 := ComputeNeighbors_dual_eq s qt hmode htree
  generalize hr1 : (ComputeNeighborsRecursion_dual qt s.reference_tree_
      (MaxNodeIP_dual s qt s.reference_tree_).1 (MaxNodeIP_dual s qt s.reference_tree_).2).1
      = r1 at hst hF e1
  have hW := WarmInit_sim s r1.2 r1.1 hF hmode hseed hp hd hs
  have hS0 : Sim s
      ({ s with query_ := r1.2.query_, query_tree_ := some (reset_tree_ r1.1) } : MaxIP α) :=
    ⟨_, _, rfl⟩
  have hq : qt.eraseLog = (reset_tree_ r1.1).eraseLog := by
    rw [eraseLog_reset_tree, hst.2, eraseLog_of_zero hzero]
  obtain ⟨eub, hS1⟩ := MaxNodeIP_dual_congr hS0 hq s.reference_tree_
  have hc := rec_dual_congr _ qt s.reference_tree_ (le_refl _) (reset_tree_ r1.1)
    (MaxNodeIP_dual s qt s.reference_tree_).1 _ _ hq hS1
  rw [hr1] at hc
  have e2 := ComputeNeighbors_dual_eq
    ({ s with query_ := r1.2.query_, query_tree_ := some (reset_tree_ r1.1) } : MaxIP α)
    (reset_tree_ r1.1) hmode rfl
  have href : ({ s with query_ := r1.2.query_, query_tree_ := some (reset_tree_ r1.1) }
      : MaxIP α).reference_tree_ = s.reference_tree_ := rfl
  rw [href, eub] at e2
  generalize (ComputeNeighborsRecursion_dual (reset_tree_ r1.1) s.reference_tree_
      (MaxNodeIP_dual s qt s.reference_tree_).1
      (MaxNodeIP_dual
        ({ s with query_ := r1.2.query_, query_tree_ := some (reset_tree_ r1.1) } : MaxIP α)
        (reset_tree_ r1.1) s.reference_tree_).2).1 = r2 at hc e2
  have hSf : Sim ({ r1.2 with query_tree_ := some r1.1 } : MaxIP α)
      ({ r2.2 with query_tree_ := some r2.1 } : MaxIP α) := hc.2.setTree _ _
  have hoq : r2.2.old_from_new_queries_ = r1.2.old_from_new_queries_ := by
    obtain ⟨a, b, h⟩ := hc.2
    rw [h]
  rw [← hW] at e2
  have hW1 : (WarmInit { r1.2 with query_tree_ := some r1.1 } s.knns_).max_ips_ = s.max_ips_ := by
    rw [hW]
  have hW2 : (WarmInit { r1.2 with query_tree_ := some r1.1 } s.knns_).max_ip_indices_
      = s.max_ip_indices_ := by rw [hW]
  have hW3 : (WarmInit { r1.2 with query_tree_ := some r1.1 } s.knns_).number_of_prunes_
      = 0 := by rw [hW]; exact hp
  have hW4 : (WarmInit { r1.2 with query_tree_ := some r1.1 } s.knns_).distance_computations_
      = 0 := by rw [hW]; exact hd
  have hW5 : (WarmInit { r1.2 with query_tree_ := some r1.1 } s.knns_).split_decisions_
      = 0 := by rw [hW]; exact hs
  have hW6 : (WarmInit { r1.2 with query_tree_ := some r1.1 } s.knns_).query_tree_
      = some (reset_tree_ r1.1) := by rw [hW]
  refine ⟨_, _, e1, e2, ?_, ?_, ?_, hW1, hW2, hW3, hW4, hW5, _, hW6, reset_tree_bounds _⟩
  · show (fillResults _ _).1 = (fillResults _ _).1
    rw [hoq, fillResults_sim hSf]
  · show (fillResults _ _).2 = (fillResults _ _).2
    rw [hoq, fillResults_sim hSf]
  · exact averageWork_sim hSf

end Warm

section Examples



theorem w8_valid : BallTreeValid w8.references_ 1 w8.reference_tree_ := by
  norm_num [BallTreeValid, TreeType.All, w8, TreeType.indices, TreeType.center,
    TreeType.radius, Mat.col, norm2, dot, vsub, sqrt_real, List.range'_succ]

theorem w8_part : w8.reference_tree_.indices.Perm (List.range w8.references_.n_cols) := by
  norm_num [w8, TreeType.indices, Mat.n_cols, List.range'_succ, List.range_succ]

theorem w8_lt {q : Nat} (hq : q < w8.queries_.n_cols) : q = 0 := by
  have : w8.queries_.n_cols = 1 := rfl
  omega

theorem w8_norms : ∀ q, q < w8.queries_.n_cols → w8.qnorm_at q = norm2 (w8.queries_.col q) := by
  intro q hq
  rw [w8_lt hq]
  norm_num [w8, MaxIP.qnorm_at, Mat.col, norm2, dot, sqrt_real]

theorem w8_dim : ∀ q, q < w8.queries_.n_cols → (w8.queries_.col q).length = 1 := by
  intro q hq
  rw [w8_lt hq]
  rfl

theorem w8_pos : ∀ q, q < w8.queries_.n_cols → 0 < w8.qnorm_at q := by
  intro q hq
  rw [w8_lt hq]
  norm_num [w8, MaxIP.qnorm_at]

theorem w8_qpart :
    (CTreeType.leaf ([1] : List ℝ) 1 0 ⟨0, []⟩ 0 1).indices.Perm
      (List.range w8.queries_.n_cols) := by
  norm_num [w8, CTreeType.indices, Mat.n_cols, List.range'_succ, List.range_succ]

theorem w8_noangle (P : Prop) : w8.angle_prune = true → P := by
  intro h
  exact absurd h (by simp [w8])

theorem w8_distinct : ∀ q, q < w8s.queries_.n_cols → ∀ i j, i < w8s.references_.n_cols →
    j < w8s.references_.n_cols → 0 < dot (w8s.queries_.col q) (w8.references_.col i) →
    dot (w8s.queries_.col q) (w8.references_.col i)
      = dot (w8s.queries_.col q) (w8.references_.col j) → i = j := by
  intro q hq i j hi hj _ h
  have hq0 : q = 0 := w8_lt hq
  have hn : w8s.references_.n_cols = 2 := rfl
  subst hq0
  rw [hn] at hi hj
  interval_cases i <;> interval_cases j <;>
    first
    | rfl
    | (exfalso; norm_num [w8s, w8, Mat.col, dot] at h)

theorem w8_old : ∀ i, i < w8s.references_.n_cols →
    w8s.references_.col i = w8.references_.col (w8s.old_from_new_references_.getD i 0) := by
  intro i hi
  have hn : w8s.references_.n_cols = 2 := rfl
  rw [hn] at hi
  interval_cases i <;> rfl

theorem w8_oldperm : w8s.old_from_new_references_.Perm (List.range w8s.references_.n_cols) := by
  norm_num [w8s, w8, Mat.n_cols, List.range_succ]

theorem w8_qlt : ∀ q ∈ (CTreeType.leaf ([1] : List ℝ) 1 0 ⟨0, []⟩ 0 1).indices,
    q < w8.queries_.n_cols := by
  intro q hq
  have := (w8_qpart.mem_iff).mp hq
  exact List.mem_range.mp this

theorem w8_rlt : ∀ i ∈ w8.reference_tree_.indices, i < w8.references_.n_cols := by
  intro i hi
  exact List.mem_range.mp ((w8_part.mem_iff).mp hi)

theorem w9_init :
    Init false false true 1 1 (fun n => n) (fun _ => true) w9metric w9cosine 0 w8.queries_
      w8.references_ = .ok w8 := by
  norm_num [Init, toSizeT, ledgerSize, w9metric, w9cosine, w8, Mat.n_cols, Mat.col, norm2, dot,
    sqrt_real, List.range_succ]

theorem norm2_le_sqrt (v : List ℝ) (r : ℝ) (h : dot v v ≤ r) : norm2 v ≤ HasSqrt.sqrt r :=
  Real.sqrt_le_sqrt h

theorem w10_valid : BallTreeValid w10.references_ 2 w10.reference_tree_ := by
  refine ⟨rfl, ?_⟩
  intro i hi
  have hi' : i < 3 := by
    have : i ∈ List.range' 0 (3 - 0) := hi
    simp only [List.mem_range'_1] at this
    omega
  interval_cases i
  · exact ⟨rfl, norm2_le_sqrt _ _ (by norm_num [w10, Mat.col, vsub, dot, TreeType.center, TreeType.radius])⟩
  · exact ⟨rfl, norm2_le_sqrt _ _ (by norm_num [w10, Mat.col, vsub, dot, TreeType.center, TreeType.radius])⟩
  · exact ⟨rfl, norm2_le_sqrt _ _ (by norm_num [w10, Mat.col, vsub, dot, TreeType.center, TreeType.radius])⟩

end Examples

section Angles

variable {α : Type} [LinearOrderedField α]

theorem dot_self_nonneg (u : List α) : 0 ≤ dot u u := by
  unfold dot
  induction u with
  | nil => simp
  | cons a u ih =>
    simp only [List.zipWith_cons_cons, List.sum_cons]
    exact add_nonneg (mul_self_nonneg a) ih

end Angles

section Merge

variable {α : Type} [LinearOrderedField α]

/-- A sorted list of entries holds the largest scores of its own scores. -/
theorem covers_self {E : List (α × Nat)} (h : (E.map Prod.fst).Sorted (fun a b => a ≥ b)) :
    Covers E (E.map Prod.fst) :=
  ⟨h, [], by simp, by simp⟩

/-- The entries `ComputeBaseCase_` leaves for the current query hold the largest scores
of the list `M` the previous entries held the largest of, extended by the inner products
of the leaf. -/
theorem basecase_covers (s : MaxIP α) (t : TreeType α) (M : List α) (hk : 1 ≤ s.knns_)
    (h1 : (s.query_ + 1) * s.knns_ ≤ s.max_ips_.length)
    (h2 : (s.query_ + 1) * s.knns_ ≤ s.max_ip_indices_.length)
    (hcov : Covers (ledgerEntries s s.query_) M) :
    Covers (ledgerEntries (ComputeBaseCase_ s t) s.query_)
        (M ++ (List.range' t.begin_ (t.end_ - t.begin_)).map (ipQ s s.query_)) := by
  have hfm := floorOf_mem s s.query_ hk
  have hfl := floorOf_le s s.query_ hk hcov.1
  have hent := ComputeBaseCase_entries_self s t h1 h2
  rw [candidates_eq] at hent
  have hlen := length_ledgerEntries s s.query_
  set C := leafCands s t.begin_ (t.end_ - t.begin_) with hC
  set N := ((List.range' t.begin_ (t.end_ - t.begin_)).filter
      fun i => !decide (ipQ s s.query_ i > floorOf s s.query_)).map (ipQ s s.query_) with hN
  have hCgt : ∀ c ∈ C, floorOf s s.query_ < c.1 := by
    intro c hc
    rw [hC, leafCands, List.mem_map] at hc
    obtain ⟨i, hi, rfl⟩ := hc
    have := (List.mem_filter.mp hi).2
    simpa using this
  have hNle : ∀ x ∈ N, x ≤ floorOf s s.query_ := by
    intro x hx
    rw [hN, List.mem_map] at hx
    obtain ⟨i, hi, rfl⟩ := hx
    have := (List.mem_filter.mp hi).2
    simpa using this
  have hb := Covers.basecase (C := C) (N := N) hcov hfm hfl hCgt hNle
  rw [hlen, ← hent] at hb
  have hperm : (C.map Prod.fst ++ N).Perm
      ((List.range' t.begin_ (t.end_ - t.begin_)).map (ipQ s s.query_)) := by
    rw [hC, leafCands_fst, hN, ← List.map_append]
    exact (List.filter_append_perm _ _).map _
  exact hb.perm (hperm.append_left M)

end Merge

section Entries

variable {α : Type} [LinearOrderedField α]

theorem LInv.ofSeeded {s : MaxIP α} (hseed : Seeded s) (hk : 1 ≤ s.knns_) : LInv s s :=
  ⟨Frame.refl s, hk, by rw [hseed.1, List.length_replicate],
    by rw [hseed.2, List.length_replicate],
    fun q hq => by rw [hseed.seedEntries q hq]; exact (covers_replicate _).1,
    fun q hq e he => by
      rw [hseed.seedEntries q hq] at he; exact Or.inl (List.eq_of_mem_replicate he)⟩

theorem LInv.carry {s0 s s' : MaxIP α} (h : LInv s0 s) (hf : Frame s s')
    (hl : SameLedger s s') : LInv s0 s' :=
  ⟨h.frame.trans hf, h.hk, h.len1, h.len2,
    fun q hq => by rw [hl.entries hf.knns_]; exact h.sorted q hq,
    fun q hq => by rw [hl.entries hf.knns_]; exact h.ok q hq⟩

/-- A call of `ComputeBaseCase_` for an existing query keeps the ledger consistent. -/
theorem LInv.scored {s0 s : MaxIP α} (h : LInv s0 s) (t : TreeType α)
    (hx : s.query_ < s0.queries_.n_cols)
    (hr : ∀ i ∈ List.range' t.begin_ (t.end_ - t.begin_), i < s0.references_.n_cols) :
    LInv s0 (ComputeBaseCase_ s t) := by
  have hkk : s.knns_ = s0.knns_ := h.frame.knns_
  have hfit : (s.query_ + 1) * s.knns_ ≤ s0.queries_.n_cols * s0.knns_ := by
    rw [hkk]; exact Nat.mul_le_mul_right _ hx
  have hb := basecase_inv s t _ (by rw [hkk]; exact h.hk)
    (by rw [h.frame.len_ips, h.len1]; exact hfit)
    (by rw [h.frame.len_idx, h.len2]; exact hfit)
    (by rw [h.frame.references_]; exact hr)
    (covers_self (h.sorted _ hx))
    (fun e he => (h.frame.entryOK _ _).mpr (h.ok _ hx e he))
  refine ⟨h.frame.trans (ComputeBaseCase_frame s t), h.hk, h.len1, h.len2, ?_, ?_⟩
  · intro q hq
    by_cases hqx : q = s.query_
    · rw [hqx]; exact hb.1.1
    · rw [ComputeBaseCase_entries_other s t q hqx]; exact h.sorted q hq
  · intro q hq e he
    by_cases hqx : q = s.query_
    · rw [hqx] at he ⊢
      exact (h.frame.entryOK _ _).mp (hb.2.1 e he)
    · rw [ComputeBaseCase_entries_other s t q hqx] at he; exact h.ok q hq e he

/-- One iteration of the loop of lines 226-247 keeps the ledger consistent. -/
theorem LInv.iteration [HasSqrt α] {s0 s : MaxIP α} (h : LInv s0 s) (rn : TreeType α) (x : Nat)
    (hx : x < s0.queries_.n_cols)
    (hr : ∀ i ∈ List.range' rn.begin_ (rn.end_ - rn.begin_), i < s0.references_.n_cols) :
    LInv s0 (stepState rn s x) := by
  have hm : LInv s0 (MaxNodeIP_ { s with query_ := x } rn).2 :=
    (h.carry (Frame.setQuery s x) (SameLedger.ofSetQuery s x)).carry
      (MaxNodeIP_frame _ rn) (MaxNodeIP_sameLedger _ rn)
  unfold stepState
  split_ifs
  · exact hm.scored rn hx hr
  · exact hm

/-- The loop of lines 226-247 keeps the ledger consistent. -/
theorem LInv.batch [HasSqrt α] {s0 s : MaxIP α} (h : LInv s0 s) (qn : CTreeType α)
    (rn : TreeType α)
    (hq : ∀ q ∈ List.range' qn.begin_ (qn.end_ - qn.begin_), q < s0.queries_.n_cols)
    (hr : ∀ i ∈ List.range' rn.begin_ (rn.end_ - rn.begin_), i < s0.references_.n_cols) :
    LInv s0 (ComputeBaseCase_dual s qn rn).2 := by
  rw [ComputeBaseCase_dual_eq]
  have hout : LInv s0 (baseOut s qn rn).2.2 := by
    unfold baseOut
    refine foldl_invariant (fun acc : α × Bool × MaxIP α => LInv s0 acc.2.2) _ _ _ ?_ ?_
    · exact h.carry (Frame.setQuery s _) (SameLedger.ofSetQuery s _)
    · intro acc qi hqi hacc
      rw [baseStep_eq]
      split_ifs
      · exact hacc.iteration rn qi (hq qi hqi) hr
      · exact hacc.iteration rn qi (hq qi hqi) hr
  exact hout.carry (Frame.setQuery _ _) (SameLedger.ofSetQuery _ _)

theorem BaseCaseRun.linv [HasSqrt α] {s0 s : MaxIP α} (hrun : BaseCaseRun s0 s)
    (hk : 1 ≤ s0.knns_) (hseed : Seeded s0) : LInv s0 s := by
  induction hrun with
  | start => exact LInv.ofSeeded hseed hk
  | single s q rn _ hq hr ih =>
    exact (ih.carry (Frame.setQuery s q) (SameLedger.ofSetQuery s q)).scored rn hq hr
  | dual s qn rn _ hq hr ih => exact ih.batch qn rn hq hr

/-- A slot of the ledger is an entry of the query that owns it. -/
theorem slot_mem_ledgerEntries (s : MaxIP α) (i : Nat) (hk : 1 ≤ s.knns_) :
    (s.ips_at i, s.idx_at i) ∈ ledgerEntries s (i / s.knns_) := by
  unfold ledgerEntries
  refine List.mem_map.mpr ⟨i % s.knns_, List.mem_range.mpr (Nat.mod_lt _ hk), ?_⟩
  have : i / s.knns_ * s.knns_ + i % s.knns_ = i := by
    rw [Nat.mul_comm]; exact Nat.div_add_mod i s.knns_
  rw [this]

end Entries

section Pairing

variable {α : Type} [LinearOrderedField α]

theorem eraseStat_fields {qn qn' : CTreeType α} (h : qn'.eraseStat = qn.eraseStat) :
    qn'.center = qn.center ∧ qn'.radius = qn.radius ∧
      qn'.radius_conjugate = qn.radius_conjugate := by
  cases qn <;> cases qn' <;>
    simp only [CTreeType.eraseStat, CTreeType.mapStat, CTreeType.leaf.injEq,
      CTreeType.node.injEq, reduceCtorEq] at h <;>
    simp only [CTreeType.center, CTreeType.radius, CTreeType.radius_conjugate, h, and_self]

/-- The value of `MaxNodeIP_(query_node, reference_node)` depends on the object through
the flag `angle_prune` only, and on the query node through its bounding cone only. -/
theorem MaxNodeIP_dual_value [HasSqrt α] {s s' : MaxIP α} (ha : s'.angle_prune = s.angle_prune)
    {qn qn' : CTreeType α} (hq : qn'.eraseStat = qn.eraseStat) (t : TreeType α) :
    (MaxNodeIP_dual s' qn' t).1 = (MaxNodeIP_dual s qn t).1 := by
  obtain ⟨h1, h2, h3⟩ := eraseStat_fields hq
  simp only [MaxNodeIP_dual, ha, h1, h2, h3]

theorem rec_dual_frame [HasSqrt α] (qn : CTreeType α) (rn : TreeType α) (ub : α) (s : MaxIP α) :
    Frame s (ComputeNeighborsRecursion_dual qn rn ub s).1.2 ∧
      (ComputeNeighborsRecursion_dual qn rn ub s).1.1.eraseStat = qn.eraseStat :=
  rec_dual_struct _ qn rn (le_refl _) ub s

/-- The two calls for one query child: the reference child `f` with the strictly larger
bound first, then the other child `g`, each call with the bound of its own pair. -/
theorem pairCalls_own_bounds [HasSqrt α] (qn : CTreeType α) (left right f g : TreeType α) (s s' : MaxIP α)
    (ha : s'.angle_prune = s.angle_prune)
    (hfg : (f, g) = if (MaxNodeIP_dual s qn left).1 > (MaxNodeIP_dual s qn right).1
      then (left, right) else (right, left)) :
    pairCalls qn left right (MaxNodeIP_dual s qn left).1 (MaxNodeIP_dual s qn right).1 s'
      = (ComputeNeighborsRecursion_dual
          (ComputeNeighborsRecursion_dual qn f (MaxNodeIP_dual s' qn f).1 s').1.1 g
          (MaxNodeIP_dual (ComputeNeighborsRecursion_dual qn f (MaxNodeIP_dual s' qn f).1 s').1.2
            (ComputeNeighborsRecursion_dual qn f (MaxNodeIP_dual s' qn f).1 s').1.1 g).1
          (ComputeNeighborsRecursion_dual qn f (MaxNodeIP_dual s' qn f).1 s').1.2).1 := by
  by_cases hc : (MaxNodeIP_dual s qn left).1 > (MaxNodeIP_dual s qn right).1
  · rw [if_pos hc] at hfg
    obtain ⟨rfl, rfl⟩ := Prod.mk.inj hfg
    rw [pairCalls_pos _ _ _ _ _ _ hc]
    have h1 : (MaxNodeIP_dual s' qn f).1 = (MaxNodeIP_dual s qn f).1 :=
      MaxNodeIP_dual_value ha rfl f
    rw [h1]
    obtain ⟨hF, hE⟩ := rec_dual_frame qn f (MaxNodeIP_dual s qn f).1 s'
    rw [MaxNodeIP_dual_value (hF.angle_prune.trans ha) hE g]
  · rw [if_neg hc] at hfg
    obtain ⟨rfl, rfl⟩ := Prod.mk.inj hfg
    rw [pairCalls_neg _ _ _ _ _ _ hc]
    have h1 : (MaxNodeIP_dual s' qn f).1 = (MaxNodeIP_dual s qn f).1 :=
      MaxNodeIP_dual_value ha rfl f
    rw [h1]
    obtain ⟨hF, hE⟩ := rec_dual_frame qn f (MaxNodeIP_dual s qn f).1 s'
    rw [MaxNodeIP_dual_value (hF.angle_prune.trans ha) hE g]

end Pairing

section Layout

variable {α : Type} [LinearOrderedField α]

end Layout

section Distinct

variable {α : Type} [LinearOrderedField α]

theorem NInv.ofSeed {s : MaxIP α} (hseed : Seeded s) : NInv s s (fun _ _ => False) := by
  have hE : ∀ q, q < s.queries_.n_cols → heldIndices s q = [] := by
    intro q hq
    unfold heldIndices
    rw [hseed.seedEntries q hq, List.filter_eq_nil_iff]
    intro i hi
    obtain ⟨e, he, rfl⟩ := List.mem_map.mp hi
    rw [List.eq_of_mem_replicate he]
    simp
  exact ⟨Frame.refl s, by rw [hseed.1, List.length_replicate],
    by rw [hseed.2, List.length_replicate],
    fun q hq => by rw [hE q hq]; exact List.nodup_nil,
    fun q hq i hi => by rw [hE q hq] at hi; exact absurd hi (List.not_mem_nil _)⟩

theorem NInv.transfer {s0 s s' : MaxIP α} {V : Nat → Nat → Prop} (h : NInv s0 s V)
    (hf : Frame s s') (hl : SameLedger s s') : NInv s0 s' V := by
  have hE : ∀ q, heldIndices s' q = heldIndices s q := by
    intro q; unfold heldIndices; rw [hl.entries hf.knns_]
  exact ⟨h.frame.trans hf, h.len1, h.len2,
    fun q hq => by rw [hE]; exact h.nd q hq,
    fun q hq i hi => by rw [hE] at hi; exact h.sub q hq i hi⟩

theorem NInv.widen {s0 s : MaxIP α} {V V' : Nat → Nat → Prop} (h : NInv s0 s V)
    (hV : ∀ q i, V q i → V' q i) : NInv s0 s V' :=
  ⟨h.frame, h.len1, h.len2, h.nd, fun q hq i hi => hV q i (h.sub q hq i hi)⟩

theorem leafCands_snd (s : MaxIP α) (b n : Nat) :
    (leafCands s b n).map Prod.snd
      = (List.range' b n).filter fun i => decide (ipQ s s.query_ i > floorOf s s.query_) := by
  unfold leafCands
  rw [List.map_map]
  exact List.map_id _

/-- A call of `ComputeBaseCase_` on a leaf none of whose references was offered to the
current query keeps the indices of every query pairwise distinct. -/
theorem NInv.offer {s0 s : MaxIP α} {V : Nat → Nat → Prop} (h : NInv s0 s V) (t : TreeType α)
    (hx : s.query_ < s0.queries_.n_cols)
    (hnew : ∀ i ∈ List.range' t.begin_ (t.end_ - t.begin_), ¬ V s.query_ i) :
    NInv s0 (ComputeBaseCase_ s t)
      (fun q i => V q i ∨ (q = s.query_ ∧ i ∈ List.range' t.begin_ (t.end_ - t.begin_))) := by
  have hkk : s.knns_ = s0.knns_ := h.frame.knns_
  have hfit : (s.query_ + 1) * s.knns_ ≤ s0.queries_.n_cols * s0.knns_ := by
    rw [hkk]; exact Nat.mul_le_mul_right _ hx
  have hent := ComputeBaseCase_entries_self s t
    (by rw [h.frame.len_ips, h.len1]; exact hfit)
    (by rw [h.frame.len_idx, h.len2]; exact hfit)
  rw [candidates_eq] at hent
  set C := leafCands s t.begin_ (t.end_ - t.begin_) with hC
  -- the indices held after the call are among those held before and those of the leaf
  have hsub : (heldIndices (ComputeBaseCase_ s t) s.query_).Sublist
      (((sortedDesc (ledgerEntries s s.query_ ++ C)).map Prod.snd).filter
        fun i => decide (i ≠ sentinel)) := by
    unfold heldIndices
    rw [hent]
    exact ((List.take_sublist _ _).map _).filter _
  have hperm : (((sortedDesc (ledgerEntries s s.query_ ++ C)).map Prod.snd).filter
        fun i => decide (i ≠ sentinel)).Perm
      (heldIndices s s.query_ ++ (C.map Prod.snd).filter fun i => decide (i ≠ sentinel)) := by
    unfold heldIndices
    rw [← List.filter_append, ← List.map_append]
    exact ((sortedDesc_perm _).map _).filter _
  have hCsub : ∀ i ∈ (C.map Prod.snd).filter (fun i => decide (i ≠ sentinel)),
      i ∈ List.range' t.begin_ (t.end_ - t.begin_) := by
    intro i hi
    have := (List.mem_filter.mp hi).1
    rw [hC, leafCands_snd] at this
    exact (List.mem_filter.mp this).1
  have hCnd : ((C.map Prod.snd).filter (fun i => decide (i ≠ sentinel))).Nodup := by
    rw [hC, leafCands_snd]
    exact ((List.nodup_range' _ _).filter _).filter _
  have hall : (heldIndices s s.query_
      ++ (C.map Prod.snd).filter fun i => decide (i ≠ sentinel)).Nodup := by
    refine List.nodup_append.mpr ⟨h.nd _ hx, hCnd, ?_⟩
    intro i hi hi'
    exact hnew i (hCsub i hi') (h.sub _ hx i hi)
  refine ⟨h.frame.trans (ComputeBaseCase_frame s t), h.len1, h.len2, ?_, ?_⟩
  · intro q hq
    by_cases hqx : q = s.query_
    · rw [hqx]
      exact (hperm.nodup_iff.mpr hall).sublist hsub
    · unfold heldIndices
      rw [ComputeBaseCase_entries_other s t q hqx]
      exact h.nd q hq
  · intro q hq i hi
    by_cases hqx : q = s.query_
    · rw [hqx] at hi
      have := hperm.subset (hsub.subset hi)
      rcases List.mem_append.mp this with h1 | h1
      · exact Or.inl (hqx ▸ h.sub _ hx i h1)
      · exact Or.inr ⟨hqx, hCsub i h1⟩
    · unfold heldIndices at hi
      rw [ComputeBaseCase_entries_other s t q hqx] at hi
      exact Or.inl (h.sub q hq i hi)

theorem Frame.countPrune (s : MaxIP α) :
    Frame s { s with number_of_prunes_ := s.number_of_prunes_ + 1 } :=
  ⟨rfl, rfl, rfl, rfl, rfl, rfl, rfl, rfl, rfl, rfl, rfl, rfl, rfl, rfl⟩

theorem SameLedger.ofCountPrune (s : MaxIP α) :
    SameLedger s { s with number_of_prunes_ := s.number_of_prunes_ + 1 } :=
  ⟨rfl, rfl⟩

/-- The single-tree recursion for the query `x`, on a subtree with pairwise distinct
references none of which was offered to `x`, keeps the indices of every query pairwise
distinct, and leaves `query_` as it is. -/
theorem distinct_single_rec [HasSqrt α] (s0 : MaxIP α) (x : Nat) (hx : x < s0.queries_.n_cols)
    (t : TreeType α) :
    ∀ (ub : α) (s : MaxIP α) (V : Nat → Nat → Prop), NInv s0 s V → s.query_ = x →
      t.indices.Nodup → (∀ i ∈ t.indices, ¬ V x i) →
      NInv s0 (ComputeNeighborsRecursion_ t ub s) (fun q i => V q i ∨ (q = x ∧ i ∈ t.indices)) ∧
        (ComputeNeighborsRecursion_ t ub s).query_ = x := by
  induction t with
  | leaf c r b e =>
    intro ub s V h hq hnd hnew
    unfold ComputeNeighborsRecursion_
    split_ifs
    · exact ⟨(h.transfer (Frame.countPrune s) (SameLedger.ofCountPrune s)).widen
        (fun q i hv => Or.inl hv), hq⟩
    · have := h.offer (.leaf c r b e) (by rw [hq]; exact hx) (by rw [hq]; exact hnew)
      rw [hq] at this
      exact ⟨this, hq⟩
  | node c r b e l rt ihl ihr =>
    intro ub s V h hq hnd hnew
    unfold ComputeNeighborsRecursion_
    simp only []
    have hndl : l.indices.Nodup := (List.nodup_append.mp hnd).1
    have hndr : rt.indices.Nodup := (List.nodup_append.mp hnd).2.1
    have hdis : ∀ i, i ∈ l.indices → i ∈ rt.indices → False :=
      fun i h1 h2 => (List.nodup_append.mp hnd).2.2 h1 h2
    have hm : NInv s0 (MaxNodeIP_ (MaxNodeIP_ s l).2 rt).2 V :=
      (h.transfer (MaxNodeIP_frame s l) (MaxNodeIP_sameLedger s l)).transfer
        (MaxNodeIP_frame _ rt) (MaxNodeIP_sameLedger _ rt)
    have hmq : (MaxNodeIP_ (MaxNodeIP_ s l).2 rt).2.query_ = x := hq
    split_ifs
    · exact ⟨(h.transfer (Frame.countPrune s) (SameLedger.ofCountPrune s)).widen
        (fun q i hv => Or.inl hv), hq⟩
    · obtain ⟨p1, q1⟩ := ihl (MaxNodeIP_ s l).1 _ V hm hmq hndl
        (fun i hi => hnew i (List.mem_append_left _ hi))
      obtain ⟨p2, q2⟩ := ihr (MaxNodeIP_ (MaxNodeIP_ s l).2 rt).1 _ _ p1 q1 hndr
        (fun i hi hv => by
          rcases hv with hv | hv
          · exact hnew i (List.mem_append_right _ hi) hv
          · exact hdis i hv.2 hi)
      refine ⟨p2.widen ?_, q2⟩
      intro q i hv
      rcases hv with (hv | hv) | hv
      · exact Or.inl hv
      · exact Or.inr ⟨hv.1, List.mem_append_left _ hv.2⟩
      · exact Or.inr ⟨hv.1, List.mem_append_right _ hv.2⟩
    · obtain ⟨p1, q1⟩ := ihr (MaxNodeIP_ (MaxNodeIP_ s l).2 rt).1 _ V hm hmq hndr
        (fun i hi => hnew i (List.mem_append_right _ hi))
      obtain ⟨p2, q2⟩ := ihl (MaxNodeIP_ s l).1 _ _ p1 q1 hndl
        (fun i hi hv => by
          rcases hv with hv | hv
          · exact hnew i (List.mem_append_left _ hi) hv
          · exact hdis i hi hv.2)
      refine ⟨p2.widen ?_, q2⟩
      intro q i hv
      rcases hv with (hv | hv) | hv
      · exact Or.inl hv
      · exact Or.inr ⟨hv.1, List.mem_append_right _ hv.2⟩
      · exact Or.inr ⟨hv.1, List.mem_append_left _ hv.2⟩

/-- The loop of lines 576-579 from a seeded ledger, over a tree with pairwise distinct
references. -/
theorem distinct_single_loop [HasSqrt α] (s : MaxIP α) (hseed : Seeded s)
    (hnd : s.reference_tree_.indices.Nodup) :
    NInv s (singleTreeLoop s) (fun q i => q < s.queries_.n_cols ∧ i ∈ s.reference_tree_.indices) := by
  unfold singleTreeLoop
  refine foldl_range_invariant
    (fun j acc => NInv s acc (fun q i => q < j ∧ i ∈ s.reference_tree_.indices)) _ _ _ ?_ ?_
  · exact ((NInv.ofSeed hseed).transfer (Frame.setQuery s 0) (SameLedger.ofSetQuery s 0)).widen
      (fun q i hv => hv.elim)
  · intro j acc hj hacc
    have hrt : acc.reference_tree_ = s.reference_tree_ := hacc.frame.reference_tree_
    have h1 : NInv s (MaxNodeIP_ { acc with query_ := j } acc.reference_tree_).2
        (fun q i => q < j ∧ i ∈ s.reference_tree_.indices) :=
      (hacc.transfer (Frame.setQuery acc j) (SameLedger.ofSetQuery acc j)).transfer
        (MaxNodeIP_frame _ _) (MaxNodeIP_sameLedger _ _)
    have h2 := (distinct_single_rec s j hj acc.reference_tree_
      (MaxNodeIP_ { acc with query_ := j } acc.reference_tree_).1 _ _ h1 rfl
      (by rw [hrt]; exact hnd) (fun i _ hv => Nat.lt_irrefl j hv.1)).1
    refine h2.widen ?_
    intro q i hv
    rcases hv with hv | hv
    · exact ⟨Nat.lt_succ_of_lt hv.1, hv.2⟩
    · rw [hrt] at hv
      exact ⟨by rw [hv.1]; exact Nat.lt_succ_self j, hv.2⟩

theorem mapStat_indices (f : QueryStat α → QueryStat α) (t : CTreeType α) :
    (t.mapStat f).indices = t.indices := by
  induction t with
  | leaf c r rc st b e => rfl
  | node c r rc st b e l rt ihl ihr =>
    simp only [CTreeType.mapStat, CTreeType.indices, ihl, ihr]

theorem indices_of_eraseStat {a b : CTreeType α} (h : a.eraseStat = b.eraseStat) :
    a.indices = b.indices := by
  have := congrArg CTreeType.indices h
  unfold CTreeType.eraseStat at this
  rw [mapStat_indices, mapStat_indices] at this
  exact this

/-- One iteration of the loop of lines 226-247, for a query `x` to which no reference of
the leaf was offered, keeps the indices of every query pairwise distinct. -/
theorem distinct_step [HasSqrt α] {s0 st : MaxIP α} {V : Nat → Nat → Prop} (h : NInv s0 st V)
    (rn : TreeType α) (x : Nat) (hx : x < s0.queries_.n_cols)
    (hnew : ∀ i ∈ List.range' rn.begin_ (rn.end_ - rn.begin_), ¬ V x i) :
    NInv s0 (stepState rn st x)
      (fun q i => V q i ∨ (q = x ∧ i ∈ List.range' rn.begin_ (rn.end_ - rn.begin_))) := by
  have hm : NInv s0 (MaxNodeIP_ { st with query_ := x } rn).2 V :=
    (h.transfer (Frame.setQuery st x) (SameLedger.ofSetQuery st x)).transfer
      (MaxNodeIP_frame _ rn) (MaxNodeIP_sameLedger _ rn)
  unfold stepState
  split_ifs
  · exact hm.offer rn hx hnew
  · exact hm.widen (fun q i hv => Or.inl hv)

/-- The loop of lines 226-247 on a query leaf and a reference leaf none of whose
references was offered to a query of the query leaf. -/
theorem distinct_basecase [HasSqrt α] {s0 s : MaxIP α} {V : Nat → Nat → Prop} (h : NInv s0 s V)
    (qn : CTreeType α) (rn : TreeType α)
    (hq : ∀ q ∈ List.range' qn.begin_ (qn.end_ - qn.begin_), q < s0.queries_.n_cols)
    (hnew : ∀ q ∈ List.range' qn.begin_ (qn.end_ - qn.begin_),
      ∀ i ∈ List.range' rn.begin_ (rn.end_ - rn.begin_), ¬ V q i) :
    NInv s0 (ComputeBaseCase_dual s qn rn).2
      (fun q i => V q i ∨ (q ∈ List.range' qn.begin_ (qn.end_ - qn.begin_) ∧
        i ∈ List.range' rn.begin_ (rn.end_ - rn.begin_))) := by
  rw [ComputeBaseCase_dual_eq]
  have hout : NInv s0 (baseOut s qn rn).2.2
      (fun q i => V q i ∨ (q ∈ List.range' qn.begin_ (qn.end_ - qn.begin_) ∧
        i ∈ List.range' rn.begin_ (rn.end_ - rn.begin_))) := by
    unfold baseOut
    refine foldl_prefix_invariant
      (fun pre (acc : α × Bool × MaxIP α) => NInv s0 acc.2.2
        (fun q i => V q i ∨ (q ∈ pre ∧ i ∈ List.range' rn.begin_ (rn.end_ - rn.begin_))))
      (baseStep rn) (List.range' qn.begin_ (qn.end_ - qn.begin_))
      (DBL_MAX, false, { s with query_ := qn.begin_ }) ?_ ?_
    · exact (h.transfer (Frame.setQuery s _) (SameLedger.ofSetQuery s _)).widen
        (fun q i hv => Or.inl hv)
    · intro pre x acc hsplit hacc
      obtain ⟨post, hpost⟩ := hsplit
      have hxl : x ∈ List.range' qn.begin_ (qn.end_ - qn.begin_) := by
        rw [← hpost]; exact List.mem_append_right _ (List.mem_cons_self _ _)
      have hxpre : x ∉ pre := by
        have hnd := List.nodup_range' qn.begin_ (qn.end_ - qn.begin_)
        rw [← hpost] at hnd
        intro hmem
        exact (List.nodup_append.mp hnd).2.2 hmem (List.mem_cons_self _ _)
      have hst := distinct_step hacc rn x (hq x hxl) (fun i hi hv => by
        rcases hv with hv | hv
        · exact hnew x hxl i hi hv
        · exact hxpre hv.1)
      have hw : NInv s0 (stepState rn acc.2.2 x)
          (fun q i => V q i ∨ (q ∈ pre ++ [x] ∧
            i ∈ List.range' rn.begin_ (rn.end_ - rn.begin_))) := by
        refine hst.widen ?_
        intro q i hv
        rcases hv with (hv | hv) | hv
        · exact Or.inl hv
        · exact Or.inr ⟨List.mem_append_left _ hv.1, hv.2⟩
        · exact Or.inr ⟨List.mem_append_right _ (List.mem_singleton.mpr hv.1), hv.2⟩
      rw [baseStep_eq]
      split_ifs
      · exact hw
      · exact hw
  exact hout.transfer (Frame.setQuery _ _) (SameLedger.ofSetQuery _ _)

theorem distinct_pair [HasSqrt α] (s0 : MaxIP α) (qx : CTreeType α) (left right : TreeType α)
    (hIHl : ∀ qx' : CTreeType α, qx'.size = qx.size → DistinctSpec s0 qx' left)
    (hIHr : ∀ qx' : CTreeType α, qx'.size = qx.size → DistinctSpec s0 qx' right)
    (s : MaxIP α) (V : Nat → Nat → Prop) (h : NInv s0 s V) (hqnd : qx.indices.Nodup)
    (hrnd : (left.indices ++ right.indices).Nodup)
    (hq : ∀ q ∈ qx.indices, q < s0.queries_.n_cols)
    (hnew : ∀ q ∈ qx.indices, ∀ i ∈ left.indices ++ right.indices, ¬ V q i) (lub rub : α) :
    NInv s0 (pairCalls qx left right lub rub s).2
      (fun q i => V q i ∨ (q ∈ qx.indices ∧ i ∈ left.indices ++ right.indices)) := by
  have hndl : left.indices.Nodup := (List.nodup_append.mp hrnd).1
  have hndr : right.indices.Nodup := (List.nodup_append.mp hrnd).2.1
  have hdis : ∀ i, i ∈ left.indices → i ∈ right.indices → False :=
    fun i h1 h2 => (List.nodup_append.mp hrnd).2.2 h1 h2
  by_cases hgt : lub > rub
  · rw [pairCalls_pos _ _ _ _ _ _ hgt]
    have p1 := hIHl qx rfl lub s V h hqnd hndl hq
      (fun q hq' i hi => hnew q hq' i (List.mem_append_left _ hi))
    have hidx := indices_of_eraseStat (rec_dual_frame qx left lub s).2
    have p2 := hIHr _ (ComputeNeighborsRecursion_dual qx left lub s).2 rub _ _ p1
      (by rw [hidx]; exact hqnd) hndr (by rw [hidx]; exact hq)
      (by
        rw [hidx]
        intro q hq' i hi hv
        rcases hv with hv | hv
        · exact hnew q hq' i (List.mem_append_right _ hi) hv
        · exact hdis i hv.2 hi)
    refine p2.widen ?_
    intro q i hv
    rw [hidx] at hv
    rcases hv with (hv | hv) | hv
    · exact Or.inl hv
    · exact Or.inr ⟨hv.1, List.mem_append_left _ hv.2⟩
    · exact Or.inr ⟨hv.1, List.mem_append_right _ hv.2⟩
  · rw [pairCalls_neg _ _ _ _ _ _ hgt]
    have p1 := hIHr qx rfl rub s V h hqnd hndr hq
      (fun q hq' i hi => hnew q hq' i (List.mem_append_right _ hi))
    have hidx := indices_of_eraseStat (rec_dual_frame qx right rub s).2
    have p2 := hIHl _ (ComputeNeighborsRecursion_dual qx right rub s).2 lub _ _ p1
      (by rw [hidx]; exact hqnd) hndl (by rw [hidx]; exact hq)
      (by
        rw [hidx]
        intro q hq' i hi hv
        rcases hv with hv | hv
        · exact hnew q hq' i (List.mem_append_left _ hi) hv
        · exact hdis i hi hv.2)
    refine p2.widen ?_
    intro q i hv
    rw [hidx] at hv
    rcases hv with (hv | hv) | hv
    · exact Or.inl hv
    · exact Or.inr ⟨hv.1, List.mem_append_right _ hv.2⟩
    · exact Or.inr ⟨hv.1, List.mem_append_left _ hv.2⟩

theorem distinct_prune [HasSqrt α] (s0 : MaxIP α) (qn : CTreeType α) (rn : TreeType α) (ub : α)
    (s : MaxIP α) (V : Nat → Nat → Prop) (h : NInv s0 s V) (hp : ub < qn.stat.bound) :
    NInv s0 (ComputeNeighborsRecursion_dual qn rn ub s).1.2
      (fun q i => V q i ∨ (q ∈ qn.indices ∧ i ∈ rn.indices)) := by
  rw [rec_dual_prune _ _ _ _ hp]
  have hfs : Frame s (if s.check_prune = true then
        CheckPrune { s with number_of_prunes_ := s.number_of_prunes_ + 1 } qn rn
      else { s with number_of_prunes_ := s.number_of_prunes_ + 1 }) ∧
      SameLedger s (if s.check_prune = true then
        CheckPrune { s with number_of_prunes_ := s.number_of_prunes_ + 1 } qn rn
      else { s with number_of_prunes_ := s.number_of_prunes_ + 1 }) := by
    split_ifs
    · have := CheckPrune_frame ({ s with number_of_prunes_ := s.number_of_prunes_ + 1 }) qn rn
      exact ⟨(Frame.countPrune s).trans this.1, ⟨this.2.1, this.2.2⟩⟩
    · exact ⟨Frame.countPrune s, SameLedger.ofCountPrune s⟩
  exact (h.transfer hfs.1 hfs.2).widen (fun q i hv => Or.inl hv)

theorem NInv.afterBounds [HasSqrt α] {s0 s : MaxIP α} {V : Nat → Nat → Prop} (h : NInv s0 s V)
    (q1 q2 : CTreeType α) (r1 r2 : TreeType α) :
    NInv s0 (MaxNodeIP_dual (MaxNodeIP_dual s q1 r1).2 q2 r2).2 V :=
  (h.transfer (MaxNodeIP_dual_frame _ _ _) (MaxNodeIP_dual_sameLedger _ _ _)).transfer
    (MaxNodeIP_dual_frame _ _ _) (MaxNodeIP_dual_sameLedger _ _ _)

/-- Every call of the dual recursion meets its contract for the distinctness of the
indices. -/
theorem distinct_rec [HasSqrt α] (s0 : MaxIP α) :
    ∀ (n : Nat) (qn : CTreeType α) (rn : TreeType α), qn.size + rn.size ≤ n →
      DistinctSpec s0 qn rn := by
  intro n
  induction n with
  | zero =>
    intro qn rn h
    have := qn.sizePos
    omega
  | succ n ih =>
    intro qn rn hsz ub s V h hqnd hrnd hq hnew
    by_cases hp : ub < qn.stat.bound
    · exact distinct_prune s0 qn rn ub s V h hp
    cases qn with
    | leaf qc qr qrc qst qb qe =>
      have hp : ¬ ub < qst.bound := hp
      cases rn with
      | leaf c r b e =>
        rw [rec_dual_leaf_leaf qc qr qrc qst qb qe c r b e ub s hp]
        exact distinct_basecase h (.leaf qc qr qrc qst qb qe) (.leaf c r b e) hq hnew
      | node c r b e left right =>
        rw [rec_dual_leaf_node qc qr qrc qst qb qe c r b e left right ub s hp]
        have hsl : (CTreeType.leaf qc qr qrc qst qb qe).size + left.size ≤ n := by
          simp only [CTreeType.size, TreeType.size] at hsz ⊢; omega
        have hsr : (CTreeType.leaf qc qr qrc qst qb qe).size + right.size ≤ n := by
          simp only [CTreeType.size, TreeType.size] at hsz ⊢; omega
        exact distinct_pair s0 (.leaf qc qr qrc qst qb qe) left right
          (fun qx' hx => ih qx' left (by rw [hx]; exact hsl))
          (fun qx' hx => ih qx' right (by rw [hx]; exact hsr))
          _ V (h.afterBounds _ _ _ _) hqnd hrnd hq hnew _ _
    | node qc qr qrc qst qb qe ql qrt =>
      have hp : ¬ ub < qst.bound := hp
      have hndl : ql.indices.Nodup := (List.nodup_append.mp hqnd).1
      have hndr : qrt.indices.Nodup := (List.nodup_append.mp hqnd).2.1
      have hdis : ∀ q, q ∈ ql.indices → q ∈ qrt.indices → False :=
        fun q h1 h2 => (List.nodup_append.mp hqnd).2.2 h1 h2
      have hql : ∀ q ∈ ql.indices, q < s0.queries_.n_cols :=
        fun q hq' => hq q (List.mem_append_left _ hq')
      have hqr : ∀ q ∈ qrt.indices, q < s0.queries_.n_cols :=
        fun q hq' => hq q (List.mem_append_right _ hq')
      cases rn with
      | leaf c r b e =>
        rw [rec_dual_node_leaf qc qr qrc qst qb qe ql qrt c r b e ub s hp]
        have hsl : ql.size + (TreeType.leaf c r b e).size ≤ n := by
          simp only [CTreeType.size, TreeType.size] at hsz ⊢; omega
        have hsr : qrt.size + (TreeType.leaf c r b e).size ≤ n := by
          simp only [CTreeType.size, TreeType.size] at hsz ⊢; omega
        have p1 := ih ql (.leaf c r b e) hsl (MaxNodeIP_dual s ql (.leaf c r b e)).1 _ V
          (h.afterBounds ql qrt (.leaf c r b e) (.leaf c r b e)) hndl hrnd hql
          (fun q hq' i hi => hnew q (List.mem_append_left _ hq') i hi)
        have p2 := ih qrt (.leaf c r b e) hsr
          (MaxNodeIP_dual (MaxNodeIP_dual s ql (.leaf c r b e)).2 qrt (.leaf c r b e)).1 _ _ p1
          hndr hrnd hqr
          (fun q hq' i hi hv => by
            rcases hv with hv | hv
            · exact hnew q (List.mem_append_right _ hq') i hi hv
            · exact hdis q hv.1 hq')
        refine p2.widen ?_
        intro q i hv
        rcases hv with (hv | hv) | hv
        · exact Or.inl hv
        · exact Or.inr ⟨List.mem_append_left _ hv.1, hv.2⟩
        · exact Or.inr ⟨List.mem_append_right _ hv.1, hv.2⟩
      | node c r b e left right =>
        rw [rec_dual_node_node qc qr qrc qst qb qe ql qrt c r b e left right ub s hp]
        have hs1 : ∀ qx' : CTreeType α, qx'.size = ql.size → qx'.size + left.size ≤ n := by
          intro qx' hx; simp only [CTreeType.size, TreeType.size] at hsz; omega
        have hs2 : ∀ qx' : CTreeType α, qx'.size = ql.size → qx'.size + right.size ≤ n := by
          intro qx' hx; simp only [CTreeType.size, TreeType.size] at hsz; omega
        have hs3 : ∀ qx' : CTreeType α, qx'.size = qrt.size → qx'.size + left.size ≤ n := by
          intro qx' hx; simp only [CTreeType.size, TreeType.size] at hsz; omega
        have hs4 : ∀ qx' : CTreeType α, qx'.size = qrt.size → qx'.size + right.size ≤ n := by
          intro qx' hx; simp only [CTreeType.size, TreeType.size] at hsz; omega
        have p1 := distinct_pair s0 ql left right
          (fun qx' hx => ih qx' left (hs1 qx' hx)) (fun qx' hx => ih qx' right (hs2 qx' hx))
          _ V (h.afterBounds ql ql left right) hndl hrnd hql
          (fun q hq' i hi => hnew q (List.mem_append_left _ hq') i hi)
          (MaxNodeIP_dual s ql left).1 (MaxNodeIP_dual (MaxNodeIP_dual s ql left).2 ql right).1
        have p2 := distinct_pair s0 qrt left right
          (fun qx' hx => ih qx' left (hs3 qx' hx)) (fun qx' hx => ih qx' right (hs4 qx' hx))
          _ _ (p1.afterBounds qrt qrt left right) hndr hrnd hqr
          (fun q hq' i hi hv => by
            rcases hv with hv | hv
            · exact hnew q (List.mem_append_right _ hq') i hi hv
            · exact hdis q hv.1 hq')
          (MaxNodeIP_dual (pairCalls ql left right (MaxNodeIP_dual s ql left).1
            (MaxNodeIP_dual (MaxNodeIP_dual s ql left).2 ql right).1
            (MaxNodeIP_dual (MaxNodeIP_dual s ql left).2 ql right).2).2 qrt left).1
          (MaxNodeIP_dual (MaxNodeIP_dual (pairCalls ql left right (MaxNodeIP_dual s ql left).1
            (MaxNodeIP_dual (MaxNodeIP_dual s ql left).2 ql right).1
            (MaxNodeIP_dual (MaxNodeIP_dual s ql left).2 ql right).2).2 qrt left).2
              qrt right).1
        refine p2.widen ?_
        intro q i hv
        rcases hv with (hv | hv) | hv
        · exact Or.inl hv
        · exact Or.inr ⟨List.mem_append_left _ hv.1, hv.2⟩
        · exact Or.inr ⟨List.mem_append_right _ hv.1, hv.2⟩

/-- When the indices a query holds are pairwise distinct, two different slots of the
query hold different indices unless they hold the marker. -/
theorem heldIndices_distinct (s : MaxIP α) (q : Nat) (h : (heldIndices s q).Nodup) :
    ∀ a b, a < s.knns_ → b < s.knns_ → a ≠ b → s.idx_at (q * s.knns_ + a) ≠ sentinel →
      s.idx_at (q * s.knns_ + a) ≠ s.idx_at (q * s.knns_ + b) := by
  unfold heldIndices ledgerEntries at h
  rw [List.map_map, List.Nodup, List.pairwise_filter, List.pairwise_map,
    List.pairwise_iff_getElem] at h
  have key : ∀ a b, a < b → b < s.knns_ → s.idx_at (q * s.knns_ + a) ≠ sentinel →
      s.idx_at (q * s.knns_ + b) ≠ sentinel →
      s.idx_at (q * s.knns_ + a) ≠ s.idx_at (q * s.knns_ + b) := by
    intro a b hab hb h1 h2
    have := h a b (by rw [List.length_range]; omega) (by rw [List.length_range]; exact hb) hab
    simp only [List.getElem_range, Function.comp, decide_eq_true_eq] at this
    exact this h1 h2
  intro a b ha hb hne hs heq
  rcases Nat.lt_or_gt_of_ne hne with hlt | hgt
  · exact key a b hlt hb hs (heq ▸ hs) heq
  · exact key b a hgt ha (heq ▸ hs) hs heq.symm

/-- The single-tree branch of `ComputeNeighbors` from a seeded ledger, over a tree with
pairwise distinct references. -/
theorem distinct_run_single [HasSqrt α] (s : MaxIP α) (hmode : s.dual_tree = false)
    (hseed : Seeded s) (hnd : s.reference_tree_.indices.Nodup) :
    ∃ out, ComputeNeighbors s = some out ∧ out.2.2.2.knns_ = s.knns_ ∧
      ∀ q, q < s.queries_.n_cols → (heldIndices out.2.2.2 q).Nodup := by
  have h := (distinct_single_loop s hseed hnd).transfer
    (Frame.setQuery _ (loopExit 0 s.queries_.n_cols))
    (SameLedger.ofSetQuery _ (loopExit 0 s.queries_.n_cols))
  unfold ComputeNeighbors
  rw [hmode]
  simp only [Bool.false_eq_true, if_false]
  exact ⟨_, rfl, h.frame.knns_, h.nd⟩

/-- The dual-tree branch of `ComputeNeighbors` from a seeded ledger, over trees with
pairwise distinct queries and pairwise distinct references. -/
theorem distinct_run_dual [HasSqrt α] (s : MaxIP α) (qt : CTreeType α)
    (hmode : s.dual_tree = true) (htree : s.query_tree_ = some qt) (hseed : Seeded s)
    (hqnd : qt.indices.Nodup) (hq : ∀ q ∈ qt.indices, q < s.queries_.n_cols)
    (hnd : s.reference_tree_.indices.Nodup) :
    ∃ out, ComputeNeighbors s = some out ∧ out.2.2.2.knns_ = s.knns_ ∧
      ∀ q, q < s.queries_.n_cols → (heldIndices out.2.2.2 q).Nodup := by
  have h0 : NInv s (MaxNodeIP_dual s qt s.reference_tree_).2 (fun _ _ => False) :=
    (NInv.ofSeed hseed).transfer (MaxNodeIP_dual_frame _ _ _) (MaxNodeIP_dual_sameLedger _ _ _)
  have h := distinct_rec s _ qt s.reference_tree_ (le_refl _)
    (MaxNodeIP_dual s qt s.reference_tree_).1 _ _ h0 hqnd hnd hq (fun _ _ _ _ hv => hv)
  refine ⟨_, ComputeNeighbors_dual_eq s qt hmode htree, h.frame.knns_, ?_⟩
  intro q hq'
  exact h.nd q hq'

end Distinct

section Factors

/-- The norm does not depend on what the square root is at negative arguments. -/
theorem norm2_sqrt_indep (sq : ℝ → ℝ) (h : ∀ x, 0 ≤ x → sq x = √x) (v : List ℝ) :
    @norm2 ℝ _ ⟨sq⟩ v = norm2 v := by
  show sq (dot v v) = √(dot v v)
  exact h _ (dot_self_nonneg v)

end Factors

section Rounding

/-- The binary64 arithmetic on known values: `sqrt 2`, `1 / 3`, two ties that go to the
even neighbour, an overflow, an underflow, `0 / 0`, and the product of `sqrt 26` with
itself, which is below `26`. -/
theorem binary64_known_values :
    (HasSqrt.sqrt 2 : Double) = Double.dyadic 6369051672525773 (-52) ∧
    (1 / 3 : Double) = Double.dyadic 6004799503160661 (-54) ∧
    (1 + Double.dyadic 1 (-53) : Double) = 1 ∧
    (Double.dyadic (2 ^ 52 + 1) (-52) + Double.dyadic 1 (-53) : Double)
      = Double.dyadic (2 ^ 51 + 1) (-51) ∧
    (Binary64.DBL_MAX + Binary64.DBL_MAX : Double) = Double.inf false ∧
    (Double.dyadic 1 (-1074) / 2 : Double) = 0 ∧
    (0 / 0 : Double) = Double.nan ∧
    (HasSqrt.sqrt 26 * HasSqrt.sqrt 26 : Double) = Double.dyadic (26 * 2 ^ 48 - 1) (-48) := by
  decide!

end Rounding

section Degenerate



/-- The baseline `|q| * (|c| + R)` dominates the inner product with every point of the
ball, whatever the norms. -/
theorem baseline_sound (d : Nat) (q c r : List ℝ) (radius : ℝ)
    (hq : q.length = d) (hc : c.length = d) (hr : r.length = d)
    (hball : norm2 (vsub r c) ≤ HasSqrt.sqrt radius) :
    dot q r ≤ norm2 q * (norm2 c + HasSqrt.sqrt radius) := by
  have := single_sound d q c r radius (norm2 q) false hq hc hr rfl hball
    (fun h => absurd h (by simp))
  simpa using this

/-- The single bound dominates the inner product with every point of the ball, also for
a query or a centre of norm `0`: the bound is then the baseline or the baseline is `0`. -/
theorem single_sound_all (d : Nat) (q c r : List ℝ) (radius qn : ℝ) (ap : Bool)
    (hq : q.length = d) (hc : c.length = d) (hr : r.length = d)
    (hqn : qn = norm2 q)
    (hball : norm2 (vsub r c) ≤ HasSqrt.sqrt radius) :
    dot q r ≤ qn * (norm2 c + HasSqrt.sqrt radius)
      * (if ap = true then maxCosQr (dot q c) qn (norm2 c) (HasSqrt.sqrt radius) else 1) := by
  have hbase := baseline_sound d q c r radius hq hc hr hball
  by_cases hap : ap = true
  · by_cases h1 : norm2 q = 0
    · rw [hqn, h1, zero_mul, zero_mul]
      rw [h1, zero_mul] at hbase
      exact hbase
    · by_cases h2 : norm2 c = 0
      · by_cases h3 : (HasSqrt.sqrt radius : ℝ) ≤ norm2 c
        · have hR : (HasSqrt.sqrt radius : ℝ) = 0 :=
            le_antisymm (h2 ▸ h3) (Real.sqrt_nonneg _)
          rw [h2, hR, add_zero, mul_zero] at hbase
          rw [h2, hR, add_zero, mul_zero, zero_mul]
          exact hbase
        · rw [if_pos hap, maxCosQr, if_neg h3, mul_one, hqn]
          exact hbase
      · exact single_sound d q c r radius qn ap hq hc hr hqn hball (fun _ => ⟨h1, h2⟩)
  · exact single_sound d q c r radius qn ap hq hc hr hqn hball (fun h => absurd h hap)

theorem single_sound_tree_all (s : MaxIP ℝ) (d : Nat) (t : TreeType ℝ) (q : Nat)
    (hq : (s.queries_.col q).length = d) (hnorm : s.qnorm_at q = norm2 (s.queries_.col q))
    (hvalid : BallTreeValid s.references_ d t) :
    t.All (fun n => ∀ i ∈ n.indices, ipQ s q i ≤ (MaxNodeIP_ { s with query_ := q } n).1) := by
  refine hvalid.imp ?_
  intro n ⟨hc, hpts⟩ i hi
  rw [MaxNodeIP_fst]
  exact single_sound_all d _ _ _ _ _ _ hq hc (hpts i hi).1 hnorm (hpts i hi).2

end Degenerate

section Depth



theorem ctree_size_pos {α : Type} (t : CTreeType α) : 0 < t.size := by
  cases t <;> simp only [CTreeType.size] <;> omega

theorem tree_size_pos {α : Type} (t : TreeType α) : 0 < t.size := by
  cases t <;> simp only [TreeType.size] <;> omega

/-- The binary64 base case returns a query node of the size of the one it received. -/
theorem Binary64.ComputeBaseCase_dual_size (s : MaxIP Double) (qn : CTreeType Double)
    (rn : TreeType Double) : (Binary64.ComputeBaseCase_dual s qn rn).1.size = qn.size := by
  unfold Binary64.ComputeBaseCase_dual
  simp only []
  split_ifs
  · cases qn <;> rfl
  · rfl

/-- The binary64 dual recursion returns when its depth argument is at least the number
of nodes of the two trees, and the query node it returns has the size of the one it
received. -/
theorem Binary64.rec_dual_returns : ∀ (depth : Nat) (qn : CTreeType Double)
    (rn : TreeType Double) (ub : Double) (s : MaxIP Double),
    qn.size + rn.size ≤ depth →
    ∃ p, Binary64.ComputeNeighborsRecursion_dual depth qn rn ub s = some p ∧
      p.1.size = qn.size := by
  intro depth
  induction depth with
  | zero =>
    intro qn rn ub s h
    have := ctree_size_pos qn
    omega
  | succ n ih =>
    intro qn rn ub s h
    unfold Binary64.ComputeNeighborsRecursion_dual
    by_cases hp : ub < qn.stat.bound
    · simp only [hp, if_true]
      exact ⟨_, rfl, rfl⟩
    · simp only [hp, if_false]
      cases qn with
      | leaf qc qr qrc qst qb qe =>
        cases rn with
        | leaf c r b e =>
          exact ⟨_, rfl, Binary64.ComputeBaseCase_dual_size _ _ _⟩
        | node c r b e left right =>
          simp only [TreeType.size, CTreeType.size] at h
          have hl := tree_size_pos left
          have hr := tree_size_pos right
          simp only []
          split_ifs
          · obtain ⟨a, ha, hsa⟩ := ih (.leaf qc qr qrc qst qb qe) left _ _
              (by simp only [CTreeType.size]; omega)
            rw [ha, Option.some_bind]
            obtain ⟨a2, ha2, hsa2⟩ := ih a.1 right _ a.2 (by rw [hsa]; simp only [CTreeType.size]; omega)
            exact ⟨a2, ha2, hsa2.trans hsa⟩
          · obtain ⟨a, ha, hsa⟩ := ih (.leaf qc qr qrc qst qb qe) right _ _
              (by simp only [CTreeType.size]; omega)
            rw [ha, Option.some_bind]
            obtain ⟨a2, ha2, hsa2⟩ := ih a.1 left _ a.2 (by rw [hsa]; simp only [CTreeType.size]; omega)
            exact ⟨a2, ha2, hsa2.trans hsa⟩
      | node qc qr qrc qst qb qe qleft qright =>
        have hql := ctree_size_pos qleft
        have hqr := ctree_size_pos qright
        cases rn with
        | leaf c r b e =>
          simp only [TreeType.size, CTreeType.size] at h
          simp only []
          obtain ⟨a, ha, hsa⟩ := ih qleft (.leaf c r b e) _ _
            (by simp only [TreeType.size]; omega)
          rw [ha, Option.some_bind]
          obtain ⟨b2, hb2, hsb2⟩ := ih qright (.leaf c r b e) _ a.2
            (by simp only [TreeType.size]; omega)
          rw [hb2, Option.some_bind]
          refine ⟨_, rfl, ?_⟩
          simp only [CTreeType.set_bound, CTreeType.size, hsa, hsb2]
        | node c r b e left right =>
          simp only [TreeType.size, CTreeType.size] at h
          have hl := tree_size_pos left
          have hr := tree_size_pos right
          simp only []
          have hA : ∃ a, (if (Binary64.MaxNodeIP_dual s qleft left).1
                > (Binary64.MaxNodeIP_dual (Binary64.MaxNodeIP_dual s qleft left).2 qleft right).1 then
              (Binary64.ComputeNeighborsRecursion_dual n qleft left
                (Binary64.MaxNodeIP_dual s qleft left).1
                (Binary64.MaxNodeIP_dual (Binary64.MaxNodeIP_dual s qleft left).2 qleft right).2).bind
                fun a => Binary64.ComputeNeighborsRecursion_dual n a.1 right
                  (Binary64.MaxNodeIP_dual (Binary64.MaxNodeIP_dual s qleft left).2 qleft right).1 a.2
            else
              (Binary64.ComputeNeighborsRecursion_dual n qleft right
                (Binary64.MaxNodeIP_dual (Binary64.MaxNodeIP_dual s qleft left).2 qleft right).1
                (Binary64.MaxNodeIP_dual (Binary64.MaxNodeIP_dual s qleft left).2 qleft right).2).bind
                fun a => Binary64.ComputeNeighborsRecursion_dual n a.1 left
                  (Binary64.MaxNodeIP_dual s qleft left).1 a.2) = some a ∧ a.1.size = qleft.size := by
            split_ifs
            · obtain ⟨a, ha, hsa⟩ := ih qleft left (Binary64.MaxNodeIP_dual s qleft left).1
                (Binary64.MaxNodeIP_dual (Binary64.MaxNodeIP_dual s qleft left).2 qleft right).2
                (by omega)
              rw [ha, Option.some_bind]
              obtain ⟨a2, ha2, hsa2⟩ := ih a.1 right
                (Binary64.MaxNodeIP_dual (Binary64.MaxNodeIP_dual s qleft left).2 qleft right).1 a.2
                (by rw [hsa]; omega)
              exact ⟨a2, ha2, hsa2.trans hsa⟩
            · obtain ⟨a, ha, hsa⟩ := ih qleft right
                (Binary64.MaxNodeIP_dual (Binary64.MaxNodeIP_dual s qleft left).2 qleft right).1
                (Binary64.MaxNodeIP_dual (Binary64.MaxNodeIP_dual s qleft left).2 qleft right).2
                (by omega)
              rw [ha, Option.some_bind]
              obtain ⟨a2, ha2, hsa2⟩ := ih a.1 left (Binary64.MaxNodeIP_dual s qleft left).1 a.2
                (by rw [hsa]; omega)
              exact ⟨a2, ha2, hsa2.trans hsa⟩
          obtain ⟨a, ha, hsa⟩ := hA
          rw [ha, Option.some_bind]
          have hB : ∃ b2, (if (Binary64.MaxNodeIP_dual a.2 qright left).1
                > (Binary64.MaxNodeIP_dual (Binary64.MaxNodeIP_dual a.2 qright left).2 qright right).1 then
              (Binary64.ComputeNeighborsRecursion_dual n qright left
                (Binary64.MaxNodeIP_dual a.2 qright left).1
                (Binary64.MaxNodeIP_dual (Binary64.MaxNodeIP_dual a.2 qright left).2 qright right).2).bind
                fun b1 => Binary64.ComputeNeighborsRecursion_dual n b1.1 right
                  (Binary64.MaxNodeIP_dual (Binary64.MaxNodeIP_dual a.2 qright left).2 qright right).1 b1.2
            else
              (Binary64.ComputeNeighborsRecursion_dual n qright right
                (Binary64.MaxNodeIP_dual (Binary64.MaxNodeIP_dual a.2 qright left).2 qright right).1
                (Binary64.MaxNodeIP_dual (Binary64.MaxNodeIP_dual a.2 qright left).2 qright right).2).bind
                fun b1 => Binary64.ComputeNeighborsRecursion_dual n b1.1 left
                  (Binary64.MaxNodeIP_dual a.2 qright left).1 b1.2) = some b2
                ∧ b2.1.size = qright.size := by
            split_ifs
            · obtain ⟨b1, hb1, hsb1⟩ := ih qright left (Binary64.MaxNodeIP_dual a.2 qright left).1
                (Binary64.MaxNodeIP_dual (Binary64.MaxNodeIP_dual a.2 qright left).2 qright right).2
                (by omega)
              rw [hb1, Option.some_bind]
              obtain ⟨b2, hb2, hsb2⟩ := ih b1.1 right
                (Binary64.MaxNodeIP_dual (Binary64.MaxNodeIP_dual a.2 qright left).2 qright right).1 b1.2
                (by rw [hsb1]; omega)
              exact ⟨b2, hb2, hsb2.trans hsb1⟩
            · obtain ⟨b1, hb1, hsb1⟩ := ih qright right
                (Binary64.MaxNodeIP_dual (Binary64.MaxNodeIP_dual a.2 qright left).2 qright right).1
                (Binary64.MaxNodeIP_dual (Binary64.MaxNodeIP_dual a.2 qright left).2 qright right).2
                (by omega)
              rw [hb1, Option.some_bind]
              obtain ⟨b2, hb2, hsb2⟩ := ih b1.1 left (Binary64.MaxNodeIP_dual a.2 qright left).1 b1.2
                (by rw [hsb1]; omega)
              exact ⟨b2, hb2, hsb2.trans hsb1⟩
          obtain ⟨b2, hb2, hsb2⟩ := hB
          rw [hb2, Option.some_bind]
          refine ⟨_, rfl, ?_⟩
          simp only [CTreeType.set_bound, CTreeType.size, hsa, hsb2]

/-- The binary64 dual-tree search returns whenever there is a query tree. -/
theorem Binary64.dualTreeCall_returns (s : MaxIP Double) (qt : CTreeType Double)
    (h : s.query_tree_ = some qt) : ∃ out, Binary64.dualTreeCall s = some out := by
  unfold Binary64.dualTreeCall
  rw [h]
  simp only []
  obtain ⟨p, hp, -⟩ := Binary64.rec_dual_returns (qt.size + s.reference_tree_.size) qt
    s.reference_tree_ (Binary64.MaxNodeIP_dual s qt s.reference_tree_).1
    (Binary64.MaxNodeIP_dual s qt s.reference_tree_).2 (le_refl _)
  rw [hp]
  exact ⟨_, rfl⟩

end Depth

section Claims

variable {α : Type} [LinearOrderedField α]

/-- C6 (ledger invariant).  From the seeding of `Init` and `WarmInit` (every score `0`,
every index the sentinel) with `knns_ ≥ 1`, after any sequence of calls of
`ComputeBaseCase_` on any leaves, for queries that exist: `knns_` is unchanged, both
ledger vectors keep `knns_` slots per query, the scores in the slots `q * knns_`, ...,
`q * knns_ + knns_ - 1` of every query are in non-increasing order, and the floor slot
`q * knns_ + knns_ - 1` holds the least of the `knns_` retained scores. -/
theorem C6_ledger_invariant (s0 : MaxIP α) (calls : List (Nat × TreeType α))
    (hk : 1 ≤ s0.knns_)
    (hseed : s0.max_ips_ = List.replicate (s0.queries_.n_cols * s0.knns_) 0)
    (hseedi : s0.max_ip_indices_ = List.replicate (s0.queries_.n_cols * s0.knns_) sentinel)
    (hcalls : ∀ c ∈ calls, c.1 < s0.queries_.n_cols) :
    let s := calls.foldl (fun s c => ComputeBaseCase_ { s with query_ := c.1 } c.2) s0
    s.knns_ = s0.knns_ ∧
    s.max_ips_.length = s0.queries_.n_cols * s0.knns_ ∧
    s.max_ip_indices_.length = s0.queries_.n_cols * s0.knns_ ∧
    ∀ q, q < s0.queries_.n_cols →
      (∀ i j, i ≤ j → j < s0.knns_ →
        s.ips_at (q * s0.knns_ + j) ≤ s.ips_at (q * s0.knns_ + i)) ∧
      (∀ i, i < s0.knns_ →
        s.ips_at (q * s0.knns_ + s0.knns_ - 1) ≤ s.ips_at (q * s0.knns_ + i)) := by
  intro s
  have key : s.knns_ = s0.knns_ ∧
      s.max_ips_.length = s0.queries_.n_cols * s0.knns_ ∧
      s.max_ip_indices_.length = s0.queries_.n_cols * s0.knns_ ∧
      ∀ q, ((ledgerEntries s q).map Prod.fst).Sorted (fun a b => a ≥ b) := by
    refine foldl_invariant
      (fun s : MaxIP α => s.knns_ = s0.knns_ ∧
        s.max_ips_.length = s0.queries_.n_cols * s0.knns_ ∧
        s.max_ip_indices_.length = s0.queries_.n_cols * s0.knns_ ∧
        ∀ q, ((ledgerEntries s q).map Prod.fst).Sorted (fun a b => a ≥ b))
      _ calls s0 ?_ ?_
    · refine ⟨rfl, by rw [hseed, List.length_replicate], by rw [hseedi, List.length_replicate], ?_⟩
      intro q
      rw [scores_ledgerEntries, sorted_slots_iff]
      intro i j _ _
      simp [MaxIP.ips_at, hseed]
    · intro s c hc ⟨hkn, hl1, hl2, hso⟩
      have hcq := hcalls c hc
      have hb : (c.1 + 1) * s.knns_ ≤ s0.queries_.n_cols * s0.knns_ := by
        rw [hkn]; exact Nat.mul_le_mul_right _ hcq
      refine ⟨hkn, ?_, ?_, ?_⟩
      · rw [ComputeBaseCase_length_ips]; exact hl1
      · rw [ComputeBaseCase_length_indices]; exact hl2
      · intro q
        apply ComputeBaseCase_sorted
        · show (c.1 + 1) * s.knns_ ≤ s.max_ips_.length
          rw [hl1]; exact hb
        · show (c.1 + 1) * s.knns_ ≤ s.max_ip_indices_.length
          rw [hl2]; exact hb
        · exact hso q
  obtain ⟨hkn, hl1, hl2, hso⟩ := key
  refine ⟨hkn, hl1, hl2, ?_⟩
  intro q _
  have h := hso q
  rw [scores_ledgerEntries, sorted_slots_iff, hkn] at h
  refine ⟨h, ?_⟩
  intro i hi
  have := h i (s0.knns_ - 1) (by omega) (by omega)
  have e : q * s0.knns_ + (s0.knns_ - 1) = q * s0.knns_ + s0.knns_ - 1 := by omega
  rw [e] at this
  exact this

/-- C6 at a concrete input: the query `(1)`, the references `(2)`, `(3)` in one leaf,
one ledger slot and one call of `ComputeBaseCase_`. -/
theorem C6_witness :
    (1 ≤ w6.knns_ ∧ w6.max_ips_ = List.replicate (w6.queries_.n_cols * w6.knns_) 0 ∧
      w6.max_ip_indices_ = List.replicate (w6.queries_.n_cols * w6.knns_) sentinel ∧
      ∀ c ∈ [(0, TreeType.leaf ([2] : List ℚ) 1 0 2)], c.1 < w6.queries_.n_cols) ∧
    (let s := List.foldl (fun s c => ComputeBaseCase_ { s with query_ := c.1 } c.2) w6
        [(0, TreeType.leaf [2] 1 0 2)]
    s.knns_ = w6.knns_ ∧
    s.max_ips_.length = w6.queries_.n_cols * w6.knns_ ∧
    s.max_ip_indices_.length = w6.queries_.n_cols * w6.knns_ ∧
    ∀ q, q < w6.queries_.n_cols →
      (∀ i j, i ≤ j → j < w6.knns_ →
        s.ips_at (q * w6.knns_ + j) ≤ s.ips_at (q * w6.knns_ + i)) ∧
      (∀ i, i < w6.knns_ →
        s.ips_at (q * w6.knns_ + w6.knns_ - 1) ≤ s.ips_at (q * w6.knns_ + i))) := by
  have h4 : ∀ c ∈ [(0, TreeType.leaf ([2] : List ℚ) 1 0 2)], c.1 < w6.queries_.n_cols := by
    intro c hc; simp at hc; subst hc; decide
  exact ⟨⟨by decide, rfl, rfl, h4⟩,
    C6_ledger_invariant w6 [(0, TreeType.leaf [2] 1 0 2)] (by decide) rfl rfl h4⟩

/-- C3 (single bound soundness).  Over the reals, for a reference node with centre `c`
and stored squared radius `radius`, every point `r` with `|r - c| ≤ sqrt radius` and the
current query `q`, whose norm `query_norms_` holds: `<q, r> ≤ MaxNodeIP_(node)`.  With
angle pruning on, `|q|` and `|c|` are taken non-zero; with angle pruning off the bound is
`|q| * (|c| + sqrt radius)`. -/
theorem C3_single_bound_sound (s : MaxIP ℝ) (reference_node : TreeType ℝ) (r : List ℝ) (d : Nat)
    (hq : (s.queries_.col s.query_).length = d) (hc : reference_node.center.length = d)
    (hr : r.length = d)
    (hnorm : s.qnorm_at s.query_ = norm2 (s.queries_.col s.query_))
    (hball : norm2 (vsub r reference_node.center) ≤ HasSqrt.sqrt reference_node.radius)
    (hnz : s.angle_prune = true →
      norm2 (s.queries_.col s.query_) ≠ 0 ∧ norm2 reference_node.center ≠ 0) :
    dot (s.queries_.col s.query_) r ≤ (MaxNodeIP_ s reference_node).1 ∧
      (s.angle_prune = false →
        (MaxNodeIP_ s reference_node).1
          = norm2 (s.queries_.col s.query_)
            * (norm2 reference_node.center + HasSqrt.sqrt reference_node.radius)) := by
  constructor
  · rw [MaxNodeIP_fst]
    exact single_sound d _ _ r _ _ _ hq hc hr hnorm hball hnz
  · intro h
    rw [MaxNodeIP_fst, h, hnorm]
    simp

/-- C4, amended.  The value of `MaxNodeIP_(query_node, reference_node)` bounds the inner
product once it is multiplied by the norm of the query: over the reals, for every query
`q` in the cone of the query node (`cos_w` at most the cosine of the angle between `q`
and the centre of the cone) and every point `r` with `|r - c| ≤ sqrt radius`,
`<q, r> ≤ |q| * MaxNodeIP_(query_node, reference_node)`.  With angle pruning on, the
norms of `q` and of the two centres are taken non-zero and `sin_w = sqrt (1 - cos_w ^ 2)`. -/
theorem C4_dual_bound_times_norm (s : MaxIP ℝ) (query_node : CTreeType ℝ)
    (reference_node : TreeType ℝ) (q r : List ℝ) (d : Nat)
    (hq : q.length = d) (hu : query_node.center.length = d)
    (hc : reference_node.center.length = d) (hr : r.length = d)
    (hcone : query_node.radius ≤ dot q query_node.center / (norm2 q * norm2 query_node.center))
    (hball : norm2 (vsub r reference_node.center) ≤ HasSqrt.sqrt reference_node.radius)
    (hnz : s.angle_prune = true →
      norm2 q ≠ 0 ∧ norm2 query_node.center ≠ 0 ∧ norm2 reference_node.center ≠ 0 ∧
        query_node.radius_conjugate = HasSqrt.sqrt (1 - query_node.radius ^ 2)) :
    dot q r ≤ norm2 q * (MaxNodeIP_dual s query_node reference_node).1 := by
  rw [MaxNodeIP_dual_fst]
  exact dual_sound d q _ _ r _ _ _ _ hq hu hc hr hball
    (fun h => ⟨(hnz h).1, (hnz h).2.1, (hnz h).2.2.1, hcone, (hnz h).2.2.2⟩)

/-- C4 as stated fails.  The query `(2)` is in the cone of centre `(1)` with `cos_w = 1`,
the point `(1)` is in the ball of centre `(1)` and radius `0`, and the inner product `2`
exceeds the value `1` of `MaxNodeIP_(query_node, reference_node)`. -/
theorem C4_counterexample :
    (1 : ℝ) ≤ dot [2] [1] / (norm2 [2] * norm2 [1]) ∧
      norm2 (vsub [1] [1]) ≤ HasSqrt.sqrt (0 : ℝ) ∧
      ¬ (dot [2] [1] ≤
        (MaxNodeIP_dual w4 (CTreeType.leaf [1] 1 0 ⟨0, []⟩ 0 1) (TreeType.leaf [1] 0 0 1)).1) := by
  refine ⟨?_, ?_, ?_⟩
  · simp [dot, norm2, sqrt_real]
  · simp [dot, norm2, vsub, sqrt_real]
  · simp [MaxNodeIP_dual, w4, dot, norm2, sqrt_real, TreeType.center, TreeType.radius]

/-- C1 (single-tree search returns the exhaustive top-k scores).  Over the reals, for a
ball tree whose balls contain the points under them and whose leaves partition
`[0, Nr)`, for `knns_ ≥ 1` and the ledger seeded as by `Init`, with angle pruning off or
on (then with non-zero query and centroid norms): `ComputeNeighbors` in single-tree mode
returns, and the `knns_` ledger scores of every query are the `knns_` largest strictly
positive inner products of that query in descending order, padded with `0` when fewer
than `knns_` are positive. -/
theorem C1_single_tree_top_k (s : MaxIP ℝ) (d : Nat) (hmode : s.dual_tree = false)
    (hk : 1 ≤ s.knns_) (hseed : Seeded s)
    (hnorms : ∀ q, q < s.queries_.n_cols → s.qnorm_at q = norm2 (s.queries_.col q))
    (hdim : ∀ q, q < s.queries_.n_cols → (s.queries_.col q).length = d)
    (hpart : s.reference_tree_.indices.Perm (List.range s.references_.n_cols))
    (hvalid : BallTreeValid s.references_ d s.reference_tree_)
    (hnz : s.angle_prune = true →
      (∀ q, q < s.queries_.n_cols → norm2 (s.queries_.col q) ≠ 0) ∧
        s.reference_tree_.All (fun n => norm2 n.center ≠ 0)) :
    ∃ out, ComputeNeighbors s = some out ∧
      ∀ q, q < s.queries_.n_cols →
        (ledgerEntries out.2.2.2 q).map Prod.fst
          = topScores s.knns_ ((List.range s.references_.n_cols).map (ipQ s q)) := by
  have hrange : ∀ i ∈ s.reference_tree_.indices, i < s.references_.n_cols :=
    fun i hi => List.mem_range.mp (hpart.subset hi)
  have hsound : ∀ q, q < s.queries_.n_cols → s.reference_tree_.All (fun n =>
      ∀ i ∈ n.indices, ipQ s q i ≤ (MaxNodeIP_ { s with query_ := q } n).1) :=
    fun q hq => single_sound_tree s d _ q (hdim q hq) (hnorms q hq) hvalid
      (fun h => ⟨(hnz h).1 q hq, (hnz h).2⟩)
  obtain ⟨hF, hall⟩ := single_loop s hk hseed hrange hsound
  unfold ComputeNeighbors
  rw [hmode]
  simp only [Bool.false_eq_true, if_false]
  refine ⟨_, rfl, ?_⟩
  intro q hq
  have hE : ledgerEntries ({ singleTreeLoop s with query_ := loopExit 0 s.queries_.n_cols } : MaxIP ℝ) q
      = ledgerEntries (singleTreeLoop s) q := (SameLedger.ofSetQuery _ _).entries rfl q
  obtain ⟨hcov, _⟩ := hall q hq
  exact hE ▸ covers_topScores' (by rw [length_ledgerEntries, hF.knns_])
    (hcov.perm ((hpart.map (ipQ s q)).append_left (List.replicate s.knns_ 0)))

/-- C5 as stated fails when two references tie.  With the query `(1)`, the references
`(1)`, `(1)`, one ledger slot and a valid tree whose left leaf has a ball larger than
needed, the single-tree search reports the original index `0` with the score `1`,
and `ComputeNaive` over a single leaf reports the original index `1` with the score `1`. -/
theorem C5_counterexample :
    BallTreeValid w5.references_ 1 w5.reference_tree_ ∧
      w5.reference_tree_.indices.Perm (List.range w5.references_.n_cols) ∧
      Seeded w5 ∧ Seeded w5n ∧
      (ComputeNeighbors w5).map (fun o => (o.1, o.2.1)) = some ([0], [1]) ∧
      ((ComputeNaive w5n).1, (ComputeNaive w5n).2.1) = ([1], [1]) := by
  refine ⟨?_, ?_, ?_, ?_, ?_, ?_⟩
  · norm_num [BallTreeValid, TreeType.All, w5, TreeType.indices, TreeType.center,
      TreeType.radius, Mat.col, norm2, dot, vsub, sqrt_real, List.range'_succ]
  · norm_num [w5, TreeType.indices, Mat.n_cols, List.range'_succ, List.range_succ]
  · exact ⟨rfl, rfl⟩
  · exact ⟨rfl, rfl⟩
  · norm_num [ComputeNeighbors, singleTreeLoop, ComputeNeighborsRecursion_, MaxNodeIP_, w5,
      fillResults, ComputeBaseCase_, candidates, MaxIP.ips_at, MaxIP.qnorm_at, norm2, sqrt_real,
      MaxIP.idx_at, Mat.n_cols, Mat.col, dot, TreeType.begin_, TreeType.end_, List.range_succ,
      TreeType.center, TreeType.radius,
      List.range'_succ, List.insertionSort, List.orderedInsert, pairLE, sentinel, loopExit]
  · simp [ComputeNaive, naiveLoop, w5n, w5, fillResults, ComputeBaseCase_, candidates,
      MaxIP.ips_at, MaxIP.idx_at, Mat.n_cols, Mat.col, dot, TreeType.begin_, TreeType.end_,
      List.range_succ, List.range'_succ, List.insertionSort, List.orderedInsert, pairLE,
      sentinel, loopExit]
    rfl

/-- C5, amended.  Over the reals, that is in exact arithmetic, when the strictly
positive inner products of every query with the references are pairwise distinct, and
there are no more references than the marker, with angle pruning off or on: the
single-tree search over a valid tree whose leaves partition `[0, Nr)` and `ComputeNaive`
over a single leaf hold, slot by slot, the same scores, and the same original reference
index in the slots that hold a reference; the other slots hold the marker in both, and
the un-permuting lookup is out of range there.  Each of the two objects holds the
references in its own order, with `old_from_new_references_` a permutation that gives
the original index of every column.  Nothing is assumed of the norms. -/
theorem C5_top_k_index_sets_without_ties (s sn : MaxIP ℝ) (R : Mat ℝ) (d : Nat)
    (c : List ℝ) (r : ℝ)
    (hmode : s.dual_tree = false)
    (hk : 1 ≤ s.knns_) (hseed : Seeded s)
    (hnorms : ∀ q, q < s.queries_.n_cols → s.qnorm_at q = norm2 (s.queries_.col q))
    (hdim : ∀ q, q < s.queries_.n_cols → (s.queries_.col q).length = d)
    (hpart : s.reference_tree_.indices.Perm (List.range s.references_.n_cols))
    (hvalid : BallTreeValid s.references_ d s.reference_tree_)
    (hRs : ∀ i, i < s.references_.n_cols →
      s.references_.col i = R.col (s.old_from_new_references_.getD i 0))
    (hps : s.old_from_new_references_.Perm (List.range s.references_.n_cols))
    (hnq : sn.queries_ = s.queries_) (hnk : sn.knns_ = s.knns_) (hnseed : Seeded sn)
    (hnn : sn.references_.n_cols = s.references_.n_cols)
    (hnt : sn.reference_tree_ = .leaf c r 0 s.references_.n_cols)
    (hRn : ∀ i, i < s.references_.n_cols →
      sn.references_.col i = R.col (sn.old_from_new_references_.getD i 0))
    (hpn : sn.old_from_new_references_.Perm (List.range s.references_.n_cols))
    (hNr : s.references_.n_cols ≤ sentinel)
    (hdistinct : ∀ q, q < s.queries_.n_cols → ∀ i j, i < s.references_.n_cols →
      j < s.references_.n_cols → 0 < dot (s.queries_.col q) (R.col i) →
      dot (s.queries_.col q) (R.col i) = dot (s.queries_.col q) (R.col j) → i = j) :
    ∃ out, ComputeNeighbors s = some out ∧
      ∀ q, q < s.queries_.n_cols →
        reported out.2.2.2 q = reported (ComputeNaive sn).2.2.2 q := by
  have hrange : ∀ i ∈ s.reference_tree_.indices, i < s.references_.n_cols :=
    fun i hi => List.mem_range.mp (hpart.subset hi)
  have hsound : ∀ q, q < s.queries_.n_cols → s.reference_tree_.All (fun n =>
      ∀ i ∈ n.indices, ipQ s q i ≤ (MaxNodeIP_ { s with query_ := q } n).1) :=
    fun q hq => single_sound_tree_all s d _ q (hdim q hq) (hnorms q hq) hvalid
  obtain ⟨out, hout, hkn, hold, hall⟩ := single_run s hmode hk hseed hrange hsound
  refine ⟨out, hout, ?_⟩
  intro q hq
  obtain ⟨hcov, hok⟩ := hall q hq
  have h1 := covers_topScores' (by rw [length_ledgerEntries, hkn])
    (hcov.perm ((hpart.map (ipQ s q)).append_left (List.replicate s.knns_ 0)))
  obtain ⟨hkn', hold', hall'⟩ := naive_run sn c r (by rw [hnk]; exact hk) hnseed
    (by rw [hnt, hnn])
  obtain ⟨hcov', hok'⟩ := hall' q (by rw [hnq]; exact hq)
  have h2 := covers_topScores' (by rw [length_ledgerEntries, hkn']) hcov'
  have hscores : (ledgerEntries out.2.2.2 q).map Prod.fst
      = (ledgerEntries (ComputeNaive sn).2.2.2 q).map Prod.fst := by
    rw [h1, h2, hnk, hnn]
    refine topScores_perm ((ips_perm s R q hRs hps).trans ?_)
    have := ips_perm sn R q (by rw [hnn]; exact hRn) (by rw [hnn]; exact hpn)
    rw [hnn, hnq] at this
    exact this.symm
  have hmem : ∀ (l : List Nat), l.Perm (List.range s.references_.n_cols) → ∀ i,
      i < s.references_.n_cols → l.getD i 0 < s.references_.n_cols := by
    intro l hl i hi
    have hlen : l.length = s.references_.n_cols := by rw [hl.length_eq, List.length_range]
    rw [List.getD_eq_getElem _ _ (by rw [hlen]; exact hi)]
    exact List.mem_range.mp (hl.subset (List.getElem_mem _))
  have hin : ∀ (l : List Nat), l.Perm (List.range s.references_.n_cols) → ∀ i,
      i < s.references_.n_cols → l[i]? = some (l.getD i 0) := by
    intro l hl i hi
    have hlen : l.length = s.references_.n_cols := by rw [hl.length_eq, List.length_range]
    rw [List.getD_eq_getElem _ _ (by rw [hlen]; exact hi)]
    exact List.getElem?_eq_getElem (by rw [hlen]; exact hi)
  have hsent : ∀ (l : List Nat), l.Perm (List.range s.references_.n_cols) →
      l[sentinel]? = none := by
    intro l hl
    have hlen : l.length = s.references_.n_cols := by rw [hl.length_eq, List.length_range]
    exact List.getElem?_eq_none (by rw [hlen]; exact hNr)
  unfold reported
  rw [hold, hold']
  refine map_relabel_eq (fun i => s.old_from_new_references_[i]?)
    (fun i => sn.old_from_new_references_[i]?) _ _ hscores ?_
  intro e he e' he' hee
  show s.old_from_new_references_[e.2]? = sn.old_from_new_references_[e'.2]?
  rcases hok e he with h | ⟨hpos, hip, hlt⟩
  · rcases hok' e' he' with h' | ⟨hpos', hip', hlt'⟩
    · rw [h, h']
      show s.old_from_new_references_[sentinel]? = sn.old_from_new_references_[sentinel]?
      rw [hsent _ hps, hsent _ hpn]
    · rw [h] at hee
      rw [← hee] at hpos'
      exact absurd hpos' (lt_irrefl _)
  · rcases hok' e' he' with h' | ⟨hpos', hip', hlt'⟩
    · rw [h'] at hee
      rw [hee] at hpos
      exact absurd hpos (lt_irrefl _)
    · rw [hnn] at hlt'
      unfold ipQ at hip hip'
      rw [hRs _ hlt] at hip
      rw [hRn _ hlt', hnq] at hip'
      rw [hin _ hps _ hlt, hin _ hpn _ hlt']
      refine congrArg some (hdistinct q hq _ _ (hmem _ hps _ hlt) (hmem _ hpn _ hlt') ?_ ?_)
      · rw [← hip]; exact hpos
      · rw [← hip, ← hip']; exact hee

/-- C10 (end-to-end example).  With the references `(1,0)`, `(0,1)`, `(1,1)` in any
order, the single query `(1,1)`, one ledger slot and any valid ball tree over the
references, the single-tree search, the dual-tree search with the query tree one leaf
holding the query, and `ComputeNaive` on a single leaf all end with the ledger of the
query holding the score `2` and the index of the reference `(1,1)`. -/
theorem C10_end_to_end_example (s : MaxIP ℝ) (u : List ℝ) (cos_w sin_w : ℝ)
    (st : QueryStat ℝ) (c : List ℝ) (r : ℝ)
    (hq : s.queries_.cols = [[1, 1]])
    (hr : s.references_.cols.Perm [[1, 0], [0, 1], [1, 1]])
    (hk : s.knns_ = 1) (hseed : Seeded s) (hnorm : s.qnorm_at 0 = norm2 [1, 1])
    (hpart : s.reference_tree_.indices.Perm (List.range s.references_.n_cols))
    (hvalid : BallTreeValid s.references_ 2 s.reference_tree_)
    (hst : st.bound = 0) (hu : u.length = 2)
    (hsin : sin_w = HasSqrt.sqrt (1 - cos_w ^ 2))
    (hcos : cos_w ≤ dot [1, 1] u / (norm2 [1, 1] * norm2 u))
    (hnz : s.angle_prune = true →
      norm2 u ≠ 0 ∧ s.reference_tree_.All (fun n => norm2 n.center ≠ 0)) :
    (∃ out i, ComputeNeighbors { s with dual_tree := false } = some out ∧
        ledgerEntries out.2.2.2 0 = [(2, i)] ∧ s.references_.col i = [1, 1]) ∧
      (∃ out i, ComputeNeighbors { s with
            dual_tree := true, query_tree_ := some (.leaf u cos_w sin_w st 0 1) } = some out ∧
        ledgerEntries out.2.2.2 0 = [(2, i)] ∧ s.references_.col i = [1, 1]) ∧
      (∃ i, ledgerEntries (ComputeNaive { s with
            reference_tree_ := .leaf c r 0 s.references_.n_cols }).2.2.2 0 = [(2, i)] ∧
        s.references_.col i = [1, 1]) := by
  have hn : s.queries_.n_cols = 1 := by unfold Mat.n_cols; rw [hq]; rfl
  have hq0 : s.queries_.col 0 = [1, 1] := by unfold Mat.col; rw [hq]; rfl
  have hk1 : 1 ≤ s.knns_ := by rw [hk]
  have hqnz : norm2 ([1, 1] : List ℝ) ≠ 0 := by
    norm_num [norm2, dot, sqrt_real]
  have hnorms : ∀ q, q < s.queries_.n_cols → s.qnorm_at q = norm2 (s.queries_.col q) := by
    intro q hq'
    have : q = 0 := by omega
    subst this
    rw [hq0]; exact hnorm
  have hdim : ∀ q, q < s.queries_.n_cols → (s.queries_.col q).length = 2 := by
    intro q hq'
    have : q = 0 := by omega
    subst this
    rw [hq0]; rfl
  have hqnz' : ∀ q, q < s.queries_.n_cols → norm2 (s.queries_.col q) ≠ 0 := by
    intro q hq'
    have : q = 0 := by omega
    subst this
    rw [hq0]; exact hqnz
  refine ⟨?_, ?_, ?_⟩
  · obtain ⟨out, hout, hkn, hall⟩ := single_run_valid { s with dual_tree := false } 2 rfl hk1
      hseed hnorms hdim hpart hvalid (fun h => ⟨hqnz', (hnz h).2⟩)
    obtain ⟨hcov, hok⟩ := hall 0 (by show 0 < s.queries_.n_cols; omega)
    obtain ⟨i, h1, h2⟩ := example_entries { s with dual_tree := false } _ hq0 hr hk
      (by rw [length_ledgerEntries, hkn]) hcov hok
    exact ⟨out, i, hout, h1, h2⟩
  · obtain ⟨out, hout, hkn, hall⟩ := dual_run_valid
      { s with dual_tree := true, query_tree_ := some (.leaf u cos_w sin_w st 0 1) } 2
      (.leaf u cos_w sin_w st 0 1) rfl rfl hk1 hseed hnorms hqnz'
      (by
        show (List.range' 0 (1 - 0)).Perm (List.range s.queries_.n_cols)
        rw [hn]; exact List.Perm.refl _)
      hpart hvalid
      (by
        refine ⟨hu, hsin, ?_⟩
        intro q hq'
        have : q = 0 := by
          simp only [CTreeType.indices, List.mem_range'_1] at hq'; omega
        subst this
        exact ⟨by show (s.queries_.col 0).length = 2; rw [hq0]; rfl, by
          show cos_w ≤ dot (s.queries_.col 0) u / (norm2 (s.queries_.col 0) * norm2 u)
          rw [hq0]; exact hcos⟩)
      hst (fun h => ⟨(hnz h).1, (hnz h).2⟩)
    obtain ⟨hcov, hok⟩ := hall 0 (by show 0 < s.queries_.n_cols; omega)
    obtain ⟨i, h1, h2⟩ := example_entries
      { s with dual_tree := true, query_tree_ := some (.leaf u cos_w sin_w st 0 1) } _ hq0 hr
      hk (by rw [length_ledgerEntries, hkn]) hcov hok
    exact ⟨out, i, hout, h1, h2⟩
  · obtain ⟨hkn, -, hall⟩ := naive_run
      { s with reference_tree_ := .leaf c r 0 s.references_.n_cols } c r hk1 hseed rfl
    obtain ⟨hcov, hok⟩ := hall 0 (by show 0 < s.queries_.n_cols; omega)
    obtain ⟨i, h1, h2⟩ := example_entries
      { s with reference_tree_ := .leaf c r 0 s.references_.n_cols } _ hq0 hr
      hk (by rw [length_ledgerEntries, hkn]) hcov hok
    exact ⟨i, h1, h2⟩

/-- C8 as stated fails.  With the query `(1)` in a leaf of the query tree, the references
`(2)`, `(1)` in the two leaves of the reference tree, one ledger slot, a seeded ledger
and the bound `0`, the dual-tree search writes to the bound of the query leaf first `1`
and then `2`: the sequence of written values is not non-increasing. -/
theorem C8_counterexample :
    FreshTree (CTreeType.leaf ([1] : List ℝ) 1 0 ⟨0, []⟩ 0 1) ∧ Seeded w8 ∧
      w8.query_tree_ = some (.leaf [1] 1 0 ⟨0, []⟩ 0 1) ∧
      (ComputeNeighbors w8).map (fun o => o.2.2.2.query_tree_)
        = some (some (.leaf [1] 1 0 ⟨2, [1, 2]⟩ 0 1)) ∧
      ¬ ([1, 2] : List ℝ).Sorted (fun a b => a ≥ b) := by
  refine ⟨⟨rfl, rfl⟩, ⟨rfl, rfl⟩, rfl, ?_, ?_⟩
  · have hm : MaxNodeIP_dual w8 (.leaf [1] 1 0 ⟨0, []⟩ 0 1)
        (.node [1] 1 0 2 (.leaf [1] 1 0 1) (.leaf [1] 1 1 2))
        = (2, w8at [0] [sentinel] 0 0 1) := by
      norm_num [w8at, w8, MaxNodeIP_dual, norm2, dot, sqrt_real, TreeType.center,
        TreeType.radius]
    have e := ComputeNeighbors_dual_state w8 (.leaf [1] 1 0 ⟨0, []⟩ 0 1) rfl rfl
    have e2 : (ComputeNeighbors w8).map (fun o => o.2.2.2.query_tree_)
        = ((ComputeNeighbors w8).map (fun o => o.2.2.2)).map (fun s => s.query_tree_) := by
      rw [Option.map_map]; rfl
    rw [e2, e]
    have hr : w8.reference_tree_ = .node [1] 1 0 2 (.leaf [1] 1 0 1) (.leaf [1] 1 1 2) := rfl
    rw [hr, hm, w8_rec]
    rfl
  · unfold List.Sorted
    norm_num

/-- C7 (query-node bound invariant).  From a seeded ledger with `knns_ ≥ 1` and positive
query norms, the invariant `TravInv`, which says that the stored bound of every node is
at most `floor(q) / |q|` for every query `q` under the node, holds of every query tree
whose bounds are all `0`; it is kept by every computation of a bound with
`MaxNodeIP_(query_node, reference_node)`; every call of the dual recursion made when it
holds returns an object and a query node of which it holds, and in the returned object
the bound of every node of any other tree of which it held is still at most these
ratios; and the same is true of every iteration of the loop of
`ComputeBaseCase_(query_node, reference_node)`. -/
theorem C7_query_bound_invariant [HasSqrt α] (s0 : MaxIP α) (hk : 1 ≤ s0.knns_) (hseed : Seeded s0)
    (hnorms : ∀ q, q < s0.queries_.n_cols → 0 < s0.qnorm_at q) :
    (∀ t : CTreeType α, t.All (fun n => n.stat.bound = 0) →
        (∀ q ∈ t.indices, q < s0.queries_.n_cols) → TravInv s0 s0 t) ∧
      (∀ (s : MaxIP α) (t qn : CTreeType α) (rn : TreeType α), TravInv s0 s t →
        TravInv s0 (MaxNodeIP_dual s qn rn).2 t) ∧
      (∀ (s : MaxIP α) (qn : CTreeType α) (rn : TreeType α) (ub : α),
        TravInv s0 s qn → (∀ i ∈ rn.indices, i < s0.references_.n_cols) →
        TravInv s0 (ComputeNeighborsRecursion_dual qn rn ub s).1.2
            (ComputeNeighborsRecursion_dual qn rn ub s).1.1 ∧
          ∀ t : CTreeType α, TravInv s0 s t →
            t.All (BoundOK s0 (ComputeNeighborsRecursion_dual qn rn ub s).1.2)) ∧
      (∀ (s : MaxIP α) (rn : TreeType α) (x : Nat), WInv s0 s → x < s0.queries_.n_cols →
        (∀ i ∈ List.range' rn.begin_ (rn.end_ - rn.begin_), i < s0.references_.n_cols) →
        WInv s0 (stepState rn s x) ∧
          ∀ t : CTreeType α, TravInv s0 s t → t.All (BoundOK s0 (stepState rn s x))) := by
  refine ⟨fun t ht hq => FreshBounds.travInv ht hk hseed hnorms hq, ?_, ?_, ?_⟩
  · intro s t qn rn h
    exact ⟨h.1.moveW (MaxNodeIP_dual_frame _ _ _) (MaxNodeIP_dual_sameLedger _ _ _),
      h.2.1, h.2.2.1, h.other (fun q => le_refl _)⟩
  · intro s qn rn ub h hr
    obtain ⟨h1, hfl⟩ := weak_call s0 s qn rn ub h hr
    exact ⟨h1, fun t ht => ht.other hfl⟩
  · intro s rn x h hx hr
    obtain ⟨h1, -, -, hfl⟩ := weak_step h rn x hx hr
    exact ⟨h1, fun t ht => ht.other hfl⟩

/-- C8, amended.  The values written to the bound of a query node never decrease: from a
seeded ledger with `knns_ ≥ 1`, positive query norms, every query-node bound `0` and
empty records, the dual-tree search returns, the query tree it ends with is the initial
one up to its statistics, and at every node the sequence of the values written by
`set_bound` during the search is in non-decreasing order. -/
theorem C8_written_bounds_never_decrease [HasSqrt α] (s : MaxIP α) (query_tree : CTreeType α)
    (hmode : s.dual_tree = true) (htree : s.query_tree_ = some query_tree)
    (hk : 1 ≤ s.knns_) (hseed : Seeded s)
    (hnorms : ∀ q, q < s.queries_.n_cols → 0 < s.qnorm_at q)
    (hq : ∀ q ∈ query_tree.indices, q < s.queries_.n_cols)
    (hr : ∀ i ∈ s.reference_tree_.indices, i < s.references_.n_cols)
    (hfresh : FreshTree query_tree) :
    ∃ out t, ComputeNeighbors s = some out ∧ out.2.2.2.query_tree_ = some t ∧
      Evolves query_tree t ∧
      t.All (fun n => n.stat.written.Sorted (fun a b => a ≤ b)) := by
  have hD : WInv s (MaxNodeIP_dual s query_tree s.reference_tree_).2 :=
    WInv.moveW ⟨_, hseed.dinv hk hnorms⟩ (MaxNodeIP_dual_frame _ _ _)
      (MaxNodeIP_dual_sameLedger _ _ _)
  have hQ : QOK s (MaxNodeIP_dual s query_tree s.reference_tree_).2 query_tree :=
    (hfresh.qok hseed hk hq).monoQ (fun q => le_refl _) ((hseed.dinv hk hnorms).pos hq)
  have post := weak_rec s _ query_tree s.reference_tree_ (le_refl _)
    (MaxNodeIP_dual s query_tree s.reference_tree_).1 _ ⟨hD, hq, hr, hQ⟩
  have e := ComputeNeighbors_dual_state s query_tree hmode htree
  obtain ⟨out, hout, hst⟩ := Option.map_eq_some'.mp e
  refine ⟨out, _, hout, by rw [hst], post.ev, ?_⟩
  exact post.qok.1.impC (fun _ hn => hn.1.1)

/-- C9 (warm re-init idempotence).  For an object built by `Init` in dual-tree mode,
with every query-node bound `0` after the construction of the tree and a query matrix
that keeps its number of columns: `ComputeNeighbors`, then `WarmInit` with the same
`knns_`, then `ComputeNeighbors` return the same indices, the same scores and the same
number; and `WarmInit` restores the ledger of `Init`, sets the three counters to `0`
and leaves a query tree whose bounds are all `0`. -/
theorem C9_warm_init_idempotent [HasSqrt α] (angle_prune check_prune : Bool) (leaf_size knns : Int)
    (as_leaf_size : Int → Int) (grants : Nat → Bool)
    (MakeGenMetricTree : Mat α → Int → TreeType α × Mat α × List Nat)
    (MakeGenCosineTree : Mat α → Int → CTreeType α × Mat α × List Nat)
    (query_0 : Nat) (queries_in references_in : Mat α) (s : MaxIP α)
    (hinit : Init angle_prune check_prune true leaf_size knns as_leaf_size grants
      MakeGenMetricTree MakeGenCosineTree query_0 queries_in references_in = .ok s)
    (hzero : (MakeGenCosineTree queries_in (as_leaf_size leaf_size)).1.All
      (fun n => n.stat.bound = 0))
    (hcols : (MakeGenCosineTree queries_in (as_leaf_size leaf_size)).2.1.n_cols
      = queries_in.n_cols) :
    ∃ out1 out2, ComputeNeighbors s = some out1 ∧
      ComputeNeighbors (WarmInit out1.2.2.2 s.knns_) = some out2 ∧
      out2.1 = out1.1 ∧ out2.2.1 = out1.2.1 ∧ out2.2.2.1 = out1.2.2.1 ∧
      (WarmInit out1.2.2.2 s.knns_).max_ips_ = s.max_ips_ ∧
      (WarmInit out1.2.2.2 s.knns_).max_ip_indices_ = s.max_ip_indices_ ∧
      (WarmInit out1.2.2.2 s.knns_).number_of_prunes_ = 0 ∧
      (WarmInit out1.2.2.2 s.knns_).distance_computations_ = 0 ∧
      (WarmInit out1.2.2.2 s.knns_).split_decisions_ = 0 ∧
      ∃ t, (WarmInit out1.2.2.2 s.knns_).query_tree_ = some t ∧
        t.All (fun n => n.stat.bound = 0) := by
  unfold Init at hinit
  simp only [] at hinit
  split_ifs at hinit with h1 h2 h3
  simp only [if_true, Except.ok.injEq] at hinit
  subst hinit
  exact warm_rerun _ (MakeGenCosineTree queries_in (as_leaf_size leaf_size)).1 rfl rfl hzero
    ⟨by show List.replicate _ _ = List.replicate _ _; rw [hcols],
      by show List.replicate _ _ = List.replicate _ _; rw [hcols]⟩ rfl rfl rfl

/-- C1 at a concrete input: the query `(1)`, the references `(2)`, `(1)` in the two
leaves of a valid tree, one ledger slot. -/
theorem C1_witness :
    (w8s.dual_tree = false ∧ 1 ≤ w8s.knns_ ∧ Seeded w8s ∧
      (∀ q, q < w8s.queries_.n_cols → w8s.qnorm_at q = norm2 (w8s.queries_.col q)) ∧
      (∀ q, q < w8s.queries_.n_cols → (w8s.queries_.col q).length = 1) ∧
      w8s.reference_tree_.indices.Perm (List.range w8s.references_.n_cols) ∧
      BallTreeValid w8s.references_ 1 w8s.reference_tree_) ∧
    ∃ out, ComputeNeighbors w8s = some out ∧
      ∀ q, q < w8s.queries_.n_cols →
        (ledgerEntries out.2.2.2 q).map Prod.fst
          = topScores w8s.knns_ ((List.range w8s.references_.n_cols).map (ipQ w8s q)) :=
  ⟨⟨rfl, le_refl _, ⟨rfl, rfl⟩, w8_norms, w8_dim, w8_part, w8_valid⟩,
    C1_single_tree_top_k w8s 1 rfl (le_refl _) ⟨rfl, rfl⟩ w8_norms w8_dim w8_part w8_valid
      (w8_noangle _)⟩

/-- C3 at a concrete input: the query `(1)`, the ball of centre `(1)` and squared
radius `1`, and its point `(2)`. -/
theorem C3_witness :
    ((w8.queries_.col w8.query_).length = 1 ∧
      (TreeType.leaf ([1] : List ℝ) 1 0 1).center.length = 1 ∧ ([2] : List ℝ).length = 1 ∧
      w8.qnorm_at w8.query_ = norm2 (w8.queries_.col w8.query_) ∧
      norm2 (vsub [2] (TreeType.leaf ([1] : List ℝ) 1 0 1).center)
        ≤ HasSqrt.sqrt (TreeType.leaf ([1] : List ℝ) 1 0 1).radius) ∧
    (dot (w8.queries_.col w8.query_) [2] ≤ (MaxNodeIP_ w8 (.leaf [1] 1 0 1)).1 ∧
      (w8.angle_prune = false →
        (MaxNodeIP_ w8 (.leaf [1] 1 0 1)).1
          = norm2 (w8.queries_.col w8.query_)
            * (norm2 (TreeType.leaf ([1] : List ℝ) 1 0 1).center
              + HasSqrt.sqrt (TreeType.leaf ([1] : List ℝ) 1 0 1).radius))) := by
  have h4 : w8.qnorm_at w8.query_ = norm2 (w8.queries_.col w8.query_) :=
    w8_norms 0 (by decide)
  have h5 : norm2 (vsub [2] (TreeType.leaf ([1] : List ℝ) 1 0 1).center)
      ≤ HasSqrt.sqrt (TreeType.leaf ([1] : List ℝ) 1 0 1).radius := by
    norm_num [TreeType.center, TreeType.radius, norm2, dot, vsub, sqrt_real]
  exact ⟨⟨rfl, rfl, rfl, h4, h5⟩,
    C3_single_bound_sound w8 (.leaf [1] 1 0 1) [2] 1 rfl rfl rfl h4 h5 (w8_noangle _)⟩

/-- C4, amended, at a concrete input: the query `(1)` in the cone of centre `(1)` with
`cos_w = 1`, the ball of centre `(1)` and squared radius `1`, and its point `(2)`. -/
theorem C4_witness :
    (([1] : List ℝ).length = 1 ∧
      (CTreeType.leaf ([1] : List ℝ) 1 0 ⟨0, []⟩ 0 1).center.length = 1 ∧
      (TreeType.leaf ([1] : List ℝ) 1 0 1).center.length = 1 ∧ ([2] : List ℝ).length = 1 ∧
      (CTreeType.leaf ([1] : List ℝ) 1 0 ⟨0, []⟩ 0 1).radius
        ≤ dot [1] (CTreeType.leaf ([1] : List ℝ) 1 0 ⟨0, []⟩ 0 1).center
          / (norm2 [1] * norm2 (CTreeType.leaf ([1] : List ℝ) 1 0 ⟨0, []⟩ 0 1).center) ∧
      norm2 (vsub [2] (TreeType.leaf ([1] : List ℝ) 1 0 1).center)
        ≤ HasSqrt.sqrt (TreeType.leaf ([1] : List ℝ) 1 0 1).radius) ∧
    dot [1] [2] ≤ norm2 ([1] : List ℝ)
      * (MaxNodeIP_dual w8 (.leaf [1] 1 0 ⟨0, []⟩ 0 1) (.leaf [1] 1 0 1)).1 := by
  have h5 : (CTreeType.leaf ([1] : List ℝ) 1 0 ⟨0, []⟩ 0 1).radius
      ≤ dot [1] (CTreeType.leaf ([1] : List ℝ) 1 0 ⟨0, []⟩ 0 1).center
        / (norm2 [1] * norm2 (CTreeType.leaf ([1] : List ℝ) 1 0 ⟨0, []⟩ 0 1).center) := by
    norm_num [CTreeType.center, CTreeType.radius, norm2, dot, sqrt_real]
  have h6 : norm2 (vsub [2] (TreeType.leaf ([1] : List ℝ) 1 0 1).center)
      ≤ HasSqrt.sqrt (TreeType.leaf ([1] : List ℝ) 1 0 1).radius := by
    norm_num [TreeType.center, TreeType.radius, norm2, dot, vsub, sqrt_real]
  exact ⟨⟨rfl, rfl, rfl, rfl, h5, h6⟩,
    C4_dual_bound_times_norm w8 (.leaf [1] 1 0 ⟨0, []⟩ 0 1) (.leaf [1] 1 0 1) [1] [2] 1
      rfl rfl rfl rfl h5 h6 (w8_noangle _)⟩

/-- C5, amended, at a concrete input: the query `(1)` and the references `(2)`, `(1)`,
whose inner products with the query differ. -/
theorem C5_witness :
    (w8s.dual_tree = false ∧ 1 ≤ w8s.knns_ ∧ Seeded w8s ∧
      BallTreeValid w8s.references_ 1 w8s.reference_tree_ ∧
      w8s.old_from_new_references_.Perm (List.range w8s.references_.n_cols) ∧
      Seeded w8n ∧ w8n.reference_tree_ = .leaf [1] 1 0 w8s.references_.n_cols ∧
      w8s.references_.n_cols ≤ sentinel) ∧
    ∃ out, ComputeNeighbors w8s = some out ∧
      ∀ q, q < w8s.queries_.n_cols →
        reported out.2.2.2 q = reported (ComputeNaive w8n).2.2.2 q :=
  ⟨⟨rfl, le_refl _, ⟨rfl, rfl⟩, w8_valid, w8_oldperm, ⟨rfl, rfl⟩, rfl, by decide⟩,
    C5_top_k_index_sets_without_ties w8s w8n w8.references_ 1 [1] 1 rfl (le_refl _) ⟨rfl, rfl⟩
      w8_norms w8_dim w8_part w8_valid w8_old w8_oldperm rfl rfl ⟨rfl, rfl⟩ rfl
      rfl w8_old w8_oldperm (by decide) w8_distinct⟩

/-- C7 at a concrete input: the object with the query `(1)`, of norm `1`, one ledger
slot and a seeded ledger. -/
theorem C7_witness :
    (1 ≤ w8.knns_ ∧ Seeded w8 ∧ ∀ q, q < w8.queries_.n_cols → 0 < w8.qnorm_at q) ∧
    ((∀ t : CTreeType ℝ, t.All (fun n => n.stat.bound = 0) →
        (∀ q ∈ t.indices, q < w8.queries_.n_cols) → TravInv w8 w8 t) ∧
      (∀ (s : MaxIP ℝ) (t qn : CTreeType ℝ) (rn : TreeType ℝ), TravInv w8 s t →
        TravInv w8 (MaxNodeIP_dual s qn rn).2 t) ∧
      (∀ (s : MaxIP ℝ) (qn : CTreeType ℝ) (rn : TreeType ℝ) (ub : ℝ),
        TravInv w8 s qn → (∀ i ∈ rn.indices, i < w8.references_.n_cols) →
        TravInv w8 (ComputeNeighborsRecursion_dual qn rn ub s).1.2
            (ComputeNeighborsRecursion_dual qn rn ub s).1.1 ∧
          ∀ t : CTreeType ℝ, TravInv w8 s t →
            t.All (BoundOK w8 (ComputeNeighborsRecursion_dual qn rn ub s).1.2)) ∧
      (∀ (s : MaxIP ℝ) (rn : TreeType ℝ) (x : Nat), WInv w8 s → x < w8.queries_.n_cols →
        (∀ i ∈ List.range' rn.begin_ (rn.end_ - rn.begin_), i < w8.references_.n_cols) →
        WInv w8 (stepState rn s x) ∧
          ∀ t : CTreeType ℝ, TravInv w8 s t → t.All (BoundOK w8 (stepState rn s x)))) :=
  ⟨⟨le_refl _, ⟨rfl, rfl⟩, w8_pos⟩,
    C7_query_bound_invariant w8 (le_refl _) ⟨rfl, rfl⟩ w8_pos⟩

/-- C8, amended, at a concrete input: the query `(1)` in one leaf of the query tree,
the references `(2)`, `(1)` in the two leaves of the reference tree, one ledger slot. -/
theorem C8_witness :
    (w8.dual_tree = true ∧ w8.query_tree_ = some (.leaf [1] 1 0 ⟨0, []⟩ 0 1) ∧
      1 ≤ w8.knns_ ∧ Seeded w8 ∧ (∀ q, q < w8.queries_.n_cols → 0 < w8.qnorm_at q) ∧
      FreshTree (CTreeType.leaf ([1] : List ℝ) 1 0 ⟨0, []⟩ 0 1)) ∧
    ∃ out t, ComputeNeighbors w8 = some out ∧ out.2.2.2.query_tree_ = some t ∧
      Evolves (.leaf [1] 1 0 ⟨0, []⟩ 0 1) t ∧
      t.All (fun n => n.stat.written.Sorted (fun a b => a ≤ b)) :=
  ⟨⟨rfl, rfl, le_refl _, ⟨rfl, rfl⟩, w8_pos, ⟨rfl, rfl⟩⟩,
    C8_written_bounds_never_decrease w8 (.leaf [1] 1 0 ⟨0, []⟩ 0 1) rfl rfl (le_refl _)
      ⟨rfl, rfl⟩ w8_pos w8_qlt w8_rlt ⟨rfl, rfl⟩⟩

/-- C9 at a concrete input: `Init` with builders that return the trees and matrices of
the object with the query `(1)` and the references `(2)`, `(1)`. -/
theorem C9_witness :
    (Init false false true 1 1 (fun n => n) (fun _ => true) w9metric w9cosine 0 w8.queries_
        w8.references_ = .ok w8 ∧
      (w9cosine w8.queries_ 1).1.All (fun n => n.stat.bound = 0) ∧
      (w9cosine w8.queries_ 1).2.1.n_cols = w8.queries_.n_cols) ∧
    ∃ out1 out2, ComputeNeighbors w8 = some out1 ∧
      ComputeNeighbors (WarmInit out1.2.2.2 w8.knns_) = some out2 ∧
      out2.1 = out1.1 ∧ out2.2.1 = out1.2.1 ∧ out2.2.2.1 = out1.2.2.1 ∧
      (WarmInit out1.2.2.2 w8.knns_).max_ips_ = w8.max_ips_ ∧
      (WarmInit out1.2.2.2 w8.knns_).max_ip_indices_ = w8.max_ip_indices_ ∧
      (WarmInit out1.2.2.2 w8.knns_).number_of_prunes_ = 0 ∧
      (WarmInit out1.2.2.2 w8.knns_).distance_computations_ = 0 ∧
      (WarmInit out1.2.2.2 w8.knns_).split_decisions_ = 0 ∧
      ∃ t, (WarmInit out1.2.2.2 w8.knns_).query_tree_ = some t ∧
        t.All (fun n => n.stat.bound = 0) :=
  ⟨⟨w9_init, rfl, rfl⟩,
    C9_warm_init_idempotent false false 1 1 (fun n => n) (fun _ => true) w9metric w9cosine 0
      w8.queries_ w8.references_ w8 w9_init rfl rfl⟩

/-- C10 at a concrete input: the three references in the order `(1,0)`, `(0,1)`,
`(1,1)` under a single leaf of centre `(0,0)` and squared radius `2`, and a query leaf of
centre `(1,1)` with `cos_w = 0`. -/
theorem C10_witness :
    (w10.queries_.cols = [[1, 1]] ∧
      w10.references_.cols.Perm [[1, 0], [0, 1], [1, 1]] ∧ w10.knns_ = 1 ∧ Seeded w10 ∧
      w10.qnorm_at 0 = norm2 [1, 1] ∧
      w10.reference_tree_.indices.Perm (List.range w10.references_.n_cols) ∧
      BallTreeValid w10.references_ 2 w10.reference_tree_ ∧
      (1 : ℝ) = HasSqrt.sqrt (1 - (0 : ℝ) ^ 2) ∧
      (0 : ℝ) ≤ dot [1, 1] [1, 1] / (norm2 [1, 1] * norm2 ([1, 1] : List ℝ))) ∧
    ((∃ out i, ComputeNeighbors { w10 with dual_tree := false } = some out ∧
        ledgerEntries out.2.2.2 0 = [(2, i)] ∧ w10.references_.col i = [1, 1]) ∧
      (∃ out i, ComputeNeighbors { w10 with
            dual_tree := true, query_tree_ := some (.leaf [1, 1] 0 1 ⟨0, []⟩ 0 1) } = some out ∧
        ledgerEntries out.2.2.2 0 = [(2, i)] ∧ w10.references_.col i = [1, 1]) ∧
      (∃ i, ledgerEntries (ComputeNaive { w10 with
            reference_tree_ := .leaf [0, 0] 2 0 w10.references_.n_cols }).2.2.2 0 = [(2, i)] ∧
        w10.references_.col i = [1, 1])) := by
  have hpart : w10.reference_tree_.indices.Perm (List.range w10.references_.n_cols) := by
    norm_num [w10, TreeType.indices, Mat.n_cols, List.range'_succ, List.range_succ]
  have hsin : (1 : ℝ) = HasSqrt.sqrt (1 - (0 : ℝ) ^ 2) := by norm_num [sqrt_real]
  have hcos : (0 : ℝ) ≤ dot [1, 1] [1, 1] / (norm2 [1, 1] * norm2 ([1, 1] : List ℝ)) :=
    div_nonneg (by norm_num [dot]) (mul_nonneg (Real.sqrt_nonneg _) (Real.sqrt_nonneg _))
  exact ⟨⟨rfl, List.Perm.refl _, rfl, ⟨rfl, rfl⟩, rfl, hpart, w10_valid, hsin, hcos⟩,
    C10_end_to_end_example w10 [1, 1] 0 1 ⟨0, []⟩ [0, 0] 2 rfl (List.Perm.refl _) rfl
      ⟨rfl, rfl⟩ rfl hpart w10_valid rfl rfl hsin hcos
      (fun h => absurd h (by simp [w10]))⟩

/-- C11, amended.  `Init` fails an assertion whenever the value of `leaf_size_` is not
positive, as it is for a leaf size of `0` and, when the member is signed, for a negative
one, and whenever the two matrices differ in their numbers of rows; it completes only
when both tests pass.  No assertion tests `knns`: when both tests pass, `Init` completes
for every `knns` for which the library constructs the ledger vectors of
`(queries_.n_cols * knns_) mod 2 ^ 64` elements, with `knns_` the conversion of `knns`
to `size_t`.  `InitNaive` tests the numbers of rows only. -/
theorem C11_init_assertions [HasSqrt α] (angle_prune check_prune dual_tree : Bool)
    (leaf_size knns : Int) (as_leaf_size : Int → Int) (grants : Nat → Bool)
    (MakeGenMetricTree : Mat α → Int → TreeType α × Mat α × List Nat)
    (MakeGenCosineTree : Mat α → Int → CTreeType α × Mat α × List Nat)
    (query_0 : Nat) (queries_in references_in : Mat α) :
    (¬ (as_leaf_size leaf_size > 0) →
      Init angle_prune check_prune dual_tree leaf_size knns as_leaf_size grants
        MakeGenMetricTree MakeGenCosineTree query_0 queries_in references_in
          = .error .assertion) ∧
    (queries_in.n_rows ≠ references_in.n_rows →
      Init angle_prune check_prune dual_tree leaf_size knns as_leaf_size grants
        MakeGenMetricTree MakeGenCosineTree query_0 queries_in references_in
          = .error .assertion) ∧
    (∀ s, Init angle_prune check_prune dual_tree leaf_size knns as_leaf_size grants
        MakeGenMetricTree MakeGenCosineTree query_0 queries_in references_in = .ok s →
      as_leaf_size leaf_size > 0 ∧ queries_in.n_rows = references_in.n_rows ∧
        grants (ledgerSize queries_in.n_cols (toSizeT knns)) = true ∧
        s.knns_ = toSizeT knns ∧
        s.max_ips_.length = ledgerSize queries_in.n_cols (toSizeT knns)) ∧
    (as_leaf_size leaf_size > 0 → queries_in.n_rows = references_in.n_rows →
      grants (ledgerSize queries_in.n_cols (toSizeT knns)) = true →
      ∃ s, Init angle_prune check_prune dual_tree leaf_size knns as_leaf_size grants
        MakeGenMetricTree MakeGenCosineTree query_0 queries_in references_in = .ok s) ∧
    (queries_in.n_rows ≠ references_in.n_rows →
      InitNaive angle_prune check_prune dual_tree knns grants MakeGenMetricTree
        query_0 queries_in references_in = .error .assertion) ∧
    (∀ s, InitNaive angle_prune check_prune dual_tree knns grants MakeGenMetricTree
        query_0 queries_in references_in = .ok s →
      queries_in.n_rows = references_in.n_rows ∧
        grants (ledgerSize queries_in.n_cols (toSizeT knns)) = true) ∧
    (queries_in.n_rows = references_in.n_rows →
      grants (ledgerSize queries_in.n_cols (toSizeT knns)) = true →
      ∃ s, InitNaive angle_prune check_prune dual_tree knns grants MakeGenMetricTree
        query_0 queries_in references_in = .ok s) := by
  refine ⟨?_, ?_, ?_, ?_, ?_, ?_, ?_⟩
  · intro h
    unfold Init
    simp only [h, not_false_eq_true, if_true]
  · intro h
    unfold Init
    by_cases h1 : as_leaf_size leaf_size > 0
    · simp only [h1, not_true_eq_false, if_false, h, not_false_eq_true, if_true]
    · simp only [h1, not_false_eq_true, if_true]
  · intro s hs
    unfold Init at hs
    by_cases h1 : as_leaf_size leaf_size > 0
    · by_cases h2 : queries_in.n_rows = references_in.n_rows
      · by_cases h3 : grants (ledgerSize queries_in.n_cols (toSizeT knns)) = true
        · simp only [h1, h2, h3, not_true_eq_false, if_false, Except.ok.injEq] at hs
          subst hs
          exact ⟨h1, h2, h3, rfl, List.length_replicate _ _⟩
        · simp [h1, h2, h3] at hs
      · simp [h1, h2] at hs
    · simp [h1] at hs
  · intro h1 h2 h3
    unfold Init
    simp only [h1, h2, h3, not_true_eq_false, if_false]
    exact ⟨_, rfl⟩
  · intro h
    unfold InitNaive
    simp only [h, not_false_eq_true, if_true]
  · intro s hs
    unfold InitNaive at hs
    by_cases h2 : queries_in.n_rows = references_in.n_rows
    · by_cases h3 : grants (ledgerSize queries_in.n_cols (toSizeT knns)) = true
      · exact ⟨h2, h3⟩
      · simp [h2, h3] at hs
    · simp [h2] at hs
  · intro h2 h3
    unfold InitNaive
    simp only [h2, h3, not_true_eq_false, if_false]
    exact ⟨_, rfl⟩

/-- C11 as stated fails.  With the leaf size `1`, matrices of one row each and
`knns = 0`, which is not positive, `Init` completes, with `knns_ = 0` and an empty
ledger. -/
theorem C11_counterexample :
    ¬ ((0 : Int) > 0) ∧
      ∃ s, Init false false false 1 0 (fun n => n) (fun _ => true) w9metric w9cosine 0
          w8.queries_ w8.references_ = .ok s ∧
        s.knns_ = 0 ∧ s.max_ips_ = [] ∧ s.max_ip_indices_ = [] := by
  refine ⟨by decide, ?_⟩
  simp [Init, w8, toSizeT, ledgerSize]

/-- C12, amended.  For a reference node whose centre has norm `0` and whose radius
`sqrt radius` is positive, with angle pruning on or off, `MaxNodeIP_(reference_node)`
returns `|q| * (|c| + R)`, `MaxNodeIP_(query_node, reference_node)` returns `|c| + R`,
and neither evaluates a division. -/
theorem C12_zero_centroid_positive_radius [HasSqrt α] (s : MaxIP α) (query_node : CTreeType α)
    (reference_node : TreeType α)
    (hc : norm2 reference_node.center = 0)
    (hR : 0 < HasSqrt.sqrt reference_node.radius) :
    (MaxNodeIP_ s reference_node).1
        = s.qnorm_at s.query_ * (norm2 reference_node.center + HasSqrt.sqrt reference_node.radius) ∧
      (MaxNodeIP_dual s query_node reference_node).1
        = norm2 reference_node.center + HasSqrt.sqrt reference_node.radius ∧
      MaxNodeIP_divisors s reference_node = [] ∧
      MaxNodeIP_dual_divisors s query_node reference_node = [] := by
  have hg : ¬ HasSqrt.sqrt reference_node.radius ≤ norm2 reference_node.center := by
    rw [hc]; exact not_le.mpr hR
  refine ⟨?_, ?_, ?_, ?_⟩
  · simp only [MaxNodeIP_, if_neg hg, ite_self, mul_one]
    rfl
  · simp only [MaxNodeIP_dual, if_neg hg, ite_self, mul_one]
  · simp only [MaxNodeIP_divisors, if_neg hg, ite_self]
  · simp only [MaxNodeIP_dual_divisors, if_neg hg, ite_self]

/-- C12 as stated fails for the radius `0`.  With angle pruning on, for the reference node
of centre `(0)` and squared radius `0`, the test `rad <= c_norm` passes and both
functions divide by `0`. -/
theorem C12_counterexample :
    w12.angle_prune = true ∧ norm2 ([0] : List ℝ) = 0 ∧ (0 : ℝ) ≤ HasSqrt.sqrt (0 : ℝ) ∧
      (0 : ℝ) ∈ MaxNodeIP_divisors w12 (.leaf [0] 0 0 1) ∧
      (0 : ℝ) ∈ MaxNodeIP_dual_divisors w12 (.leaf [1] 1 0 ⟨0, []⟩ 0 1) (.leaf [0] 0 0 1) := by
  refine ⟨rfl, ?_, ?_, ?_, ?_⟩
  · simp [norm2, dot, sqrt_real]
  · simp [sqrt_real]
  · simp [MaxNodeIP_divisors, w12, w4, norm2, dot, sqrt_real, TreeType.center, TreeType.radius]
  · simp [MaxNodeIP_dual_divisors, w12, w4, norm2, dot, sqrt_real, TreeType.center,
      TreeType.radius, CTreeType.center]

/-- C12 at a concrete input: the centre `(0)` and the squared radius `1`. -/
theorem C12_witness :
    norm2 (TreeType.leaf ([0] : List ℝ) 1 0 1).center = 0 ∧
      0 < HasSqrt.sqrt (TreeType.leaf ([0] : List ℝ) 1 0 1).radius ∧
      ((MaxNodeIP_ w12 (.leaf [0] 1 0 1)).1
          = w12.qnorm_at w12.query_ * (norm2 (TreeType.leaf ([0] : List ℝ) 1 0 1).center
              + HasSqrt.sqrt (TreeType.leaf ([0] : List ℝ) 1 0 1).radius) ∧
        (MaxNodeIP_dual w12 (.leaf [1] 1 0 ⟨0, []⟩ 0 1) (.leaf [0] 1 0 1)).1
          = norm2 (TreeType.leaf ([0] : List ℝ) 1 0 1).center
              + HasSqrt.sqrt (TreeType.leaf ([0] : List ℝ) 1 0 1).radius ∧
        MaxNodeIP_divisors w12 (.leaf [0] 1 0 1) = [] ∧
        MaxNodeIP_dual_divisors w12 (.leaf [1] 1 0 ⟨0, []⟩ 0 1) (.leaf [0] 1 0 1) = []) := by
  have h1 : norm2 (TreeType.leaf ([0] : List ℝ) 1 0 1).center = 0 := by
    simp [norm2, dot, sqrt_real, TreeType.center]
  have h2 : 0 < HasSqrt.sqrt (TreeType.leaf ([0] : List ℝ) 1 0 1).radius := by
    simp [sqrt_real, TreeType.radius]
  exact ⟨h1, h2, C12_zero_centroid_positive_radius w12 (.leaf [1] 1 0 ⟨0, []⟩ 0 1)
    (.leaf [0] 1 0 1) h1 h2⟩

/-- C15 (the dual bound is sound for the norm-normalised inner product).  Over the
reals, for every query `q` in the cone of the query node (`cos_w` at most the cosine of
the angle between `q` and the centre `u`) and every point `r` with
`|r - c| ≤ sqrt radius`: `<q, r> ≤ |q| * MaxNodeIP_(query_node, reference_node)`, where the
value is `|c| + sqrt radius` with angle pruning off; with angle pruning on, the norms of
`q`, `u` and `c` are taken non-zero and `sin_w = sqrt (1 - cos_w ^ 2)`. -/
theorem C15_dual_bound_normalised (s : MaxIP ℝ) (query_node : CTreeType ℝ)
    (reference_node : TreeType ℝ) (q r : List ℝ) (d : Nat)
    (hq : q.length = d) (hu : query_node.center.length = d)
    (hc : reference_node.center.length = d) (hr : r.length = d)
    (hcone : query_node.radius ≤ dot q query_node.center / (norm2 q * norm2 query_node.center))
    (hball : norm2 (vsub r reference_node.center) ≤ HasSqrt.sqrt reference_node.radius)
    (hnz : s.angle_prune = true →
      norm2 q ≠ 0 ∧ norm2 query_node.center ≠ 0 ∧ norm2 reference_node.center ≠ 0 ∧
        query_node.radius_conjugate = HasSqrt.sqrt (1 - query_node.radius ^ 2)) :
    dot q r ≤ norm2 q * (MaxNodeIP_dual s query_node reference_node).1 ∧
      (s.angle_prune = false →
        (MaxNodeIP_dual s query_node reference_node).1
          = norm2 reference_node.center + HasSqrt.sqrt reference_node.radius) := by
  constructor
  · rw [MaxNodeIP_dual_fst]
    exact dual_sound d q _ _ r _ _ _ _ hq hu hc hr hball
      (fun h => ⟨(hnz h).1, (hnz h).2.1, (hnz h).2.2.1, hcone, (hnz h).2.2.2⟩)
  · intro h
    rw [MaxNodeIP_dual_fst, h]
    simp

/-- C15 at a concrete input with angle pruning on: the query `(1)` in the cone of centre
`(1)` with `cos_w = 1` and `sin_w = 0`, the ball of centre `(1)` and squared radius `1`,
and its point `(2)`. -/
theorem C15_witness :
    (([1] : List ℝ).length = 1 ∧
      (CTreeType.leaf ([1] : List ℝ) 1 0 ⟨0, []⟩ 0 1).center.length = 1 ∧
      (TreeType.leaf ([1] : List ℝ) 1 0 1).center.length = 1 ∧ ([2] : List ℝ).length = 1 ∧
      (CTreeType.leaf ([1] : List ℝ) 1 0 ⟨0, []⟩ 0 1).radius
        ≤ dot [1] (CTreeType.leaf ([1] : List ℝ) 1 0 ⟨0, []⟩ 0 1).center
          / (norm2 [1] * norm2 (CTreeType.leaf ([1] : List ℝ) 1 0 ⟨0, []⟩ 0 1).center) ∧
      norm2 (vsub [2] (TreeType.leaf ([1] : List ℝ) 1 0 1).center)
        ≤ HasSqrt.sqrt (TreeType.leaf ([1] : List ℝ) 1 0 1).radius ∧
      w12.angle_prune = true ∧
      norm2 ([1] : List ℝ) ≠ 0 ∧
      norm2 (CTreeType.leaf ([1] : List ℝ) 1 0 ⟨0, []⟩ 0 1).center ≠ 0 ∧
      norm2 (TreeType.leaf ([1] : List ℝ) 1 0 1).center ≠ 0 ∧
      (CTreeType.leaf ([1] : List ℝ) 1 0 ⟨0, []⟩ 0 1).radius_conjugate
        = HasSqrt.sqrt (1 - (CTreeType.leaf ([1] : List ℝ) 1 0 ⟨0, []⟩ 0 1).radius ^ 2)) ∧
    (dot [1] [2] ≤ norm2 ([1] : List ℝ)
        * (MaxNodeIP_dual w12 (.leaf [1] 1 0 ⟨0, []⟩ 0 1) (.leaf [1] 1 0 1)).1 ∧
      (w12.angle_prune = false →
        (MaxNodeIP_dual w12 (.leaf [1] 1 0 ⟨0, []⟩ 0 1) (.leaf [1] 1 0 1)).1
          = norm2 (TreeType.leaf ([1] : List ℝ) 1 0 1).center
            + HasSqrt.sqrt (TreeType.leaf ([1] : List ℝ) 1 0 1).radius)) := by
  have h5 : (CTreeType.leaf ([1] : List ℝ) 1 0 ⟨0, []⟩ 0 1).radius
      ≤ dot [1] (CTreeType.leaf ([1] : List ℝ) 1 0 ⟨0, []⟩ 0 1).center
        / (norm2 [1] * norm2 (CTreeType.leaf ([1] : List ℝ) 1 0 ⟨0, []⟩ 0 1).center) := by
    norm_num [CTreeType.center, CTreeType.radius, norm2, dot, sqrt_real]
  have h6 : norm2 (vsub [2] (TreeType.leaf ([1] : List ℝ) 1 0 1).center)
      ≤ HasSqrt.sqrt (TreeType.leaf ([1] : List ℝ) 1 0 1).radius := by
    norm_num [TreeType.center, TreeType.radius, norm2, dot, vsub, sqrt_real]
  have h7 : norm2 ([1] : List ℝ) ≠ 0 := by
    norm_num [norm2, dot, sqrt_real]
  have h8 : norm2 (CTreeType.leaf ([1] : List ℝ) 1 0 ⟨0, []⟩ 0 1).center ≠ 0 := by
    norm_num [CTreeType.center, norm2, dot, sqrt_real]
  have h9 : norm2 (TreeType.leaf ([1] : List ℝ) 1 0 1).center ≠ 0 := by
    norm_num [TreeType.center, norm2, dot, sqrt_real]
  have h10 : (CTreeType.leaf ([1] : List ℝ) 1 0 ⟨0, []⟩ 0 1).radius_conjugate
      = HasSqrt.sqrt (1 - (CTreeType.leaf ([1] : List ℝ) 1 0 ⟨0, []⟩ 0 1).radius ^ 2) := by
    norm_num [CTreeType.radius_conjugate, CTreeType.radius, sqrt_real]
  exact ⟨⟨rfl, rfl, rfl, rfl, h5, h6, rfl, h7, h8, h9, h10⟩,
    C15_dual_bound_normalised w12 (.leaf [1] 1 0 ⟨0, []⟩ 0 1) (.leaf [1] 1 0 1) [1] [2] 1
      rfl rfl rfl rfl h5 h6 (fun _ => ⟨h7, h8, h9, h10⟩)⟩

/-- C16 (the base-case scorer merges the leaf into the ledger).  For the current query,
when its `knns_` ledger slots exist and hold scores in non-increasing order, and for
every leaf `[begin, end)`: after `ComputeBaseCase_(leaf)` the `knns_` scores of the query
are the `knns_` largest, in non-increasing order, of the previous `knns_` scores together
with the inner products `<q, r_i>` for all `i` in `[begin, end)`; and the ledger entries
of every other query are unchanged. -/
theorem C16_base_case_merges_leaf (s : MaxIP α) (reference_node : TreeType α)
    (h1 : (s.query_ + 1) * s.knns_ ≤ s.max_ips_.length)
    (h2 : (s.query_ + 1) * s.knns_ ≤ s.max_ip_indices_.length)
    (hsorted : ((ledgerEntries s s.query_).map Prod.fst).Sorted (fun a b => a ≥ b)) :
    (ledgerEntries (ComputeBaseCase_ s reference_node) s.query_).map Prod.fst
        = (((ledgerEntries s s.query_).map Prod.fst
              ++ (List.range' reference_node.begin_
                  (reference_node.end_ - reference_node.begin_)).map
                (fun i => dot (s.queries_.col s.query_) (s.references_.col i))).insertionSort
            (fun a b => a ≥ b)).take s.knns_ ∧
      ∀ q, q ≠ s.query_ →
        ledgerEntries (ComputeBaseCase_ s reference_node) q = ledgerEntries s q := by
  refine ⟨?_, fun q hq => ComputeBaseCase_entries_other s reference_node q hq⟩
  have hlen : (ledgerEntries (ComputeBaseCase_ s reference_node) s.query_).length = s.knns_ :=
    length_ledgerEntries _ _
  rcases Nat.eq_zero_or_pos s.knns_ with h0 | hpos
  · rw [h0, List.take_zero]
    rw [h0] at hlen
    rw [List.length_eq_zero.mp hlen]
    rfl
  · have hc := basecase_covers s reference_node _ hpos h1 h2 (covers_self hsorted)
    have hu := hc.unique
    rw [hlen] at hu
    exact hu

/-- C16 at a concrete input: the object `w6`, with the query `(1)` and the ledger `[0]`,
and the leaf that holds the references `(2)`, `(3)`. -/
theorem C16_witness :
    ((w6.query_ + 1) * w6.knns_ ≤ w6.max_ips_.length ∧
      (w6.query_ + 1) * w6.knns_ ≤ w6.max_ip_indices_.length ∧
      ((ledgerEntries w6 w6.query_).map Prod.fst).Sorted (fun a b => a ≥ b)) ∧
    ((ledgerEntries (ComputeBaseCase_ w6 (.leaf [2] 1 0 2)) w6.query_).map Prod.fst
        = (((ledgerEntries w6 w6.query_).map Prod.fst
              ++ (List.range' (TreeType.leaf ([2] : List ℚ) 1 0 2).begin_
                  ((TreeType.leaf ([2] : List ℚ) 1 0 2).end_
                    - (TreeType.leaf ([2] : List ℚ) 1 0 2).begin_)).map
                (fun i => dot (w6.queries_.col w6.query_) (w6.references_.col i))).insertionSort
            (fun a b => a ≥ b)).take w6.knns_ ∧
      ∀ q, q ≠ w6.query_ →
        ledgerEntries (ComputeBaseCase_ w6 (.leaf [2] 1 0 2)) q = ledgerEntries w6 q) := by
  have h3 : ((ledgerEntries w6 w6.query_).map Prod.fst).Sorted (fun a b => a ≥ b) := by
    simp [ledgerEntries, w6, List.range_succ]
  exact ⟨⟨by decide, by decide, h3⟩,
    C16_base_case_merges_leaf w6 (.leaf [2] 1 0 2) (by decide) (by decide) h3⟩

/-- C20 (ledger entries are consistent).  From the seeding of `Init` and `WarmInit` with
`knns_ ≥ 1`, after any sequence of base-case calls, of the single-tree, naive or dual-tree
kind, on existing queries and on leaves within the references: every ledger entry
`(score, index)` of a query `q` is the untouched seed `(0, sentinel)` or a candidate with
a positive score, equal to `<q, r_index>`, and `index < Nr`; and, the number of
references being at most the marker `(size_t) -1`, every slot passes the assertion of
line 565: its index is not the marker or its score is `0`. -/
theorem C20_ledger_entries_consistent [HasSqrt α] (s0 s : MaxIP α) (hk : 1 ≤ s0.knns_)
    (hseed : Seeded s0) (hrun : BaseCaseRun s0 s) :
    (∀ q, q < s0.queries_.n_cols → ∀ e ∈ ledgerEntries s q,
        e = (0, sentinel) ∨
          (0 < e.1 ∧ e.1 = dot (s0.queries_.col q) (s0.references_.col e.2) ∧
            e.2 < s0.references_.n_cols)) ∧
      (s0.references_.n_cols ≤ sentinel →
        ∀ i, i < s0.queries_.n_cols * s0.knns_ → s.idx_at i ≠ sentinel ∨ s.ips_at i = 0) := by
  have h := hrun.linv hk hseed
  refine ⟨fun q hq e he => h.ok q hq e he, ?_⟩
  intro hNr i hi
  have hkk : s.knns_ = s0.knns_ := h.frame.knns_
  have hq : i / s.knns_ < s0.queries_.n_cols := by
    rw [hkk]
    exact Nat.div_lt_of_lt_mul (by rw [Nat.mul_comm]; exact hi)
  rcases h.ok _ hq _ (slot_mem_ledgerEntries s i (by rw [hkk]; exact hk)) with h0 | h1
  · right
    exact congrArg Prod.fst h0
  · left
    exact Nat.ne_of_lt (lt_of_lt_of_le h1.2.2 hNr)

/-- C20 at a concrete input: the object `w8` after one call of `ComputeBaseCase_` for the
query `0` on the leaf that holds the reference `0`. -/
theorem C20_witness :
    (1 ≤ w8.knns_ ∧ Seeded w8 ∧
      BaseCaseRun w8 (ComputeBaseCase_ { w8 with query_ := 0 } (.leaf [1] 1 0 1))) ∧
    ((∀ q, q < w8.queries_.n_cols →
        ∀ e ∈ ledgerEntries (ComputeBaseCase_ { w8 with query_ := 0 } (.leaf [1] 1 0 1)) q,
          e = (0, sentinel) ∨
            (0 < e.1 ∧ e.1 = dot (w8.queries_.col q) (w8.references_.col e.2) ∧
              e.2 < w8.references_.n_cols)) ∧
      (w8.references_.n_cols ≤ sentinel →
        ∀ i, i < w8.queries_.n_cols * w8.knns_ →
          (ComputeBaseCase_ { w8 with query_ := 0 } (.leaf [1] 1 0 1)).idx_at i ≠ sentinel ∨
            (ComputeBaseCase_ { w8 with query_ := 0 } (.leaf [1] 1 0 1)).ips_at i = 0)) := by
  have hrun : BaseCaseRun w8 (ComputeBaseCase_ { w8 with query_ := 0 } (.leaf [1] 1 0 1)) :=
    BaseCaseRun.single w8 0 (.leaf [1] 1 0 1) BaseCaseRun.start (by decide)
      (by intro i hi; simp [TreeType.begin_, TreeType.end_] at hi; subst hi; decide)
  exact ⟨⟨le_refl _, ⟨rfl, rfl⟩, hrun⟩,
    C20_ledger_entries_consistent w8 _ (le_refl _) ⟨rfl, rfl⟩ hrun⟩

/-- C19 at the failing input.  With the query `(1)`, the reference `(-1)` and
`knns_ = 1`, the ledger seeded: no inner product is positive, the only slot keeps the
marker `(size_t) -1`, and both `ComputeNeighbors` and `ComputeNaive` pass the marker to
`old_from_new_references_`, which has one element. -/
theorem C19_sentinel_reaches_lookup :
    1 ≤ w19.references_.n_cols ∧ 1 ≤ w19.queries_.n_cols ∧ 1 ≤ w19.knns_ ∧ Seeded w19 ∧
      (ComputeNeighbors w19).map (fun o => fillLookups o.2.2.2) = some [sentinel] ∧
      fillLookups (ComputeNaive w19).2.2.2 = [sentinel] ∧
      ¬ sentinel < w19.old_from_new_references_.length ∧
      ¬ sentinel < w19.references_.n_cols := by
  refine ⟨by decide, by decide, by decide, ⟨rfl, rfl⟩, ?_, ?_, by decide, by decide⟩
  · norm_num [ComputeNeighbors, singleTreeLoop, ComputeNeighborsRecursion_, MaxNodeIP_, w19,
      fillLookups, ComputeBaseCase_, candidates, MaxIP.ips_at, MaxIP.qnorm_at, norm2, sqrt_real,
      MaxIP.idx_at, Mat.n_cols, Mat.col, dot, TreeType.begin_, TreeType.end_, List.range_succ,
      TreeType.center, TreeType.radius,
      List.range'_succ, List.insertionSort, List.orderedInsert, pairLE, loopExit]
  · norm_num [ComputeNaive, naiveLoop, w19, fillLookups, ComputeBaseCase_, candidates,
      MaxIP.ips_at, MaxIP.idx_at, Mat.n_cols, Mat.col, dot, TreeType.begin_, TreeType.end_,
      List.range_succ, List.range'_succ, List.insertionSort, List.orderedInsert, pairLE,
      loopExit]

/-- C17 (the neither-leaf case pairs each recursion with its own bound).  When neither
node is a leaf and the pair is not pruned, the dual recursion makes exactly four
recursive calls `c1`, `c2`, `c3`, `c4`, one for each pair of a query child and a
reference child: the two calls on the left query child precede the two on the right
one; for each query child the reference child `f` whose bound is strictly larger is
visited first, the right reference child when the two bounds are equal, and then the
other reference child `g`; the bound passed to every call is the value of
`MaxNodeIP_` for the query child and the reference child of that same call; then the
bound of the query node is set to the minimum of the bounds of its two children. -/
theorem C17_neither_leaf_own_bounds [HasSqrt α] (qc : List α) (qr qrc : α) (qst : QueryStat α)
    (qb qe : Nat) (ql qrt : CTreeType α) (c : List α) (r : α) (b e : Nat)
    (left right : TreeType α) (ub : α) (s : MaxIP α) (h : ¬ ub < qst.bound) :
    ∃ (f1 g1 f2 g2 : TreeType α) (s2 s4 : MaxIP α) (c1 c2 c3 c4 : CTreeType α × MaxIP α),
      ((f1, g1) = if (MaxNodeIP_dual s ql left).1 > (MaxNodeIP_dual s ql right).1
        then (left, right) else (right, left)) ∧
      ((f2, g2) = if (MaxNodeIP_dual s qrt left).1 > (MaxNodeIP_dual s qrt right).1
        then (left, right) else (right, left)) ∧
      s2 = (MaxNodeIP_dual (MaxNodeIP_dual s ql left).2 ql right).2 ∧
      c1 = (ComputeNeighborsRecursion_dual ql f1 (MaxNodeIP_dual s2 ql f1).1 s2).1 ∧
      c2 = (ComputeNeighborsRecursion_dual c1.1 g1 (MaxNodeIP_dual c1.2 c1.1 g1).1 c1.2).1 ∧
      s4 = (MaxNodeIP_dual (MaxNodeIP_dual c2.2 qrt left).2 qrt right).2 ∧
      c3 = (ComputeNeighborsRecursion_dual qrt f2 (MaxNodeIP_dual s4 qrt f2).1 s4).1 ∧
      c4 = (ComputeNeighborsRecursion_dual c3.1 g2 (MaxNodeIP_dual c3.2 c3.1 g2).1 c3.2).1 ∧
      (ComputeNeighborsRecursion_dual (.node qc qr qrc qst qb qe ql qrt)
          (.node c r b e left right) ub s).1
        = ((CTreeType.node qc qr qrc qst qb qe c2.1 c4.1).set_bound
            (min c2.1.stat.bound c4.1.stat.bound), c4.2) ∧
      (MaxNodeIP_dual s2 ql f1).1 = (MaxNodeIP_dual s ql f1).1 ∧
      (MaxNodeIP_dual c1.2 c1.1 g1).1 = (MaxNodeIP_dual s ql g1).1 ∧
      (MaxNodeIP_dual s4 qrt f2).1 = (MaxNodeIP_dual s qrt f2).1 ∧
      (MaxNodeIP_dual c3.2 c3.1 g2).1 = (MaxNodeIP_dual s qrt g2).1 := by
  obtain ⟨f1, g1, hfg1⟩ : ∃ f1 g1 : TreeType α,
      (f1, g1) = if (MaxNodeIP_dual s ql left).1 > (MaxNodeIP_dual s ql right).1
        then (left, right) else (right, left) := ⟨_, _, rfl⟩
  obtain ⟨f2, g2, hfg2⟩ : ∃ f2 g2 : TreeType α,
      (f2, g2) = if (MaxNodeIP_dual s qrt left).1 > (MaxNodeIP_dual s qrt right).1
        then (left, right) else (right, left) := ⟨_, _, rfl⟩
  have ha2 : (MaxNodeIP_dual (MaxNodeIP_dual s ql left).2 ql right).2.angle_prune
      = s.angle_prune := rfl
  have hL := pairCalls_own_bounds ql left right f1 g1 s
    (MaxNodeIP_dual (MaxNodeIP_dual s ql left).2 ql right).2 ha2 hfg1
  have hbr : (MaxNodeIP_dual (MaxNodeIP_dual s ql left).2 ql right).1
      = (MaxNodeIP_dual s ql right).1 := MaxNodeIP_dual_value rfl rfl right
  -- the objects and nodes between the calls
  obtain ⟨hF1, hE1⟩ := rec_dual_frame ql f1
    (MaxNodeIP_dual (MaxNodeIP_dual (MaxNodeIP_dual s ql left).2 ql right).2 ql f1).1
    (MaxNodeIP_dual (MaxNodeIP_dual s ql left).2 ql right).2
  generalize hc1 : (ComputeNeighborsRecursion_dual ql f1
    (MaxNodeIP_dual (MaxNodeIP_dual (MaxNodeIP_dual s ql left).2 ql right).2 ql f1).1
    (MaxNodeIP_dual (MaxNodeIP_dual s ql left).2 ql right).2).1 = c1 at hL hF1 hE1
  obtain ⟨hF2, hE2⟩ := rec_dual_frame c1.1 g1 (MaxNodeIP_dual c1.2 c1.1 g1).1 c1.2
  generalize hc2 : (ComputeNeighborsRecursion_dual c1.1 g1
    (MaxNodeIP_dual c1.2 c1.1 g1).1 c1.2).1 = c2 at hL hF2 hE2
  have ha4 : (MaxNodeIP_dual (MaxNodeIP_dual c2.2 qrt left).2 qrt right).2.angle_prune
      = s.angle_prune := (hF2.angle_prune.trans hF1.angle_prune).trans ha2
  have hR := pairCalls_own_bounds qrt left right f2 g2 s
    (MaxNodeIP_dual (MaxNodeIP_dual c2.2 qrt left).2 qrt right).2 ha4 hfg2
  obtain ⟨hF3, hE3⟩ := rec_dual_frame qrt f2
    (MaxNodeIP_dual (MaxNodeIP_dual (MaxNodeIP_dual c2.2 qrt left).2 qrt right).2 qrt f2).1
    (MaxNodeIP_dual (MaxNodeIP_dual c2.2 qrt left).2 qrt right).2
  generalize hc3 : (ComputeNeighborsRecursion_dual qrt f2
    (MaxNodeIP_dual (MaxNodeIP_dual (MaxNodeIP_dual c2.2 qrt left).2 qrt right).2 qrt f2).1
    (MaxNodeIP_dual (MaxNodeIP_dual c2.2 qrt left).2 qrt right).2).1 = c3 at hR hF3 hE3
  generalize hc4 : (ComputeNeighborsRecursion_dual c3.1 g2
    (MaxNodeIP_dual c3.2 c3.1 g2).1 c3.2).1 = c4 at hR
  have hbl' : (MaxNodeIP_dual c2.2 qrt left).1 = (MaxNodeIP_dual s qrt left).1 :=
    MaxNodeIP_dual_value (hF2.angle_prune.trans hF1.angle_prune) rfl left
  have hbr' : (MaxNodeIP_dual (MaxNodeIP_dual c2.2 qrt left).2 qrt right).1
      = (MaxNodeIP_dual s qrt right).1 :=
    MaxNodeIP_dual_value (hF2.angle_prune.trans hF1.angle_prune) rfl right
  refine ⟨f1, g1, f2, g2, _, _, c1, c2, c3, c4, hfg1, hfg2, rfl, hc1.symm, hc2.symm, rfl,
    hc3.symm, hc4.symm, ?_, MaxNodeIP_dual_value rfl rfl f1,
    MaxNodeIP_dual_value hF1.angle_prune hE1 g1,
    MaxNodeIP_dual_value (hF2.angle_prune.trans hF1.angle_prune) rfl f2,
    MaxNodeIP_dual_value
      (hF3.angle_prune.trans (hF2.angle_prune.trans hF1.angle_prune)) hE3 g2⟩
  rw [rec_dual_node_node qc qr qrc qst qb qe ql qrt c r b e left right ub s h, hbr, hL, hbl',
    hbr', hR]

/-- C17 at a concrete input: the object `w17`, the root of its query tree and the root of
its reference tree, with the bound `0`, which is not below the stored bound `0`. -/
theorem C17_witness :
    ¬ ((0 : ℝ) < (⟨0, []⟩ : QueryStat ℝ).bound) ∧
    ∃ (f1 g1 f2 g2 : TreeType ℝ) (s2 s4 : MaxIP ℝ) (c1 c2 c3 c4 : CTreeType ℝ × MaxIP ℝ),
      ((f1, g1) = if (MaxNodeIP_dual w17 (.leaf [1] 1 0 ⟨0, []⟩ 0 1) (.leaf [1] 1 0 1)).1
            > (MaxNodeIP_dual w17 (.leaf [1] 1 0 ⟨0, []⟩ 0 1) (.leaf [1] 1 1 2)).1
        then (.leaf [1] 1 0 1, .leaf [1] 1 1 2) else (.leaf [1] 1 1 2, .leaf [1] 1 0 1)) ∧
      ((f2, g2) = if (MaxNodeIP_dual w17 (.leaf [1] 1 0 ⟨0, []⟩ 1 2) (.leaf [1] 1 0 1)).1
            > (MaxNodeIP_dual w17 (.leaf [1] 1 0 ⟨0, []⟩ 1 2) (.leaf [1] 1 1 2)).1
        then (.leaf [1] 1 0 1, .leaf [1] 1 1 2) else (.leaf [1] 1 1 2, .leaf [1] 1 0 1)) ∧
      s2 = (MaxNodeIP_dual (MaxNodeIP_dual w17 (.leaf [1] 1 0 ⟨0, []⟩ 0 1)
              (.leaf [1] 1 0 1)).2 (.leaf [1] 1 0 ⟨0, []⟩ 0 1) (.leaf [1] 1 1 2)).2 ∧
      c1 = (ComputeNeighborsRecursion_dual (.leaf [1] 1 0 ⟨0, []⟩ 0 1) f1
              (MaxNodeIP_dual s2 (.leaf [1] 1 0 ⟨0, []⟩ 0 1) f1).1 s2).1 ∧
      c2 = (ComputeNeighborsRecursion_dual c1.1 g1 (MaxNodeIP_dual c1.2 c1.1 g1).1 c1.2).1 ∧
      s4 = (MaxNodeIP_dual (MaxNodeIP_dual c2.2 (.leaf [1] 1 0 ⟨0, []⟩ 1 2)
              (.leaf [1] 1 0 1)).2 (.leaf [1] 1 0 ⟨0, []⟩ 1 2) (.leaf [1] 1 1 2)).2 ∧
      c3 = (ComputeNeighborsRecursion_dual (.leaf [1] 1 0 ⟨0, []⟩ 1 2) f2
              (MaxNodeIP_dual s4 (.leaf [1] 1 0 ⟨0, []⟩ 1 2) f2).1 s4).1 ∧
      c4 = (ComputeNeighborsRecursion_dual c3.1 g2 (MaxNodeIP_dual c3.2 c3.1 g2).1 c3.2).1 ∧
      (ComputeNeighborsRecursion_dual
          (.node [1] 1 0 ⟨0, []⟩ 0 2 (.leaf [1] 1 0 ⟨0, []⟩ 0 1) (.leaf [1] 1 0 ⟨0, []⟩ 1 2))
          (.node [1] 1 0 2 (.leaf [1] 1 0 1) (.leaf [1] 1 1 2)) 0 w17).1
        = ((CTreeType.node [1] 1 0 ⟨0, []⟩ 0 2 c2.1 c4.1).set_bound
            (min c2.1.stat.bound c4.1.stat.bound), c4.2) ∧
      (MaxNodeIP_dual s2 (.leaf [1] 1 0 ⟨0, []⟩ 0 1) f1).1
        = (MaxNodeIP_dual w17 (.leaf [1] 1 0 ⟨0, []⟩ 0 1) f1).1 ∧
      (MaxNodeIP_dual c1.2 c1.1 g1).1
        = (MaxNodeIP_dual w17 (.leaf [1] 1 0 ⟨0, []⟩ 0 1) g1).1 ∧
      (MaxNodeIP_dual s4 (.leaf [1] 1 0 ⟨0, []⟩ 1 2) f2).1
        = (MaxNodeIP_dual w17 (.leaf [1] 1 0 ⟨0, []⟩ 1 2) f2).1 ∧
      (MaxNodeIP_dual c3.2 c3.1 g2).1
        = (MaxNodeIP_dual w17 (.leaf [1] 1 0 ⟨0, []⟩ 1 2) g2).1 := by
  have h : ¬ ((0 : ℝ) < (⟨0, []⟩ : QueryStat ℝ).bound) := lt_irrefl _
  exact ⟨h, C17_neither_leaf_own_bounds [1] 1 0 ⟨0, []⟩ 0 2 (.leaf [1] 1 0 ⟨0, []⟩ 0 1)
    (.leaf [1] 1 0 ⟨0, []⟩ 1 2) [1] 1 0 2 (.leaf [1] 1 0 1) (.leaf [1] 1 1 2) 0 w17 h⟩

/-- C21 (a search never reports the same reference twice for one query).  From a seeded
ledger, over a reference tree whose leaves partition `[0, Nr)` and, in dual-tree mode, a
query tree whose leaves partition `[0, Nq)`: `ComputeNeighbors` returns, in single-tree
and in dual-tree mode, and in the `knns_` ledger slots of every query two different
slots hold different reference indices, unless they hold the marker `(size_t) -1`. -/
theorem C21_no_reference_twice [HasSqrt α] (s : MaxIP α) (hseed : Seeded s)
    (hrpart : s.reference_tree_.indices.Perm (List.range s.references_.n_cols)) :
    (s.dual_tree = false →
      ∃ out, ComputeNeighbors s = some out ∧
        ∀ q a b, q < s.queries_.n_cols → a < s.knns_ → b < s.knns_ → a ≠ b →
          out.2.2.2.idx_at (q * s.knns_ + a) ≠ sentinel →
          out.2.2.2.idx_at (q * s.knns_ + a) ≠ out.2.2.2.idx_at (q * s.knns_ + b)) ∧
    (∀ query_tree : CTreeType α, s.dual_tree = true → s.query_tree_ = some query_tree →
      query_tree.indices.Perm (List.range s.queries_.n_cols) →
      ∃ out, ComputeNeighbors s = some out ∧
        ∀ q a b, q < s.queries_.n_cols → a < s.knns_ → b < s.knns_ → a ≠ b →
          out.2.2.2.idx_at (q * s.knns_ + a) ≠ sentinel →
          out.2.2.2.idx_at (q * s.knns_ + a) ≠ out.2.2.2.idx_at (q * s.knns_ + b)) := by
  have hnd : s.reference_tree_.indices.Nodup := hrpart.nodup_iff.mpr (List.nodup_range _)
  constructor
  · intro hmode
    obtain ⟨out, hout, hk, hall⟩ := distinct_run_single s hmode hseed hnd
    refine ⟨out, hout, ?_⟩
    intro q a b hq ha hb hne
    have := heldIndices_distinct out.2.2.2 q (hall q hq) a b (by rw [hk]; exact ha)
      (by rw [hk]; exact hb) hne
    rw [hk] at this
    exact this
  · intro qt hmode htree hqpart
    obtain ⟨out, hout, hk, hall⟩ := distinct_run_dual s qt hmode htree hseed
      (hqpart.nodup_iff.mpr (List.nodup_range _))
      (fun q hq => List.mem_range.mp (hqpart.subset hq)) hnd
    refine ⟨out, hout, ?_⟩
    intro q a b hq ha hb hne
    have := heldIndices_distinct out.2.2.2 q (hall q hq) a b (by rw [hk]; exact ha)
      (by rw [hk]; exact hb) hne
    rw [hk] at this
    exact this

/-- C21 at a concrete input: the object `w21`, with the query `(1)`, the references `(2)`,
`(1)` in the two leaves of the reference tree and two ledger slots. -/
theorem C21_witness :
    (Seeded w21 ∧ w21.reference_tree_.indices.Perm (List.range w21.references_.n_cols)) ∧
    ((w21.dual_tree = false →
      ∃ out, ComputeNeighbors w21 = some out ∧
        ∀ q a b, q < w21.queries_.n_cols → a < w21.knns_ → b < w21.knns_ → a ≠ b →
          out.2.2.2.idx_at (q * w21.knns_ + a) ≠ sentinel →
          out.2.2.2.idx_at (q * w21.knns_ + a) ≠ out.2.2.2.idx_at (q * w21.knns_ + b)) ∧
    (∀ query_tree : CTreeType ℝ, w21.dual_tree = true → w21.query_tree_ = some query_tree →
      query_tree.indices.Perm (List.range w21.queries_.n_cols) →
      ∃ out, ComputeNeighbors w21 = some out ∧
        ∀ q a b, q < w21.queries_.n_cols → a < w21.knns_ → b < w21.knns_ → a ≠ b →
          out.2.2.2.idx_at (q * w21.knns_ + a) ≠ sentinel →
          out.2.2.2.idx_at (q * w21.knns_ + a) ≠ out.2.2.2.idx_at (q * w21.knns_ + b))) :=
  ⟨⟨⟨rfl, rfl⟩, w8_part⟩, C21_no_reference_twice w21 ⟨rfl, rfl⟩ w8_part⟩

end Claims

end MaxIPSearch
